import Mathlib

/-!
# The experimental execution engine of dynet (`dynet/exec2.cc`)

A shallow embedding of the depth scheduler, the memory planner, the bulk
dispatcher and the forward executor, followed by theorems about them.

Conventions of the embedding.

* `std::vector<T>` is a `List T`; `v[i]` is `vget v i`, `v[i] = x` is `vset v i x`
  and `v.resize(n)` is `vresize v n`.  An access outside the vector is undefined
  behaviour in the source; here a read outside yields the default value and a
  write outside leaves the vector unchanged.
* `int` scheduling ranks are `Int`; `VariableIndex` and node ids are `Nat`.
* `unsigned` element counters wrap modulo `2 ^ 32`.
* `for` loops over an index range are `forUp` / `forDown`; range-`for` loops over
  a container are `List.foldl`.
-/

namespace dynet

set_option maxRecDepth 100000

/-! ## Vectors and loops -/

/-- Read `v[i]` of a `std::vector`. -/
def vget {α : Type} [Inhabited α] (v : List α) (i : Nat) : α := v.getD i default

/-- Assign `v[i] = x` of a `std::vector`. -/
def vset {α : Type} (v : List α) (i : Nat) (x : α) : List α := v.set i x

/-- The call `v.resize(n)`: truncate, or pad with value-initialised elements. -/
def vresize {α : Type} [Inhabited α] (v : List α) (n : Nat) : List α :=
  v.take n ++ List.replicate (n - v.length) default

/-- The call `v[i].push_back(x)` on a vector of vectors. -/
def vpush (v : List (List Nat)) (i : Nat) (x : Nat) : List (List Nat) :=
  vset v i (vget v i ++ [x])

/-- The loop `for (j = start; j < start + count; ++j) s = f j s`. -/
def forUp {σ : Type} (f : Nat → σ → σ) : Nat → Nat → σ → σ
  | _, 0, s => s
  | j, n + 1, s => forUp f (j + 1) n (f j s)

/-- The loop `for (j = lo + count - 1; j >= lo; --j) s = f j s`. -/
def forDown {σ : Type} (f : Nat → σ → σ) (lo : Nat) : Nat → σ → σ
  | 0, s => s
  | n + 1, s => forDown f lo n (f (lo + n) s)

/-! ## The computation graph, as far as the scheduler reads it -/

/-- The argument lists of the nodes of a `ComputationGraph`, by node index
(`cg.nodes[j]->args`). -/
abbrev ArgTable := List (List Nat)

/-- Every argument index is strictly smaller than the index of its node. -/
def IsDAG (args : ArgTable) : Prop :=
  ∀ j a, a ∈ vget args j → a < j

/-! ## Depth scheduler (`ExperimentalExecutionEngine::compute_depths`) -/

/-- The scheduling arrays of the engine. -/
structure Sched where
  depths : List Int
  depths2 : List Int
  parents : List (List Nat)
  by_depth : List (List Nat)
deriving DecidableEq, Repr

/-- The scheduling arrays of a freshly constructed engine. -/
def Sched.fresh : Sched := ⟨[], [], [], []⟩

/-- State of the first loop of `compute_depths`. -/
structure DepthAcc where
  depths : List Int
  parents : List (List Nat)
  max_depth : Int
deriving DecidableEq, Repr

/-- Body of `for (VariableIndex arg : node->args)` in the first loop. -/
def depthArgStep (j : Nat) (s : DepthAcc) (arg : Nat) : DepthAcc :=
  let parents := vpush s.parents arg j
  if vget s.depths arg + 1 > vget s.depths j then
    let depths := vset s.depths j (vget s.depths arg + 1)
    if vget depths j > s.max_depth then
      ⟨depths, parents, vget depths j⟩
    else ⟨depths, parents, s.max_depth⟩
  else ⟨s.depths, parents, s.max_depth⟩

/-- Body of the first loop, for node `j`. -/
def depthNodeStep (args : ArgTable) (j : Nat) (s : DepthAcc) : DepthAcc :=
  (vget args j).foldl (depthArgStep j) s

/-- The call `std::fill(depths.begin()+a, depths.begin()+upto+1, 0)`. -/
def fillZero (depths : List Int) (a upto : Nat) : List Int :=
  forUp (fun j d => vset d j 0) a (upto + 1 - a) depths

/-- Inner loop of the second loop: the least rank among the recorded parents,
starting from `max_depth + 1`. -/
def minOfParents (depths2 : List Int) (max_depth : Int) (ps : List Nat) : Int :=
  ps.foldl (fun m p => if vget depths2 p < m then vget depths2 p else m) (max_depth + 1)

/-- Body of the second loop, for node `j`. -/
def latestStep (parents : List (List Nat)) (max_depth : Int) (j : Nat)
    (depths2 : List Int) : List Int :=
  vset depths2 j (minOfParents depths2 max_depth (vget parents j) - 1)

/-- Body of the third loop: `by_depth[depths2[j]].push_back(j)`. -/
def bucketStep (depths2 : List Int) (j : Nat) (by_depth : List (List Nat)) :
    List (List Nat) :=
  if 0 ≤ vget depths2 j then vpush by_depth (vget depths2 j).toNat j else by_depth

/-- The first loop of `compute_depths`, with the resizes in front of it. -/
def computeEarliest (args : ArgTable) (already_evaluated : Nat) (s : Sched)
    (upto : Nat) : DepthAcc :=
  let depths := fillZero (vresize s.depths (upto + 1)) already_evaluated upto
  let parents := vresize s.parents (upto + 1)
  forUp (depthNodeStep args) already_evaluated (upto + 1 - already_evaluated)
    ⟨depths, parents, 0⟩

/-- The second loop of `compute_depths`, with the resize in front of it. -/
def computeLatest (already_evaluated : Nat) (s : Sched) (upto : Nat)
    (a : DepthAcc) : List Int :=
  let depths2 := vset (vresize s.depths2 (upto + 1)) upto (a.max_depth + 1)
  forDown (latestStep a.parents a.max_depth) already_evaluated
    (upto + 1 - already_evaluated) depths2

/-- The method `compute_depths(upto)`, run with `num_nodes_evaluated = already_evaluated`. -/
def compute_depths (args : ArgTable) (already_evaluated : Nat) (s : Sched)
    (upto : Nat) : Sched :=
  let a := computeEarliest args already_evaluated s upto
  let depths2 := computeLatest already_evaluated s upto a
  let by_depth := vresize s.by_depth (a.max_depth + 2).toNat
  let by_depth := forUp (bucketStep depths2) already_evaluated
    (depths2.length - already_evaluated) by_depth
  ⟨a.depths, depths2, a.parents, by_depth⟩

/-- Invariant of the first loop of `compute_depths` on a fresh engine, when the
nodes below `k` have been processed (`n` is the size of the arrays). -/
def EarliestInv (args : ArgTable) (n k : Nat) (s : DepthAcc) : Prop :=
  s.depths.length = n ∧ s.parents.length = n ∧
  (∀ a p, p ∈ vget s.parents a ↔ (p < k ∧ a ∈ vget args p)) ∧
  (∀ j, j < k → ∀ a ∈ vget args j, vget s.depths a + 1 ≤ vget s.depths j) ∧
  (∀ j, 0 ≤ vget s.depths j ∧ vget s.depths j ≤ s.max_depth) ∧
  (∀ j, k ≤ j → vget s.depths j = 0)

/-- Invariant of the second loop of `compute_depths` on a fresh engine, when the
nodes from `k` on have been processed. -/
def LatestInv (a : DepthAcc) (n k : Nat) (d2 : List Int) : Prop :=
  d2.length = n ∧
  ∀ j, k ≤ j → j < n →
    (vget a.depths j ≤ vget d2 j ∧ vget d2 j ≤ a.max_depth ∧
      ∀ p ∈ vget a.parents j, vget d2 j < vget d2 p)

/-- Invariant of the third loop of `compute_depths` on a fresh engine, when the
nodes below `k` have been put into their buckets. -/
def BucketInv (d2 : List Int) (m k : Nat) (bd : List (List Nat)) : Prop :=
  bd.length = m ∧ ∀ d j, j ∈ vget bd d ↔ (j < k ∧ vget d2 j = (d : Int))

/-! ## Shapes, tensors, pools and memory -/

/-- Modelled from the spec: the output shape/batch descriptor `Dim` (declared in
`dynet/dim.h`, which is not part of the sources): the dimensions `d[0..nd)` and
the batch count `bd`. -/
structure Dim where
  d : List Nat
  bd : Nat
deriving DecidableEq, Repr

instance : Inhabited Dim := ⟨⟨[], 1⟩⟩

/-- The shape `Dim({x, y, ...})`, with batch count one. -/
def Dim.ofList (d : List Nat) : Dim := ⟨d, 1⟩

/-- The field `nd`. -/
def Dim.nd (x : Dim) : Nat := x.d.length

/-- The method `batch_size()`: number of elements of one batch item (`unsigned`). -/
def Dim.batch_size (x : Dim) : Nat := x.d.foldl (fun p k => (p * k) % 2 ^ 32) 1

/-- The method `size()`: total number of elements (`unsigned`). -/
def Dim.size (x : Dim) : Nat := (x.batch_size * x.bd) % 2 ^ 32

/-- The method `rows()`. -/
def Dim.rows (x : Dim) : Nat := vget x.d 0

/-- The method `cols()`. -/
def Dim.cols (x : Dim) : Nat := if x.d.length > 1 then vget x.d 1 else 1

/-- A `Tensor`: shape, address of the first element (`0` is the null pointer) and
the index of its device in `dynet::devices`. -/
structure Tensor where
  d : Dim
  v : Nat
  device : Nat
deriving DecidableEq, Repr

instance : Inhabited Tensor := ⟨⟨default, 0, 0⟩⟩

/-- Modelled from the spec: the stack-discipline pool `AlignedMemoryPool`
(declared in `dynet/aligned-mem-pool.h`, which is not part of the sources): a
block of `capacity` bytes starting at address `mem`, of which the first `used`
are taken; requests are rounded up to a multiple of `align`. -/
structure Pool where
  mem : Nat
  capacity : Nat
  used : Nat
  align : Nat
deriving DecidableEq, Repr

instance : Inhabited Pool := ⟨⟨0, 0, 0, 0⟩⟩

/-- Modelled from the spec: the rounding of a request to the pool's alignment. -/
def Pool.round_up_align (p : Pool) (n : Nat) : Nat :=
  if p.align < 2 then n else ((n + p.align - 1) / p.align) * p.align

/-- Modelled from the spec: stack-allocate(size)→address of the pool; `none` is
the null pointer returned on exhaustion. -/
def Pool.allocate (p : Pool) (n : Nat) : Option Nat × Pool :=
  if p.round_up_align n + p.used > p.capacity then (none, p)
  else (some (p.mem + p.used), { p with used := p.used + p.round_up_align n })

/-- Modelled from the spec: the full reset of the pool. -/
def Pool.free (p : Pool) : Pool := { p with used := 0 }

/-- A device, with its value pool (`DeviceMempool::FXS`) and its gradient pool
(`DeviceMempool::DEDFS`). -/
structure Device where
  fxs : Pool
  dedfs : Pool
deriving DecidableEq, Repr

instance : Inhabited Device := ⟨⟨default, default⟩⟩

/-- The constant `sizeof(float)`. -/
def sizeof_float : Nat := 4

/-- The `n` floats stored from address `v` on. -/
def loadFloats {α : Type} (mem : Nat → α) (v n : Nat) : List α :=
  (List.range n).map (fun k => mem (v + sizeof_float * k))

/-- Memory after the floats `xs` have been stored from address `v` on. -/
def storeFloats {α : Type} [Inhabited α] (mem : Nat → α) (v : Nat) (xs : List α) :
    Nat → α :=
  fun a =>
    if v ≤ a ∧ (a - v) % sizeof_float = 0 ∧ (a - v) / sizeof_float < xs.length then
      vget xs ((a - v) / sizeof_float)
    else mem a

/-- The call `memcpy(dest, src, n * sizeof(float))`. -/
def memcpy {α : Type} [Inhabited α] (mem : Nat → α) (dest src n : Nat) : Nat → α :=
  storeFloats mem dest (loadFloats mem src n)

/-! ## Graph nodes and kernels -/

/-- Modelled from the spec: the type tags `NodeType` (declared in `dynet/nodes.h`,
which is not part of the sources); `Other` stands for every tag that `exec2.cc`
does not name. -/
inductive NodeType where
  | Tanh | Rectify | Sigmoid | Erf | Sqrt | Exp | LogGamma | Log | Negate
  | MatrixMultiply
  | Other (tag : Nat)
deriving DecidableEq, Repr

/-- Modelled from the spec: the position of a tag in the enumeration, which is
the order of the keys of a `map<NodeType, _>`. -/
def NodeType.code : NodeType → Nat
  | .Tanh => 0 | .Rectify => 1 | .Sigmoid => 2 | .Erf => 3 | .Sqrt => 4
  | .Exp => 5 | .LogGamma => 6 | .Log => 7 | .Negate => 8
  | .MatrixMultiply => 9
  | .Other tag => 10 + tag

/-- The set `ewise_unary_nodes`. -/
def ewise_unary_nodes : List NodeType :=
  [.Tanh, .Rectify, .Sigmoid, .Erf, .Sqrt, .Exp, .LogGamma, .Log, .Negate]

/-- A graph node as the engine sees it.  The forward kernel is a function from
the shapes and contents of the argument tensors and the shape of the output
tensor to the contents written into the output tensor.  The backward kernel
`backward(xs, fx, dEdf, i, dEdxi)` is a function from the shapes and contents of
the argument tensors, of the output tensor and of the gradient of the output, the
argument position `i` and the shape of the gradient of that argument to the
floats it adds, element by element, to the gradient of that argument.  The
kernels are defined outside `exec2.cc`; that a backward kernel adds to the
gradient of its argument is taken from the specification of the engine. -/
structure Node (α : Type) where
  args : List Nat
  type_id : NodeType
  dim : Dim
  device : Nat
  aux_storage_size : Nat
  forward : List (Dim × List α) → Dim → List α
  backward : List (Dim × List α) → Dim × List α → Dim × List α → Nat → Dim → List α

instance {α : Type} : Inhabited (Node α) :=
  ⟨⟨[], .Other 0, default, 0, 0, fun _ _ => [], fun _ _ _ _ _ => []⟩⟩

/-- The computation graph. -/
structure ComputationGraph (α : Type) where
  nodes : List (Node α)
  parameter_nodes : List Nat

/-- The argument lists of the nodes of the graph. -/
def ComputationGraph.argTable {α : Type} (cg : ComputationGraph α) : ArgTable :=
  cg.nodes.map (fun n => n.args)

/-- One invocation of a forward kernel: the node whose kernel runs, the argument
tensors and the output tensor handed to it. -/
structure KernelCall where
  node : Nat
  xs : List Tensor
  fx : Tensor
deriving DecidableEq, Repr

/-- One call of `allocate` on a value pool: device, bytes asked for, result. -/
structure AllocCall where
  device : Nat
  bytes : Nat
  result : Option Nat
deriving DecidableEq, Repr

/-- Everything outside the engine object that a forward pass reads or writes: the
devices with their pools, the memory, the `aux_mem` pointers stored into the
nodes, and the record of kernel invocations and pool allocations. -/
structure World (α : Type) where
  devices : List Device
  mem : Nat → α
  aux_mem : List (Nat × Option Nat)
  calls : List KernelCall
  allocs : List AllocCall

/-- The call `dev->pools[FXS]->allocate(n)` on device `dev`. -/
def World.allocate {α : Type} (w : World α) (dev n : Nat) : Option Nat × World α :=
  let dv := vget w.devices dev
  let r := dv.fxs.allocate n
  (r.1, { w with devices := vset w.devices dev { dv with fxs := r.2 },
                 allocs := w.allocs ++ [⟨dev, n, r.1⟩] })

/-- The read `dev->pools[FXS]->used`. -/
def World.used {α : Type} (w : World α) (dev : Nat) : Nat := (vget w.devices dev).fxs.used

/-- The assignment `dev->pools[FXS]->used = u`. -/
def World.setUsed {α : Type} (w : World α) (dev u : Nat) : World α :=
  let dv := vget w.devices dev
  let pool : Pool := { dv.fxs with used := u }
  { w with devices := vset w.devices dev { dv with fxs := pool } }

/-- The loop `for (Device* dev : dynet::devices) dev->pools[FXS]->free()`. -/
def World.freeAll {α : Type} (w : World α) : World α :=
  { w with devices := w.devices.map (fun dv => { dv with fxs := dv.fxs.free }) }

/-- The call `cg.nodes[nid]->forward(xs, fx)`: the kernel reads its arguments from
memory and writes `fx.d.size()` floats from `fx.v` on. -/
def callForward {α : Type} [Inhabited α] (cg : ComputationGraph α) (w : World α)
    (nid : Nat) (xs : List Tensor) (fx : Tensor) : World α :=
  let inputs := xs.map (fun x => (x.d, loadFloats w.mem x.v x.d.size))
  let out := ((vget cg.nodes nid).forward inputs fx.d).take fx.d.size
  { w with mem := storeFloats w.mem fx.v out, calls := w.calls ++ [⟨nid, xs, fx⟩] }

/-! ## Bulk dispatcher -/

/-- The function `do_node`: gather the argument tensors by index and run the
forward kernel of the node into its own output tensor. -/
def do_node {α : Type} [Inhabited α] (cg : ComputationGraph α) (nid : Nat)
    (nfxs : List Tensor) (w : World α) : World α :=
  let node := vget cg.nodes nid
  let xs := node.args.map (fun arg => vget nfxs arg)
  callForward cg w nid xs (vget nfxs nid)

/-- The `unsigned` sum of the element counts of a list of tensors. -/
def total_dsize (ts : List Tensor) : Nat :=
  ts.foldl (fun s t => (s + t.d.size) % 2 ^ 32) 0

/-- Body of the copy loop of `combine_tensors`: memory and `dest`. -/
def combineStep {α : Type} [Inhabited α] (acc : (Nat → α) × Nat) (t : Tensor) :
    (Nat → α) × Nat :=
  (memcpy acc.1 acc.2 t.v t.d.size, acc.2 + sizeof_float * t.d.size)

/-- The function `combine_tensors` (host path): allocate one block on the device
of the first tensor and copy the tensors into it one after the other.  The result
of `allocate` is not checked; a null pointer is address `0`. -/
def combine_tensors {α : Type} [Inhabited α] (ts : List Tensor) (tout : Tensor)
    (w : World α) : Tensor × World α :=
  let r := w.allocate (vget ts 0).device (total_dsize ts * sizeof_float)
  let dest := r.1.getD 0
  let copied := ts.foldl combineStep (r.2.mem, dest)
  ({ tout with d := Dim.ofList [total_dsize ts], v := dest }, { r.2 with mem := copied.1 })

/-- The function `eval_ewise_unaries_in_bulk`. -/
def eval_ewise_unaries_in_bulk {α : Type} [Inhabited α] (nids : List Nat)
    (cg : ComputationGraph α) (nfxs : List Tensor) (w : World α) :
    List Tensor × World α :=
  if nids.length > 10 then
    let args := nids.map (fun nid => vget nfxs (vget (vget cg.nodes nid).args 0))
    let dev := (vget args 0).device
    let allocator_state := w.used dev
    let r := combine_tensors args default w
    let n0 := vget nids 0
    let fxs := vget nfxs n0
    let nfxs1 := vset nfxs n0 { fxs with d := r.1.d }
    let w2 := callForward cg r.2 n0 [r.1] { fxs with d := r.1.d }
    let nfxs2 := vset nfxs1 n0 { fxs with d := fxs.d }
    (nfxs2, w2.setUsed dev allocator_state)
  else (nfxs, nids.foldl (fun w nid => do_node cg nid nfxs w) w)

/-- Insertion into a `std::map` whose values are vectors: `m[key].push_back(x)`.
The entries are kept in increasing order of `code key`. -/
def mapPush {κ : Type} (code : κ → Nat) :
    List (κ × List Nat) → κ → Nat → List (κ × List Nat)
  | [], key, x => [(key, [x])]
  | (k, xs) :: rest, key, x =>
    if code key = code k then (k, xs ++ [x]) :: rest
    else if code key < code k then (key, [x]) :: (k, xs) :: rest
    else (k, xs) :: mapPush code rest key x

/-- The classification of member `i` of a matrix-multiply group into
`by_type[0]` (left operand of rank 2, right operand of rank 1) or `by_type[1]`. -/
def matmulClass (a1 a2 : Tensor) : Nat :=
  if a1.d.nd = 1 ∧ a2.d.nd = 1 then 1
  else if a1.d.nd = 2 ∧ a2.d.nd = 1 then 0
  else if a1.d.nd = 1 ∧ a2.d.nd = 2 then 1
  else 1

/-- Body of the scatter loop of `eval_matrix_multiply` (host path) for the group
of left operand `key`: memory and `offset`. -/
def scatterStep {α : Type} [Inhabited α] (cg : ComputationGraph α) (nfxs : List Tensor)
    (key result_v : Nat) (acc : (Nat → α) × Nat) (nid : Nat) : (Nat → α) × Nat :=
  if vget (vget cg.nodes nid).args 0 = key then
    (memcpy acc.1 (vget nfxs nid).v (result_v + sizeof_float * acc.2) (vget nfxs nid).d.size,
      (acc.2 + (vget nfxs nid).d.size) % 2 ^ 32)
  else acc

/-- Body of the loop over `by_first_arg` in `eval_matrix_multiply`: the fused
product for the members whose left operand is the tensor of node `g.1`; `g.2`
lists the nodes of their right operands. -/
def matmulGroup {α : Type} [Inhabited α] (nids : List Nat) (cg : ComputationGraph α)
    (nfxs : List Tensor) (w : World α) (g : Nat × List Nat) : World α :=
  let W := vget nfxs g.1
  let vs := g.2.map (fun a => vget nfxs a)
  let allocator_state := w.used W.device
  let r := combine_tensors vs default w
  let V : Tensor := { r.1 with d := Dim.ofList [(vget vs 0).d.rows, vs.length] }
  let result_d := Dim.ofList [W.d.rows, vs.length]
  let a := r.2.allocate W.device (result_d.size * sizeof_float)
  let result : Tensor := ⟨result_d, a.1.getD 0, W.device⟩
  let w2 := callForward cg a.2 (vget nids 0) [W, V] result
  let sc := nids.foldl (scatterStep cg nfxs g.1 result.v) (w2.mem, 0)
  World.setUsed { w2 with mem := sc.1 } W.device allocator_state

/-- The function `eval_matrix_multiply`.  A `Tensor*` into `nfxs` is the index of
the node it belongs to. -/
def eval_matrix_multiply {α : Type} [Inhabited α] (nids : List Nat)
    (cg : ComputationGraph α) (nfxs : List Tensor) (w : World α) : World α :=
  let a1s := nids.map (fun nid => vget (vget cg.nodes nid).args 0)
  let a2s := nids.map (fun nid => vget (vget cg.nodes nid).args 1)
  let cls := fun i => matmulClass (vget nfxs (vget a1s i)) (vget nfxs (vget a2s i))
  let by_type0 := (List.range nids.length).filter (fun i => cls i = 0)
  let by_type1 := (List.range nids.length).filter (fun i => cls i = 1)
  let by_first_arg := by_type0.foldl
    (fun m i => mapPush (fun k => k) m (vget a1s i) (vget a2s i)) []
  let w1 := by_first_arg.foldl (matmulGroup nids cg nfxs) w
  by_type1.foldl (fun w i => do_node cg (vget nids i) nfxs w) w1

/-! ## Memory planner and forward executor -/

/-- The engine object `ExperimentalExecutionEngine`. -/
structure Engine extends Sched where
  num_nodes_evaluated : Nat
  nfxs : List Tensor
  ndEdfs : List Tensor
deriving DecidableEq, Repr

/-- A freshly constructed engine. -/
def Engine.fresh : Engine := ⟨Sched.fresh, 0, [], []⟩

/-- The two exceptions thrown by the memory planner. -/
inductive Fault where
  | aux_out_of_memory
  | out_of_memory
deriving DecidableEq, Repr

/-- The engine together with the world it runs in. -/
structure Machine (α : Type) where
  eng : Engine
  w : World α

/-- State of a forward pass: the value cache, the world, and the exception
thrown so far, if any (after which nothing more is executed). -/
structure Pass (α : Type) where
  nfxs : List Tensor
  w : World α
  fault : Option Fault

/-- Body of the first loop over a type-group in the planner: shape and device of
the output, the running `total_dsize`, and the auxiliary storage. -/
def planNode {α : Type} (cg : ComputationGraph α) (acc : Pass α × Nat) (nid : Nat) :
    Pass α × Nat :=
  if acc.1.fault.isSome then acc
  else
    let node := vget cg.nodes nid
    let nfxs := vset acc.1.nfxs nid
      { (vget acc.1.nfxs nid) with d := node.dim, device := node.device }
    let total := (acc.2 + node.dim.size) % 2 ^ 32
    if node.aux_storage_size ≠ 0 then
      let r := acc.1.w.allocate (vget nfxs nid).device node.aux_storage_size
      match r.1 with
      | none => (⟨nfxs, r.2, some Fault.aux_out_of_memory⟩, total)
      | some p =>
        (⟨nfxs, { r.2 with aux_mem := r.2.aux_mem ++ [(nid, some p)] }, none⟩, total)
    else
      (⟨nfxs, { acc.1.w with aux_mem := acc.1.w.aux_mem ++ [(nid, none)] }, none⟩, total)

/-- Body of the second loop over a type-group in the planner: the address of the
output inside the block at `base`, and the running `offset`. -/
def placeNode {α : Type} (cg : ComputationGraph α) (base : Nat)
    (acc : List Tensor × Nat) (nid : Nat) : List Tensor × Nat :=
  (vset acc.1 nid { (vget acc.1 nid) with v := base + sizeof_float * acc.2 },
    (acc.2 + (vget cg.nodes nid).dim.size) % 2 ^ 32)

/-- The planner for one type-group (body of the first loop over `by_type`). -/
def planGroup {α : Type} (cg : ComputationGraph α) (p : Pass α)
    (g : NodeType × List Nat) : Pass α :=
  if p.fault.isSome then p
  else
    let r := g.2.foldl (planNode cg) (p, 0)
    if r.1.fault.isSome then r.1
    else
      let a := r.1.w.allocate (vget r.1.nfxs (vget g.2 0)).device (r.2 * sizeof_float)
      match a.1 with
      | none => ⟨r.1.nfxs, a.2, some Fault.out_of_memory⟩
      | some base => ⟨(g.2.foldl (placeNode cg base) (r.1.nfxs, 0)).1, a.2, none⟩

/-- The dispatcher for one type-group (body of the second loop over `by_type`). -/
def dispatchGroup {α : Type} [Inhabited α] (cg : ComputationGraph α) (p : Pass α)
    (g : NodeType × List Nat) : Pass α :=
  if p.fault.isSome then p
  else if g.1 ∈ ewise_unary_nodes then
    let r := eval_ewise_unaries_in_bulk g.2 cg p.nfxs p.w
    ⟨r.1, r.2, none⟩
  else if g.1 = NodeType.MatrixMultiply ∧ g.2.length > 5 then
    ⟨p.nfxs, eval_matrix_multiply g.2 cg p.nfxs p.w, none⟩
  else
    ⟨p.nfxs, g.2.foldl (fun w nid => do_node cg nid p.nfxs w) p.w, none⟩

/-- The map `by_type` of one bucket: the nodes not below `already_evaluated`,
grouped by type tag. -/
def groupByType {α : Type} (cg : ComputationGraph α) (already_evaluated : Nat)
    (bucket : List Nat) : List (NodeType × List Nat) :=
  bucket.foldl (fun m nid =>
    if nid < already_evaluated then m
    else mapPush NodeType.code m (vget cg.nodes nid).type_id nid) []

/-- Body of the loop over `by_depth` in `incremental_forward`. -/
def runBucket {α : Type} [Inhabited α] (cg : ComputationGraph α)
    (already_evaluated : Nat) (by_depth : List (List Nat)) (p : Pass α) (d : Nat) :
    Pass α :=
  let by_type := groupByType cg already_evaluated (vget by_depth d)
  let p1 := by_type.foldl (planGroup cg) p
  by_type.foldl (dispatchGroup cg) p1

/-- The part of `incremental_forward(upto)` after the cache test: reset of the
value pools on a new graph, `compute_depths`, resize of the value cache, and the
loop over the buckets in increasing rank. -/
def forwardPass {α : Type} [Inhabited α] (cg : ComputationGraph α) (m : Machine α)
    (upto : Nat) : Pass α :=
  let already_evaluated := m.eng.num_nodes_evaluated
  let w0 := if already_evaluated = 0 then m.w.freeAll else m.w
  let sched := compute_depths cg.argTable already_evaluated m.eng.toSched upto
  let nfxs := vresize m.eng.nfxs (upto + 1)
  (List.range sched.by_depth.length).foldl
    (runBucket cg already_evaluated sched.by_depth) ⟨nfxs, w0, none⟩

/-- The method `incremental_forward(upto)`, for `upto < cg.nodes.size()`.  The
result is the machine afterwards and either the returned tensor or the exception. -/
def incremental_forward {α : Type} [Inhabited α] (cg : ComputationGraph α)
    (m : Machine α) (upto : Nat) : Machine α × Except Fault Tensor :=
  if upto < m.eng.num_nodes_evaluated then (m, Except.ok (vget m.eng.nfxs upto))
  else
    let already_evaluated := m.eng.num_nodes_evaluated
    let sched := compute_depths cg.argTable already_evaluated m.eng.toSched upto
    let p := forwardPass cg m upto
    match p.fault with
    | some f => (⟨⟨sched, already_evaluated, p.nfxs, m.eng.ndEdfs⟩, p.w⟩, Except.error f)
    | none => (⟨⟨sched, upto, p.nfxs, m.eng.ndEdfs⟩, p.w⟩, Except.ok (vget p.nfxs upto))

/-- The method `invalidate()`. -/
def invalidate {α : Type} (m : Machine α) : Machine α :=
  { m with eng := { m.eng with num_nodes_evaluated := 0 } }

/-- The method `forward(i)`. -/
def forward {α : Type} [Inhabited α] (cg : ComputationGraph α) (m : Machine α)
    (i : Nat) : Machine α × Except Fault Tensor :=
  incremental_forward cg (invalidate m) i

/-- The method `incremental_forward()`, over the whole graph. -/
def incremental_forward_all {α : Type} [Inhabited α] (cg : ComputationGraph α)
    (m : Machine α) : Machine α × Except Fault Tensor :=
  incremental_forward cg m (cg.nodes.length - 1)

/-- The method `get_value(i)`, for `i < cg.nodes.size()`. -/
def get_value {α : Type} [Inhabited α] (cg : ComputationGraph α) (m : Machine α)
    (i : Nat) : Machine α × Except Fault Tensor :=
  if i ≥ m.eng.num_nodes_evaluated then
    let r := incremental_forward_all cg m
    match r.2 with
    | Except.error f => (r.1, Except.error f)
    | Except.ok _ => (r.1, Except.ok (vget r.1.eng.nfxs i))
  else (m, Except.ok (vget m.eng.nfxs i))

/-! ## Concrete graphs and machines used to evaluate the engine -/

/-- A decidable test for `IsDAG`. -/
def isDAGCheck (args : ArgTable) : Bool :=
  (List.range args.length).all (fun j => (vget args j).all (fun a => decide (a < j)))

/-- An input node holding the given floats. -/
def inputNode {α : Type} (data : List α) : Node α :=
  ⟨[], NodeType.Other 0, Dim.ofList [data.length], 0, 0, fun _ _ => data,
    fun _ _ _ _ _ => []⟩

/-- A node of an elementwise-unary type applying `f` to each element of its
argument `a`, whose output has `n` elements. -/
def ewiseNode {α : Type} [Inhabited α] (t : NodeType) (f : α → α) (n a : Nat) : Node α :=
  ⟨[a], t, Dim.ofList [n], 0, 0, fun xs _ => (vget xs 0).2.map f,
    fun _ _ _ _ _ => []⟩

/-- One device whose value pool has `capacity` bytes at address `mem`. -/
def oneDevice (mem capacity align : Nat) : List Device :=
  [⟨⟨mem, capacity, 0, align⟩, default⟩]

/-- A world with one device and zeroed memory in which nothing has run yet. -/
def World.init {α : Type} (zero : α) (mem capacity align : Nat) : World α :=
  ⟨oneDevice mem capacity align, fun _ => zero, [], [], []⟩

/-- A freshly constructed engine in an initial world. -/
def Machine.init {α : Type} (zero : α) (mem capacity align : Nat) : Machine α :=
  ⟨Engine.fresh, World.init zero mem capacity align⟩

/-- The graph `x0 = input, x1 = tanh(x0)`, with `tanh` replaced by `f`. -/
def chainGraph (f : Int → Int) : ComputationGraph Int :=
  ⟨[inputNode [1, 2], ewiseNode NodeType.Tanh f 2 0], []⟩

/-- The argument table of a diamond: node 0 feeds nodes 2 and 4, nodes 1 and 2
feed node 3. -/
def diamondArgs : ArgTable := [[], [], [0], [1, 2], [0]]

/-! ## Quantities the layout theorems speak about -/

/-- Number of elements of the output of node `n` (`node->dim.size()`). -/
def nodeSize {α : Type} (cg : ComputationGraph α) (n : Nat) : Nat :=
  (vget cg.nodes n).dim.size

/-- The sum of the sizes of all members of a group. -/
def groupSize {α : Type} (cg : ComputationGraph α) (nids : List Nat) : Nat :=
  (nids.map (nodeSize cg)).sum

/-- The assignment of shape and device to `nfxs[nid]` in the planner. -/
def shapeStep {α : Type} (cg : ComputationGraph α) (nfxs : List Tensor) (nid : Nat) :
    List Tensor :=
  vset nfxs nid
    { (vget nfxs nid) with d := (vget cg.nodes nid).dim, device := (vget cg.nodes nid).device }

/-- The sum of the element counts of the first `i` tensors of a list. -/
def sizesPrefix (ts : List Tensor) (i : Nat) : Nat :=
  ((ts.take i).map (fun t => t.d.size)).sum

/-- The sum of the element counts of a list of tensors, over the naturals. -/
def sizesTotal (ts : List Tensor) : Nat := (ts.map (fun t => t.d.size)).sum

/-- The tensor of the first argument of node `n`. -/
def argTensor {α : Type} (cg : ComputationGraph α) (nfxs : List Tensor) (n : Nat) : Tensor :=
  vget nfxs (vget (vget cg.nodes n).args 0)

/-- Dispatch of a list of nodes one by one with `do_node`. -/
def dispatchEach {α : Type} [Inhabited α] (cg : ComputationGraph α) (nfxs : List Tensor)
    (nids : List Nat) (w : World α) : World α :=
  nids.foldl (fun w nid => do_node cg nid nfxs w) w

/-- Modelled from the spec: the forward kernel of `MatrixMultiply` (defined in
`dynet/nodes.cc`, which is not part of the sources): the product of the left
argument, a column-major `r × c` matrix, with the right argument, a column-major
matrix of `m` columns (`m = 1` for a vector), over exact arithmetic. -/
def matmulKernel {α : Type} [Inhabited α] [Add α] [Mul α] [Zero α]
    (xs : List (Dim × List α)) (_out : Dim) : List α :=
  let A := vget xs 0
  let B := vget xs 1
  (List.range (A.1.rows * B.1.cols)).map (fun idx =>
    ((List.range A.1.cols).map (fun k =>
      vget A.2 (idx % A.1.rows + A.1.rows * k) *
        vget B.2 (k + B.1.rows * (idx / A.1.rows)))).sum)

/-- Entry `k` of the product of the `r × c` matrix stored column-major from
address `wv` on with the vector of length `c` stored from address `vv` on. -/
def matVecAt {α : Type} [Add α] [Mul α] [Zero α] (mem : Nat → α) (r c wv vv k : Nat) : α :=
  ((List.range c).map (fun j =>
    mem (wv + sizeof_float * (k + r * j)) * mem (vv + sizeof_float * j))).sum

/-- An input node of the given shape holding the given floats. -/
def shapedInput {α : Type} (d : List Nat) (data : List α) : Node α :=
  ⟨[], NodeType.Other 0, Dim.ofList d, 0, 0, fun _ _ => data, fun _ _ _ _ _ => []⟩

/-- A `MatrixMultiply` node with arguments `a` and `b` and output shape `d`. -/
def matmulNode {α : Type} [Inhabited α] [Add α] [Mul α] [Zero α] (a b : Nat)
    (d : List Nat) : Node α :=
  ⟨[a, b], NodeType.MatrixMultiply, Dim.ofList d, 0, 0, matmulKernel,
    fun _ _ _ _ _ => []⟩

/-- A graph with one left operand `W` (node 0, the 2 × 2 matrix with columns
`(1, 2)` and `(3, 4)`), a right operand `M` of shape `{2, 1}` (node 1, a matrix
with the one column `(1, 1)`), five vectors of length 2 (nodes 2 to 6), the
product `W * M` of shape `{2, 1}` (node 7) and the five products of `W` with the
vectors (nodes 8 to 12).  Every product has as many elements as `W` has rows. -/
def sharedLeftGraph : ComputationGraph Int :=
  ⟨[shapedInput [2, 2] [1, 2, 3, 4],
    shapedInput [2, 1] [1, 1],
    shapedInput [2] [1, 0], shapedInput [2] [0, 1], shapedInput [2] [1, 1],
    shapedInput [2] [2, 0], shapedInput [2] [0, 2],
    matmulNode 0 1 [2, 1],
    matmulNode 0 2 [2], matmulNode 0 3 [2], matmulNode 0 4 [2], matmulNode 0 5 [2],
    matmulNode 0 6 [2]], []⟩

/-- Uninterpreted float values: a zero, the `k`-th element `inp i k` of the `i`-th
input, and the application `app s` of an uninterpreted unary function. -/
inductive Sym where
  | zero
  | inp (i k : Nat)
  | app (s : Sym)
deriving DecidableEq, Repr

instance : Inhabited Sym := ⟨Sym.zero⟩

/-- The graph of the example scenario: 12 input nodes of 4 elements each (input
`i` holds `x i 0 .. x i 3`), followed by 12 `tanh` nodes, the `i`-th applied to
the `i`-th input; `f` stands for `tanh`. -/
def tanhGraph {α : Type} [Inhabited α] (f : α → α) (x : Nat → Nat → α) :
    ComputationGraph α :=
  ⟨(List.range 12).map (fun i => inputNode [x i 0, x i 1, x i 2, x i 3]) ++
    (List.range 12).map (fun i => ewiseNode NodeType.Tanh f 4 i), []⟩

/-- The example scenario over uninterpreted values: input `i` holds
`inp i 0 .. inp i 3` and `tanh` is the uninterpreted function `app`. -/
def tanhScenario : ComputationGraph Sym := tanhGraph Sym.app Sym.inp

/-- The machine and the result after a fresh `incremental_forward` over the whole
graph of the example scenario, on one device whose value pool has 4096 bytes at
address 1024 and whose memory is filled with `zero`. -/
def tanhRun {α : Type} [Inhabited α] (zero : α) (f : α → α) (x : Nat → Nat → α) :
    Machine α × Except Fault Tensor :=
  incremental_forward (tanhGraph f x) (Machine.init zero 1024 4096 32) 23

/-- The run of the example scenario over uninterpreted values. -/
def tanhScenarioRun : Machine Sym × Except Fault Tensor :=
  tanhRun Sym.zero Sym.app Sym.inp

/-- The machine after a fresh `incremental_forward` over the whole graph
`sharedLeftGraph`. -/
def sharedLeftRun : Machine Int × Except Fault Tensor :=
  incremental_forward sharedLeftGraph (Machine.init 0 1024 4096 32) 12

/-- The world in which every float `x` in memory is replaced by `h x`. -/
def World.map {β α : Type} (h : β → α) (w : World β) : World α :=
  ⟨w.devices, fun a => h (w.mem a), w.aux_mem, w.calls, w.allocs⟩

/-- The pass in which every float `x` in memory is replaced by `h x`. -/
def Pass.map {β α : Type} (h : β → α) (p : Pass β) : Pass α :=
  ⟨p.nfxs, p.w.map h, p.fault⟩

/-- The machine in which every float `x` in memory is replaced by `h x`. -/
def Machine.map {β α : Type} (h : β → α) (m : Machine β) : Machine α :=
  ⟨m.eng, m.w.map h⟩

/-- Two nodes that differ only in the type of their float values, with kernels
that commute with `h`. -/
def NodeRel {β α : Type} (h : β → α) (nb : Node β) (na : Node α) : Prop :=
  na.args = nb.args ∧ na.type_id = nb.type_id ∧ na.dim = nb.dim ∧
  na.device = nb.device ∧ na.aux_storage_size = nb.aux_storage_size ∧
  ∀ xs d, na.forward (xs.map (fun p => (p.1, p.2.map h))) d = (nb.forward xs d).map h

/-- Two graphs whose nodes are related by `NodeRel h`, index by index. -/
def GraphRel {β α : Type} (h : β → α) (cgb : ComputationGraph β)
    (cga : ComputationGraph α) : Prop :=
  ∀ j, NodeRel h (vget cgb.nodes j) (vget cga.nodes j)

/-- The interpretation of uninterpreted values in a type of floats with a zero,
a unary function `f` and inputs `x i k`. -/
def Sym.interp {α : Type} (zero : α) (f : α → α) (x : Nat → Nat → α) : Sym → α
  | Sym.zero => zero
  | Sym.inp i k => x i k
  | Sym.app s => f (Sym.interp zero f x s)

/-- The tensor of the second argument of node `n`. -/
def argTensor1 {α : Type} (cg : ComputationGraph α) (nfxs : List Tensor) (n : Nat) : Tensor :=
  vget nfxs (vget (vget cg.nodes n).args 1)

/-- A graph with one left operand `W` (node 0, a 2 × 3 matrix), six vectors of
length 3 (nodes 1 to 6) and the six products of `W` with them (nodes 7 to 12). -/
def eligibleGraph : ComputationGraph Int :=
  ⟨[shapedInput [2, 3] [1, 2, 3, 4, 5, 6],
    shapedInput [3] [1, 0, 0], shapedInput [3] [0, 1, 0], shapedInput [3] [0, 0, 1],
    shapedInput [3] [1, 1, 1], shapedInput [3] [2, 0, 1], shapedInput [3] [0, 2, 5],
    matmulNode 0 1 [2], matmulNode 0 2 [2], matmulNode 0 3 [2], matmulNode 0 4 [2],
    matmulNode 0 5 [2], matmulNode 0 6 [2]], []⟩

/-- The products of `eligibleGraph`. -/
def eligibleGroup : List Nat := [7, 8, 9, 10, 11, 12]

/-- The machine after a fresh `incremental_forward` over the whole graph
`eligibleGraph`. -/
def eligibleRun : Machine Int × Except Fault Tensor :=
  incremental_forward eligibleGraph (Machine.init 0 1024 4096 32) 12

/-! ## Backward executor (`ExperimentalExecutionEngine::backward`) -/

/-- One invocation of a backward kernel
`cg.nodes[node]->backward(xs, nfxs[node], ndEdfs[node], ai, ndEdfs[arg])`: the node
whose kernel runs, the argument position, the index of the argument, and the
floats the kernel adds to the gradient of the argument. -/
structure BackwardCall (α : Type) where
  node : Nat
  ai : Nat
  arg : Nat
  contribution : List α
deriving DecidableEq, Repr

/-- The two ways in which `backward` aborts the process. -/
inductive BackFault where
  | non_scalar
  | out_of_memory
deriving DecidableEq, Repr

/-- State of a backward pass: the gradient cache `ndEdfs`, the world, the record
of the calls of `allocate` on the gradient pools, of the backward kernel
invocations and of the calls of `accumulate_grad`, and the abort so far, if any
(after which nothing more is executed). -/
structure Grad (α : Type) where
  ndEdfs : List Tensor
  w : World α
  allocs : List AllocCall
  calls : List (BackwardCall α)
  accumulated : List (Nat × Tensor)
  fault : Option BackFault

/-- The call `dev->pools[DEDFS]->allocate(n)` on device `dev`. -/
def World.allocateD {α : Type} (w : World α) (dev n : Nat) : Option Nat × World α :=
  let dv := vget w.devices dev
  let r := dv.dedfs.allocate n
  (r.1, { w with devices := vset w.devices dev { dv with dedfs := r.2 } })

/-- The loop `for (Device* device : devices) device->pools[DEDFS]->free()`. -/
def World.freeAllD {α : Type} (w : World α) : World α :=
  { w with devices := w.devices.map (fun dv => { dv with dedfs := dv.dedfs.free }) }

/-- Address `a` lies in the taken part of the pool. -/
def Pool.taken (p : Pool) (a : Nat) : Bool :=
  decide (p.mem ≤ a ∧ a < p.mem + p.used)

/-- Modelled from the spec: the loop
`for (Device* device : devices) device->pools[DEDFS]->zero_allocated_memory()`,
the zero-fill of the taken part of every gradient pool. -/
def World.zeroAllocatedD {α : Type} [Zero α] (w : World α) : World α :=
  { w with mem := fun a => if w.devices.any (fun dv => dv.dedfs.taken a) then 0 else w.mem a }

/-- Body of the allocation loop of `backward`: shape, device and buffer of
`ndEdfs[i]`; a null pointer aborts. -/
def gradAllocStep {α : Type} (nfxs : List Tensor) (i : Nat) (g : Grad α) : Grad α :=
  if g.fault.isSome then g
  else
    let dim := (vget nfxs i).d
    let dev := (vget nfxs i).device
    let r := g.w.allocateD dev (dim.size * sizeof_float)
    let log := g.allocs ++ [⟨dev, dim.size * sizeof_float, r.1⟩]
    match r.1 with
    | none =>
      { g with ndEdfs := vset g.ndEdfs i ⟨dim, 0, dev⟩, w := r.2, allocs := log,
               fault := some BackFault.out_of_memory }
    | some p => { g with ndEdfs := vset g.ndEdfs i ⟨dim, p, dev⟩, w := r.2, allocs := log }

/-- The set-up phase of `backward(from_where)`, after the test for a scalar
target: resize of the gradient cache, reset of the gradient pools, one buffer per
node, zero-fill, and `ndEdfs.back().v = kSCALAR_ONE`.  The global `kSCALAR_ONE`
is the address of a float holding one. -/
def backwardSetup {α : Type} [Zero α] (m : Machine α) (kSCALAR_ONE from_where : Nat) :
    Grad α :=
  let num_nodes := from_where + 1
  let g := forUp (gradAllocStep m.eng.nfxs) 0 num_nodes
    ⟨vresize m.eng.ndEdfs num_nodes, m.w.freeAllD, [], [], [], none⟩
  if g.fault.isSome then g
  else
    let last := g.ndEdfs.length - 1
    { g with w := g.w.zeroAllocatedD,
             ndEdfs := vset g.ndEdfs last { (vget g.ndEdfs last) with v := kSCALAR_ONE } }

/-- The vector `needs_derivative` after the loop over `cg.parameter_nodes`. -/
def needsInit {α : Type} (cg : ComputationGraph α) (num_nodes : Nat) : List Bool :=
  cg.parameter_nodes.foldl (fun nd i => vset nd i true) (List.replicate num_nodes false)

/-- Body of the forward sweep that computes `needs_derivative`, for node `ni`. -/
def needsStep {α : Type} (cg : ComputationGraph α) (ni : Nat) (nd : List Bool) : List Bool :=
  vset nd ni ((vget cg.nodes ni).args.foldl (fun b arg => b || vget nd arg) (vget nd ni))

/-- The vector `needs_derivative` of `backward`, of size `num_nodes`, after the
forward sweep. -/
def needs_derivative {α : Type} (cg : ComputationGraph α) (num_nodes : Nat) : List Bool :=
  forUp (needsStep cg) 0 num_nodes (needsInit cg num_nodes)

/-- The floats that the backward kernel of node `i` computes, in state `g`, for
the gradient of its argument at position `ai`, which is node `arg`. -/
def backwardContribution {α : Type} (cg : ComputationGraph α) (nfxs : List Tensor)
    (g : Grad α) (i ai arg : Nat) : List α :=
  let node := vget cg.nodes i
  let xs := node.args.map (fun a => vget nfxs a)
  let inputs := xs.map (fun x => (x.d, loadFloats g.w.mem x.v x.d.size))
  let fx := vget nfxs i
  let dEdf := vget g.ndEdfs i
  let dEdxi := vget g.ndEdfs arg
  (node.backward inputs (fx.d, loadFloats g.w.mem fx.v fx.d.size)
    (dEdf.d, loadFloats g.w.mem dEdf.v dEdf.d.size) ai dEdxi.d).take dEdxi.d.size

/-- The call `node->backward(xs, nfxs[i], ndEdfs[i], ai, ndEdfs[arg])`: the kernel
adds its floats to the gradient buffer of the argument. -/
def callBackward {α : Type} [Inhabited α] [Add α] (cg : ComputationGraph α)
    (nfxs : List Tensor) (i ai arg : Nat) (g : Grad α) : Grad α :=
  let dEdxi := vget g.ndEdfs arg
  let c := backwardContribution cg nfxs g i ai arg
  let old := loadFloats g.w.mem dEdxi.v dEdxi.d.size
  { g with w := { g.w with mem := storeFloats g.w.mem dEdxi.v (List.zipWith (· + ·) old c) },
           calls := g.calls ++ [⟨i, ai, arg, c⟩] }

/-- State of the reverse loop of `backward`. -/
structure Sweep (α : Type) where
  in_computation : List Bool
  g : Grad α

/-- Body of the second loop over `node->args` in the reverse loop: the state and
the argument position `ai`. -/
def backArgStep {α : Type} [Inhabited α] [Add α] (cg : ComputationGraph α)
    (nfxs : List Tensor) (nd : List Bool) (i : Nat) (acc : Grad α × Nat) (arg : Nat) :
    Grad α × Nat :=
  (if vget nd arg then callBackward cg nfxs i acc.2 arg acc.1 else acc.1, acc.2 + 1)

/-- Body of the reverse loop of `backward`, for node `i`. -/
def backNodeStep {α : Type} [Inhabited α] [Add α] (cg : ComputationGraph α)
    (nfxs : List Tensor) (nd : List Bool) (i : Nat) (s : Sweep α) : Sweep α :=
  if vget s.in_computation i then
    let node := vget cg.nodes i
    let ic := node.args.foldl (fun ic arg => vset ic arg true) s.in_computation
    ⟨ic, (node.args.foldl (backArgStep cg nfxs nd i) (s.g, 0)).1⟩
  else s

/-- State at the entry of the reverse loop: only the target is in the
computation. -/
def sweepInit {α : Type} (num_nodes : Nat) (g : Grad α) : Sweep α :=
  ⟨vset (List.replicate num_nodes false) (num_nodes - 1) true, g⟩

/-- State of the reverse loop of `backward(from_where)` when it reaches index
`i`, that is, after the iterations for `from_where`, ..., `i + 1`. -/
def sweepReaching {α : Type} [Inhabited α] [Add α] (cg : ComputationGraph α)
    (nfxs : List Tensor) (nd : List Bool) (from_where : Nat) (g : Grad α) (i : Nat) :
    Sweep α :=
  forDown (backNodeStep cg nfxs nd) (i + 1) (from_where - i) (sweepInit (from_where + 1) g)

/-- The reverse loop `for (int i = num_nodes - 1; i >= 0; --i)` of
`backward(from_where)`. -/
def backwardSweep {α : Type} [Inhabited α] [Add α] (cg : ComputationGraph α)
    (nfxs : List Tensor) (nd : List Bool) (from_where : Nat) (g : Grad α) : Sweep α :=
  forDown (backNodeStep cg nfxs nd) 0 (from_where + 1) (sweepInit (from_where + 1) g)

/-- The method `backward(from_where)`, for `from_where + 1 <= nfxs.size()` and
`from_where + 1 <= cg.nodes.size()` (the two assertions).  The calls
`accumulate_grad(ndEdfs[i])` are recorded with the tensor handed over. -/
def backward {α : Type} [Inhabited α] [Zero α] [Add α] (cg : ComputationGraph α)
    (m : Machine α) (kSCALAR_ONE from_where : Nat) : Grad α :=
  if (vget m.eng.nfxs from_where).d.size ≠ 1 then
    ⟨m.eng.ndEdfs, m.w, [], [], [], some BackFault.non_scalar⟩
  else
    let g := backwardSetup m kSCALAR_ONE from_where
    if g.fault.isSome then g
    else
      let nd := needs_derivative cg (from_where + 1)
      let s := backwardSweep cg m.eng.nfxs nd from_where g
      { s.g with accumulated := cg.parameter_nodes.map (fun i => (i, vget s.g.ndEdfs i)) }

/-- The method `backward()`, from the last node of the graph. -/
def backward_all {α : Type} [Inhabited α] [Zero α] [Add α] (cg : ComputationGraph α)
    (m : Machine α) (kSCALAR_ONE : Nat) : Grad α :=
  backward cg m kSCALAR_ONE (cg.nodes.length - 1)

/-- The machine after a backward pass. -/
def Grad.machine {α : Type} (m : Machine α) (g : Grad α) : Machine α :=
  ⟨{ m.eng with ndEdfs := g.ndEdfs }, g.w⟩

/-- The read `dev->pools[DEDFS]->used`. -/
def World.usedD {α : Type} (w : World α) (dev : Nat) : Nat := (vget w.devices dev).dedfs.used

/-- The edge relation of the graph: `a` is an argument of node `i`. -/
def ArgEdge (args : ArgTable) (i a : Nat) : Prop := a ∈ vget args i

/-- Node `j` is reachable from node `i` by following argument edges, one or more
steps. -/
def Reach (args : ArgTable) (i j : Nat) : Prop := Relation.TransGen (ArgEdge args) i j

/-! ## Graphs and machines used to evaluate the backward executor -/

/-- A node multiplying each element of its argument `a` by the constant `c`; its
backward kernel adds `c` times the gradient of its output, element by element. -/
def scaleNode (c : Int) (n a : Nat) : Node Int :=
  ⟨[a], NodeType.Other 1, Dim.ofList [n], 0, 0,
    fun xs _ => (vget xs 0).2.map (fun x => c * x),
    fun _ _ dEdf _ d => (List.range d.size).map (fun k => c * vget dEdf.2 k)⟩

/-- A node adding its arguments `a` and `b` element by element; its backward
kernel adds the gradient of its output, element by element. -/
def addNode (n a b : Nat) : Node Int :=
  ⟨[a, b], NodeType.Other 2, Dim.ofList [n], 0, 0,
    fun xs _ => List.zipWith (fun x y => x + y) (vget xs 0).2 (vget xs 1).2,
    fun _ _ dEdf _ d => (List.range d.size).map (fun k => vget dEdf.2 k)⟩

/-- The diamond `x0 = [3], x1 = 2 * x0, x2 = 5 * x0, x3 = x1 + x2` with the given
parameter nodes. -/
def diamondGraph (params : List Nat) : ComputationGraph Int :=
  ⟨[inputNode [3], scaleNode 2 1 0, scaleNode 5 1 0, addNode 1 1 2], params⟩

/-- A machine with a fresh engine and one device whose value pool has 4096 bytes
at address 1024 and whose gradient pool has 4096 bytes at address 8192; the
memory is zero except for the float one at address 16. -/
def Machine.initBoth : Machine Int :=
  ⟨Engine.fresh, ⟨[⟨⟨1024, 4096, 0, 32⟩, ⟨8192, 4096, 0, 32⟩⟩],
    fun a => if a = 16 then 1 else 0, [], [], []⟩⟩

/-- A node summing the elements of its argument `a`; its backward kernel adds the
gradient of its output to every element of the gradient of the argument. -/
def sumNode (a : Nat) : Node Int :=
  ⟨[a], NodeType.Other 3, Dim.ofList [1], 0, 0,
    fun xs _ => [(vget xs 0).2.sum],
    fun _ _ dEdf _ d => List.replicate d.size (vget dEdf.2 0)⟩

/-- The graph `x0 = (1, ..., 8)` (a parameter node), `x1 = 2 * x0`, `x2 = sum(x1)`. -/
def vectorGraph : ComputationGraph Int :=
  ⟨[inputNode [1, 2, 3, 4, 5, 6, 7, 8], scaleNode 2 8 0, sumNode 1], [0]⟩

/-- The machine after `forward(k)` followed by `backward(k)`, with `kSCALAR_ONE`
at address 16. -/
def forwardBackward (cg : ComputationGraph Int) (m : Machine Int) (k : Nat) : Machine Int :=
  Grad.machine (forward cg m k).1 (backward cg (forward cg m k).1 16 k)

/-- The machine after one pass `forward(2); backward(2)` over `vectorGraph` on a
fresh engine. -/
def vectorPassOne : Machine Int := forwardBackward vectorGraph Machine.initBoth 2

/-- The machine after a second pass `forward(2); backward(2)` on the same engine. -/
def vectorPassTwo : Machine Int := forwardBackward vectorGraph vectorPassOne 2

/-- The graph `x0 = [3]` (an input), `x1 = [4]` (a parameter node). -/
def parameterLastGraph : ComputationGraph Int := ⟨[inputNode [3], inputNode [4]], [1]⟩

/-- The machine of the example scenario after `incremental_forward(12)` on a
fresh engine. -/
def tanhScenarioPartial : Machine Sym :=
  (incremental_forward tanhScenario (Machine.init Sym.zero 1024 4096 32) 12).1

/-- Invariant of the allocation loop of `backward` when the nodes below `k` have
their gradient buffers: the gradient pools keep their place and stay within
their capacity, and, as long as no allocation has failed, the entries below `k`
have the shape and device of the cached values, their buffers lie in the taken
part of a gradient pool and, when every cached value is on device 0, one after
the other below the mark of that pool. -/
def GradAllocInv {α : Type} (nfxs : List Tensor) (devs0 : List Device) (k : Nat)
    (g : Grad α) : Prop :=
  (∀ idx, (vget g.w.devices idx).dedfs.mem = (vget devs0 idx).dedfs.mem ∧
    (vget g.w.devices idx).dedfs.capacity = (vget devs0 idx).dedfs.capacity ∧
    (vget g.w.devices idx).dedfs.used ≤ (vget devs0 idx).dedfs.capacity ∧
    (vget g.w.devices idx).fxs = (vget devs0 idx).fxs) ∧
  (g.fault = none →
    (∀ i, i < k → (vget g.ndEdfs i).d = (vget nfxs i).d ∧
      (vget g.ndEdfs i).device = (vget nfxs i).device) ∧
    (∀ i, i < k → ∀ j, j < (vget nfxs i).d.size →
      ∃ idx, (vget g.w.devices idx).dedfs.taken
        ((vget g.ndEdfs i).v + sizeof_float * j) = true) ∧
    ((∀ i, (vget nfxs i).device = 0) →
      (∀ i, i < k → (vget g.ndEdfs i).v + sizeof_float * (vget nfxs i).d.size ≤
        (vget g.w.devices 0).dedfs.mem + (vget g.w.devices 0).dedfs.used) ∧
      (∀ i j, i < j → j < k →
        (vget g.ndEdfs i).v + sizeof_float * (vget nfxs i).d.size ≤ (vget g.ndEdfs j).v)))

/-- The machine after `forward(3)` over the diamond whose node 0 is a parameter
node, on a fresh engine. -/
def diamondForward : Machine Int := (forward (diamondGraph [0]) Machine.initBoth 3).1

/-- The state of the pass of `incremental_forward(upto)` when the loop over
`by_depth` reaches bucket `d`, that is, after the buckets below `d`. -/
def passReaching {α : Type} [Inhabited α] (cg : ComputationGraph α) (m : Machine α)
    (upto d : Nat) : Pass α :=
  let already_evaluated := m.eng.num_nodes_evaluated
  let w0 := if already_evaluated = 0 then m.w.freeAll else m.w
  let sched := compute_depths cg.argTable already_evaluated m.eng.toSched upto
  let nfxs := vresize m.eng.nfxs (upto + 1)
  (List.range d).foldl (runBucket cg already_evaluated sched.by_depth) ⟨nfxs, w0, none⟩

/-- The state of the pass of `incremental_forward(upto)` after the memory planner
has run over the type-groups of bucket `d` and before any of them is dispatched. -/
def passPlanned {α : Type} [Inhabited α] (cg : ComputationGraph α) (m : Machine α)
    (upto d : Nat) : Pass α :=
  let already_evaluated := m.eng.num_nodes_evaluated
  let sched := compute_depths cg.argTable already_evaluated m.eng.toSched upto
  (groupByType cg already_evaluated (vget sched.by_depth d)).foldl (planGroup cg)
    (passReaching cg m upto d)

/-! ## Predicates of the frame theorems -/

/-- The first free address of the value pool of device 0. -/
def World.base {α : Type} (w : World α) : Nat :=
  (vget w.devices 0).fxs.mem + (vget w.devices 0).fxs.used

/-- No recorded call of `allocate` on a value pool has returned the null pointer. -/
def NoNull {α : Type} (w : World α) : Prop := ∀ a ∈ w.allocs, a.result ≠ none

/-- The world `w2` is a later state of `w1`: the same number of devices, the value
pool of device 0 at the same place, and a record of allocations that keeps the
earlier entries. -/
def Later {α : Type} (w1 w2 : World α) : Prop :=
  w2.devices.length = w1.devices.length ∧
  (vget w2.devices 0).fxs.mem = (vget w1.devices 0).fxs.mem ∧
  ∀ a ∈ w1.allocs, a ∈ w2.allocs

/-- The graph `x0 = input, x1 = f(x0), x2 = f(x1)` with `f` the identity. -/
def chainGraph3 : ComputationGraph Int :=
  ⟨[inputNode [1, 2], ewiseNode NodeType.Tanh id 2 0, ewiseNode NodeType.Tanh id 2 1], []⟩

/-- The recorded backward kernel calls that add to the gradient of node `x`. -/
def callsInto {α : Type} (x : Nat) (calls : List (BackwardCall α)) : List (BackwardCall α) :=
  calls.filter (fun c => decide (c.arg = x))

/-- The gradient cache is `D` and every float of the gradient buffer of node `x`
(at address `V`, of `n` floats) is the sum, in the order of the calls, of what
the recorded backward kernel calls into `x` have added, starting from zero. -/
def GradSumInv {α : Type} [Zero α] [Add α] [Inhabited α] (D : List Tensor) (x V n : Nat)
    (g : Grad α) : Prop :=
  g.ndEdfs = D ∧
  ∀ j, j < n → g.w.mem (V + sizeof_float * j) =
    ((callsInto x g.calls).map (fun c => vget c.contribution j)).foldl (fun a b => a + b) 0

/-- There is a chain of `n` argument edges that starts at node `j`. -/
inductive Chain (args : ArgTable) : Nat → Nat → Prop where
  | nil (j : Nat) : Chain args j 0
  | cons (j a n : Nat) : a ∈ vget args j → Chain args a n → Chain args j (n + 1)

/-- Second invariant of the first loop of `compute_depths` on a fresh engine, when
the nodes below `k` have been processed: every rank is attained through an
argument unless it is zero, and `max_depth` is attained unless it is zero. -/
def EarliestTight (args : ArgTable) (k : Nat) (s : DepthAcc) : Prop :=
  (∀ j, j < k → (vget s.depths j = 0 ∨
    ∃ a ∈ vget args j, vget s.depths j = vget s.depths a + 1)) ∧
  (s.max_depth = 0 ∨ ∃ j, j < k ∧ vget s.depths j = s.max_depth)


/-- The nodes in the order in which the bucket loop of `incremental_forward` plans
and dispatches them: bucket by bucket in increasing rank, and within a bucket
type-group by type-group in the order of the map `by_type`. -/
def evalOrder {α : Type} (cg : ComputationGraph α) (already_evaluated : Nat)
    (by_depth : List (List Nat)) : List Nat :=
  (List.range by_depth.length).flatMap (fun d =>
    (groupByType cg already_evaluated (vget by_depth d)).flatMap (fun g => g.2))

/-- A graph with two left operands `W1` (node 0, the 2 × 2 matrix with columns
`(1, 2)` and `(3, 4)`) and `W2` (node 1, columns `(1, 0)` and `(0, 1)`), a right
operand `M` of shape `{2, 1}` (node 2, a matrix with the one column `(1, 1)`),
five vectors of length 2 (nodes 3 to 7), and the products `W1 * v3` (node 8),
`W1 * M` of shape `{2, 1}` (node 9), `W1 * v4` (node 10), `W2 * v5` (node 11),
`W2 * v6` (node 12) and `W2 * v7` (node 13).  Every product has as many elements
as its left operand has rows. -/
def mixedLeftGraph : ComputationGraph Int :=
  ⟨[shapedInput [2, 2] [1, 2, 3, 4],
    shapedInput [2, 2] [1, 0, 0, 1],
    shapedInput [2, 1] [1, 1],
    shapedInput [2] [1, 0], shapedInput [2] [0, 1], shapedInput [2] [1, 1],
    shapedInput [2] [2, 0], shapedInput [2] [0, 2],
    matmulNode 0 3 [2], matmulNode 0 2 [2, 1], matmulNode 0 4 [2],
    matmulNode 1 5 [2], matmulNode 1 6 [2], matmulNode 1 7 [2]], []⟩

/-- The machine after a fresh `incremental_forward` over the whole graph
`mixedLeftGraph`. -/
def mixedLeftRun : Machine Int × Except Fault Tensor :=
  incremental_forward mixedLeftGraph (Machine.init 0 1024 4096 32) 13

/-- The kernel invocation that `do_node` makes for node `nid`. -/
def doNodeCall {α : Type} (cg : ComputationGraph α) (nfxs : List Tensor) (nid : Nat) :
    KernelCall :=
  ⟨nid, (vget cg.nodes nid).args.map (fun arg => vget nfxs arg), vget nfxs nid⟩

/-- The class that `eval_matrix_multiply` gives to member `i` of the group `nids`:
`0` for `by_type[0]`, `1` for `by_type[1]`. -/
def memberClass {α : Type} (nids : List Nat) (cg : ComputationGraph α)
    (nfxs : List Tensor) (i : Nat) : Nat :=
  matmulClass
    (vget nfxs (vget (nids.map (fun nid => vget (vget cg.nodes nid).args 0)) i))
    (vget nfxs (vget (nids.map (fun nid => vget (vget cg.nodes nid).args 1)) i))

/-- The map `by_first_arg` that `eval_matrix_multiply` builds for the group
`nids`: for every left operand of a member of `by_type[0]`, the right operands of
these members. -/
def byFirstArg {α : Type} (nids : List Nat) (cg : ComputationGraph α)
    (nfxs : List Tensor) : List (Nat × List Nat) :=
  ((List.range nids.length).filter (fun i => memberClass nids cg nfxs i = 0)).foldl
    (fun m i => mapPush (fun k => k) m
      (vget (nids.map (fun nid => vget (vget cg.nodes nid).args 0)) i)
      (vget (nids.map (fun nid => vget (vget cg.nodes nid).args 1)) i)) []

/-- The devices of `w2` are those of `w1` up to the mark `used` of the value pool
of device `d`. -/
def PoolsUpTo {α : Type} (d : Nat) (w1 w2 : World α) : Prop :=
  ∃ u, w2.devices = (w1.setUsed d u).devices

/-- The memory planner of `incremental_forward(upto)` taken alone: the pass
without the dispatch loops, that is, the planner loop over the type-groups of
every bucket, from the same start. -/
def plannerPass {α : Type} (cg : ComputationGraph α) (m : Machine α) (upto : Nat) : Pass α :=
  let already_evaluated := m.eng.num_nodes_evaluated
  let w0 := if already_evaluated = 0 then m.w.freeAll else m.w
  let sched := compute_depths cg.argTable already_evaluated m.eng.toSched upto
  let nfxs := vresize m.eng.nfxs (upto + 1)
  (List.range sched.by_depth.length).foldl
    (fun p d => (groupByType cg already_evaluated (vget sched.by_depth d)).foldl
      (planGroup cg) p) ⟨nfxs, w0, none⟩

/-- Two states of a pass with the same value cache, the same devices (pools and
their marks) and the same pending exception. -/
def PlanEq {α : Type} (p q : Pass α) : Prop :=
  p.nfxs = q.nfxs ∧ p.w.devices = q.w.devices ∧ p.fault = q.fault

/-- The bytes that a recorded call of `allocate` has taken from `pool`: the
rounded request, or nothing when the call returned the null pointer. -/
def allocBytes (pool : Pool) (a : AllocCall) : Nat :=
  if a.result.isSome then pool.round_up_align a.bytes else 0

/-- The bytes that a list of recorded calls of `allocate` has taken from `pool`. -/
def allocsTotal (pool : Pool) (l : List AllocCall) : Nat :=
  (l.map (allocBytes pool)).sum

/-- Since the state `w1` the value pool of device 0 has been moved by calls of
`allocate` only: the record of allocations has grown by `ext`, all on device 0,
and the mark `used` has advanced by the bytes these calls have taken. -/
def PoolSum {α : Type} (w1 w2 : World α) (ext : List AllocCall) : Prop :=
  w2.allocs = w1.allocs ++ ext ∧ w2.calls = w1.calls ∧
  (vget w2.devices 0).fxs.align = (vget w1.devices 0).fxs.align ∧
  w2.used 0 = w1.used 0 + allocsTotal (vget w1.devices 0).fxs ext

/-- The graph `x0 = input (5, 6)`, `x1 = f(x0)`, `x2 = f(x1)`, `x3 = input (7, 8)`,
`x4 = f(x3)` and `x5 = ... = x14 = f(x4)`, with `f` adding 10 to every element and
all the nodes `f(..)` of type `Tanh`. -/
def staleBucketGraph : ComputationGraph Int :=
  ⟨[inputNode [5, 6], ewiseNode NodeType.Tanh (fun x => x + 10) 2 0,
    ewiseNode NodeType.Tanh (fun x => x + 10) 2 1,
    inputNode [7, 8], ewiseNode NodeType.Tanh (fun x => x + 10) 2 3] ++
    List.replicate 10 (ewiseNode NodeType.Tanh (fun x => x + 10) 2 4), []⟩

/-- The machine after `incremental_forward(4)` over `staleBucketGraph` on a fresh
engine. -/
def staleBucketFirst : Machine Int × Except Fault Tensor :=
  incremental_forward staleBucketGraph (Machine.init 0 1024 4096 32) 4

/-- The machine after `incremental_forward(4)` and then `incremental_forward(14)`
over `staleBucketGraph` on a fresh engine. -/
def staleBucketIncremental : Machine Int × Except Fault Tensor :=
  incremental_forward staleBucketGraph staleBucketFirst.1 14

/-- The machine after a single `incremental_forward(14)` over `staleBucketGraph` on
a fresh engine. -/
def staleBucketScratch : Machine Int × Except Fault Tensor :=
  incremental_forward staleBucketGraph (Machine.init 0 1024 4096 32) 14

/-- The example scenario of 12 inputs and 12 `tanh` nodes on a device whose value
pool has 400 bytes: enough for the two blocks of the memory planner (192 bytes
each), not for the concatenated input of the fused group (192 bytes more). -/
def tanhScenarioSmallPool : Machine Sym × Except Fault Tensor :=
  incremental_forward tanhScenario (Machine.init Sym.zero 1024 400 32) 23

/-- The graph `eligibleGraph` on a device whose value pool has 300 bytes: enough
for the two blocks of the memory planner (96 and 64 bytes) and for the
concatenated right operands (96 bytes), not for the staged result (64 bytes
more). -/
def eligibleSmallPool : Machine Int × Except Fault Tensor :=
  incremental_forward eligibleGraph (Machine.init 0 1024 300 32) 12

/-! ## Shape rules (`dim_forward` in `nodes-common.cc`) -/

/-- Modelled from the spec: the two ways in which a shape rule fails, a failed
`DYNET_ARG_CHECK` (which throws `std::invalid_argument`) and a failed
`DYNET_ASSERT` (both declared in `dynet/except.h`, which is not part of the
sources). -/
inductive DimError where
  | invalid_argument
  | failed_assert
deriving DecidableEq, Repr

/-- The method `Sqrt::dim_forward`. -/
def Sqrt.dim_forward (xs : List Dim) : Except DimError Dim :=
  if xs.length ≠ 1 then Except.error DimError.invalid_argument else Except.ok (vget xs 0)

/-- The method `Erf::dim_forward`. -/
def Erf.dim_forward (xs : List Dim) : Except DimError Dim :=
  if xs.length ≠ 1 then Except.error DimError.invalid_argument else Except.ok (vget xs 0)

/-- The method `Tanh::dim_forward`. -/
def Tanh.dim_forward (xs : List Dim) : Except DimError Dim :=
  if xs.length ≠ 1 then Except.error DimError.invalid_argument else Except.ok (vget xs 0)

/-- The method `Exp::dim_forward`. -/
def Exp.dim_forward (xs : List Dim) : Except DimError Dim :=
  if xs.length ≠ 1 then Except.error DimError.invalid_argument else Except.ok (vget xs 0)

/-- The method `LogGamma::dim_forward`. -/
def LogGamma.dim_forward (xs : List Dim) : Except DimError Dim :=
  if xs.length ≠ 1 then Except.error DimError.invalid_argument else Except.ok (vget xs 0)

/-- The method `Log::dim_forward`. -/
def Log.dim_forward (xs : List Dim) : Except DimError Dim :=
  if xs.length ≠ 1 then Except.error DimError.invalid_argument else Except.ok (vget xs 0)

/-- The method `Negate::dim_forward`. -/
def Negate.dim_forward (xs : List Dim) : Except DimError Dim :=
  if xs.length ≠ 1 then Except.error DimError.invalid_argument else Except.ok (vget xs 0)

/-- The method `Rectify::dim_forward`. -/
def Rectify.dim_forward (xs : List Dim) : Except DimError Dim :=
  if xs.length ≠ 1 then Except.error DimError.invalid_argument else Except.ok (vget xs 0)

/-- The method `LogisticSigmoid::dim_forward`; its input count check is a
`DYNET_ASSERT`. -/
def LogisticSigmoid.dim_forward (xs : List Dim) : Except DimError Dim :=
  if xs.length ≠ 1 then Except.error DimError.failed_assert else Except.ok (vget xs 0)

/-- The shape rule of the node class behind each tag of `ewise_unary_nodes`
(`Sigmoid` is the tag of the class `LogisticSigmoid`); no rule is given here for
the other tags. -/
def ewiseShapeRule : NodeType → Option (List Dim → Except DimError Dim)
  | .Tanh => some Tanh.dim_forward
  | .Rectify => some Rectify.dim_forward
  | .Sigmoid => some LogisticSigmoid.dim_forward
  | .Erf => some Erf.dim_forward
  | .Sqrt => some Sqrt.dim_forward
  | .Exp => some Exp.dim_forward
  | .LogGamma => some LogGamma.dim_forward
  | .Log => some Log.dim_forward
  | .Negate => some Negate.dim_forward
  | _ => none

/-- The method `Reshape::dim_forward`, for the target shape `to_dim` (the field
`to`; `batch_elems()` is the batch count `bd`). -/
def Reshape.dim_forward (to_dim : Dim) (xs : List Dim) : Except DimError Dim :=
  if xs.length ≠ 1 then Except.error DimError.invalid_argument
  else if to_dim.size = (vget xs 0).size then Except.ok to_dim
  else if ¬ (to_dim.bd = 1 ∧ to_dim.batch_size = (vget xs 0).batch_size) then
    Except.error DimError.invalid_argument
  else Except.ok { to_dim with bd := (vget xs 0).bd }

/-- The `unsigned` value of `c - n + 1`. -/
def kmhNewCols (c n : Nat) : Nat := ((((c : Int) - (n : Int) + 1) % 2 ^ 32)).toNat

/-- The method `KMHNGram::dim_forward`, for the n-gram width `n` (an `unsigned`). -/
def KMHNGram.dim_forward (n : Nat) (xs : List Dim) : Except DimError Dim :=
  if (vget xs 0).nd ≠ 2 then Except.error DimError.invalid_argument
  else
    let new_cols := kmhNewCols (vget xs 0).cols n
    if ¬ (new_cols ≥ 1) then Except.error DimError.invalid_argument
    else Except.ok (Dim.ofList [vget (vget xs 0).d 0, new_cols])

/-- The method `StdDimension::dim_forward`, for the fields `dims` and
`include_batch_dim`.  The method `Dim::delete_dims` is declared in `dynet/dim.h`,
which is not part of the sources; it is the parameter `delete_dims`. -/
def StdDimension.dim_forward (delete_dims : Dim → List Nat → Bool → Except DimError Dim)
    (dims : List Nat) (include_batch_dim : Bool) (xs : List Dim) : Except DimError Dim :=
  if xs.length ≠ 1 then Except.error DimError.failed_assert
  else if ¬ ((vget xs 0).nd ≤ 3) then Except.error DimError.invalid_argument
  else if ¬ (∀ d ∈ dims, d ≤ (vget xs 0).nd) then Except.error DimError.invalid_argument
  else if ¬ (dims.length ≤ 2) then Except.error DimError.invalid_argument
  else if dims.length = 0 ∧ include_batch_dim = false then
    Except.error DimError.invalid_argument
  else delete_dims (vget xs 0) dims include_batch_dim

/-- The method `MomentDimension::dim_forward`, for the fields `dims`, `order` and
`include_batch_dim`.  The method `Dim::delete_dims` is declared in `dynet/dim.h`,
which is not part of the sources; it is the parameter `delete_dims`. -/
def MomentDimension.dim_forward (delete_dims : Dim → List Nat → Bool → Except DimError Dim)
    (dims : List Nat) (order : Nat) (include_batch_dim : Bool) (xs : List Dim) :
    Except DimError Dim :=
  if xs.length ≠ 1 then Except.error DimError.failed_assert
  else if ¬ ((vget xs 0).nd ≤ 3) then Except.error DimError.invalid_argument
  else if ¬ (∀ d ∈ dims, d ≤ (vget xs 0).nd) then Except.error DimError.invalid_argument
  else if ¬ (order ≥ 1) then Except.error DimError.invalid_argument
  else if ¬ (dims.length ≤ 2) then Except.error DimError.invalid_argument
  else if dims.length = 0 ∧ include_batch_dim = false then
    Except.error DimError.invalid_argument
  else delete_dims (vget xs 0) dims include_batch_dim

/-! ## Groups whose total element count exceeds the range of `unsigned` -/

/-- A graph of 12 input nodes of `2 ^ 31` elements each, all zero (nodes 0 to 11),
and 12 `Exp` nodes (nodes 12 to 23), the `i`-th applied to the `i`-th input; the
kernel of the `Exp` nodes applies `v + 1` to each element `v`. -/
def wrapGroupGraph : ComputationGraph Int :=
  ⟨(List.range 12).map (fun _ => shapedInput [2147483648] (List.replicate 2147483648 0)) ++
    (List.range 12).map (fun i => ewiseNode NodeType.Exp (fun v => v + 1) 2147483648 i), []⟩

/-- The type-group of the 12 `Exp` nodes of `wrapGroupGraph`. -/
def wrapGroup : List Nat := [12, 13, 14, 15, 16, 17, 18, 19, 20, 21, 22, 23]

/-- A value cache for `wrapGroupGraph`: 24 tensors of `2 ^ 31` floats each on
device 0, one after the other from address 1024 on, so that the outputs of the
`Exp` nodes lie one after the other behind the inputs. -/
def wrapGroupNfxs : List Tensor :=
  (List.range 24).map (fun i => ⟨Dim.ofList [2147483648], 1024 + 8589934592 * i, 0⟩)

/-- A world for `wrapGroupNfxs`: one device whose value pool, of `2 ^ 40` bytes at
address 1024, holds the 24 tensors, and a memory that is zero everywhere. -/
def wrapGroupWorld : World Int :=
  ⟨[⟨⟨1024, 1099511627776, 206158430208, 32⟩, default⟩], fun _ => 0, [], [], []⟩

theorem vget_vset_eq {α : Type} [Inhabited α] (v : List α) (i : Nat) (x : α)
    (h : i < v.length) : vget (vset v i x) i = x := by
  simp [vget, vset, List.getD_eq_getElem?_getD, List.getElem?_set, h]

theorem vget_vset_ne {α : Type} [Inhabited α] (v : List α) (i j : Nat) (x : α)
    (h : i ≠ j) : vget (vset v i x) j = vget v j := by
  simp [vget, vset, List.getD_eq_getElem?_getD, List.getElem?_set, h]

theorem length_vset {α : Type} (v : List α) (i : Nat) (x : α) :
    (vset v i x).length = v.length := by
  simp [vset]

theorem length_vresize {α : Type} [Inhabited α] (v : List α) (n : Nat) :
    (vresize v n).length = n := by
  simp [vresize]; omega

theorem vget_of_length_le {α : Type} [Inhabited α] (v : List α) (i : Nat)
    (h : v.length ≤ i) : vget v i = default := by
  simp [vget, List.getD_eq_getElem?_getD, List.getElem?_eq_none h]

theorem vget_vresize_nil {α : Type} [Inhabited α] (n i : Nat) :
    vget (vresize ([] : List α) n) i = default := by
  by_cases h : i < n
  · simp [vget, vresize, List.getD_eq_getElem?_getD, List.getElem?_replicate, h]
  · simp [vget, vresize, List.getD_eq_getElem?_getD, List.getElem?_replicate, h]

theorem length_vpush (v : List (List Nat)) (i x : Nat) :
    (vpush v i x).length = v.length := by
  simp [vpush, length_vset]

theorem mem_vget_vpush (v : List (List Nat)) (i x j y : Nat) (h : i < v.length) :
    y ∈ vget (vpush v i x) j ↔ y ∈ vget v j ∨ (j = i ∧ y = x) := by
  unfold vpush
  by_cases hij : i = j
  · subst hij
    rw [vget_vset_eq _ _ _ h]
    simp
  · rw [vget_vset_ne _ _ _ _ hij]
    constructor
    · intro hy; exact Or.inl hy
    · rintro (hy | ⟨hji, _⟩)
      · exact hy
      · exact absurd hji.symm hij

theorem forUp_inv {σ : Type} (f : Nat → σ → σ) (I : Nat → σ → Prop) :
    ∀ (count start : Nat) (s : σ), I start s →
      (∀ j t, start ≤ j → j < start + count → I j t → I (j + 1) (f j t)) →
      I (start + count) (forUp f start count s) := by
  intro count
  induction count with
  | zero => intro start s h0 _; simpa [forUp] using h0
  | succ n ih =>
    intro start s h0 hstep
    have h1 : I (start + 1) (f start s) := hstep start s (Nat.le_refl _) (by omega) h0
    have := ih (start + 1) (f start s) h1
      (fun j t hj1 hj2 hI => hstep j t (by omega) (by omega) hI)
    simpa [forUp, Nat.add_assoc, Nat.add_comm 1 n] using this

theorem forDown_inv {σ : Type} (f : Nat → σ → σ) (lo : Nat) (I : Nat → σ → Prop) :
    ∀ (count : Nat) (s : σ), I (lo + count) s →
      (∀ m t, m < count → I (lo + m + 1) t → I (lo + m) (f (lo + m) t)) →
      I lo (forDown f lo count s) := by
  intro count
  induction count with
  | zero => intro s h0 _; simpa [forDown] using h0
  | succ n ih =>
    intro s h0 hstep
    have h1 : I (lo + n) (f (lo + n) s) := hstep n s (by omega) (by simpa [Nat.add_assoc] using h0)
    exact ih (f (lo + n) s) h1 (fun m t hm hI => hstep m t (by omega) hI)

/-! ## The first loop of the scheduler -/

theorem depthArgStep_spec (k n a : Nat) (s : DepthAcc) (hk : k < n) (ha : a < k)
    (hd : s.depths.length = n) (hp : s.parents.length = n) :
    (depthArgStep k s a).depths.length = n ∧
    (depthArgStep k s a).parents.length = n ∧
    (∀ b p, p ∈ vget (depthArgStep k s a).parents b ↔
      p ∈ vget s.parents b ∨ (b = a ∧ p = k)) ∧
    (∀ j, j ≠ k → vget (depthArgStep k s a).depths j = vget s.depths j) ∧
    vget s.depths k ≤ vget (depthArgStep k s a).depths k ∧
    vget s.depths a + 1 ≤ vget (depthArgStep k s a).depths k ∧
    s.max_depth ≤ (depthArgStep k s a).max_depth ∧
    (vget s.depths k ≤ s.max_depth →
      vget (depthArgStep k s a).depths k ≤ (depthArgStep k s a).max_depth) := by
  have hkd : k < s.depths.length := by omega
  have hap : a < s.parents.length := by omega
  have hpar : ∀ b p, p ∈ vget (vpush s.parents a k) b ↔
      p ∈ vget s.parents b ∨ (b = a ∧ p = k) :=
    fun b p => mem_vget_vpush s.parents a k b p hap
  unfold depthArgStep
  by_cases h1 : vget s.depths a + 1 > vget s.depths k
  · have hnew : vget (vset s.depths k (vget s.depths a + 1)) k = vget s.depths a + 1 :=
      vget_vset_eq _ _ _ hkd
    by_cases h2 : vget (vset s.depths k (vget s.depths a + 1)) k > s.max_depth
    · rw [if_pos h1, if_pos h2]
      dsimp only
      refine ⟨by rw [length_vset]; exact hd, by rw [length_vpush]; exact hp, hpar,
        fun j hj => vget_vset_ne _ _ _ _ (Ne.symm hj), ?_, ?_, ?_, ?_⟩
      · rw [hnew]; omega
      · rw [hnew]
      · rw [hnew] at h2 ⊢; omega
      · intro _; exact le_refl _
    · rw [if_pos h1, if_neg h2]
      dsimp only
      refine ⟨by rw [length_vset]; exact hd, by rw [length_vpush]; exact hp, hpar,
        fun j hj => vget_vset_ne _ _ _ _ (Ne.symm hj), ?_, ?_, le_refl _, ?_⟩
      · rw [hnew]; omega
      · rw [hnew]
      · intro _; rw [hnew] at h2 ⊢; omega
  · rw [if_neg h1]
    dsimp only
    refine ⟨hd, by rw [length_vpush]; exact hp, hpar, fun j _ => rfl, le_refl _, ?_,
      le_refl _, fun h => h⟩
    omega

theorem depthNodeFold_spec (k n : Nat) (hk : k < n) :
    ∀ (L : List Nat) (s : DepthAcc), (∀ a ∈ L, a < k) →
      s.depths.length = n → s.parents.length = n →
      (L.foldl (depthArgStep k) s).depths.length = n ∧
      (L.foldl (depthArgStep k) s).parents.length = n ∧
      (∀ b p, p ∈ vget (L.foldl (depthArgStep k) s).parents b ↔
        p ∈ vget s.parents b ∨ (p = k ∧ b ∈ L)) ∧
      (∀ j, j ≠ k → vget (L.foldl (depthArgStep k) s).depths j = vget s.depths j) ∧
      vget s.depths k ≤ vget (L.foldl (depthArgStep k) s).depths k ∧
      (∀ a ∈ L, vget s.depths a + 1 ≤ vget (L.foldl (depthArgStep k) s).depths k) ∧
      s.max_depth ≤ (L.foldl (depthArgStep k) s).max_depth ∧
      (vget s.depths k ≤ s.max_depth →
        vget (L.foldl (depthArgStep k) s).depths k ≤
          (L.foldl (depthArgStep k) s).max_depth) := by
  intro L
  induction L with
  | nil =>
    intro s _ hd hp
    exact ⟨hd, hp, by simp, fun _ _ => rfl, le_refl _, by simp, le_refl _, fun h => h⟩
  | cons a L ih =>
    intro s hL hd hp
    have ha : a < k := hL a (List.mem_cons_self _ _)
    obtain ⟨s1d, s1p, s1par, s1oth, s1k, s1a, s1m, s1b⟩ :=
      depthArgStep_spec k n a s hk ha hd hp
    obtain ⟨r1, r2, r3, r4, r5, r6, r7, r8⟩ :=
      ih (depthArgStep k s a) (fun b hb => hL b (List.mem_cons_of_mem _ hb)) s1d s1p
    simp only [List.foldl_cons]
    refine ⟨r1, r2, ?_, ?_, le_trans s1k r5, ?_, le_trans s1m r7, fun h => r8 (s1b h)⟩
    · intro b p
      rw [r3 b p, s1par b p, List.mem_cons]
      constructor
      · rintro ((h | ⟨hb, hp⟩) | ⟨hp, hb⟩)
        · exact Or.inl h
        · exact Or.inr ⟨hp, Or.inl hb⟩
        · exact Or.inr ⟨hp, Or.inr hb⟩
      · rintro (h | ⟨hp, hb | hb⟩)
        · exact Or.inl (Or.inl h)
        · exact Or.inl (Or.inr ⟨hb, hp⟩)
        · exact Or.inr ⟨hp, hb⟩
    · intro j hj
      rw [r4 j hj, s1oth j hj]
    · intro b hb
      rcases List.mem_cons.1 hb with hba | hbL
      · subst hba; exact le_trans s1a r5
      · have hbk : b ≠ k := Nat.ne_of_lt (hL b hb)
        have := r6 b hbL
        rw [s1oth b hbk] at this
        exact this

theorem vget_vset {α : Type} [Inhabited α] (v : List α) (i j : Nat) (x : α) :
    vget (vset v i x) j = if i = j ∧ i < v.length then x else vget v j := by
  by_cases hij : i = j
  · subst hij
    by_cases hi : i < v.length
    · rw [vget_vset_eq _ _ _ hi]; simp [hi]
    · have h1 : ¬ (i = i ∧ i < v.length) := fun h => hi h.2
      rw [if_neg h1, vget_of_length_le _ _ (by rw [length_vset]; omega),
        vget_of_length_le _ _ (by omega)]
  · have h1 : ¬ (i = j ∧ i < v.length) := fun h => hij h.1
    rw [if_neg h1, vget_vset_ne _ _ _ _ hij]

theorem fillZero_fresh (a upto : Nat) (d : List Int) (hz : ∀ j, vget d j = 0) :
    (fillZero d a upto).length = d.length ∧ ∀ j, vget (fillZero d a upto) j = 0 := by
  unfold fillZero
  have := forUp_inv (fun j d => vset d j 0)
    (fun _ (t : List Int) => t.length = d.length ∧ ∀ j, vget t j = 0)
    (upto + 1 - a) a d ⟨rfl, hz⟩
    (fun j t _ _ ht => ⟨by rw [length_vset]; exact ht.1, fun i => by
      rw [vget_vset]; split
      · rfl
      · exact ht.2 i⟩)
  exact this

theorem depthNodeStep_inv (args : ArgTable) (hdag : IsDAG args) (n k : Nat) (hk : k < n)
    (s : DepthAcc) (h : EarliestInv args n k s) :
    EarliestInv args n (k + 1) (depthNodeStep args k s) := by
  obtain ⟨hd, hp, hpar, hle, hb, hz⟩ := h
  have hL : ∀ a ∈ vget args k, a < k := fun a ha => hdag k a ha
  obtain ⟨r1, r2, r3, r4, r5, r6, r7, r8⟩ :=
    depthNodeFold_spec k n hk (vget args k) s hL hd hp
  unfold depthNodeStep
  refine ⟨r1, r2, ?_, ?_, ?_, ?_⟩
  · intro b p
    rw [r3 b p, hpar b p]
    constructor
    · rintro (⟨h1, h2⟩ | ⟨h1, h2⟩)
      · exact ⟨by omega, h2⟩
      · subst h1; exact ⟨by omega, h2⟩
    · rintro ⟨h1, h2⟩
      rcases Nat.lt_succ_iff_lt_or_eq.1 h1 with h3 | h3
      · exact Or.inl ⟨h3, h2⟩
      · subst h3; exact Or.inr ⟨rfl, h2⟩
  · intro j hj a ha
    have haj : a < j := hdag j a ha
    rcases Nat.lt_succ_iff_lt_or_eq.1 hj with h3 | h3
    · rw [r4 a (by omega), r4 j (by omega)]
      exact hle j h3 a ha
    · subst h3
      have := r6 a ha
      rw [r4 a (by omega)]
      exact this
  · intro j
    by_cases hjk : j = k
    · subst hjk
      exact ⟨le_trans (hb j).1 r5, r8 (hb j).2⟩
    · rw [r4 j hjk]
      exact ⟨(hb j).1, le_trans (hb j).2 r7⟩
  · intro j hj
    rw [r4 j (by omega)]
    exact hz j (by omega)

theorem computeEarliest_fresh (args : ArgTable) (hdag : IsDAG args) (upto : Nat) :
    EarliestInv args (upto + 1) (upto + 1) (computeEarliest args 0 Sched.fresh upto) := by
  unfold computeEarliest
  have hz : ∀ j, vget (vresize ([] : List Int) (upto + 1)) j = 0 :=
    fun j => vget_vresize_nil (upto + 1) j
  obtain ⟨f1, f2⟩ := fillZero_fresh 0 upto _ hz
  have h0 : EarliestInv args (upto + 1) 0
      ⟨fillZero (vresize Sched.fresh.depths (upto + 1)) 0 upto,
        vresize Sched.fresh.parents (upto + 1), 0⟩ := by
    refine ⟨?_, ?_, ?_, ?_, ?_, ?_⟩
    · show (fillZero (vresize ([] : List Int) (upto + 1)) 0 upto).length = upto + 1
      rw [f1, length_vresize]
    · exact length_vresize _ _
    · intro a p
      show p ∈ vget (vresize ([] : List (List Nat)) (upto + 1)) a ↔ _
      rw [vget_vresize_nil]
      constructor
      · intro h; cases h
      · rintro ⟨h, _⟩; omega
    · intro j hj; omega
    · intro j
      show 0 ≤ vget (fillZero (vresize ([] : List Int) (upto + 1)) 0 upto) j ∧
        vget (fillZero (vresize ([] : List Int) (upto + 1)) 0 upto) j ≤ 0
      rw [f2 j]; exact ⟨le_refl _, le_refl _⟩
    · intro j _
      exact f2 j
  have := forUp_inv (depthNodeStep args) (fun k s => EarliestInv args (upto + 1) k s)
    (upto + 1 - 0) 0 _ h0
    (fun j t _ hj ht => depthNodeStep_inv args hdag (upto + 1) j (by omega) t ht)
  simpa using this

/-! ## The second loop of the scheduler -/

theorem foldMin_spec (d2 : List Int) :
    ∀ (ps : List Nat) (m0 : Int),
      let r := ps.foldl (fun m p => if vget d2 p < m then vget d2 p else m) m0
      r ≤ m0 ∧ (∀ p ∈ ps, r ≤ vget d2 p) ∧ (r = m0 ∨ ∃ p ∈ ps, r = vget d2 p) := by
  intro ps
  induction ps with
  | nil => intro m0; simp
  | cons q ps ih =>
    intro m0
    simp only [List.foldl_cons]
    obtain ⟨h1, h2, h3⟩ := ih (if vget d2 q < m0 then vget d2 q else m0)
    have hq : (if vget d2 q < m0 then vget d2 q else m0) ≤ m0 ∧
        (if vget d2 q < m0 then vget d2 q else m0) ≤ vget d2 q := by
      split <;> constructor <;> omega
    refine ⟨le_trans h1 hq.1, ?_, ?_⟩
    · intro p hp
      rcases List.mem_cons.1 hp with hpq | hpp
      · subst hpq; exact le_trans h1 hq.2
      · exact h2 p hpp
    · rcases h3 with h3 | ⟨p, hp, hpe⟩
      · by_cases hlt : vget d2 q < m0
        · exact Or.inr ⟨q, List.mem_cons_self _ _, h3.trans (if_pos hlt)⟩
        · exact Or.inl (h3.trans (if_neg hlt))
      · exact Or.inr ⟨p, List.mem_cons_of_mem _ hp, hpe⟩

theorem minOfParents_spec (d2 : List Int) (max_depth : Int) (ps : List Nat) :
    minOfParents d2 max_depth ps ≤ max_depth + 1 ∧
    (∀ p ∈ ps, minOfParents d2 max_depth ps ≤ vget d2 p) ∧
    (minOfParents d2 max_depth ps = max_depth + 1 ∨
      ∃ p ∈ ps, minOfParents d2 max_depth ps = vget d2 p) :=
  foldMin_spec d2 ps (max_depth + 1)

theorem latestStep_inv (args : ArgTable) (hdag : IsDAG args) (n k : Nat) (hk : k < n)
    (a : DepthAcc) (ha : EarliestInv args n n a) (d2 : List Int)
    (h : LatestInv a n (k + 1) d2) :
    LatestInv a n k (latestStep a.parents a.max_depth k d2) := by
  obtain ⟨_, _, hpar, hle, hb, _⟩ := ha
  obtain ⟨hlen, hinv⟩ := h
  obtain ⟨m1, m2, m3⟩ := minOfParents_spec d2 a.max_depth (vget a.parents k)
  have hkl : k < d2.length := by omega
  unfold latestStep
  refine ⟨by rw [length_vset]; exact hlen, ?_⟩
  intro j hkj hjn
  have hparent : ∀ p ∈ vget a.parents j, j < p ∧ p < n ∧ j ∈ vget args p := by
    intro p hp
    have := (hpar j p).1 hp
    exact ⟨hdag p j this.2, this.1, this.2⟩
  by_cases hjk : j = k
  · subst hjk
    rw [vget_vset_eq _ _ _ hkl]
    refine ⟨?_, by omega, ?_⟩
    · rcases m3 with m3 | ⟨p, hp, m3⟩
      · rw [m3]; have := (hb j).2; omega
      · obtain ⟨hjp, hpn, hjarg⟩ := hparent p hp
        have h1 := hle p hpn j hjarg
        have h2 := (hinv p (by omega) hpn).1
        rw [m3]; omega
    · intro p hp
      obtain ⟨hjp, _, _⟩ := hparent p hp
      rw [vget_vset_ne _ _ _ _ (by omega)]
      have := m2 p hp
      omega
  · have hjk2 : k + 1 ≤ j := by omega
    obtain ⟨i1, i2, i3⟩ := hinv j hjk2 hjn
    rw [vget_vset_ne _ _ _ _ (Ne.symm hjk)]
    refine ⟨i1, i2, ?_⟩
    intro p hp
    obtain ⟨hjp, _, _⟩ := hparent p hp
    rw [vget_vset_ne _ _ _ _ (by omega)]
    exact i3 p hp

theorem computeLatest_fresh (args : ArgTable) (hdag : IsDAG args) (upto : Nat)
    (a : DepthAcc) (ha : EarliestInv args (upto + 1) (upto + 1) a) :
    LatestInv a (upto + 1) 0 (computeLatest 0 Sched.fresh upto a) := by
  unfold computeLatest
  have h0 : LatestInv a (upto + 1) (0 + (upto + 1 - 0))
      (vset (vresize Sched.fresh.depths2 (upto + 1)) upto (a.max_depth + 1)) := by
    refine ⟨by rw [length_vset, length_vresize], ?_⟩
    intro j h1 h2; omega
  have := forDown_inv (latestStep a.parents a.max_depth) 0
    (fun k d2 => LatestInv a (upto + 1) k d2) (upto + 1 - 0) _ h0
    (fun m t hm ht => by
      have := latestStep_inv args hdag (upto + 1) (0 + m) (by omega) a ha t ht
      exact this)
  exact this

/-! ## The third loop of the scheduler -/

theorem bucketStep_inv (d2 : List Int) (m k : Nat) (bd : List (List Nat))
    (h0 : 0 ≤ vget d2 k) (hm : vget d2 k < (m : Int)) (h : BucketInv d2 m k bd) :
    BucketInv d2 m (k + 1) (bucketStep d2 k bd) := by
  obtain ⟨hlen, hmem⟩ := h
  unfold bucketStep
  rw [if_pos h0]
  have hidx : (vget d2 k).toNat < bd.length := by omega
  refine ⟨by rw [length_vpush]; exact hlen, ?_⟩
  intro d j
  rw [mem_vget_vpush _ _ _ _ _ hidx, hmem d j]
  constructor
  · rintro (⟨h1, h2⟩ | ⟨h1, h2⟩)
    · exact ⟨by omega, h2⟩
    · subst h2; exact ⟨by omega, by omega⟩
  · rintro ⟨h1, h2⟩
    rcases Nat.lt_succ_iff_lt_or_eq.1 h1 with h3 | h3
    · exact Or.inl ⟨h3, h2⟩
    · subst h3; exact Or.inr ⟨by omega, rfl⟩

/-- What `compute_depths(upto)` leaves behind on a freshly constructed engine over
a graph whose arguments precede their nodes. -/
theorem compute_depths_fresh (args : ArgTable) (hdag : IsDAG args) (upto : Nat) :
    EarliestInv args (upto + 1) (upto + 1) (computeEarliest args 0 Sched.fresh upto) ∧
    (compute_depths args 0 Sched.fresh upto).depths =
      (computeEarliest args 0 Sched.fresh upto).depths ∧
    (compute_depths args 0 Sched.fresh upto).parents =
      (computeEarliest args 0 Sched.fresh upto).parents ∧
    LatestInv (computeEarliest args 0 Sched.fresh upto) (upto + 1) 0
      (compute_depths args 0 Sched.fresh upto).depths2 ∧
    BucketInv (compute_depths args 0 Sched.fresh upto).depths2
      ((computeEarliest args 0 Sched.fresh upto).max_depth + 2).toNat (upto + 1)
      (compute_depths args 0 Sched.fresh upto).by_depth := by
  have hE := computeEarliest_fresh args hdag upto
  have hL := computeLatest_fresh args hdag upto _ hE
  refine ⟨hE, rfl, rfl, hL, ?_⟩
  show BucketInv (computeLatest 0 Sched.fresh upto (computeEarliest args 0 Sched.fresh upto))
    ((computeEarliest args 0 Sched.fresh upto).max_depth + 2).toNat (upto + 1)
    (forUp (bucketStep (computeLatest 0 Sched.fresh upto
        (computeEarliest args 0 Sched.fresh upto))) 0
      ((computeLatest 0 Sched.fresh upto
        (computeEarliest args 0 Sched.fresh upto)).length - 0)
      (vresize Sched.fresh.by_depth
        ((computeEarliest args 0 Sched.fresh upto).max_depth + 2).toNat))
  generalize computeEarliest args 0 Sched.fresh upto = a at hE hL ⊢
  generalize computeLatest 0 Sched.fresh upto a = d2 at hL ⊢
  obtain ⟨hlen, hinv⟩ := hL
  have hmax : 0 ≤ a.max_depth := le_trans (hE.2.2.2.2.1 0).1 (hE.2.2.2.2.1 0).2
  have h0 : BucketInv d2 (a.max_depth + 2).toNat 0
      (vresize Sched.fresh.by_depth (a.max_depth + 2).toNat) := by
    refine ⟨length_vresize _ _, ?_⟩
    intro d j
    show j ∈ vget (vresize ([] : List (List Nat)) (a.max_depth + 2).toNat) d ↔ _
    rw [vget_vresize_nil]
    constructor
    · intro h; cases h
    · rintro ⟨h, _⟩; omega
  have := forUp_inv (bucketStep d2) (fun k bd => BucketInv d2 (a.max_depth + 2).toNat k bd)
    (d2.length - 0) 0 _ h0
    (fun j t _ hj ht => by
      have hjn : j < upto + 1 := by omega
      obtain ⟨i1, i2, _⟩ := hinv j (Nat.zero_le _) hjn
      have hd0 := (hE.2.2.2.2.1 j).1
      exact bucketStep_inv d2 _ j t (by omega) (by omega) ht)
  rw [hlen] at this ⊢
  simpa using this

/-! ## Scheduling order -/

theorem vget_argTable {α : Type} (cg : ComputationGraph α) (j : Nat) :
    vget cg.argTable j = (vget cg.nodes j).args := by
  unfold ComputationGraph.argTable vget
  rw [List.getD_eq_getElem?_getD, List.getD_eq_getElem?_getD, List.getElem?_map]
  cases cg.nodes[j]? <;> rfl

theorem foldl_range_split {σ : Type} (f : σ → Nat → σ) (s : σ) (e n : Nat) (h : e ≤ n) :
    (List.range n).foldl f s =
      (List.range' e (n - e)).foldl f ((List.range e).foldl f s) := by
  have h1 : List.range n = List.range e ++ List.range' e (n - e) := by
    rw [List.range_eq_range', List.range_eq_range']
    have := List.range'_append 0 e (n - e) 1
    rw [Nat.one_mul, Nat.zero_add] at this
    rw [this]
    congr 1
    omega
  rw [h1, List.foldl_append]

/-- C1: on a freshly constructed engine over a graph whose arguments precede
their nodes, after `compute_depths(upto)` every node `j ≤ upto` and every argument
`a` of `j` have `depths2[a] < depths2[j]`; both ranks are valid bucket indices,
`a` and `j` lie in the buckets of their ranks and in no other bucket, so every
bucket holding `a` comes before every bucket holding `j`; and the bucket loop of
`incremental_forward`, which walks `by_depth` in increasing `d`, has run all
buckets below the one of `j`, the one of `a` among them, before it starts the
bucket of `j`. -/
theorem compute_depths_args_scheduled_before {α : Type} [Inhabited α]
    (cg : ComputationGraph α) (w : World α) (hdag : IsDAG cg.argTable)
    (upto j a : Nat) (hj : j ≤ upto) (ha : a ∈ (vget cg.nodes j).args) :
    vget (compute_depths cg.argTable 0 Sched.fresh upto).depths2 a <
      vget (compute_depths cg.argTable 0 Sched.fresh upto).depths2 j ∧
    0 ≤ vget (compute_depths cg.argTable 0 Sched.fresh upto).depths2 a ∧
    (vget (compute_depths cg.argTable 0 Sched.fresh upto).depths2 j).toNat <
      (compute_depths cg.argTable 0 Sched.fresh upto).by_depth.length ∧
    (∀ d, a ∈ vget (compute_depths cg.argTable 0 Sched.fresh upto).by_depth d ↔
      d = (vget (compute_depths cg.argTable 0 Sched.fresh upto).depths2 a).toNat) ∧
    (∀ e, j ∈ vget (compute_depths cg.argTable 0 Sched.fresh upto).by_depth e ↔
      e = (vget (compute_depths cg.argTable 0 Sched.fresh upto).depths2 j).toNat) ∧
    (∀ d e, a ∈ vget (compute_depths cg.argTable 0 Sched.fresh upto).by_depth d →
      j ∈ vget (compute_depths cg.argTable 0 Sched.fresh upto).by_depth e →
      d < e ∧ d ∈ List.range e ∧
      forwardPass cg ⟨Engine.fresh, w⟩ upto =
        (List.range' e ((compute_depths cg.argTable 0 Sched.fresh upto).by_depth.length - e)).foldl
          (runBucket cg 0 (compute_depths cg.argTable 0 Sched.fresh upto).by_depth)
          ((List.range e).foldl
            (runBucket cg 0 (compute_depths cg.argTable 0 Sched.fresh upto).by_depth)
            ⟨vresize [] (upto + 1), w.freeAll, none⟩)) := by
  obtain ⟨hE, hdep, hpar, hL, hB⟩ := compute_depths_fresh cg.argTable hdag upto
  obtain ⟨_, _, hparents, _, hbnd, _⟩ := hE
  obtain ⟨_, hinv⟩ := hL
  obtain ⟨hblen, hbmem⟩ := hB
  have ha' : a ∈ vget cg.argTable j := by rw [vget_argTable]; exact ha
  have haj : a < j := hdag j a ha'
  have hjn : j < upto + 1 := by omega
  have han : a < upto + 1 := by omega
  obtain ⟨a1, a2, a3⟩ := hinv a (Nat.zero_le _) han
  obtain ⟨j1, j2, _⟩ := hinv j (Nat.zero_le _) hjn
  have hlt := a3 j ((hparents a j).2 ⟨hjn, ha'⟩)
  have ha0 := (hbnd a).1
  have hj0 := (hbnd j).1
  have hmemA : ∀ d, a ∈ vget (compute_depths cg.argTable 0 Sched.fresh upto).by_depth d ↔
      d = (vget (compute_depths cg.argTable 0 Sched.fresh upto).depths2 a).toNat := by
    intro d
    rw [hbmem d a]
    constructor
    · rintro ⟨_, h⟩; omega
    · intro h; exact ⟨han, by omega⟩
  have hmemJ : ∀ e, j ∈ vget (compute_depths cg.argTable 0 Sched.fresh upto).by_depth e ↔
      e = (vget (compute_depths cg.argTable 0 Sched.fresh upto).depths2 j).toNat := by
    intro e
    rw [hbmem e j]
    constructor
    · rintro ⟨_, h⟩; omega
    · intro h; exact ⟨hjn, by omega⟩
  refine ⟨hlt, by omega, by omega, hmemA, hmemJ, ?_⟩
  intro d e hd he
  have hd' := (hmemA d).1 hd
  have he' := (hmemJ e).1 he
  have hde : d < e := by omega
  have hlen : e ≤ (compute_depths cg.argTable 0 Sched.fresh upto).by_depth.length := by omega
  refine ⟨hde, List.mem_range.2 hde, ?_⟩
  exact foldl_range_split (runBucket cg 0 (compute_depths cg.argTable 0 Sched.fresh upto).by_depth)
    ⟨vresize [] (upto + 1), w.freeAll, none⟩ e
    (compute_depths cg.argTable 0 Sched.fresh upto).by_depth.length hlen

/-- C2: on a freshly constructed engine over a graph whose arguments precede
their nodes, after `compute_depths(upto)` every node `j ≤ upto` has
`depths2[j] ≥ depths[j]`. -/
theorem compute_depths_latest_ge_earliest (args : ArgTable) (hdag : IsDAG args)
    (upto j : Nat) (hj : j ≤ upto) :
    vget (compute_depths args 0 Sched.fresh upto).depths2 j ≥
      vget (compute_depths args 0 Sched.fresh upto).depths j := by
  obtain ⟨_, hdep, _, hL, _⟩ := compute_depths_fresh args hdag upto
  rw [hdep]
  exact (hL.2 j (Nat.zero_le _) (by omega)).1

theorem isDAG_of_check (args : ArgTable) (h : isDAGCheck args = true) : IsDAG args := by
  intro j a ha
  by_cases hj : j < args.length
  · unfold isDAGCheck at h
    rw [List.all_eq_true] at h
    have h1 := h j (List.mem_range.2 hj)
    rw [List.all_eq_true] at h1
    exact of_decide_eq_true (h1 a ha)
  · rw [vget_of_length_le _ _ (by omega)] at ha
    cases ha

theorem compute_depths_args_scheduled_before_witness :
    IsDAG (chainGraph id).argTable ∧ 1 ≤ 1 ∧ 0 ∈ (vget (chainGraph id).nodes 1).args ∧
    vget (compute_depths (chainGraph id).argTable 0 Sched.fresh 1).depths2 0 <
      vget (compute_depths (chainGraph id).argTable 0 Sched.fresh 1).depths2 1 :=
  ⟨isDAG_of_check _ (by decide), by decide, by decide,
    (compute_depths_args_scheduled_before (chainGraph id) (World.init 0 1024 4096 32)
      (isDAG_of_check _ (by decide)) 1 1 0 (by decide) (by decide)).1⟩

theorem compute_depths_latest_ge_earliest_witness :
    IsDAG diamondArgs ∧ 2 ≤ 4 ∧
    vget (compute_depths diamondArgs 0 Sched.fresh 4).depths2 2 ≥
      vget (compute_depths diamondArgs 0 Sched.fresh 4).depths 2 :=
  ⟨isDAG_of_check _ (by decide), by decide,
    compute_depths_latest_ge_earliest diamondArgs (isDAG_of_check _ (by decide)) 4 2
      (by decide)⟩

/-! ## Forward executor: cache test, `forward`, evaluated prefix -/

/-- C3 (the code departs from the claim): on the graph `x1 = f(x0)`, a first
`incremental_forward(1)` on a fresh engine runs the kernels of nodes 0 and 1 and
makes two pool allocations and leaves `num_nodes_evaluated = 1`; the immediately
following `incremental_forward(1)` is not a cache hit: `compute_depths` puts node 1
into its bucket a second time, the planner makes a third allocation, and the
kernel of node 1 runs again, once for each of its two entries in the bucket. -/
theorem incremental_forward_repeat_runs_kernel_again :
    (incremental_forward (chainGraph id) (Machine.init 0 1024 4096 32) 1).1.eng.num_nodes_evaluated
      = 1 ∧
    ((incremental_forward (chainGraph id) (Machine.init 0 1024 4096 32) 1).1.w.calls.map
      KernelCall.node) = [0, 1] ∧
    (incremental_forward (chainGraph id) (Machine.init 0 1024 4096 32) 1).1.w.allocs.length
      = 2 ∧
    ((incremental_forward (chainGraph id)
      (incremental_forward (chainGraph id) (Machine.init 0 1024 4096 32) 1).1 1).1.w.calls.map
      KernelCall.node) = [0, 1, 1, 1] ∧
    (incremental_forward (chainGraph id)
      (incremental_forward (chainGraph id) (Machine.init 0 1024 4096 32) 1).1 1).1.w.allocs.length
      = 3 := by
  decide

/-- C4: when `upto < num_nodes_evaluated`, `incremental_forward(upto)` returns the
cached tensor `nfxs[upto]` and the machine afterwards is the machine before: the
engine fields, every pool, the memory, and the record of kernel invocations and
allocations are unchanged. -/
theorem incremental_forward_cache_hit {α : Type} [Inhabited α] (cg : ComputationGraph α)
    (m : Machine α) (upto : Nat) (h : upto < m.eng.num_nodes_evaluated) :
    incremental_forward cg m upto = (m, Except.ok (vget m.eng.nfxs upto)) := by
  unfold incremental_forward
  rw [if_pos h]

theorem incremental_forward_cache_hit_witness :
    0 < (incremental_forward (chainGraph id) (Machine.init 0 1024 4096 32)
      1).1.eng.num_nodes_evaluated ∧
    incremental_forward (chainGraph id)
      (incremental_forward (chainGraph id) (Machine.init 0 1024 4096 32) 1).1 0 =
      ((incremental_forward (chainGraph id) (Machine.init 0 1024 4096 32) 1).1,
        Except.ok (vget (incremental_forward (chainGraph id)
          (Machine.init 0 1024 4096 32) 1).1.eng.nfxs 0)) :=
  ⟨by decide, incremental_forward_cache_hit _ _ 0 (by decide)⟩

/-- C5: on a freshly constructed engine, in any world, `forward(k)` and
`incremental_forward(k)` give the same machine afterwards (engine arrays, value
cache, pools, memory, record of kernel invocations and allocations) and the same
returned value or exception. -/
theorem forward_fresh_eq_incremental_forward {α : Type} [Inhabited α]
    (cg : ComputationGraph α) (w : World α) (k : Nat) :
    forward cg ⟨Engine.fresh, w⟩ k = incremental_forward cg ⟨Engine.fresh, w⟩ k := by
  rfl

/-- C6: `incremental_forward(upto)` and `get_value(i)` never decrease
`num_nodes_evaluated`; after `incremental_forward(upto)` it is the old value on a
cache hit and when the planner throws, and `upto` when the call is not a cache hit
and returns. -/
theorem num_nodes_evaluated_monotone {α : Type} [Inhabited α] (cg : ComputationGraph α)
    (m : Machine α) (upto : Nat) :
    m.eng.num_nodes_evaluated ≤ (incremental_forward cg m upto).1.eng.num_nodes_evaluated ∧
    m.eng.num_nodes_evaluated ≤ (get_value cg m upto).1.eng.num_nodes_evaluated ∧
    (incremental_forward cg m upto).1.eng.num_nodes_evaluated =
      (if upto < m.eng.num_nodes_evaluated then m.eng.num_nodes_evaluated
       else if (forwardPass cg m upto).fault.isSome then m.eng.num_nodes_evaluated
       else upto) := by
  have key : ∀ u, (incremental_forward cg m u).1.eng.num_nodes_evaluated =
      (if u < m.eng.num_nodes_evaluated then m.eng.num_nodes_evaluated
       else if (forwardPass cg m u).fault.isSome then m.eng.num_nodes_evaluated
       else u) := by
    intro u
    unfold incremental_forward
    by_cases h : u < m.eng.num_nodes_evaluated
    · rw [if_pos h, if_pos h]
    · rw [if_neg h, if_neg h]
      dsimp only
      cases hf : (forwardPass cg m u).fault <;> simp
  have mono : ∀ u, m.eng.num_nodes_evaluated ≤
      (incremental_forward cg m u).1.eng.num_nodes_evaluated := by
    intro u
    rw [key u]
    split
    · exact le_refl _
    · split
      · exact le_refl _
      · omega
  refine ⟨mono upto, ?_, key upto⟩
  unfold get_value
  by_cases h : upto ≥ m.eng.num_nodes_evaluated
  · rw [if_pos h]
    unfold incremental_forward_all
    dsimp only
    cases hr : (incremental_forward cg m (cg.nodes.length - 1)).2 with
    | error f =>
      dsimp only
      exact mono _
    | ok t =>
      dsimp only
      exact mono _
  · rw [if_neg h]

/-! ## Memory planner -/

theorem planNode_of_fault {α : Type} (cg : ComputationGraph α) (acc : Pass α × Nat)
    (nid : Nat) (h : acc.1.fault.isSome = true) : planNode cg acc nid = acc := by
  unfold planNode
  rw [if_pos h]

theorem planFold_of_fault {α : Type} (cg : ComputationGraph α) :
    ∀ (nids : List Nat) (acc : Pass α × Nat), acc.1.fault.isSome = true →
      nids.foldl (planNode cg) acc = acc := by
  intro nids
  induction nids with
  | nil => intro acc _; rfl
  | cons n ns ih =>
    intro acc h
    rw [List.foldl_cons, planNode_of_fault cg acc n h]
    exact ih acc h

theorem planNode_ok {α : Type} (cg : ComputationGraph α) (acc : Pass α × Nat) (nid : Nat)
    (h : (planNode cg acc nid).1.fault = none) :
    acc.1.fault = none ∧
    (planNode cg acc nid).2 = (acc.2 + nodeSize cg nid) % 2 ^ 32 ∧
    (planNode cg acc nid).1.nfxs = shapeStep cg acc.1.nfxs nid ∧
    (planNode cg acc nid).1.w.allocs.length =
      acc.1.w.allocs.length + (if (vget cg.nodes nid).aux_storage_size ≠ 0 then 1 else 0) := by
  have h0 : acc.1.fault = none := by
    cases hf : acc.1.fault with
    | none => rfl
    | some f =>
      have hs : acc.1.fault.isSome = true := by rw [hf]; rfl
      rw [planNode_of_fault cg acc nid hs, hf] at h
      cases h
  have hs : ¬ acc.1.fault.isSome = true := by rw [h0]; simp
  refine ⟨h0, ?_⟩
  unfold planNode at h ⊢
  rw [if_neg hs] at h ⊢
  by_cases haux : (vget cg.nodes nid).aux_storage_size ≠ 0
  · simp only [if_pos haux] at h ⊢
    split at h
    · cases h
    · rename_i p hp
      simp only [hp]
      refine ⟨rfl, rfl, ?_⟩
      simp [World.allocate]
  · simp only [if_neg haux] at h ⊢
    exact ⟨rfl, rfl, rfl⟩

theorem planFold_ok {α : Type} (cg : ComputationGraph α) :
    ∀ (nids : List Nat) (acc : Pass α × Nat), acc.2 < 2 ^ 32 →
      (nids.foldl (planNode cg) acc).1.fault = none →
      acc.1.fault = none ∧
      (nids.foldl (planNode cg) acc).2 = (acc.2 + groupSize cg nids) % 2 ^ 32 ∧
      (nids.foldl (planNode cg) acc).1.nfxs = nids.foldl (shapeStep cg) acc.1.nfxs ∧
      (nids.foldl (planNode cg) acc).1.w.allocs.length = acc.1.w.allocs.length +
        (nids.filter (fun n => decide ((vget cg.nodes n).aux_storage_size ≠ 0))).length := by
  intro nids
  induction nids with
  | nil =>
    intro acc hlt h
    refine ⟨h, ?_, rfl, rfl⟩
    show acc.2 = (acc.2 + 0) % 2 ^ 32
    rw [Nat.add_zero, Nat.mod_eq_of_lt hlt]
  | cons n ns ih =>
    intro acc hlt h
    rw [List.foldl_cons] at h ⊢
    have hstep : (planNode cg acc n).2 < 2 ^ 32 ∨ planNode cg acc n = acc := by
      by_cases hs : acc.1.fault.isSome = true
      · exact Or.inr (planNode_of_fault cg acc n hs)
      · left
        unfold planNode
        rw [if_neg hs]
        dsimp only
        split
        · split <;> exact Nat.mod_lt _ (by norm_num)
        · exact Nat.mod_lt _ (by norm_num)
    have hlt1 : (planNode cg acc n).2 < 2 ^ 32 := by
      rcases hstep with h1 | h1
      · exact h1
      · rw [h1]; exact hlt
    obtain ⟨i1, i2, i3, i4⟩ := ih (planNode cg acc n) hlt1 h
    obtain ⟨s1, s2, s3, s4⟩ := planNode_ok cg acc n i1
    refine ⟨s1, ?_, ?_, ?_⟩
    · rw [i2, s2]
      simp only [groupSize, List.map_cons, List.sum_cons]
      rw [Nat.mod_add_mod, Nat.add_assoc]
    · rw [i3, s3, List.foldl_cons]
    · rw [i4, s4, List.filter_cons]
      by_cases haux : (vget cg.nodes n).aux_storage_size ≠ 0
      · simp [haux]; omega
      · simp [haux]

theorem vget_cons_zero {α : Type} [Inhabited α] (x : α) (xs : List α) :
    vget (x :: xs) 0 = x := rfl

theorem vget_cons_succ {α : Type} [Inhabited α] (x : α) (xs : List α) (i : Nat) :
    vget (x :: xs) (i + 1) = vget xs i := rfl

theorem vget_mem {α : Type} [Inhabited α] (v : List α) (i : Nat) (h : i < v.length) :
    vget v i ∈ v := by
  unfold vget
  rw [List.getD_eq_getElem?_getD, List.getElem?_eq_getElem h]
  exact List.getElem_mem h

theorem length_loadFloats {α : Type} (mem : Nat → α) (v n : Nat) :
    (loadFloats mem v n).length = n := by
  simp [loadFloats]

theorem vget_loadFloats {α : Type} [Inhabited α] (mem : Nat → α) (v n k : Nat) (h : k < n) :
    vget (loadFloats mem v n) k = mem (v + sizeof_float * k) := by
  simp [vget, loadFloats, List.getD_eq_getElem?_getD, List.getElem?_map,
    List.getElem?_range h]

theorem storeFloats_hit {α : Type} [Inhabited α] (mem : Nat → α) (v : Nat) (xs : List α)
    (k : Nat) (h : k < xs.length) :
    storeFloats mem v xs (v + sizeof_float * k) = vget xs k := by
  unfold storeFloats
  have h1 : v + sizeof_float * k - v = sizeof_float * k := by omega
  have h2 : sizeof_float * k % sizeof_float = 0 := Nat.mul_mod_right _ _
  have h3 : sizeof_float * k / sizeof_float = k :=
    Nat.mul_div_cancel_left k (by decide)
  rw [h1, h2, h3, if_pos ⟨by omega, rfl, h⟩]

theorem storeFloats_miss {α : Type} [Inhabited α] (mem : Nat → α) (v : Nat) (xs : List α)
    (a : Nat) (h : ∀ k, k < xs.length → a ≠ v + sizeof_float * k) :
    storeFloats mem v xs a = mem a := by
  unfold storeFloats
  split
  · rename_i hc
    obtain ⟨c1, c2, c3⟩ := hc
    exfalso
    apply h ((a - v) / sizeof_float) c3
    have := Nat.div_add_mod (a - v) sizeof_float
    rw [c2] at this
    omega
  · rfl

theorem sizesPrefix_zero (ts : List Tensor) : sizesPrefix ts 0 = 0 := by
  simp [sizesPrefix]

theorem sizesPrefix_cons_succ (t : Tensor) (ts : List Tensor) (i : Nat) :
    sizesPrefix (t :: ts) (i + 1) = t.d.size + sizesPrefix ts i := by
  simp [sizesPrefix]

theorem sizesTotal_cons (t : Tensor) (ts : List Tensor) :
    sizesTotal (t :: ts) = t.d.size + sizesTotal ts := by
  simp [sizesTotal]

theorem sizesPrefix_succ :
    ∀ (ts : List Tensor) (i : Nat), i < ts.length →
      sizesPrefix ts (i + 1) = sizesPrefix ts i + (vget ts i).d.size := by
  intro ts
  induction ts with
  | nil => intro i hi; cases hi
  | cons t ts ih =>
    intro i hi
    cases i with
    | zero => rw [sizesPrefix_cons_succ, sizesPrefix_zero, sizesPrefix_zero, vget_cons_zero]; omega
    | succ i =>
      rw [sizesPrefix_cons_succ, sizesPrefix_cons_succ, vget_cons_succ,
        ih i (by simpa using hi)]
      omega

theorem sizesPrefix_length (ts : List Tensor) : sizesPrefix ts ts.length = sizesTotal ts := by
  simp [sizesPrefix, sizesTotal]

theorem total_dsize_eq (ts : List Tensor) (h : sizesTotal ts < 2 ^ 32) :
    total_dsize ts = sizesTotal ts := by
  have key : ∀ (l : List Tensor) (s : Nat), s + sizesTotal l < 2 ^ 32 →
      l.foldl (fun s t => (s + t.d.size) % 2 ^ 32) s = s + sizesTotal l := by
    intro l
    induction l with
    | nil => intro s _; simp [sizesTotal]
    | cons t l ih =>
      intro s hs
      rw [sizesTotal_cons] at hs
      rw [List.foldl_cons, Nat.mod_eq_of_lt (by omega), ih _ (by omega), sizesTotal_cons]
      omega
  have := key ts 0 (by omega)
  unfold total_dsize
  rw [this, Nat.zero_add]

/-! ## `combine_tensors` -/

theorem combineFold_spec {α : Type} [Inhabited α] :
    ∀ (ts : List Tensor) (mem : Nat → α) (dest : Nat),
      (∀ i, i < ts.length → ∀ k, k < (vget ts i).d.size → ∀ m, m < sizesTotal ts →
        (vget ts i).v + sizeof_float * k ≠ dest + sizeof_float * m) →
      (ts.foldl combineStep (mem, dest)).2 = dest + sizeof_float * sizesTotal ts ∧
      (∀ a, (∀ m, m < sizesTotal ts → a ≠ dest + sizeof_float * m) →
        (ts.foldl combineStep (mem, dest)).1 a = mem a) ∧
      (∀ i, i < ts.length → ∀ k, k < (vget ts i).d.size →
        (ts.foldl combineStep (mem, dest)).1 (dest + sizeof_float * (sizesPrefix ts i + k)) =
          mem ((vget ts i).v + sizeof_float * k)) := by
  intro ts
  induction ts with
  | nil =>
    intro mem dest _
    refine ⟨by simp [sizesTotal], fun _ _ => rfl, ?_⟩
    intro i hi; cases hi
  | cons T ts ih =>
    intro mem dest hsep
    rw [List.foldl_cons]
    have hstep : combineStep (mem, dest) T =
        (storeFloats mem dest (loadFloats mem T.v T.d.size), dest + sizeof_float * T.d.size) := rfl
    rw [hstep]
    have hsep1 : ∀ i, i < ts.length → ∀ k, k < (vget ts i).d.size → ∀ m, m < sizesTotal ts →
        (vget ts i).v + sizeof_float * k ≠ dest + sizeof_float * T.d.size + sizeof_float * m := by
      intro i hi k hk m hm
      have := hsep (i + 1) (by simpa using hi) k (by rw [vget_cons_succ]; exact hk)
        (T.d.size + m) (by rw [sizesTotal_cons]; omega)
      rw [vget_cons_succ] at this
      simp only [sizeof_float] at this ⊢
      omega
    obtain ⟨i1, i2, i3⟩ := ih (storeFloats mem dest (loadFloats mem T.v T.d.size))
      (dest + sizeof_float * T.d.size) hsep1
    refine ⟨?_, ?_, ?_⟩
    · rw [i1, sizesTotal_cons]
      simp only [sizeof_float]
      omega
    · intro a ha
      rw [i2 a ?_, storeFloats_miss]
      · intro k hk
        rw [length_loadFloats] at hk
        exact ha k (by rw [sizesTotal_cons]; omega)
      · intro m hm
        have := ha (T.d.size + m) (by rw [sizesTotal_cons]; omega)
        simp only [sizeof_float] at this ⊢
        omega
    · intro i hi k hk
      cases i with
      | zero =>
        rw [vget_cons_zero] at hk ⊢
        rw [sizesPrefix_zero, Nat.zero_add, i2 _ ?_, storeFloats_hit _ _ _ _ ?_,
          vget_loadFloats _ _ _ _ hk]
        · rw [length_loadFloats]; exact hk
        · intro m _
          simp only [sizeof_float]
          omega
      | succ i =>
        rw [vget_cons_succ] at hk ⊢
        have hi' : i < ts.length := by simpa using hi
        have hadr : dest + sizeof_float * (sizesPrefix (T :: ts) (i + 1) + k) =
            dest + sizeof_float * T.d.size + sizeof_float * (sizesPrefix ts i + k) := by
          rw [sizesPrefix_cons_succ]
          simp only [sizeof_float]
          omega
        rw [hadr, i3 i hi' k hk, storeFloats_miss]
        intro m hm
        rw [length_loadFloats] at hm
        have := hsep (i + 1) hi k (by rw [vget_cons_succ]; exact hk) m
          (by rw [sizesTotal_cons]; omega)
        rw [vget_cons_succ] at this
        exact this

/-! ## Elementwise-unary fusion -/

theorem vget_map {α β : Type} [Inhabited α] [Inhabited β] (f : α → β) (l : List α)
    (i : Nat) (h : i < l.length) : vget (l.map f) i = f (vget l i) := by
  simp [vget, List.getD_eq_getElem?_getD, List.getElem?_map, List.getElem?_eq_getElem h]

theorem dim_single_size (n : Nat) (h : n < 2 ^ 32) : (Dim.ofList [n]).size = n := by
  have h1 : (1 * n) % 2 ^ 32 = n := by rw [Nat.one_mul, Nat.mod_eq_of_lt h]
  show ((1 * n) % 2 ^ 32 * 1) % 2 ^ 32 = n
  rw [h1, Nat.mul_one, Nat.mod_eq_of_lt h]

theorem eval_ewise_fused_mem {α : Type} [Inhabited α] (cg : ComputationGraph α)
    (nfxs : List Tensor) (w : World α) (nids : List Nat) (t : Nat)
    (hlen : nids.length > 10)
    (halloc : (w.allocate (vget (nids.map (argTensor cg nfxs)) 0).device
      (total_dsize (nids.map (argTensor cg nfxs)) * sizeof_float)).1 = some t) :
    (eval_ewise_unaries_in_bulk nids cg nfxs w).2.mem =
      storeFloats ((nids.map (argTensor cg nfxs)).foldl combineStep (w.mem, t)).1
        (vget nfxs (vget nids 0)).v
        (((vget cg.nodes (vget nids 0)).forward
          [(Dim.ofList [total_dsize (nids.map (argTensor cg nfxs))],
            loadFloats ((nids.map (argTensor cg nfxs)).foldl combineStep (w.mem, t)).1 t
              (Dim.ofList [total_dsize (nids.map (argTensor cg nfxs))]).size)]
          (Dim.ofList [total_dsize (nids.map (argTensor cg nfxs))])).take
          (Dim.ofList [total_dsize (nids.map (argTensor cg nfxs))]).size) := by
  unfold eval_ewise_unaries_in_bulk
  rw [if_pos hlen]
  have hmem : (w.allocate (vget (nids.map (argTensor cg nfxs)) 0).device
      (total_dsize (nids.map (argTensor cg nfxs)) * sizeof_float)).2.mem = w.mem := rfl
  simp only [World.setUsed, callForward, combine_tensors, List.map_cons, List.map_nil]
  show storeFloats _ _ _ = _
  have e1 : (fun nid => vget nfxs (vget (vget cg.nodes nid).args 0)) = argTensor cg nfxs := rfl
  rw [e1, halloc, hmem]
  rfl

theorem do_node_mem {α : Type} [Inhabited α] (cg : ComputationGraph α) (nid : Nat)
    (nfxs : List Tensor) (w : World α) :
    (do_node cg nid nfxs w).mem =
      storeFloats w.mem (vget nfxs nid).v
        (((vget cg.nodes nid).forward
          (((vget cg.nodes nid).args.map (fun arg => vget nfxs arg)).map
            (fun x => (x.d, loadFloats w.mem x.v x.d.size)))
          (vget nfxs nid).d).take (vget nfxs nid).d.size) := rfl

theorem do_node_ewise {α : Type} [Inhabited α] (cg : ComputationGraph α) (n : Nat)
    (nfxs : List Tensor) (w : World α) (f : α → α)
    (hargs : (vget cg.nodes n).args.length = 1)
    (hker : ∀ xs d, (vget cg.nodes n).forward xs d = (vget xs 0).2.map f)
    (hsz : (vget nfxs n).d.size = (argTensor cg nfxs n).d.size)
    (k : Nat) (hk : k < (vget nfxs n).d.size) :
    (do_node cg n nfxs w).mem ((vget nfxs n).v + sizeof_float * k) =
      f (w.mem ((argTensor cg nfxs n).v + sizeof_float * k)) := by
  rw [do_node_mem, hker]
  have hmap : (vget cg.nodes n).args.map (fun arg => vget nfxs arg) =
      [argTensor cg nfxs n] := by
    unfold argTensor
    cases hcs : (vget cg.nodes n).args with
    | nil => rw [hcs] at hargs; cases hargs
    | cons x xs =>
      rw [hcs] at hargs
      cases xs with
      | nil => rfl
      | cons y ys => simp at hargs
  rw [hmap]
  simp only [List.map_cons, List.map_nil, vget_cons_zero]
  have hk' : k < (argTensor cg nfxs n).d.size := by rw [← hsz]; exact hk
  have hlen : ((loadFloats w.mem (argTensor cg nfxs n).v
      (argTensor cg nfxs n).d.size).map f).length = (vget nfxs n).d.size := by
    rw [List.length_map, length_loadFloats, hsz]
  rw [List.take_of_length_le (by omega), storeFloats_hit _ _ _ _ (by omega)]
  rw [vget_map f _ k (by rw [length_loadFloats]; exact hk'),
    vget_loadFloats _ _ _ _ hk']

theorem vset_vset_self {α : Type} [Inhabited α] (l : List α) (i : Nat) (a : α) :
    vset (vset l i a) i (vget l i) = l := by
  unfold vset
  rw [List.set_set]
  by_cases hi : i < l.length
  · apply List.ext_getElem?
    intro j
    rw [List.getElem?_set]
    by_cases hij : i = j
    · subst hij
      rw [if_pos rfl, if_pos hi]
      unfold vget
      rw [List.getD_eq_getElem?_getD, List.getElem?_eq_getElem hi]
      rfl
    · rw [if_neg hij]
  · exact List.set_eq_of_length_le (by omega)

theorem exists_vget_of_mem {α : Type} [Inhabited α] (l : List α) (x : α) (h : x ∈ l) :
    ∃ i, i < l.length ∧ vget l i = x := by
  obtain ⟨i, hi, e⟩ := List.getElem_of_mem h
  refine ⟨i, hi, ?_⟩
  unfold vget
  rw [List.getD_eq_getElem?_getD, List.getElem?_eq_getElem hi, ← e]
  rfl

/-- C9 (the code departs from the claim): in `sharedLeftGraph` the six
`MatrixMultiply` nodes 7 to 12 form one type-group of one bucket and share the
left operand `W` (node 0); every member has as many output elements as `W` has
rows, which is what the scatter loop asserts; node 7 has the right operand `M` of
shape `{2, 1}`, of rank 2, nodes 8 to 12 have right operands of rank 1, so only
nodes 8 to 12 are members of `by_type[0]`.  After a fresh `incremental_forward` the
fused kernel ran once on the five vectors and node 7 was dispatched on its own;
the output buffer of node 8 holds `(3, 4)`, the product of `W` with the right
operand of node 9, while the product of `W` with its own right operand `(1, 0)`,
which `do_node` writes, is `(1, 2)`; the output buffers of nodes 9, 10 and 11 hold
the products that belong to nodes 10, 11 and 12, and the output buffer of node 12
holds floats from beyond the fused result. -/
theorem eval_matrix_multiply_mixed_ranks_misplaces_columns :
    sharedLeftRun.1.eng.by_depth = [[0, 1, 2, 3, 4, 5, 6], [7, 8, 9, 10, 11, 12], []] ∧
    groupByType sharedLeftGraph 0 [7, 8, 9, 10, 11, 12] =
      [(NodeType.MatrixMultiply, [7, 8, 9, 10, 11, 12])] ∧
    (∀ nid ∈ [7, 8, 9, 10, 11, 12],
      (vget sharedLeftRun.1.eng.nfxs nid).d.size =
        (vget sharedLeftRun.1.eng.nfxs (vget (vget sharedLeftGraph.nodes nid).args 0)).d.rows) ∧
    (List.range 6).map (memberClass [7, 8, 9, 10, 11, 12] sharedLeftGraph
      sharedLeftRun.1.eng.nfxs) = [1, 0, 0, 0, 0, 0] ∧
    byFirstArg [7, 8, 9, 10, 11, 12] sharedLeftGraph sharedLeftRun.1.eng.nfxs =
      [(0, [2, 3, 4, 5, 6])] ∧
    (sharedLeftRun.1.w.calls.drop 7).map (fun c => (c.node, c.fx.d)) =
      [(7, Dim.ofList [2, 5]), (7, Dim.ofList [2, 1])] ∧
    loadFloats sharedLeftRun.1.w.mem (vget sharedLeftRun.1.eng.nfxs 8).v 2 = [3, 4] ∧
    loadFloats (do_node sharedLeftGraph 8 sharedLeftRun.1.eng.nfxs sharedLeftRun.1.w).mem
      (vget sharedLeftRun.1.eng.nfxs 8).v 2 = [1, 2] ∧
    matmulKernel [(Dim.ofList [2, 2], [1, 2, 3, 4]), (Dim.ofList [2], [1, 0])]
      (Dim.ofList [2]) = [1, 2] ∧
    [9, 10, 11, 12].map (fun nid =>
      loadFloats sharedLeftRun.1.w.mem (vget sharedLeftRun.1.eng.nfxs nid).v 2) =
      [[4, 6], [2, 4], [6, 8], [0, 0]] ∧
    [9, 10, 11, 12].map (fun nid =>
      loadFloats (do_node sharedLeftGraph nid sharedLeftRun.1.eng.nfxs sharedLeftRun.1.w).mem
        (vget sharedLeftRun.1.eng.nfxs nid).v 2) =
      [[3, 4], [4, 6], [2, 4], [6, 8]] ∧
    loadFloats sharedLeftRun.1.w.mem (vget sharedLeftRun.1.eng.nfxs 7).v 2 = [4, 6] := by
  decide

theorem loadFloats_map {β α : Type} (h : β → α) (mem : Nat → β) (v n : Nat) :
    loadFloats (fun a => h (mem a)) v n = (loadFloats mem v n).map h := by
  simp [loadFloats]

theorem storeFloats_map {β α : Type} [Inhabited β] [Inhabited α] (h : β → α)
    (mem : Nat → β) (v : Nat) (xs : List β) :
    storeFloats (fun a => h (mem a)) v (xs.map h) = fun a => h (storeFloats mem v xs a) := by
  funext a
  unfold storeFloats
  rw [List.length_map]
  split
  · rename_i hc
    exact vget_map h xs _ hc.2.2
  · rfl

theorem world_allocate_map {β α : Type} (h : β → α) (w : World β) (dev n : Nat) :
    (w.map h).allocate dev n = ((w.allocate dev n).1, (w.allocate dev n).2.map h) := rfl

theorem world_setUsed_map {β α : Type} (h : β → α) (w : World β) (dev u : Nat) :
    (w.map h).setUsed dev u = (w.setUsed dev u).map h := rfl

theorem world_freeAll_map {β α : Type} (h : β → α) (w : World β) :
    (w.map h).freeAll = w.freeAll.map h := rfl

theorem callForward_map {β α : Type} [Inhabited β] [Inhabited α] (h : β → α)
    (cgb : ComputationGraph β) (cga : ComputationGraph α) (hg : GraphRel h cgb cga)
    (w : World β) (nid : Nat) (xs : List Tensor) (fx : Tensor) :
    callForward cga (w.map h) nid xs fx = (callForward cgb w nid xs fx).map h := by
  obtain ⟨_, _, _, _, _, hk⟩ := hg nid
  unfold callForward World.map
  dsimp only
  have hin : xs.map (fun x => (x.d, loadFloats (fun a => h (w.mem a)) x.v x.d.size)) =
      (xs.map (fun x => (x.d, loadFloats w.mem x.v x.d.size))).map
        (fun p => (p.1, p.2.map h)) := by
    rw [List.map_map]
    apply List.map_congr_left
    intro x _
    simp [loadFloats_map]
  rw [hin, hk, ← List.map_take, storeFloats_map]

theorem do_node_map {β α : Type} [Inhabited β] [Inhabited α] (h : β → α)
    (cgb : ComputationGraph β) (cga : ComputationGraph α) (hg : GraphRel h cgb cga)
    (nid : Nat) (nfxs : List Tensor) (w : World β) :
    do_node cga nid nfxs (w.map h) = (do_node cgb nid nfxs w).map h := by
  unfold do_node
  dsimp only
  rw [(hg nid).1]
  exact callForward_map h cgb cga hg w nid _ _

theorem dispatchEach_map {β α : Type} [Inhabited β] [Inhabited α] (h : β → α)
    (cgb : ComputationGraph β) (cga : ComputationGraph α) (hg : GraphRel h cgb cga)
    (nfxs : List Tensor) :
    ∀ (L : List Nat) (w : World β),
      L.foldl (fun w nid => do_node cga nid nfxs w) (w.map h) =
        (L.foldl (fun w nid => do_node cgb nid nfxs w) w).map h := by
  intro L
  induction L with
  | nil => intro w; rfl
  | cons n L ih =>
    intro w
    rw [List.foldl_cons, List.foldl_cons, do_node_map h cgb cga hg, ih]

theorem combineFold_map {β α : Type} [Inhabited β] [Inhabited α] (h : β → α) :
    ∀ (ts : List Tensor) (mem : Nat → β) (dest : Nat),
      ts.foldl combineStep ((fun a => h (mem a)), dest) =
        ((fun a => h ((ts.foldl combineStep (mem, dest)).1 a)),
          (ts.foldl combineStep (mem, dest)).2) := by
  intro ts
  induction ts with
  | nil => intro mem dest; rfl
  | cons t ts ih =>
    intro mem dest
    rw [List.foldl_cons, List.foldl_cons]
    have hs : combineStep ((fun a => h (mem a)), dest) t =
        ((fun a => h ((combineStep (mem, dest) t).1 a)), (combineStep (mem, dest) t).2) := by
      unfold combineStep memcpy
      dsimp only
      rw [loadFloats_map, storeFloats_map]
    rw [hs]
    exact ih _ _

theorem combine_tensors_map {β α : Type} [Inhabited β] [Inhabited α] (h : β → α)
    (ts : List Tensor) (tout : Tensor) (w : World β) :
    combine_tensors ts tout (w.map h) =
      ((combine_tensors ts tout w).1, (combine_tensors ts tout w).2.map h) := by
  unfold combine_tensors
  dsimp only
  rw [world_allocate_map]
  dsimp only
  have := combineFold_map h ts (w.allocate (vget ts 0).device
    (total_dsize ts * sizeof_float)).2.mem
    ((w.allocate (vget ts 0).device (total_dsize ts * sizeof_float)).1.getD 0)
  show (_, _) = (_, _)
  unfold World.map at this ⊢
  dsimp only at this ⊢
  rw [this]

theorem eval_ewise_map {β α : Type} [Inhabited β] [Inhabited α] (h : β → α)
    (cgb : ComputationGraph β) (cga : ComputationGraph α) (hg : GraphRel h cgb cga)
    (nids : List Nat) (nfxs : List Tensor) (w : World β) :
    eval_ewise_unaries_in_bulk nids cga nfxs (w.map h) =
      ((eval_ewise_unaries_in_bulk nids cgb nfxs w).1,
        (eval_ewise_unaries_in_bulk nids cgb nfxs w).2.map h) := by
  have hargs : (fun nid => vget nfxs (vget (vget cga.nodes nid).args 0)) =
      (fun nid => vget nfxs (vget (vget cgb.nodes nid).args 0)) := by
    funext nid
    rw [(hg nid).1]
  unfold eval_ewise_unaries_in_bulk
  by_cases hl : nids.length > 10
  · rw [if_pos hl, if_pos hl]
    dsimp only
    rw [hargs, combine_tensors_map, callForward_map h cgb cga hg]
    rfl
  · rw [if_neg hl, if_neg hl]
    rw [dispatchEach_map h cgb cga hg]

theorem scatterFold_map {β α : Type} [Inhabited β] [Inhabited α] (h : β → α)
    (cgb : ComputationGraph β) (cga : ComputationGraph α) (hg : GraphRel h cgb cga)
    (nfxs : List Tensor) (key result_v : Nat) :
    ∀ (nids : List Nat) (mem : Nat → β) (off : Nat),
      nids.foldl (scatterStep cga nfxs key result_v) ((fun a => h (mem a)), off) =
        ((fun a => h ((nids.foldl (scatterStep cgb nfxs key result_v) (mem, off)).1 a)),
          (nids.foldl (scatterStep cgb nfxs key result_v) (mem, off)).2) := by
  intro nids
  induction nids with
  | nil => intro mem off; rfl
  | cons n ns ih =>
    intro mem off
    rw [List.foldl_cons, List.foldl_cons]
    have hs : scatterStep cga nfxs key result_v ((fun a => h (mem a)), off) n =
        ((fun a => h ((scatterStep cgb nfxs key result_v (mem, off) n).1 a)),
          (scatterStep cgb nfxs key result_v (mem, off) n).2) := by
      unfold scatterStep
      rw [(hg n).1]
      by_cases hk : vget (vget cgb.nodes n).args 0 = key
      · rw [if_pos hk, if_pos hk]
        unfold memcpy
        dsimp only
        rw [loadFloats_map, storeFloats_map]
      · rw [if_neg hk, if_neg hk]
    rw [hs]
    exact ih _ _

theorem matmulGroup_map {β α : Type} [Inhabited β] [Inhabited α] (h : β → α)
    (cgb : ComputationGraph β) (cga : ComputationGraph α) (hg : GraphRel h cgb cga)
    (nids : List Nat) (nfxs : List Tensor) (w : World β) (g : Nat × List Nat) :
    matmulGroup nids cga nfxs (w.map h) g = (matmulGroup nids cgb nfxs w g).map h := by
  unfold matmulGroup
  dsimp only
  rw [combine_tensors_map, world_allocate_map]
  dsimp only
  rw [callForward_map h cgb cga hg]
  have := scatterFold_map h cgb cga hg nfxs g.1
    (((combine_tensors (g.2.map (fun a => vget nfxs a)) default w).2.allocate
      (vget nfxs g.1).device
      ((Dim.ofList [(vget nfxs g.1).d.rows, (g.2.map (fun a => vget nfxs a)).length]).size *
        sizeof_float)).1.getD 0) nids
  unfold World.map at this ⊢
  dsimp only at this ⊢
  rw [this]
  rfl

theorem matmulGroups_map {β α : Type} [Inhabited β] [Inhabited α] (h : β → α)
    (cgb : ComputationGraph β) (cga : ComputationGraph α) (hg : GraphRel h cgb cga)
    (nids : List Nat) (nfxs : List Tensor) :
    ∀ (gs : List (Nat × List Nat)) (w : World β),
      gs.foldl (matmulGroup nids cga nfxs) (w.map h) =
        (gs.foldl (matmulGroup nids cgb nfxs) w).map h := by
  intro gs
  induction gs with
  | nil => intro w; rfl
  | cons g gs ih =>
    intro w
    rw [List.foldl_cons, List.foldl_cons, matmulGroup_map h cgb cga hg, ih]

theorem doNodesAt_map {β α : Type} [Inhabited β] [Inhabited α] (h : β → α)
    (cgb : ComputationGraph β) (cga : ComputationGraph α) (hg : GraphRel h cgb cga)
    (nids : List Nat) (nfxs : List Tensor) :
    ∀ (is : List Nat) (w : World β),
      is.foldl (fun w i => do_node cga (vget nids i) nfxs w) (w.map h) =
        (is.foldl (fun w i => do_node cgb (vget nids i) nfxs w) w).map h := by
  intro is
  induction is with
  | nil => intro w; rfl
  | cons i is ih =>
    intro w
    rw [List.foldl_cons, List.foldl_cons, do_node_map h cgb cga hg, ih]

theorem eval_matrix_multiply_map {β α : Type} [Inhabited β] [Inhabited α] (h : β → α)
    (cgb : ComputationGraph β) (cga : ComputationGraph α) (hg : GraphRel h cgb cga)
    (nids : List Nat) (nfxs : List Tensor) (w : World β) :
    eval_matrix_multiply nids cga nfxs (w.map h) =
      (eval_matrix_multiply nids cgb nfxs w).map h := by
  have h0 : (fun nid => vget (vget cga.nodes nid).args 0) =
      (fun nid => vget (vget cgb.nodes nid).args 0) := by
    funext nid; rw [(hg nid).1]
  have h1 : (fun nid => vget (vget cga.nodes nid).args 1) =
      (fun nid => vget (vget cgb.nodes nid).args 1) := by
    funext nid; rw [(hg nid).1]
  unfold eval_matrix_multiply
  dsimp only
  rw [h0, h1, matmulGroups_map h cgb cga hg, doNodesAt_map h cgb cga hg]

theorem planNode_map {β α : Type} (h : β → α)
    (cgb : ComputationGraph β) (cga : ComputationGraph α) (hg : GraphRel h cgb cga)
    (acc : Pass β × Nat) (nid : Nat) :
    planNode cga (acc.1.map h, acc.2) nid =
      ((planNode cgb acc nid).1.map h, (planNode cgb acc nid).2) := by
  obtain ⟨_, _, hdim, hdev, haux, _⟩ := hg nid
  obtain ⟨⟨nfxs, w, fault⟩, tot⟩ := acc
  cases fault with
  | some f => rfl
  | none =>
    unfold planNode
    dsimp only [Pass.map]
    rw [hdim, hdev, haux]
    by_cases ha : (vget cgb.nodes nid).aux_storage_size ≠ 0
    · simp only [Option.isSome_none, Bool.false_eq_true, if_false, if_pos ha]
      rw [world_allocate_map]
      dsimp only
      cases (w.allocate
        (vget (vset nfxs nid
          { d := (vget cgb.nodes nid).dim, v := (vget nfxs nid).v,
            device := (vget cgb.nodes nid).device }) nid).device
        (vget cgb.nodes nid).aux_storage_size).1 <;> rfl
    · simp only [Option.isSome_none, Bool.false_eq_true, if_false, if_neg ha]
      rfl

theorem planFold_map {β α : Type} (h : β → α)
    (cgb : ComputationGraph β) (cga : ComputationGraph α) (hg : GraphRel h cgb cga) :
    ∀ (nids : List Nat) (acc : Pass β × Nat),
      nids.foldl (planNode cga) (acc.1.map h, acc.2) =
        ((nids.foldl (planNode cgb) acc).1.map h, (nids.foldl (planNode cgb) acc).2) := by
  intro nids
  induction nids with
  | nil => intro acc; rfl
  | cons n ns ih =>
    intro acc
    rw [List.foldl_cons, List.foldl_cons, planNode_map h cgb cga hg]
    exact ih _

theorem placeFold_graph {β α : Type} (h : β → α)
    (cgb : ComputationGraph β) (cga : ComputationGraph α) (hg : GraphRel h cgb cga) :
    placeNode cga = placeNode cgb := by
  funext base acc nid
  unfold placeNode
  rw [(hg nid).2.2.1]

theorem planGroup_map {β α : Type} (h : β → α)
    (cgb : ComputationGraph β) (cga : ComputationGraph α) (hg : GraphRel h cgb cga)
    (p : Pass β) (g : NodeType × List Nat) :
    planGroup cga (p.map h) g = (planGroup cgb p g).map h := by
  unfold planGroup
  by_cases hf : p.fault.isSome = true
  · have hf' : (p.map h).fault.isSome = true := hf
    rw [if_pos hf, if_pos hf']
  · have hf' : ¬ (p.map h).fault.isSome = true := hf
    rw [if_neg hf, if_neg hf']
    dsimp only
    have hfold := planFold_map h cgb cga hg g.2 (p, 0)
    dsimp only at hfold
    rw [hfold, placeFold_graph h cgb cga hg]
    generalize g.2.foldl (planNode cgb) (p, 0) = r
    obtain ⟨⟨nfxs, w, fault⟩, tot⟩ := r
    cases fault with
    | some f => rfl
    | none =>
      dsimp only [Pass.map]
      simp only [Option.isSome_none, Bool.false_eq_true, if_false]
      rw [world_allocate_map]
      dsimp only
      cases (w.allocate (vget nfxs (vget g.2 0)).device (tot * sizeof_float)).1 <;> rfl

theorem dispatchGroup_map {β α : Type} [Inhabited β] [Inhabited α] (h : β → α)
    (cgb : ComputationGraph β) (cga : ComputationGraph α) (hg : GraphRel h cgb cga)
    (p : Pass β) (g : NodeType × List Nat) :
    dispatchGroup cga (p.map h) g = (dispatchGroup cgb p g).map h := by
  obtain ⟨nfxs, w, fault⟩ := p
  cases fault with
  | some f => rfl
  | none =>
    unfold dispatchGroup
    dsimp only [Pass.map]
    simp only [Option.isSome_none, Bool.false_eq_true, if_false]
    by_cases he : g.1 ∈ ewise_unary_nodes
    · rw [if_pos he, if_pos he, eval_ewise_map h cgb cga hg]
    · rw [if_neg he, if_neg he]
      by_cases hm : g.1 = NodeType.MatrixMultiply ∧ g.2.length > 5
      · rw [if_pos hm, if_pos hm, eval_matrix_multiply_map h cgb cga hg]
      · rw [if_neg hm, if_neg hm, dispatchEach_map h cgb cga hg]

theorem groupByType_graph {β α : Type} (h : β → α)
    (cgb : ComputationGraph β) (cga : ComputationGraph α) (hg : GraphRel h cgb cga) :
    groupByType cga = groupByType cgb := by
  funext already bucket
  unfold groupByType
  have : (fun (m : List (NodeType × List Nat)) nid =>
      if nid < already then m
      else mapPush NodeType.code m (vget cga.nodes nid).type_id nid) =
      (fun m nid => if nid < already then m
      else mapPush NodeType.code m (vget cgb.nodes nid).type_id nid) := by
    funext m nid
    rw [(hg nid).2.1]
  rw [this]

theorem foldl_map_comm {σ τ ι : Type} (F : σ → τ) (fa : τ → ι → τ) (fb : σ → ι → σ)
    (hstep : ∀ s i, fa (F s) i = F (fb s i)) :
    ∀ (l : List ι) (s : σ), l.foldl fa (F s) = F (l.foldl fb s) := by
  intro l
  induction l with
  | nil => intro s; rfl
  | cons i l ih =>
    intro s
    rw [List.foldl_cons, List.foldl_cons, hstep, ih]

theorem runBucket_map {β α : Type} [Inhabited β] [Inhabited α] (h : β → α)
    (cgb : ComputationGraph β) (cga : ComputationGraph α) (hg : GraphRel h cgb cga)
    (already : Nat) (by_depth : List (List Nat)) (p : Pass β) (d : Nat) :
    runBucket cga already by_depth (p.map h) d =
      (runBucket cgb already by_depth p d).map h := by
  unfold runBucket
  dsimp only
  rw [groupByType_graph h cgb cga hg,
    foldl_map_comm (Pass.map h) (planGroup cga) (planGroup cgb)
      (planGroup_map h cgb cga hg),
    foldl_map_comm (Pass.map h) (dispatchGroup cga) (dispatchGroup cgb)
      (dispatchGroup_map h cgb cga hg)]

theorem argTable_graph {β α : Type} (h : β → α)
    (cgb : ComputationGraph β) (cga : ComputationGraph α) (hg : GraphRel h cgb cga)
    (hlen : cga.nodes.length = cgb.nodes.length) :
    cga.argTable = cgb.argTable := by
  unfold ComputationGraph.argTable
  apply List.ext_getElem?
  intro j
  rw [List.getElem?_map, List.getElem?_map]
  by_cases hj : j < cgb.nodes.length
  · have hj' : j < cga.nodes.length := by omega
    have := (hg j).1
    unfold vget at this
    rw [List.getD_eq_getElem?_getD, List.getD_eq_getElem?_getD,
      List.getElem?_eq_getElem hj, List.getElem?_eq_getElem hj'] at this
    rw [List.getElem?_eq_getElem hj, List.getElem?_eq_getElem hj']
    simp only [Option.map_some', Option.getD_some] at this ⊢
    rw [this]
  · rw [List.getElem?_eq_none (by omega), List.getElem?_eq_none (by omega)]
    rfl

theorem forwardPass_map {β α : Type} [Inhabited β] [Inhabited α] (h : β → α)
    (cgb : ComputationGraph β) (cga : ComputationGraph α) (hg : GraphRel h cgb cga)
    (hlen : cga.nodes.length = cgb.nodes.length) (m : Machine β) (upto : Nat) :
    forwardPass cga (m.map h) upto = (forwardPass cgb m upto).map h := by
  unfold forwardPass
  dsimp only [Machine.map]
  rw [argTable_graph h cgb cga hg hlen]
  have h0 : (⟨vresize m.eng.nfxs (upto + 1),
      if m.eng.num_nodes_evaluated = 0 then (m.w.map h).freeAll else m.w.map h, none⟩ : Pass α) =
      Pass.map h ⟨vresize m.eng.nfxs (upto + 1),
        if m.eng.num_nodes_evaluated = 0 then m.w.freeAll else m.w, none⟩ := by
    by_cases h0 : m.eng.num_nodes_evaluated = 0
    · rw [if_pos h0, if_pos h0]; rfl
    · rw [if_neg h0, if_neg h0]; rfl
  rw [h0]
  exact foldl_map_comm (Pass.map h) _ _
    (fun p d => runBucket_map h cgb cga hg _ _ p d) _ _

/-- The forward executor commutes with a change of the float values: running
`incremental_forward` on a graph whose kernels commute with `h`, in the world in
which every float `x` is replaced by `h x`, gives the same engine, pools, records
and result, and the memory in which every float `x` is replaced by `h x`. -/
theorem incremental_forward_map {β α : Type} [Inhabited β] [Inhabited α] (h : β → α)
    (cgb : ComputationGraph β) (cga : ComputationGraph α) (hg : GraphRel h cgb cga)
    (hlen : cga.nodes.length = cgb.nodes.length) (m : Machine β) (upto : Nat) :
    incremental_forward cga (m.map h) upto =
      ((incremental_forward cgb m upto).1.map h, (incremental_forward cgb m upto).2) := by
  unfold incremental_forward
  by_cases hc : upto < m.eng.num_nodes_evaluated
  · have hc' : upto < (m.map h).eng.num_nodes_evaluated := hc
    rw [if_pos hc, if_pos hc']
    rfl
  · have hc' : ¬ upto < (m.map h).eng.num_nodes_evaluated := hc
    rw [if_neg hc, if_neg hc']
    dsimp only
    rw [forwardPass_map h cgb cga hg hlen, argTable_graph h cgb cga hg hlen]
    generalize forwardPass cgb m upto = p
    obtain ⟨nfxs, w, fault⟩ := p
    cases fault <;> rfl

/-! ## The example scenario: twelve `tanh` nodes over twelve inputs -/

/-- Evaluation of the example scenario over uninterpreted values. -/
theorem tanhScenarioRun_eval :
    tanhScenarioRun.2.toOption = some (vget tanhScenarioRun.1.eng.nfxs 23) ∧
    tanhScenarioRun.1.eng.by_depth =
      [[0, 1, 2, 3, 4, 5, 6, 7, 8, 9, 10, 11],
       [12, 13, 14, 15, 16, 17, 18, 19, 20, 21, 22, 23], []] ∧
    groupByType tanhScenario 0 [12, 13, 14, 15, 16, 17, 18, 19, 20, 21, 22, 23] =
      [(NodeType.Tanh, [12, 13, 14, 15, 16, 17, 18, 19, 20, 21, 22, 23])] ∧
    (tanhScenarioRun.1.w.calls.filter
        (fun c => decide ((vget tanhScenario.nodes c.node).type_id = NodeType.Tanh))).map
      (fun c => (c.node, c.xs.map (fun x => x.d.size), c.fx.d.size)) = [(12, [48], 48)] ∧
    tanhScenarioRun.1.w.calls.length = 13 ∧
    (∀ i, i < 12 →
      (vget tanhScenarioRun.1.eng.nfxs (12 + i)).d = Dim.ofList [4] ∧
      loadFloats tanhScenarioRun.1.w.mem (vget tanhScenarioRun.1.eng.nfxs (12 + i)).v 4 =
        [Sym.app (Sym.inp i 0), Sym.app (Sym.inp i 1), Sym.app (Sym.inp i 2),
          Sym.app (Sym.inp i 3)]) := by
  decide

theorem vget_map_zero {α β : Type} [Inhabited α] [Inhabited β] (g : α → β)
    (hd : g default = default) (l : List α) : vget (l.map g) 0 = g (vget l 0) := by
  cases l with
  | nil => exact hd.symm
  | cons a l => rfl

theorem inputNode_rel {β α : Type} (h : β → α) (data : List β) :
    NodeRel h (inputNode data) (inputNode (data.map h)) := by
  refine ⟨rfl, rfl, ?_, rfl, rfl, fun _ _ => rfl⟩
  show Dim.ofList [(data.map h).length] = Dim.ofList [data.length]
  rw [List.length_map]

theorem ewiseNode_rel {β α : Type} [Inhabited β] [Inhabited α] (h : β → α)
    (fb : β → β) (fa : α → α) (hf : ∀ s, h (fb s) = fa (h s)) (t : NodeType) (n a : Nat) :
    NodeRel h (ewiseNode t fb n a) (ewiseNode t fa n a) := by
  refine ⟨rfl, rfl, rfl, rfl, rfl, ?_⟩
  intro xs d
  show (vget (xs.map (fun p : Dim × List β => (p.1, p.2.map h))) 0).2.map fa =
    ((vget xs 0).2.map fb).map h
  rw [vget_map_zero (fun p : Dim × List β => (p.1, p.2.map h)) rfl xs]
  simp only [List.map_map]
  apply List.map_congr_left
  intro s _
  exact (hf s).symm

theorem defaultNode_rel {β α : Type} (h : β → α) :
    NodeRel h (default : Node β) (default : Node α) :=
  ⟨rfl, rfl, rfl, rfl, rfl, fun _ _ => rfl⟩

theorem tanhGraph_rel {α : Type} [Inhabited α] (zero : α) (f : α → α) (x : Nat → Nat → α) :
    GraphRel (Sym.interp zero f x) tanhScenario (tanhGraph f x) := by
  intro j
  by_cases hj : j < 24
  · interval_cases j <;>
      first
        | exact inputNode_rel (Sym.interp zero f x) _
        | exact ewiseNode_rel (Sym.interp zero f x) Sym.app f (fun _ => rfl) _ _ _
  · have h1 : vget tanhScenario.nodes j = default :=
      vget_of_length_le _ _ (by simp [tanhScenario, tanhGraph]; omega)
    have h2 : vget (tanhGraph f x).nodes j = default :=
      vget_of_length_le _ _ (by simp [tanhGraph]; omega)
    rw [h1, h2]
    exact defaultNode_rel _

theorem tanhRun_eq {α : Type} [Inhabited α] (zero : α) (f : α → α) (x : Nat → Nat → α) :
    tanhRun zero f x =
      (tanhScenarioRun.1.map (Sym.interp zero f x), tanhScenarioRun.2) :=
  incremental_forward_map (Sym.interp zero f x) tanhScenario (tanhGraph f x)
    (tanhGraph_rel zero f x) (by simp [tanhScenario, tanhGraph])
    (Machine.init Sym.zero 1024 4096 32) 23

/-- C10: in the example scenario (12 inputs of 4 elements, input `i` holding
`x i 0 .. x i 3`, then 12 `tanh` nodes, the `i`-th applied to the `i`-th input,
`f` standing for `tanh`) a fresh `incremental_forward` over the whole graph returns
without exception; the 12 `tanh` nodes are one bucket and one type-group; the only
kernel invocation of a `tanh` node is one call of the kernel of node 12 on one
argument tensor of 48 elements with an output tensor of 48 elements, one of 13
kernel invocations in all; and afterwards the output buffer of the `i`-th `tanh`
node has shape `{4}` and holds `f (x i 0), .., f (x i 3)`. -/
theorem tanh_scenario_fused {α : Type} [Inhabited α] (zero : α) (f : α → α)
    (x : Nat → Nat → α) :
    (tanhRun zero f x).2.toOption = some (vget (tanhRun zero f x).1.eng.nfxs 23) ∧
    (tanhRun zero f x).1.eng.by_depth =
      [[0, 1, 2, 3, 4, 5, 6, 7, 8, 9, 10, 11],
       [12, 13, 14, 15, 16, 17, 18, 19, 20, 21, 22, 23], []] ∧
    groupByType (tanhGraph f x) 0 [12, 13, 14, 15, 16, 17, 18, 19, 20, 21, 22, 23] =
      [(NodeType.Tanh, [12, 13, 14, 15, 16, 17, 18, 19, 20, 21, 22, 23])] ∧
    ((tanhRun zero f x).1.w.calls.filter
        (fun c => decide ((vget (tanhGraph f x).nodes c.node).type_id = NodeType.Tanh))).map
      (fun c => (c.node, c.xs.map (fun x => x.d.size), c.fx.d.size)) = [(12, [48], 48)] ∧
    (tanhRun zero f x).1.w.calls.length = 13 ∧
    (∀ i, i < 12 →
      (vget (tanhRun zero f x).1.eng.nfxs (12 + i)).d = Dim.ofList [4] ∧
      loadFloats (tanhRun zero f x).1.w.mem (vget (tanhRun zero f x).1.eng.nfxs (12 + i)).v 4 =
        [f (x i 0), f (x i 1), f (x i 2), f (x i 3)]) := by
  obtain ⟨e1, e2, e3, e4, e5, e6⟩ := tanhScenarioRun_eval
  have hty : (fun c : KernelCall =>
      decide ((vget (tanhGraph f x).nodes c.node).type_id = NodeType.Tanh)) =
      (fun c => decide ((vget tanhScenario.nodes c.node).type_id = NodeType.Tanh)) := by
    funext c
    rw [(tanhGraph_rel zero f x c.node).2.1]
  rw [tanhRun_eq zero f x, groupByType_graph _ _ _ (tanhGraph_rel zero f x), hty]
  refine ⟨e1, e2, e3, e4, e5, ?_⟩
  intro i hi
  refine ⟨(e6 i hi).1, ?_⟩
  show loadFloats (fun a => Sym.interp zero f x (tanhScenarioRun.1.w.mem a)) _ 4 = _
  rw [loadFloats_map]
  show (loadFloats tanhScenarioRun.1.w.mem (vget tanhScenarioRun.1.eng.nfxs (12 + i)).v 4).map
    (Sym.interp zero f x) = _
  rw [(e6 i hi).2]
  rfl

/-! ## Matrix-multiply fusion on a group of fusion-eligible members -/

theorem scatterFold_spec {α : Type} [Inhabited α] (cg : ComputationGraph α)
    (nfxs : List Tensor) (key R r M : Nat) :
    ∀ (nids : List Nat) (mem : Nat → α) (off : Nat), nids.Nodup →
      (∀ n ∈ nids, vget (vget cg.nodes n).args 0 = key) →
      (∀ n ∈ nids, (vget nfxs n).d.size = r) →
      (∀ n ∈ nids, ∀ m ∈ nids, n ≠ m → ∀ k, k < r → ∀ l, l < r →
        (vget nfxs n).v + sizeof_float * k ≠ (vget nfxs m).v + sizeof_float * l) →
      (∀ n ∈ nids, ∀ k, k < r → ∀ m, m < M →
        (vget nfxs n).v + sizeof_float * k ≠ R + sizeof_float * m) →
      off + r * nids.length ≤ M → M < 2 ^ 32 →
      (∀ a, (∀ n ∈ nids, ∀ k, k < r → a ≠ (vget nfxs n).v + sizeof_float * k) →
        (nids.foldl (scatterStep cg nfxs key R) (mem, off)).1 a = mem a) ∧
      (∀ i, i < nids.length → ∀ k, k < r →
        (nids.foldl (scatterStep cg nfxs key R) (mem, off)).1
            ((vget nfxs (vget nids i)).v + sizeof_float * k) =
          mem (R + sizeof_float * (off + r * i + k))) := by
  intro nids
  induction nids with
  | nil =>
    intro mem off _ _ _ _ _ _ _
    refine ⟨fun _ _ => rfl, ?_⟩
    intro i hi; cases hi
  | cons n ns ih =>
    intro mem off hnd hkey hsz hdis hres hM hM32
    have hn : n ∈ n :: ns := List.mem_cons_self _ _
    have hnns : n ∉ ns := (List.nodup_cons.1 hnd).1
    have hlen : (n :: ns).length = ns.length + 1 := rfl
    rw [hlen, Nat.mul_add, Nat.mul_one] at hM
    have hstep : scatterStep cg nfxs key R (mem, off) n =
        (storeFloats mem (vget nfxs n).v (loadFloats mem (R + sizeof_float * off) r),
          off + r) := by
      unfold scatterStep memcpy
      rw [if_pos (hkey n hn), hsz n hn, Nat.mod_eq_of_lt (by omega)]
    rw [List.foldl_cons, hstep]
    obtain ⟨i1, i2⟩ := ih (storeFloats mem (vget nfxs n).v (loadFloats mem (R + sizeof_float * off) r))
      (off + r) (List.nodup_cons.1 hnd).2
      (fun m hm => hkey m (List.mem_cons_of_mem _ hm))
      (fun m hm => hsz m (List.mem_cons_of_mem _ hm))
      (fun a ha b hb => hdis a (List.mem_cons_of_mem _ ha) b (List.mem_cons_of_mem _ hb))
      (fun a ha => hres a (List.mem_cons_of_mem _ ha))
      (by omega) hM32
    refine ⟨?_, ?_⟩
    · intro a ha
      rw [i1 a (fun m hm => ha m (List.mem_cons_of_mem _ hm)), storeFloats_miss]
      intro k hk
      rw [length_loadFloats] at hk
      exact ha n hn k hk
    · intro i hi k hk
      cases i with
      | zero =>
        rw [vget_cons_zero, i1 _ ?_, storeFloats_hit _ _ _ _ (by rw [length_loadFloats]; exact hk),
          vget_loadFloats _ _ _ _ hk]
        · congr 1
          simp only [sizeof_float]
          omega
        · intro m hm l hl
          exact hdis n hn m (List.mem_cons_of_mem _ hm)
            (fun e => hnns (by rw [e]; exact hm)) k hk l hl
      | succ i =>
        have hi' : i < ns.length := by simpa using hi
        rw [vget_cons_succ, i2 i hi' k hk, storeFloats_miss]
        · congr 1
          simp only [sizeof_float]
          have : r * (i + 1) = r * i + r := by rw [Nat.mul_add, Nat.mul_one]
          omega
        · intro l hl
          rw [length_loadFloats] at hl
          have hile : r * i + r ≤ r * ns.length := by
            have : r * (i + 1) ≤ r * ns.length := Nat.mul_le_mul_left r (by omega)
            rw [Nat.mul_add, Nat.mul_one] at this
            exact this
          exact (hres n hn l hl (off + r + r * i + k) (by omega)).symm

theorem mapPush_same_key (a : Nat) (ka kb : Nat → Nat) :
    ∀ (is : List Nat) (xs : List Nat), (∀ i ∈ is, ka i = a) →
      is.foldl (fun m i => mapPush (fun k => k) m (ka i) (kb i)) [(a, xs)] =
        [(a, xs ++ is.map kb)] := by
  intro is
  induction is with
  | nil => intro xs _; simp
  | cons i is ih =>
    intro xs h
    rw [List.foldl_cons]
    have hi : ka i = a := h i (List.mem_cons_self _ _)
    have hstep : mapPush (fun k => k) [(a, xs)] (ka i) (kb i) = [(a, xs ++ [kb i])] := by
      rw [hi]
      simp [mapPush]
    rw [hstep, ih _ (fun j hj => h j (List.mem_cons_of_mem _ hj))]
    simp

theorem mapPush_fold_same_key (a : Nat) (ka kb : Nat → Nat) (is : List Nat)
    (hne : is ≠ []) (h : ∀ i ∈ is, ka i = a) :
    is.foldl (fun m i => mapPush (fun k => k) m (ka i) (kb i)) [] = [(a, is.map kb)] := by
  cases is with
  | nil => exact absurd rfl hne
  | cons i is =>
    rw [List.foldl_cons]
    have hi : ka i = a := h i (List.mem_cons_self _ _)
    have hstep : mapPush (fun k => k) [] (ka i) (kb i) = [(a, [kb i])] := by
      rw [hi]; rfl
    rw [hstep, mapPush_same_key a ka kb is [kb i]
      (fun j hj => h j (List.mem_cons_of_mem _ hj))]
    simp

theorem map_vget_range {α : Type} [Inhabited α] (l : List α) :
    (List.range l.length).map (vget l) = l := by
  apply List.ext_getElem?
  intro i
  rw [List.getElem?_map]
  by_cases hi : i < l.length
  · rw [List.getElem?_range hi, List.getElem?_eq_getElem hi]
    simp only [Option.map_some']
    congr 1
    unfold vget
    rw [List.getD_eq_getElem?_getD, List.getElem?_eq_getElem hi]
    rfl
  · rw [List.getElem?_eq_none (by simpa using hi), List.getElem?_eq_none (by omega)]
    rfl

theorem dim_matrix_facts (r c : Nat) (h : r * c < 2 ^ 32) :
    (Dim.ofList [r, c]).rows = r ∧ (Dim.ofList [r, c]).cols = c ∧
    (Dim.ofList [r, c]).nd = 2 ∧ (Dim.ofList [r, c]).size = r * c := by
  refine ⟨rfl, rfl, rfl, ?_⟩
  show (((1 * r) % 2 ^ 32 * c) % 2 ^ 32 * 1) % 2 ^ 32 = r * c
  rw [Nat.one_mul, Nat.mul_one, Nat.mod_mod, Nat.mod_mul_mod, Nat.mod_eq_of_lt h]

theorem dim_vector_facts (c : Nat) (h : c < 2 ^ 32) :
    (Dim.ofList [c]).rows = c ∧ (Dim.ofList [c]).cols = 1 ∧
    (Dim.ofList [c]).nd = 1 ∧ (Dim.ofList [c]).size = c :=
  ⟨rfl, rfl, rfl, dim_single_size c h⟩

theorem eval_matrix_multiply_one_group {α : Type} [Inhabited α] (cg : ComputationGraph α)
    (nfxs : List Tensor) (w : World α) (nids : List Nat) (a : Nat)
    (hne : nids ≠ [])
    (hargs : ∀ n ∈ nids, vget (vget cg.nodes n).args 0 = a)
    (hW : (vget nfxs a).d.nd = 2)
    (hV : ∀ n ∈ nids, (argTensor1 cg nfxs n).d.nd = 1) :
    eval_matrix_multiply nids cg nfxs w =
      matmulGroup nids cg nfxs w
        (a, nids.map (fun nid => vget (vget cg.nodes nid).args 1)) := by
  have hlen : 0 < nids.length := List.length_pos.2 hne
  have hcls : ∀ i, i < nids.length →
      matmulClass
        (vget nfxs (vget (nids.map (fun nid => vget (vget cg.nodes nid).args 0)) i))
        (vget nfxs (vget (nids.map (fun nid => vget (vget cg.nodes nid).args 1)) i)) = 0 := by
    intro i hi
    have hm := vget_mem nids i hi
    rw [vget_map _ nids i hi, vget_map _ nids i hi, hargs _ hm]
    unfold matmulClass
    have h2 := hV _ hm
    unfold argTensor1 at h2
    rw [hW, h2]
    simp
  have h0 : (List.range nids.length).filter (fun i => decide (matmulClass
        (vget nfxs (vget (nids.map (fun nid => vget (vget cg.nodes nid).args 0)) i))
        (vget nfxs (vget (nids.map (fun nid => vget (vget cg.nodes nid).args 1)) i)) = 0)) =
      List.range nids.length := by
    rw [List.filter_eq_self]
    intro i hi
    rw [hcls i (List.mem_range.1 hi)]
    rfl
  have h1 : (List.range nids.length).filter (fun i => decide (matmulClass
        (vget nfxs (vget (nids.map (fun nid => vget (vget cg.nodes nid).args 0)) i))
        (vget nfxs (vget (nids.map (fun nid => vget (vget cg.nodes nid).args 1)) i)) = 1)) =
      [] := by
    rw [List.filter_eq_nil_iff]
    intro i hi
    rw [hcls i (List.mem_range.1 hi)]
    simp
  unfold eval_matrix_multiply
  dsimp only
  rw [h0, h1]
  have hfold := mapPush_fold_same_key a
    (vget (nids.map (fun nid => vget (vget cg.nodes nid).args 0)))
    (vget (nids.map (fun nid => vget (vget cg.nodes nid).args 1)))
    (List.range nids.length) (by simp; exact hne)
    (fun i hi => by
      have hi' := List.mem_range.1 hi
      rw [vget_map _ nids i hi']
      exact hargs _ (vget_mem nids i hi'))
  rw [hfold]
  have hmap := map_vget_range (nids.map (fun nid => vget (vget cg.nodes nid).args 1))
  rw [List.length_map] at hmap
  rw [hmap]
  rfl

theorem sizesPrefix_const (ts : List Tensor) (c : Nat)
    (h : ∀ i, i < ts.length → (vget ts i).d.size = c) :
    ∀ i, i ≤ ts.length → sizesPrefix ts i = c * i := by
  intro i
  induction i with
  | zero => intro _; rw [sizesPrefix_zero, Nat.mul_zero]
  | succ i ih =>
    intro hi
    rw [sizesPrefix_succ ts i (by omega), ih (by omega), h i (by omega), Nat.mul_add,
      Nat.mul_one]

theorem matmulGroup_mem {α : Type} [Inhabited α] (cg : ComputationGraph α)
    (nfxs : List Tensor) (w : World α) (nids : List Nat) (a : Nat) (bs : List Nat)
    (t1 t2 : Nat)
    (halloc1 : (w.allocate (vget (bs.map (fun b => vget nfxs b)) 0).device
      (total_dsize (bs.map (fun b => vget nfxs b)) * sizeof_float)).1 = some t1)
    (halloc2 : ((w.allocate (vget (bs.map (fun b => vget nfxs b)) 0).device
      (total_dsize (bs.map (fun b => vget nfxs b)) * sizeof_float)).2.allocate
        (vget nfxs a).device
        ((Dim.ofList [(vget nfxs a).d.rows, (bs.map (fun b => vget nfxs b)).length]).size *
          sizeof_float)).1 = some t2) :
    (matmulGroup nids cg nfxs w (a, bs)).mem =
      (nids.foldl (scatterStep cg nfxs a t2)
        (storeFloats ((bs.map (fun b => vget nfxs b)).foldl combineStep (w.mem, t1)).1 t2
          (((vget cg.nodes (vget nids 0)).forward
            [((vget nfxs a).d,
                loadFloats ((bs.map (fun b => vget nfxs b)).foldl combineStep (w.mem, t1)).1
                  (vget nfxs a).v (vget nfxs a).d.size),
              (Dim.ofList [(vget (bs.map (fun b => vget nfxs b)) 0).d.rows,
                  (bs.map (fun b => vget nfxs b)).length],
                loadFloats ((bs.map (fun b => vget nfxs b)).foldl combineStep (w.mem, t1)).1 t1
                  (Dim.ofList [(vget (bs.map (fun b => vget nfxs b)) 0).d.rows,
                    (bs.map (fun b => vget nfxs b)).length]).size)]
            (Dim.ofList [(vget nfxs a).d.rows, (bs.map (fun b => vget nfxs b)).length])).take
            (Dim.ofList [(vget nfxs a).d.rows, (bs.map (fun b => vget nfxs b)).length]).size),
          0)).1 := by
  have hmem : (w.allocate (vget (bs.map (fun b => vget nfxs b)) 0).device
      (total_dsize (bs.map (fun b => vget nfxs b)) * sizeof_float)).2.mem = w.mem := rfl
  have h2 : ∀ (mem : Nat → α), (World.allocate
      { (w.allocate (vget (bs.map (fun b => vget nfxs b)) 0).device
          (total_dsize (bs.map (fun b => vget nfxs b)) * sizeof_float)).2 with mem := mem }
      (vget nfxs a).device
      ((Dim.ofList [(vget nfxs a).d.rows, (bs.map (fun b => vget nfxs b)).length]).size *
        sizeof_float)).1 = some t2 := fun _ => halloc2
  unfold matmulGroup
  simp only [World.setUsed, callForward, combine_tensors, List.map_cons, List.map_nil]
  rw [halloc1, hmem, h2]
  rfl

theorem mul_add_lt (a b n k : Nat) (hk : k < a) (hb : b < n) : a * b + k < a * n := by
  have h1 : a * (b + 1) ≤ a * n := Nat.mul_le_mul_left a (by omega)
  rw [Nat.mul_add, Nat.mul_one] at h1
  omega

theorem vget_range (n i : Nat) (h : i < n) : vget (List.range n) i = i := by
  unfold vget
  rw [List.getD_eq_getElem?_getD, List.getElem?_range h]
  rfl

theorem matmulKernel_entry {α : Type} [Inhabited α] [Add α] [Mul α] [Zero α]
    (dA dB dO : Dim) (A B : List α) (idx : Nat) (h : idx < dA.rows * dB.cols) :
    vget (matmulKernel [(dA, A), (dB, B)] dO) idx =
      ((List.range dA.cols).map (fun k =>
        vget A (idx % dA.rows + dA.rows * k) * vget B (k + dB.rows * (idx / dA.rows)))).sum := by
  unfold matmulKernel
  simp only [vget_cons_zero, vget_cons_succ]
  rw [vget_map _ _ idx (by simpa using h), vget_range _ _ h]

theorem length_matmulKernel {α : Type} [Inhabited α] [Add α] [Mul α] [Zero α]
    (dA dB dO : Dim) (A B : List α) :
    (matmulKernel [(dA, A), (dB, B)] dO).length = dA.rows * dB.cols := by
  unfold matmulKernel
  simp only [vget_cons_zero, vget_cons_succ, List.length_map, List.length_range]

theorem do_node_matmul {α : Type} [Inhabited α] [Add α] [Mul α] [Zero α]
    (cg : ComputationGraph α) (nfxs : List Tensor) (w : World α) (n r c : Nat)
    (hargs : (vget cg.nodes n).args.length = 2)
    (hker : ∀ xs d, (vget cg.nodes n).forward xs d = matmulKernel xs d)
    (hW : (argTensor cg nfxs n).d = Dim.ofList [r, c])
    (hV : (argTensor1 cg nfxs n).d = Dim.ofList [c])
    (hO : (vget nfxs n).d.size = r)
    (hrc : r * c < 2 ^ 32) (hc : c < 2 ^ 32) (k : Nat) (hk : k < r) :
    (do_node cg n nfxs w).mem ((vget nfxs n).v + sizeof_float * k) =
      matVecAt w.mem r c (argTensor cg nfxs n).v (argTensor1 cg nfxs n).v k := by
  obtain ⟨w1, w2, _, w4⟩ := dim_matrix_facts r c hrc
  obtain ⟨v1, v2, _, v4⟩ := dim_vector_facts c hc
  have hmap : (vget cg.nodes n).args.map (fun arg => vget nfxs arg) =
      [argTensor cg nfxs n, argTensor1 cg nfxs n] := by
    unfold argTensor argTensor1
    cases hcs : (vget cg.nodes n).args with
    | nil => rw [hcs] at hargs; cases hargs
    | cons x xs =>
      rw [hcs] at hargs
      cases xs with
      | nil => cases hargs
      | cons y ys =>
        cases ys with
        | nil => rfl
        | cons z zs => simp at hargs
  rw [do_node_mem, hker, hmap]
  simp only [List.map_cons, List.map_nil]
  have hlen : (matmulKernel
      [((argTensor cg nfxs n).d,
          loadFloats w.mem (argTensor cg nfxs n).v (argTensor cg nfxs n).d.size),
        ((argTensor1 cg nfxs n).d,
          loadFloats w.mem (argTensor1 cg nfxs n).v (argTensor1 cg nfxs n).d.size)]
      (vget nfxs n).d).length = r := by
    rw [length_matmulKernel, hW, hV, w1, v2, Nat.mul_one]
  rw [List.take_of_length_le (by omega), storeFloats_hit _ _ _ _ (by omega),
    matmulKernel_entry _ _ _ _ _ k (by rw [hW, hV, w1, v2]; omega)]
  rw [hW, hV, w1, w2, v1, w4, v4]
  unfold matVecAt
  congr 1
  apply List.map_congr_left
  intro j hj
  have hj' : j < c := List.mem_range.1 hj
  have hkr : k % r = k := Nat.mod_eq_of_lt hk
  have hkd : k / r = 0 := Nat.div_eq_of_lt hk
  rw [hkr, hkd, Nat.mul_zero, Nat.add_zero,
    vget_loadFloats _ _ _ _ (by have := mul_add_lt r j c k hk hj'; omega),
    vget_loadFloats _ _ _ _ hj']

/-- Matrix-multiply fusion agrees with per-node dispatch on a group of
fusion-eligible members.  For a group of distinct `MatrixMultiply` nodes that
share the left operand `W`, an unbatched `r × c` matrix, whose right operands are
unbatched vectors of length `c` and whose outputs have `r` elements, when the two
temporary blocks are allocated at `t1` and `t2`, the operands do not overlap the
block of the concatenated vectors and the outputs overlap neither each other nor
the block of the fused result: after `eval_matrix_multiply` element `k` of the
output of every member holds entry `k` of the product of `W` with that member's
own right operand, which is also what `do_node` on that member writes. -/
theorem eval_matrix_multiply_eligible_agrees {α : Type} [Inhabited α] [Add α] [Mul α]
    [Zero α] (cg : ComputationGraph α) (nfxs : List Tensor) (w : World α)
    (nids : List Nat) (a r c t1 t2 : Nat)
    (hne : nids ≠ []) (hnd : nids.Nodup)
    (hargs : ∀ n ∈ nids, (vget cg.nodes n).args.length = 2 ∧
      vget (vget cg.nodes n).args 0 = a)
    (hker : ∀ n ∈ nids, ∀ xs d, (vget cg.nodes n).forward xs d = matmulKernel xs d)
    (hW : (vget nfxs a).d = Dim.ofList [r, c])
    (hV : ∀ n ∈ nids, (argTensor1 cg nfxs n).d = Dim.ofList [c])
    (hO : ∀ n ∈ nids, (vget nfxs n).d.size = r)
    (hrc : r * c < 2 ^ 32) (hrl : r * nids.length < 2 ^ 32)
    (hcl : c * nids.length < 2 ^ 32)
    (halloc1 : (w.allocate (argTensor1 cg nfxs (vget nids 0)).device
      (c * nids.length * sizeof_float)).1 = some t1)
    (halloc2 : ((w.allocate (argTensor1 cg nfxs (vget nids 0)).device
      (c * nids.length * sizeof_float)).2.allocate (vget nfxs a).device
        (r * nids.length * sizeof_float)).1 = some t2)
    (hsepV : ∀ n ∈ nids, ∀ k, k < c → ∀ m, m < c * nids.length →
      (argTensor1 cg nfxs n).v + sizeof_float * k ≠ t1 + sizeof_float * m)
    (hsepW : ∀ k, k < r * c → ∀ m, m < c * nids.length →
      (vget nfxs a).v + sizeof_float * k ≠ t1 + sizeof_float * m)
    (hsepO : ∀ n ∈ nids, ∀ k, k < r → ∀ m, m < r * nids.length →
      (vget nfxs n).v + sizeof_float * k ≠ t2 + sizeof_float * m)
    (hdis : ∀ n ∈ nids, ∀ m ∈ nids, n ≠ m → ∀ k, k < r → ∀ l, l < r →
      (vget nfxs n).v + sizeof_float * k ≠ (vget nfxs m).v + sizeof_float * l) :
    ∀ i, i < nids.length → ∀ k, k < r →
      (eval_matrix_multiply nids cg nfxs w).mem
          ((vget nfxs (vget nids i)).v + sizeof_float * k) =
        matVecAt w.mem r c (vget nfxs a).v (argTensor1 cg nfxs (vget nids i)).v k ∧
      (do_node cg (vget nids i) nfxs w).mem ((vget nfxs (vget nids i)).v + sizeof_float * k) =
        matVecAt w.mem r c (vget nfxs a).v (argTensor1 cg nfxs (vget nids i)).v k := by
  have hlen : 0 < nids.length := List.length_pos.2 hne
  have hmem : ∀ i, i < nids.length → vget nids i ∈ nids := fun i hi => vget_mem nids i hi
  have hc : c < 2 ^ 32 := by
    have : c * 1 ≤ c * nids.length := Nat.mul_le_mul_left c hlen
    omega
  obtain ⟨w1, w2, w3, w4⟩ := dim_matrix_facts r c hrc
  obtain ⟨v1, v2, v3, v4⟩ := dim_vector_facts c hc
  -- the concatenated right operands
  have hvs : (nids.map (fun nid => vget (vget cg.nodes nid).args 1)).map
      (fun b => vget nfxs b) = nids.map (argTensor1 cg nfxs) := by
    rw [List.map_map]; rfl
  have hvi : ∀ i, i < nids.length →
      vget (nids.map (argTensor1 cg nfxs)) i = argTensor1 cg nfxs (vget nids i) :=
    fun i hi => vget_map _ _ i hi
  have hsz : ∀ i, i < (nids.map (argTensor1 cg nfxs)).length →
      (vget (nids.map (argTensor1 cg nfxs)) i).d.size = c := by
    intro i hi
    have hi' : i < nids.length := by simpa using hi
    rw [hvi i hi', hV _ (hmem i hi'), v4]
  have hpre := sizesPrefix_const _ c hsz
  have htot : sizesTotal (nids.map (argTensor1 cg nfxs)) = c * nids.length := by
    rw [← sizesPrefix_length, hpre _ (le_refl _), List.length_map]
  have htd : total_dsize (nids.map (argTensor1 cg nfxs)) = c * nids.length := by
    rw [total_dsize_eq _ (by rw [htot]; exact hcl), htot]
  have hrd : (Dim.ofList [r, nids.length]).size = r * nids.length :=
    (dim_matrix_facts r nids.length hrl).2.2.2
  have hvd : (Dim.ofList [c, nids.length]).size = c * nids.length :=
    (dim_matrix_facts c nids.length hcl).2.2.2
  intro i hi k hk
  have hmi := hmem i hi
  constructor
  · rw [eval_matrix_multiply_one_group cg nfxs w nids a hne (fun n hn => (hargs n hn).2)
        (by rw [hW, w3]) (fun n hn => by rw [hV n hn, v3]),
      matmulGroup_mem cg nfxs w nids a _ t1 t2
        (by rw [hvs, hvi 0 hlen, htd]; exact halloc1)
        (by rw [hvs, hvi 0 hlen, htd, hW, w1, List.length_map, hrd]; exact halloc2)]
    rw [hvs, hvi 0 hlen, hV _ (hmem 0 hlen), hW, w1, v1, w4, List.length_map, hrd, hvd,
      hker _ (hmem 0 hlen)]
    obtain ⟨_, c2, c3⟩ := combineFold_spec (nids.map (argTensor1 cg nfxs)) w.mem t1
      (fun j hj l hl m hm => by
        have hj' : j < nids.length := by simpa using hj
        rw [hvi j hj'] at hl ⊢
        rw [hV _ (hmem j hj'), v4] at hl
        rw [htot] at hm
        exact hsepV _ (hmem j hj') l hl m hm)
    obtain ⟨_, s2⟩ := scatterFold_spec cg nfxs a t2 r (r * nids.length) nids
      (storeFloats ((nids.map (argTensor1 cg nfxs)).foldl combineStep (w.mem, t1)).1 t2
        ((matmulKernel
          [(Dim.ofList [r, c],
              loadFloats ((nids.map (argTensor1 cg nfxs)).foldl combineStep (w.mem, t1)).1
                (vget nfxs a).v (r * c)),
            (Dim.ofList [c, nids.length],
              loadFloats ((nids.map (argTensor1 cg nfxs)).foldl combineStep (w.mem, t1)).1 t1
                (c * nids.length))]
          (Dim.ofList [r, nids.length])).take (r * nids.length))) 0 hnd
      (fun n hn => (hargs n hn).2) hO hdis hsepO (by omega) hrl
    rw [s2 i hi k hk, Nat.zero_add]
    have hidx : r * i + k < r * nids.length := mul_add_lt r i nids.length k hk hi
    have hklen : (matmulKernel
          [(Dim.ofList [r, c],
              loadFloats ((nids.map (argTensor1 cg nfxs)).foldl combineStep (w.mem, t1)).1
                (vget nfxs a).v (r * c)),
            (Dim.ofList [c, nids.length],
              loadFloats ((nids.map (argTensor1 cg nfxs)).foldl combineStep (w.mem, t1)).1 t1
                (c * nids.length))]
          (Dim.ofList [r, nids.length])).length = r * nids.length := by
      rw [length_matmulKernel]; rfl
    rw [List.take_of_length_le (by omega), storeFloats_hit _ _ _ _ (by omega),
      matmulKernel_entry _ _ _ _ _ _ (by show r * i + k < r * nids.length; exact hidx)]
    show ((List.range c).map (fun j =>
      vget (loadFloats _ (vget nfxs a).v (r * c)) ((r * i + k) % r + r * j) *
        vget (loadFloats _ t1 (c * nids.length)) (j + c * ((r * i + k) / r)))).sum = _
    have hr0 : 0 < r := by omega
    have hmod : (r * i + k) % r = k := by
      rw [Nat.mul_add_mod, Nat.mod_eq_of_lt hk]
    have hdiv : (r * i + k) / r = i := by
      rw [Nat.mul_add_div hr0, Nat.div_eq_of_lt hk, Nat.add_zero]
    rw [hmod, hdiv]
    unfold matVecAt
    congr 1
    apply List.map_congr_left
    intro j hj
    have hj' : j < c := List.mem_range.1 hj
    have hwi : k + r * j < r * c := by
      have := mul_add_lt r j c k hk hj'; omega
    have hvi' : j + c * i < c * nids.length := by
      have := mul_add_lt c i nids.length j hj' hi; omega
    rw [vget_loadFloats _ _ _ _ hwi, vget_loadFloats _ _ _ _ hvi',
      c2 _ (fun m hm => by rw [htot] at hm; exact hsepW _ hwi m hm)]
    have hc3 := c3 i (by simpa using hi) j (by rw [hsz i (by simpa using hi)]; exact hj')
    rw [hpre i (by simp; omega), hvi i hi] at hc3
    have hadr : t1 + sizeof_float * (j + c * i) = t1 + sizeof_float * (c * i + j) := by
      rw [Nat.add_comm j]
    rw [hadr, hc3]
  · have hWn : (argTensor cg nfxs (vget nids i)).d = Dim.ofList [r, c] := by
      unfold argTensor; rw [(hargs _ hmi).2]; exact hW
    have := do_node_matmul cg nfxs w (vget nids i) r c (hargs _ hmi).1 (hker _ hmi) hWn
      (hV _ hmi) (hO _ hmi) hrc hc k hk
    unfold argTensor at this
    rw [(hargs _ hmi).2] at this
    exact this

theorem eval_matrix_multiply_eligible_agrees_witness :
    eligibleGroup.Nodup ∧
    (eval_matrix_multiply eligibleGroup eligibleGraph eligibleRun.1.eng.nfxs
        eligibleRun.1.w).mem ((vget eligibleRun.1.eng.nfxs (vget eligibleGroup 4)).v +
          sizeof_float * 1) =
      matVecAt eligibleRun.1.w.mem 2 3 (vget eligibleRun.1.eng.nfxs 0).v
        (argTensor1 eligibleGraph eligibleRun.1.eng.nfxs (vget eligibleGroup 4)).v 1 :=
  ⟨by decide,
    ((eval_matrix_multiply_eligible_agrees eligibleGraph eligibleRun.1.eng.nfxs
      eligibleRun.1.w eligibleGroup 0 2 3 1184 1280 (by decide) (by decide) (by decide)
      (by
        intro n hn
        simp only [eligibleGroup, List.mem_cons, List.mem_singleton, List.not_mem_nil,
          or_false] at hn
        rcases hn with rfl | rfl | rfl | rfl | rfl | rfl <;> intro xs d <;> rfl)
      (by decide) (by decide) (by decide) (by decide) (by decide) (by decide)
      (by decide) (by decide) (by decide) (by decide) (by decide) (by decide)) 4
      (by decide) 1 (by decide)).1⟩

/-! ## Backward executor: the test for a scalar target -/

theorem gradAllocStep_fault {α : Type} (nfxs : List Tensor) (i : Nat) (g : Grad α)
    (h : g.fault ≠ some BackFault.non_scalar) :
    (gradAllocStep nfxs i g).fault ≠ some BackFault.non_scalar := by
  unfold gradAllocStep
  by_cases hf : g.fault.isSome
  · rw [if_pos hf]; exact h
  · rw [if_neg hf]
    dsimp only
    cases (g.w.allocateD (vget nfxs i).device ((vget nfxs i).d.size * sizeof_float)).1 with
    | none => dsimp only; intro hc; cases hc
    | some p => exact h

theorem backwardSetup_fault {α : Type} [Zero α] (m : Machine α) (k t : Nat) :
    (backwardSetup m k t).fault ≠ some BackFault.non_scalar := by
  have key : (forUp (gradAllocStep m.eng.nfxs) 0 (t + 1)
      ⟨vresize m.eng.ndEdfs (t + 1), m.w.freeAllD, [], [], [], none⟩).fault ≠
      some BackFault.non_scalar := by
    have := forUp_inv (gradAllocStep m.eng.nfxs)
      (fun _ g => g.fault ≠ some BackFault.non_scalar) (t + 1) 0
      ⟨vresize m.eng.ndEdfs (t + 1), m.w.freeAllD, [], [], [], none⟩
      (by intro hc; cases hc)
      (fun j g _ _ hI => gradAllocStep_fault _ j g hI)
    exact this
  unfold backwardSetup
  dsimp only
  split
  · exact key
  · exact key

theorem callBackward_fault {α : Type} [Inhabited α] [Add α] (cg : ComputationGraph α)
    (nfxs : List Tensor) (i ai arg : Nat) (g : Grad α) :
    (callBackward cg nfxs i ai arg g).fault = g.fault := rfl

theorem backArgFold_fault {α : Type} [Inhabited α] [Add α] (cg : ComputationGraph α)
    (nfxs : List Tensor) (nd : List Bool) (i : Nat) :
    ∀ (args : List Nat) (acc : Grad α × Nat),
      (args.foldl (backArgStep cg nfxs nd i) acc).1.fault = acc.1.fault := by
  intro args
  induction args with
  | nil => intro acc; rfl
  | cons a rest ih =>
    intro acc
    rw [List.foldl_cons, ih]
    unfold backArgStep
    dsimp only
    split
    · rfl
    · rfl

theorem backNodeStep_fault {α : Type} [Inhabited α] [Add α] (cg : ComputationGraph α)
    (nfxs : List Tensor) (nd : List Bool) (i : Nat) (s : Sweep α) :
    (backNodeStep cg nfxs nd i s).g.fault = s.g.fault := by
  unfold backNodeStep
  split
  · exact backArgFold_fault cg nfxs nd i _ _
  · rfl

theorem forDown_fault {α : Type} [Inhabited α] [Add α] (cg : ComputationGraph α)
    (nfxs : List Tensor) (nd : List Bool) (lo : Nat) :
    ∀ (count : Nat) (s : Sweep α),
      (forDown (backNodeStep cg nfxs nd) lo count s).g.fault = s.g.fault := by
  intro count
  induction count with
  | zero => intro s; rfl
  | succ n ih =>
    intro s
    show (forDown (backNodeStep cg nfxs nd) lo n (backNodeStep cg nfxs nd (lo + n) s)).g.fault = _
    rw [ih, backNodeStep_fault]

/-- C11: `backward(target)` stops with the non-scalar error exactly when the
cached output `nfxs[target]` does not have exactly one element; when it does
stop so, it has called `allocate` on no gradient pool, invoked no backward
kernel, called `accumulate_grad` for no parameter, and has left the gradient
cache, the pools and the memory as they were. -/
theorem backward_non_scalar_iff {α : Type} [Inhabited α] [Zero α] [Add α]
    (cg : ComputationGraph α) (m : Machine α) (kSCALAR_ONE target : Nat) :
    ((backward cg m kSCALAR_ONE target).fault = some BackFault.non_scalar ↔
      (vget m.eng.nfxs target).d.size ≠ 1) ∧
    ((vget m.eng.nfxs target).d.size ≠ 1 →
      (backward cg m kSCALAR_ONE target).allocs = [] ∧
      (backward cg m kSCALAR_ONE target).calls = [] ∧
      (backward cg m kSCALAR_ONE target).accumulated = [] ∧
      (backward cg m kSCALAR_ONE target).ndEdfs = m.eng.ndEdfs ∧
      (backward cg m kSCALAR_ONE target).w = m.w) := by
  constructor
  · constructor
    · intro hf hs
      have hs1 : ¬ (vget m.eng.nfxs target).d.size ≠ 1 := fun h => h hs
      unfold backward at hf
      rw [if_neg hs1] at hf
      dsimp only at hf
      by_cases hg : (backwardSetup m kSCALAR_ONE target).fault.isSome
      · rw [if_pos hg] at hf
        exact backwardSetup_fault m kSCALAR_ONE target hf
      · rw [if_neg hg] at hf
        dsimp only [backwardSweep] at hf
        rw [forDown_fault] at hf
        exact backwardSetup_fault m kSCALAR_ONE target hf
    · intro hs
      unfold backward
      rw [if_pos hs]
  · intro hs
    unfold backward
    rw [if_pos hs]
    exact ⟨rfl, rfl, rfl, rfl, rfl⟩

/-! ## Backward executor: the needs-gradient flags -/

theorem markFold_spec (l : List Nat) :
    ∀ (v : List Bool), (l.foldl (fun nd i => vset nd i true) v).length = v.length ∧
      ∀ j, (vget (l.foldl (fun nd i => vset nd i true) v) j = true ↔
        (vget v j = true ∨ (j ∈ l ∧ j < v.length))) := by
  induction l with
  | nil => intro v; simp
  | cons a rest ih =>
    intro v
    rw [List.foldl_cons]
    obtain ⟨hlen, hget⟩ := ih (vset v a true)
    rw [length_vset] at hlen
    refine ⟨hlen, fun j => ?_⟩
    rw [hget j, vget_vset, length_vset]
    by_cases haj : a = j
    · subst haj
      by_cases hl : a < v.length
      · simp [hl]
      · simp [hl]
    · have h1 : ¬ (a = j ∧ a < v.length) := fun h => haj h.1
      rw [if_neg h1]
      have h2 : j ≠ a := fun h => haj h.symm
      simp [h2]

theorem orFold_spec (nd : List Bool) (l : List Nat) :
    ∀ (b : Bool), (l.foldl (fun b arg => b || vget nd arg) b = true ↔
      (b = true ∨ ∃ a ∈ l, vget nd a = true)) := by
  induction l with
  | nil => intro b; simp
  | cons a rest ih =>
    intro b
    rw [List.foldl_cons, ih]
    simp only [Bool.or_eq_true, List.mem_cons, exists_eq_or_imp]
    tauto

theorem vget_replicate_false (n j : Nat) : vget (List.replicate n false) j = false := by
  by_cases h : j < n
  · simp [vget, List.getD_eq_getElem?_getD, List.getElem?_replicate, h]
  · simp [vget, List.getD_eq_getElem?_getD, List.getElem?_replicate, h]

theorem needsInit_spec {α : Type} (cg : ComputationGraph α) (n : Nat) :
    (needsInit cg n).length = n ∧
    ∀ j, (vget (needsInit cg n) j = true ↔ (j ∈ cg.parameter_nodes ∧ j < n)) := by
  obtain ⟨hlen, hget⟩ := markFold_spec cg.parameter_nodes (List.replicate n false)
  rw [List.length_replicate] at hlen
  refine ⟨hlen, fun j => ?_⟩
  unfold needsInit
  rw [hget j, vget_replicate_false, List.length_replicate]
  simp

theorem reach_step (args : ArgTable) (i p : Nat) :
    Reach args i p ↔ ∃ a ∈ vget args i, a = p ∨ Reach args a p := by
  unfold Reach
  rw [Relation.TransGen.head'_iff]
  constructor
  · rintro ⟨b, hb, hr⟩
    refine ⟨b, hb, ?_⟩
    rcases Relation.reflTransGen_iff_eq_or_transGen.1 hr with h | h
    · exact Or.inl h.symm
    · exact Or.inr h
  · rintro ⟨a, ha, h⟩
    refine ⟨a, ha, ?_⟩
    rcases h with h | h
    · subst h; exact Relation.ReflTransGen.refl
    · exact h.to_reflTransGen

theorem reach_lt (args : ArgTable) (hdag : IsDAG args) (i j : Nat) (h : Reach args i j) :
    j < i := by
  unfold Reach at h
  induction h with
  | single h1 => exact hdag _ _ h1
  | tail _ h2 ih => exact Nat.lt_trans (hdag _ _ h2) ih

theorem needsStep_inv {α : Type} (cg : ComputationGraph α) (hdag : IsDAG cg.argTable)
    (n k : Nat) (hk : k < n) (nd : List Bool)
    (hI : nd.length = n ∧
      (∀ j, j < k → (vget nd j = true ↔
        (j ∈ cg.parameter_nodes ∨ ∃ p ∈ cg.parameter_nodes, Reach cg.argTable j p))) ∧
      (∀ j, k ≤ j → j < n → (vget nd j = true ↔ j ∈ cg.parameter_nodes))) :
    (needsStep cg k nd).length = n ∧
      (∀ j, j < k + 1 → (vget (needsStep cg k nd) j = true ↔
        (j ∈ cg.parameter_nodes ∨ ∃ p ∈ cg.parameter_nodes, Reach cg.argTable j p))) ∧
      (∀ j, k + 1 ≤ j → j < n → (vget (needsStep cg k nd) j = true ↔
        j ∈ cg.parameter_nodes)) := by
  obtain ⟨hlen, hlow, hhigh⟩ := hI
  unfold needsStep
  refine ⟨by rw [length_vset]; exact hlen, fun j hj => ?_, fun j hj1 hj2 => ?_⟩
  · by_cases hjk : j = k
    · subst hjk
      rw [vget_vset_eq _ _ _ (by omega), orFold_spec, hhigh j (Nat.le_refl _) hk]
      have hargs : ∀ a ∈ (vget cg.nodes j).args, a < j := by
        intro a ha
        apply hdag j a
        rw [vget_argTable]; exact ha
      constructor
      · rintro (h | ⟨a, ha, hnd⟩)
        · exact Or.inl h
        · right
          rcases (hlow a (hargs a ha)).1 hnd with hp | ⟨p, hp, hr⟩
          · exact ⟨a, hp, Relation.TransGen.single (by
              show a ∈ vget cg.argTable j
              rw [vget_argTable]; exact ha)⟩
          · exact ⟨p, hp, Relation.TransGen.head (by
              show a ∈ vget cg.argTable j
              rw [vget_argTable]; exact ha) hr⟩
      · rintro (h | ⟨p, hp, hr⟩)
        · exact Or.inl h
        · right
          obtain ⟨a, ha, h⟩ := (reach_step _ _ _).1 hr
          rw [vget_argTable] at ha
          refine ⟨a, ha, (hlow a (hargs a ha)).2 ?_⟩
          rcases h with h | h
          · subst h; exact Or.inl hp
          · exact Or.inr ⟨p, hp, h⟩
    · rw [vget_vset_ne _ _ _ _ (fun h => hjk h.symm)]
      exact hlow j (by omega)
  · rw [vget_vset_ne _ _ _ _ (by omega)]
    exact hhigh j (by omega) hj2

/-- C13: after the forward sweep of `backward(target)` over a graph whose
arguments strictly precede their nodes and whose parameter nodes all have an
index `<= target`, for every node `i` in `[0, target]` the flag
`needs_derivative[i]` is true if and only if `i` is a parameter node or some
parameter node is reachable from `i` along argument edges. -/
theorem needs_derivative_iff_reaches_parameter {α : Type} (cg : ComputationGraph α)
    (target i : Nat) (hdag : IsDAG cg.argTable)
    (_hpar : ∀ p ∈ cg.parameter_nodes, p ≤ target) (hi : i ≤ target) :
    vget (needs_derivative cg (target + 1)) i = true ↔
      (i ∈ cg.parameter_nodes ∨ ∃ p ∈ cg.parameter_nodes, Reach cg.argTable i p) := by
  have key := forUp_inv (needsStep cg)
    (fun k nd => nd.length = target + 1 ∧
      (∀ j, j < k → (vget nd j = true ↔
        (j ∈ cg.parameter_nodes ∨ ∃ p ∈ cg.parameter_nodes, Reach cg.argTable j p))) ∧
      (∀ j, k ≤ j → j < target + 1 → (vget nd j = true ↔ j ∈ cg.parameter_nodes)))
    (target + 1) 0 (needsInit cg (target + 1))
    ⟨(needsInit_spec cg _).1, fun j hj => absurd hj (Nat.not_lt_zero _),
      fun j _ hj => by rw [(needsInit_spec cg _).2 j]; exact ⟨fun h => h.1, fun h => ⟨h, hj⟩⟩⟩
    (fun j t _ hj hI => needsStep_inv cg hdag (target + 1) j (by omega) t hI)
  rw [Nat.zero_add] at key
  exact key.2.1 i (by omega)

theorem needs_derivative_iff_reaches_parameter_witness :
    IsDAG (diamondGraph [0]).argTable ∧ (∀ p ∈ (diamondGraph [0]).parameter_nodes, p ≤ 3) ∧
    3 ≤ 3 ∧
    (vget (needs_derivative (diamondGraph [0]) (3 + 1)) 3 = true ↔
      (3 ∈ (diamondGraph [0]).parameter_nodes ∨
        ∃ p ∈ (diamondGraph [0]).parameter_nodes, Reach (diamondGraph [0]).argTable 3 p)) :=
  ⟨isDAG_of_check _ (by decide), by decide, by decide,
    needs_derivative_iff_reaches_parameter (diamondGraph [0]) 3 3
      (isDAG_of_check _ (by decide)) (by decide) (by decide)⟩

/-! ## Backward executor: the participation flags -/

theorem forDown_split {σ : Type} (f : Nat → σ → σ) (lo a : Nat) :
    ∀ (b : Nat) (s : σ), forDown f lo (a + b) s = forDown f lo a (forDown f (lo + a) b s) := by
  intro b
  induction b with
  | zero => intro s; rfl
  | succ n ih =>
    intro s
    show forDown f lo (a + n) (f (lo + (a + n)) s) =
      forDown f lo a (forDown f (lo + a) n (f (lo + a + n) s))
    rw [ih, Nat.add_assoc]

theorem backwardSweep_split {α : Type} [Inhabited α] [Add α] (cg : ComputationGraph α)
    (nfxs : List Tensor) (nd : List Bool) (target : Nat) (g : Grad α) (i : Nat)
    (hi : i ≤ target) :
    backwardSweep cg nfxs nd target g =
      forDown (backNodeStep cg nfxs nd) 0 (i + 1) (sweepReaching cg nfxs nd target g i) := by
  unfold backwardSweep sweepReaching
  have h := forDown_split (backNodeStep cg nfxs nd) 0 (i + 1) (target - i)
    (sweepInit (target + 1) g)
  rw [Nat.zero_add] at h
  rw [← h]
  congr 1
  omega

theorem reach_last (args : ArgTable) (i j : Nat) :
    Reach args i j ↔ ∃ b, (b = i ∨ Reach args i b) ∧ j ∈ vget args b := by
  unfold Reach
  rw [Relation.TransGen.tail'_iff]
  constructor
  · rintro ⟨b, hr, hb⟩
    refine ⟨b, ?_, hb⟩
    rcases Relation.reflTransGen_iff_eq_or_transGen.1 hr with h | h
    · exact Or.inl h
    · exact Or.inr h
  · rintro ⟨b, h, hb⟩
    refine ⟨b, ?_, hb⟩
    rcases h with h | h
    · subst h; exact Relation.ReflTransGen.refl
    · exact h.to_reflTransGen

theorem backArgFold_calls {α : Type} [Inhabited α] [Add α] (cg : ComputationGraph α)
    (nfxs : List Tensor) (nd : List Bool) (i : Nat) :
    ∀ (args : List Nat) (acc : Grad α × Nat),
      ∀ c ∈ (args.foldl (backArgStep cg nfxs nd i) acc).1.calls,
        c ∈ acc.1.calls ∨ c.node = i := by
  intro args
  induction args with
  | nil => intro acc c hc; exact Or.inl hc
  | cons a rest ih =>
    intro acc c hc
    rw [List.foldl_cons] at hc
    rcases ih _ c hc with h | h
    · unfold backArgStep at h
      dsimp only at h
      split at h
      · unfold callBackward at h
        dsimp only at h
        rcases List.mem_append.1 h with h1 | h1
        · exact Or.inl h1
        · right
          rw [List.mem_singleton] at h1
          rw [h1]
      · exact Or.inl h
    · exact Or.inr h

/-- The invariant of the reverse loop of `backward(target)` when the indices from
`m` on have been processed. -/
theorem backNodeStep_inv {α : Type} [Inhabited α] [Add α] (cg : ComputationGraph α)
    (nfxs : List Tensor) (nd : List Bool) (hdag : IsDAG cg.argTable) (target k : Nat)
    (hk : k ≤ target) (calls0 : List (BackwardCall α)) (s : Sweep α)
    (hI : s.in_computation.length = target + 1 ∧
      (∀ j, j < target + 1 → (vget s.in_computation j = true ↔
        (j = target ∨ ∃ i, k + 1 ≤ i ∧ i ≤ target ∧
          (i = target ∨ Reach cg.argTable target i) ∧ j ∈ vget cg.argTable i))) ∧
      (∀ c ∈ s.g.calls, c ∈ calls0 ∨ (c.node = target ∨ Reach cg.argTable target c.node))) :
    (vget s.in_computation k = true ↔ (k = target ∨ Reach cg.argTable target k)) ∧
    (backNodeStep cg nfxs nd k s).in_computation.length = target + 1 ∧
      (∀ j, j < target + 1 → (vget (backNodeStep cg nfxs nd k s).in_computation j = true ↔
        (j = target ∨ ∃ i, k ≤ i ∧ i ≤ target ∧
          (i = target ∨ Reach cg.argTable target i) ∧ j ∈ vget cg.argTable i))) ∧
      (∀ c ∈ (backNodeStep cg nfxs nd k s).g.calls,
        c ∈ calls0 ∨ (c.node = target ∨ Reach cg.argTable target c.node)) := by
  obtain ⟨hlen, hic, hcalls⟩ := hI
  have hreach : vget s.in_computation k = true ↔ (k = target ∨ Reach cg.argTable target k) := by
    rw [hic k (by omega)]
    constructor
    · rintro (h | ⟨i, _, _, hin, hki⟩)
      · exact Or.inl h
      · right
        exact (reach_last _ _ _).2 ⟨i, hin, hki⟩
    · rintro (h | h)
      · exact Or.inl h
      · right
        obtain ⟨b, hb, hkb⟩ := (reach_last _ _ _).1 h
        refine ⟨b, hdag _ _ hkb, ?_, hb, hkb⟩
        rcases hb with hb | hb
        · omega
        · exact Nat.le_of_lt (reach_lt _ hdag _ _ hb)
  refine ⟨hreach, ?_⟩
  unfold backNodeStep
  by_cases hin : vget s.in_computation k = true
  · rw [if_pos hin]
    dsimp only
    obtain ⟨mlen, mget⟩ := markFold_spec (vget cg.nodes k).args s.in_computation
    refine ⟨by rw [mlen]; exact hlen, fun j hj => ?_, fun c hc => ?_⟩
    · rw [mget j, hic j hj, hlen, ← vget_argTable]
      constructor
      · rintro ((h | ⟨i, h1, h2, h3, h4⟩) | ⟨h, _⟩)
        · exact Or.inl h
        · exact Or.inr ⟨i, by omega, h2, h3, h4⟩
        · exact Or.inr ⟨k, Nat.le_refl _, hk, hreach.1 hin, h⟩
      · rintro (h | ⟨i, h1, h2, h3, h4⟩)
        · exact Or.inl (Or.inl h)
        · by_cases hik : i = k
          · subst hik
            exact Or.inr ⟨h4, hj⟩
          · exact Or.inl (Or.inr ⟨i, by omega, h2, h3, h4⟩)
    · rcases backArgFold_calls cg nfxs nd k _ _ c hc with h | h
      · exact hcalls c h
      · right
        rw [h]
        exact hreach.1 hin
  · rw [if_neg hin]
    refine ⟨hlen, fun j hj => ?_, hcalls⟩
    rw [hic j hj]
    constructor
    · rintro (h | ⟨i, h1, h2, h3, h4⟩)
      · exact Or.inl h
      · exact Or.inr ⟨i, by omega, h2, h3, h4⟩
    · rintro (h | ⟨i, h1, h2, h3, h4⟩)
      · exact Or.inl h
      · by_cases hik : i = k
        · subst hik
          exact absurd (hreach.2 h3) hin
        · exact Or.inr ⟨i, by omega, h2, h3, h4⟩

theorem sweepInit_inv {α : Type} (cg : ComputationGraph α) (target : Nat) (g : Grad α) :
    (sweepInit (target + 1) g).in_computation.length = target + 1 ∧
      (∀ j, j < target + 1 → (vget (sweepInit (target + 1) g).in_computation j = true ↔
        (j = target ∨ ∃ i, target + 1 ≤ i ∧ i ≤ target ∧
          (i = target ∨ Reach cg.argTable target i) ∧ j ∈ vget cg.argTable i))) ∧
      (∀ c ∈ (sweepInit (target + 1) g).g.calls,
        c ∈ g.calls ∨ (c.node = target ∨ Reach cg.argTable target c.node)) := by
  unfold sweepInit
  dsimp only
  refine ⟨by rw [length_vset, List.length_replicate], fun j hj => ?_, fun c hc => Or.inl hc⟩
  rw [vget_vset, List.length_replicate, vget_replicate_false, Nat.add_sub_cancel]
  constructor
  · intro h
    by_cases hc : target = j ∧ target < target + 1
    · exact Or.inl hc.1.symm
    · rw [if_neg hc] at h; cases h
  · rintro (h | ⟨i, h1, h2, _⟩)
    · subst h
      rw [if_pos ⟨rfl, Nat.lt_succ_self _⟩]
    · omega

theorem sweep_inv {α : Type} [Inhabited α] [Add α] (cg : ComputationGraph α)
    (nfxs : List Tensor) (nd : List Bool) (hdag : IsDAG cg.argTable) (target : Nat)
    (g : Grad α) (lo : Nat) (hlo : lo ≤ target + 1) :
    (forDown (backNodeStep cg nfxs nd) lo (target + 1 - lo)
        (sweepInit (target + 1) g)).in_computation.length = target + 1 ∧
      (∀ j, j < target + 1 →
        (vget (forDown (backNodeStep cg nfxs nd) lo (target + 1 - lo)
          (sweepInit (target + 1) g)).in_computation j = true ↔
        (j = target ∨ ∃ i, lo ≤ i ∧ i ≤ target ∧
          (i = target ∨ Reach cg.argTable target i) ∧ j ∈ vget cg.argTable i))) ∧
      (∀ c ∈ (forDown (backNodeStep cg nfxs nd) lo (target + 1 - lo)
          (sweepInit (target + 1) g)).g.calls,
        c ∈ g.calls ∨ (c.node = target ∨ Reach cg.argTable target c.node)) := by
  apply forDown_inv (backNodeStep cg nfxs nd) lo
    (fun m s => s.in_computation.length = target + 1 ∧
      (∀ j, j < target + 1 → (vget s.in_computation j = true ↔
        (j = target ∨ ∃ i, m ≤ i ∧ i ≤ target ∧
          (i = target ∨ Reach cg.argTable target i) ∧ j ∈ vget cg.argTable i))) ∧
      (∀ c ∈ s.g.calls, c ∈ g.calls ∨ (c.node = target ∨ Reach cg.argTable target c.node)))
  · have h : lo + (target + 1 - lo) = target + 1 := by omega
    rw [h]
    exact sweepInit_inv cg target g
  · intro m t hm hI
    exact (backNodeStep_inv cg nfxs nd hdag target (lo + m) (by omega) g.calls t hI).2

theorem gradAllocStep_calls {α : Type} (nfxs : List Tensor) (i : Nat) (g : Grad α) :
    (gradAllocStep nfxs i g).calls = g.calls ∧
    (gradAllocStep nfxs i g).accumulated = g.accumulated ∧
    (gradAllocStep nfxs i g).w.mem = g.w.mem ∧
    (gradAllocStep nfxs i g).w.calls = g.w.calls ∧
    (gradAllocStep nfxs i g).w.allocs = g.w.allocs ∧
    (gradAllocStep nfxs i g).ndEdfs.length = g.ndEdfs.length := by
  unfold gradAllocStep
  by_cases hf : g.fault.isSome
  · rw [if_pos hf]; exact ⟨rfl, rfl, rfl, rfl, rfl, rfl⟩
  · rw [if_neg hf]
    dsimp only
    cases (g.w.allocateD (vget nfxs i).device ((vget nfxs i).d.size * sizeof_float)).1 with
    | none => exact ⟨rfl, rfl, rfl, rfl, rfl, length_vset _ _ _⟩
    | some p => exact ⟨rfl, rfl, rfl, rfl, rfl, length_vset _ _ _⟩

theorem gradAllocLoop_calls {α : Type} (nfxs : List Tensor) (g : Grad α) (n : Nat) :
    (forUp (gradAllocStep nfxs) 0 n g).calls = g.calls ∧
    (forUp (gradAllocStep nfxs) 0 n g).accumulated = g.accumulated ∧
    (forUp (gradAllocStep nfxs) 0 n g).w.mem = g.w.mem ∧
    (forUp (gradAllocStep nfxs) 0 n g).w.calls = g.w.calls ∧
    (forUp (gradAllocStep nfxs) 0 n g).w.allocs = g.w.allocs ∧
    (forUp (gradAllocStep nfxs) 0 n g).ndEdfs.length = g.ndEdfs.length := by
  have := forUp_inv (gradAllocStep nfxs)
    (fun _ t => t.calls = g.calls ∧ t.accumulated = g.accumulated ∧ t.w.mem = g.w.mem ∧
      t.w.calls = g.w.calls ∧ t.w.allocs = g.w.allocs ∧ t.ndEdfs.length = g.ndEdfs.length)
    n 0 g ⟨rfl, rfl, rfl, rfl, rfl, rfl⟩
    (fun j t _ _ hI => by
      obtain ⟨h1, h2, h3, h4, h5, h6⟩ := gradAllocStep_calls nfxs j t
      exact ⟨h1.trans hI.1, h2.trans hI.2.1, h3.trans hI.2.2.1, h4.trans hI.2.2.2.1,
        h5.trans hI.2.2.2.2.1, h6.trans hI.2.2.2.2.2⟩)
  exact this

theorem backwardSetup_calls {α : Type} [Zero α] (m : Machine α) (k t : Nat) :
    (backwardSetup m k t).calls = [] ∧ (backwardSetup m k t).accumulated = [] := by
  obtain ⟨h1, h2, _⟩ := gradAllocLoop_calls m.eng.nfxs
    (⟨vresize m.eng.ndEdfs (t + 1), m.w.freeAllD, [], [], [], none⟩ : Grad α) (t + 1)
  unfold backwardSetup
  dsimp only
  split
  · exact ⟨h1, h2⟩
  · exact ⟨h1, h2⟩

/-- C14: in `backward(target)` over a graph whose arguments strictly precede
their nodes, when the reverse loop reaches index `i` (after the iterations for
`target`, ..., `i + 1`, the rest of the loop being the iterations for `i`, ..., `0`)
the flag `in_computation[i]` is true if and only if `i` is the target or `i` is
reachable from the target along argument edges; and every backward kernel that
`backward(target)` invokes belongs to the target or to a node reachable from it. -/
theorem in_computation_iff_reachable {α : Type} [Inhabited α] [Zero α] [Add α]
    (cg : ComputationGraph α) (m : Machine α) (kSCALAR_ONE target i : Nat)
    (nd : List Bool) (g : Grad α) (hdag : IsDAG cg.argTable) (hi : i ≤ target) :
    (vget (sweepReaching cg m.eng.nfxs nd target g i).in_computation i = true ↔
      (i = target ∨ Reach cg.argTable target i)) ∧
    backwardSweep cg m.eng.nfxs nd target g =
      forDown (backNodeStep cg m.eng.nfxs nd) 0 (i + 1)
        (sweepReaching cg m.eng.nfxs nd target g i) ∧
    (∀ c ∈ (backward cg m kSCALAR_ONE target).calls,
      c.node = target ∨ Reach cg.argTable target c.node) := by
  refine ⟨?_, backwardSweep_split cg m.eng.nfxs nd target g i hi, ?_⟩
  · have h := sweep_inv cg m.eng.nfxs nd hdag target g (i + 1) (by omega)
    have e : target + 1 - (i + 1) = target - i := by omega
    rw [e] at h
    exact (backNodeStep_inv cg m.eng.nfxs nd hdag target i hi g.calls _ h).1
  · intro c hc
    unfold backward at hc
    split at hc
    · cases hc
    · dsimp only at hc
      split at hc
      · rw [(backwardSetup_calls m kSCALAR_ONE target).1] at hc; cases hc
      · dsimp only [backwardSweep] at hc
        have h := (sweep_inv cg m.eng.nfxs (needs_derivative cg (target + 1)) hdag target
          (backwardSetup m kSCALAR_ONE target) 0 (Nat.zero_le _)).2.2 c hc
        rw [(backwardSetup_calls m kSCALAR_ONE target).1] at h
        rcases h with h | h
        · cases h
        · exact h

theorem in_computation_iff_reachable_witness :
    IsDAG (diamondGraph [0]).argTable ∧ 0 ≤ 3 ∧
    ((vget (sweepReaching (diamondGraph [0])
        (forward (diamondGraph [0]) Machine.initBoth 3).1.eng.nfxs
        (needs_derivative (diamondGraph [0]) 4) 3
        (backwardSetup (forward (diamondGraph [0]) Machine.initBoth 3).1 16 3)
        0).in_computation 0 = true ↔
      (0 = 3 ∨ Reach (diamondGraph [0]).argTable 3 0)) ∧
    backwardSweep (diamondGraph [0]) (forward (diamondGraph [0]) Machine.initBoth 3).1.eng.nfxs
        (needs_derivative (diamondGraph [0]) 4) 3
        (backwardSetup (forward (diamondGraph [0]) Machine.initBoth 3).1 16 3) =
      forDown (backNodeStep (diamondGraph [0])
          (forward (diamondGraph [0]) Machine.initBoth 3).1.eng.nfxs
          (needs_derivative (diamondGraph [0]) 4)) 0 (0 + 1)
        (sweepReaching (diamondGraph [0])
          (forward (diamondGraph [0]) Machine.initBoth 3).1.eng.nfxs
          (needs_derivative (diamondGraph [0]) 4) 3
          (backwardSetup (forward (diamondGraph [0]) Machine.initBoth 3).1 16 3) 0) ∧
    (∀ c ∈ (backward (diamondGraph [0]) (forward (diamondGraph [0]) Machine.initBoth 3).1
        16 3).calls,
      c.node = 3 ∨ Reach (diamondGraph [0]).argTable 3 c.node)) :=
  ⟨isDAG_of_check _ (by decide), by decide,
    in_computation_iff_reachable (diamondGraph [0])
      (forward (diamondGraph [0]) Machine.initBoth 3).1 16 3 0
      (needs_derivative (diamondGraph [0]) 4)
      (backwardSetup (forward (diamondGraph [0]) Machine.initBoth 3).1 16 3)
      (isDAG_of_check _ (by decide)) (by decide)⟩

/-! ## Backward executor: evaluated runs -/

/-- C15 (the code departs from the claim): on `vectorGraph` (a parameter of 8
floats, its double, and the sum of that), the pass `forward(2); backward(2)` on a
fresh engine returns without exception and leaves 96 bytes taken in the value
pool; the same pass run a second time on the same engine also returns, but
leaves 160 bytes taken in the value pool: `compute_depths` never empties
`by_depth`, so the second `forward(2)` finds every node twice in its bucket and
the planner sizes every block for both entries.  The gradient pool has 96 bytes
taken after either pass. -/
theorem repeated_pass_changes_value_pool_mark :
    (forward vectorGraph Machine.initBoth 2).2.toOption.isSome = true ∧
    (backward vectorGraph (forward vectorGraph Machine.initBoth 2).1 16 2).fault = none ∧
    (forward vectorGraph vectorPassOne 2).2.toOption.isSome = true ∧
    (backward vectorGraph (forward vectorGraph vectorPassOne 2).1 16 2).fault = none ∧
    vectorPassOne.eng.by_depth = [[0], [1], [2], []] ∧
    vectorPassTwo.eng.by_depth = [[0, 0], [1, 1], [2, 2], []] ∧
    vectorPassOne.w.used 0 = 96 ∧ vectorPassTwo.w.used 0 = 160 ∧
    vectorPassOne.w.usedD 0 = 96 ∧ vectorPassTwo.w.usedD 0 = 96 := by
  decide

/-- C16 (the code departs from the claim): in the example scenario, after
`incremental_forward(12)` on a fresh engine `num_nodes_evaluated` is 12, so
`get_value(13)` runs `incremental_forward` over the whole graph and returns
`nfxs[13]`.  Node 12 is put into its bucket a second time, the `tanh` group has
13 entries and is dispatched by the fused kernel, whose output starts at the
second slot of the block: the buffer of the returned `nfxs[13]` holds `tanh` of
input 0, while node 13 is `tanh` of input 1, whose buffer holds the floats of
input 1. -/
theorem get_value_after_partial_forward_misplaces_output :
    tanhScenarioPartial.eng.num_nodes_evaluated = 12 ∧
    (get_value tanhScenario tanhScenarioPartial 13).2.toOption =
      some (vget (get_value tanhScenario tanhScenarioPartial 13).1.eng.nfxs 13) ∧
    vget (get_value tanhScenario tanhScenarioPartial 13).1.eng.by_depth 1 =
      [1, 2, 3, 4, 5, 6, 7, 8, 9, 10, 11, 12, 12, 13, 14, 15, 16, 17, 18, 19, 20, 21, 22, 23] ∧
    (vget tanhScenario.nodes 13).args = [1] ∧
    loadFloats (get_value tanhScenario tanhScenarioPartial 13).1.w.mem
      (vget (get_value tanhScenario tanhScenarioPartial 13).1.eng.nfxs 1).v 4 =
      [Sym.inp 1 0, Sym.inp 1 1, Sym.inp 1 2, Sym.inp 1 3] ∧
    loadFloats (get_value tanhScenario tanhScenarioPartial 13).1.w.mem
      (vget (get_value tanhScenario tanhScenarioPartial 13).1.eng.nfxs 13).v 4 =
      [Sym.app (Sym.inp 0 0), Sym.app (Sym.inp 0 1), Sym.app (Sym.inp 0 2),
        Sym.app (Sym.inp 0 3)] := by
  decide

/-- C17 (the code departs from the claim): on `parameterLastGraph`, whose only
parameter node is node 1, after `forward(1)` the call `backward(0)` has a scalar
target and returns; `needs_derivative` and `ndEdfs` have one entry each, and the
parameter index 1 is used to address both: `needs_derivative[1] = true` and
`accumulate_grad(ndEdfs[1])` reach beyond the end of the arrays (the record
shows the value-initialised tensor a read beyond the end yields in the
embedding). -/
theorem backward_parameter_beyond_target_out_of_range :
    (vget (forward parameterLastGraph Machine.initBoth 1).1.eng.nfxs 0).d.size = 1 ∧
    (backward parameterLastGraph (forward parameterLastGraph Machine.initBoth 1).1 16 0).fault
      = none ∧
    (needs_derivative parameterLastGraph (0 + 1)).length = 1 ∧
    (backward parameterLastGraph
      (forward parameterLastGraph Machine.initBoth 1).1 16 0).ndEdfs.length = 1 ∧
    parameterLastGraph.parameter_nodes = [1] ∧
    (backward parameterLastGraph
      (forward parameterLastGraph Machine.initBoth 1).1 16 0).accumulated = [(1, default)] := by
  decide

/-- C12 (counterexample to the claim as stated): in the diamond `x1 = 2 * x0`,
`x2 = 5 * x0`, `x3 = x1 + x2` whose node `x0` is an input and not a parameter,
`forward(3)` and `backward(3)` return, no backward kernel is invoked at all, and
the gradient buffer of `x0` holds zero; with `x0` a parameter node, the kernels of
`x2` and `x1` add 5 and 2 and the buffer holds 7. -/
theorem backward_diamond_input_gets_no_gradient :
    (forward (diamondGraph []) Machine.initBoth 3).2.toOption.isSome = true ∧
    (backward (diamondGraph []) (forward (diamondGraph []) Machine.initBoth 3).1 16 3).fault
      = none ∧
    (backward (diamondGraph []) (forward (diamondGraph []) Machine.initBoth 3).1 16 3).calls
      = [] ∧
    loadFloats
      (backward (diamondGraph []) (forward (diamondGraph []) Machine.initBoth 3).1 16 3).w.mem
      (vget (backward (diamondGraph [])
        (forward (diamondGraph []) Machine.initBoth 3).1 16 3).ndEdfs 0).v 1 = [0] ∧
    (backward (diamondGraph [0]) (forward (diamondGraph [0]) Machine.initBoth 3).1 16 3).calls
      = [⟨3, 0, 1, [1]⟩, ⟨3, 1, 2, [1]⟩, ⟨2, 0, 0, [5]⟩, ⟨1, 0, 0, [2]⟩] ∧
    loadFloats
      (backward (diamondGraph [0]) (forward (diamondGraph [0]) Machine.initBoth 3).1 16 3).w.mem
      (vget (backward (diamondGraph [0])
        (forward (diamondGraph [0]) Machine.initBoth 3).1 16 3).ndEdfs 0).v 1 = [7] := by
  decide

/-! ## Backward executor: the gradient buffers -/

theorem round_up_align_ge (p : Pool) (n : Nat) : n ≤ p.round_up_align n := by
  unfold Pool.round_up_align
  by_cases h : p.align < 2
  · rw [if_pos h]
  · rw [if_neg h]
    have h1 := Nat.div_add_mod (n + p.align - 1) p.align
    have h2 := Nat.mod_lt (n + p.align - 1) (show 0 < p.align by omega)
    rw [Nat.mul_comm]
    omega

theorem pool_allocate_some (p : Pool) (n x : Nat) (h : (p.allocate n).1 = some x) :
    x = p.mem + p.used ∧ (p.allocate n).2.mem = p.mem ∧
    (p.allocate n).2.capacity = p.capacity ∧
    (p.allocate n).2.used = p.used + p.round_up_align n ∧
    (p.allocate n).2.used ≤ p.capacity := by
  unfold Pool.allocate at h ⊢
  by_cases hc : p.round_up_align n + p.used > p.capacity
  · rw [if_pos hc] at h; cases h
  · rw [if_neg hc] at h ⊢
    dsimp only at h ⊢
    injection h with h
    exact ⟨h.symm, rfl, rfl, rfl, by omega⟩

theorem pool_allocate_none (p : Pool) (n : Nat) (h : (p.allocate n).1 = none) :
    (p.allocate n).2 = p := by
  unfold Pool.allocate at h ⊢
  by_cases hc : p.round_up_align n + p.used > p.capacity
  · rw [if_pos hc]
  · rw [if_neg hc] at h; cases h

theorem pool_allocate_frame (p : Pool) (n : Nat) :
    (p.allocate n).2.mem = p.mem ∧ (p.allocate n).2.capacity = p.capacity ∧
    p.used ≤ (p.allocate n).2.used ∧
    (p.used ≤ p.capacity → (p.allocate n).2.used ≤ p.capacity) := by
  unfold Pool.allocate
  by_cases hc : p.round_up_align n + p.used > p.capacity
  · rw [if_pos hc]; exact ⟨rfl, rfl, Nat.le_refl _, fun h => h⟩
  · rw [if_neg hc]
    dsimp only
    exact ⟨rfl, rfl, by omega, fun _ => by omega⟩

theorem allocateD_frame {α : Type} (w : World α) (dev n idx : Nat) :
    (vget (w.allocateD dev n).2.devices idx).dedfs.mem = (vget w.devices idx).dedfs.mem ∧
    (vget (w.allocateD dev n).2.devices idx).dedfs.capacity =
      (vget w.devices idx).dedfs.capacity ∧
    (vget w.devices idx).dedfs.used ≤ (vget (w.allocateD dev n).2.devices idx).dedfs.used ∧
    ((vget w.devices idx).dedfs.used ≤ (vget w.devices idx).dedfs.capacity →
      (vget (w.allocateD dev n).2.devices idx).dedfs.used ≤
        (vget w.devices idx).dedfs.capacity) ∧
    (vget (w.allocateD dev n).2.devices idx).fxs = (vget w.devices idx).fxs := by
  unfold World.allocateD
  dsimp only
  rw [vget_vset]
  by_cases h : dev = idx ∧ dev < w.devices.length
  · rw [if_pos h]
    obtain ⟨h1, _⟩ := h
    subst h1
    obtain ⟨a, b, c, d⟩ := pool_allocate_frame (vget w.devices dev).dedfs n
    exact ⟨a, b, c, d, rfl⟩
  · rw [if_neg h]
    exact ⟨rfl, rfl, Nat.le_refl _, fun h => h, rfl⟩

theorem allocateD_some {α : Type} (w : World α) (dev n x : Nat)
    (h : (w.allocateD dev n).1 = some x) :
    x = (vget w.devices dev).dedfs.mem + (vget w.devices dev).dedfs.used ∧
    (dev < w.devices.length →
      (vget (w.allocateD dev n).2.devices dev).dedfs.used =
        (vget w.devices dev).dedfs.used + (vget w.devices dev).dedfs.round_up_align n) ∧
    (¬ dev < w.devices.length → n = 0) := by
  unfold World.allocateD at h ⊢
  dsimp only at h ⊢
  obtain ⟨h1, _, _, h4, h5⟩ := pool_allocate_some _ n x h
  refine ⟨h1, fun hd => ?_, fun hd => ?_⟩
  · rw [vget_vset_eq _ _ _ hd]
    exact h4
  · have e : vget w.devices dev = default := vget_of_length_le _ _ (by omega)
    rw [e] at h4 h5
    have := round_up_align_ge (default : Device).dedfs n
    have hz : (default : Device).dedfs.capacity = 0 := rfl
    have hu : (default : Device).dedfs.used = 0 := rfl
    omega

theorem allocateD_mem {α : Type} (w : World α) (dev n : Nat) :
    (w.allocateD dev n).2.mem = w.mem := rfl

theorem gradAllocStep_inv {α : Type} (nfxs : List Tensor) (devs0 : List Device) (k : Nat)
    (g : Grad α) (hk : k < g.ndEdfs.length) (hI : GradAllocInv nfxs devs0 k g) :
    GradAllocInv nfxs devs0 (k + 1) (gradAllocStep nfxs k g) := by
  obtain ⟨hpool, hok⟩ := hI
  unfold gradAllocStep
  by_cases hf : g.fault.isSome
  · rw [if_pos hf]
    refine ⟨hpool, fun hn => ?_⟩
    rw [hn] at hf; cases hf
  · rw [if_neg hf]
    have hnone : g.fault = none := by
      cases hg : g.fault with
      | none => rfl
      | some f => rw [hg] at hf; exact absurd rfl hf
    obtain ⟨hshape, hcov, hord⟩ := hok hnone
    have hframe := allocateD_frame g.w (vget nfxs k).device ((vget nfxs k).d.size * sizeof_float)
    have hpool2 : ∀ idx,
        (vget (g.w.allocateD (vget nfxs k).device
          ((vget nfxs k).d.size * sizeof_float)).2.devices idx).dedfs.mem =
          (vget devs0 idx).dedfs.mem ∧
        (vget (g.w.allocateD (vget nfxs k).device
          ((vget nfxs k).d.size * sizeof_float)).2.devices idx).dedfs.capacity =
          (vget devs0 idx).dedfs.capacity ∧
        (vget (g.w.allocateD (vget nfxs k).device
          ((vget nfxs k).d.size * sizeof_float)).2.devices idx).dedfs.used ≤
          (vget devs0 idx).dedfs.capacity ∧
        (vget (g.w.allocateD (vget nfxs k).device
          ((vget nfxs k).d.size * sizeof_float)).2.devices idx).fxs =
          (vget devs0 idx).fxs := by
      intro idx
      obtain ⟨a, b, _, d, e⟩ := hframe idx
      obtain ⟨a0, b0, c0, e0⟩ := hpool idx
      refine ⟨a.trans a0, b.trans b0, ?_, e.trans e0⟩
      rw [← b0]
      exact d (by rw [b0]; exact c0)
    dsimp only
    cases hr : (g.w.allocateD (vget nfxs k).device ((vget nfxs k).d.size * sizeof_float)).1 with
    | none =>
      dsimp only
      refine ⟨hpool2, fun hn => ?_⟩
      cases hn
    | some x =>
      dsimp only
      obtain ⟨hx, hused, hoob⟩ := allocateD_some g.w _ _ x hr
      refine ⟨hpool2, fun _ => ⟨fun i hi => ?_, fun i hi j hj => ?_, fun hdev => ⟨fun i hi => ?_,
        fun i j hij hj => ?_⟩⟩⟩
      · by_cases hik : i = k
        · subst hik
          rw [vget_vset_eq _ _ _ hk]
          exact ⟨rfl, rfl⟩
        · rw [vget_vset_ne _ _ _ _ (fun h => hik h.symm)]
          exact hshape i (by omega)
      · by_cases hik : i = k
        · subst hik
          rw [vget_vset_eq _ _ _ hk]
          dsimp only
          by_cases hd : (vget nfxs i).device < g.w.devices.length
          · refine ⟨(vget nfxs i).device, ?_⟩
            have hu := hused hd
            have hm := (hframe (vget nfxs i).device).1
            have hge := round_up_align_ge (vget g.w.devices (vget nfxs i).device).dedfs
              ((vget nfxs i).d.size * sizeof_float)
            unfold Pool.taken
            rw [decide_eq_true_eq, hm, hu, hx]
            unfold sizeof_float at hge ⊢
            omega
          · have := hoob hd
            unfold sizeof_float at this
            omega
        · rw [vget_vset_ne _ _ _ _ (fun h => hik h.symm)]
          obtain ⟨idx, hidx⟩ := hcov i (by omega) j hj
          refine ⟨idx, ?_⟩
          obtain ⟨a, _, c, _⟩ := hframe idx
          dsimp only
          unfold Pool.taken at hidx ⊢
          rw [decide_eq_true_eq] at hidx ⊢
          rw [a]
          omega
      · have hd0 : (vget nfxs k).device = 0 := hdev k
        obtain ⟨a, _, c, _⟩ := hframe 0
        rw [hd0] at hx hused hoob a c
        dsimp only
        rw [hd0]
        by_cases hik : i = k
        · subst hik
          rw [vget_vset_eq _ _ _ hk]
          dsimp only
          by_cases hd : 0 < g.w.devices.length
          · have hu := hused hd
            have hge := round_up_align_ge (vget g.w.devices 0).dedfs
              ((vget nfxs i).d.size * sizeof_float)
            rw [a, hu, hx]
            unfold sizeof_float at hge ⊢
            omega
          · have := hoob hd
            rw [a, hx]
            unfold sizeof_float at this c ⊢
            omega
        · rw [vget_vset_ne _ _ _ _ (fun h => hik h.symm)]
          have := (hord hdev).1 i (by omega)
          rw [a]
          omega
      · by_cases hjk : j = k
        · subst hjk
          rw [vget_vset_eq _ _ _ hk, vget_vset_ne _ _ _ _ (by omega)]
          dsimp only
          have hd0 : (vget nfxs j).device = 0 := hdev j
          rw [hd0] at hx
          rw [hx]
          exact (hord hdev).1 i hij
        · rw [vget_vset_ne _ _ _ _ (fun h => hjk h.symm), vget_vset_ne _ _ _ _ (by omega)]
          exact (hord hdev).2 i j hij (by omega)

theorem vget_freeAllD {α : Type} (w : World α) (idx : Nat) :
    (vget w.freeAllD.devices idx).dedfs.mem = (vget w.devices idx).dedfs.mem ∧
    (vget w.freeAllD.devices idx).dedfs.capacity = (vget w.devices idx).dedfs.capacity ∧
    (vget w.freeAllD.devices idx).dedfs.used = 0 ∧
    (vget w.freeAllD.devices idx).fxs = (vget w.devices idx).fxs := by
  unfold World.freeAllD
  dsimp only
  by_cases h : idx < w.devices.length
  · rw [vget_map _ _ _ h]
    exact ⟨rfl, rfl, rfl, rfl⟩
  · rw [vget_of_length_le _ _ (by rw [List.length_map]; omega),
      vget_of_length_le _ _ (by omega)]
    exact ⟨rfl, rfl, rfl, rfl⟩

theorem gradAllocLoop_inv {α : Type} (m : Machine α) (t : Nat) :
    (forUp (gradAllocStep m.eng.nfxs) 0 (t + 1)
      (⟨vresize m.eng.ndEdfs (t + 1), m.w.freeAllD, [], [], [], none⟩ : Grad α)).ndEdfs.length
      = t + 1 ∧
    GradAllocInv m.eng.nfxs m.w.devices (t + 1)
      (forUp (gradAllocStep m.eng.nfxs) 0 (t + 1)
        (⟨vresize m.eng.ndEdfs (t + 1), m.w.freeAllD, [], [], [], none⟩ : Grad α)) := by
  have key := forUp_inv (gradAllocStep m.eng.nfxs)
    (fun k g => g.ndEdfs.length = t + 1 ∧ GradAllocInv m.eng.nfxs m.w.devices k g)
    (t + 1) 0 (⟨vresize m.eng.ndEdfs (t + 1), m.w.freeAllD, [], [], [], none⟩ : Grad α)
    ⟨length_vresize _ _, fun idx => by
        obtain ⟨a, b, c, d⟩ := vget_freeAllD m.w idx
        exact ⟨a, b, by rw [c]; exact Nat.zero_le _, d⟩,
      fun _ => ⟨fun i hi => absurd hi (Nat.not_lt_zero _),
        fun i hi => absurd hi (Nat.not_lt_zero _),
        fun _ => ⟨fun i hi => absurd hi (Nat.not_lt_zero _),
          fun i j _ hj => absurd hj (Nat.not_lt_zero _)⟩⟩⟩
    (fun j g _ hj hI =>
      ⟨(gradAllocStep_calls m.eng.nfxs j g).2.2.2.2.2.trans hI.1,
        gradAllocStep_inv m.eng.nfxs m.w.devices j g (by rw [hI.1]; omega) hI.2⟩)
  rw [Nat.zero_add] at key
  exact key

theorem any_taken_of_index (devs : List Device) (a idx : Nat)
    (h : (vget devs idx).dedfs.taken a = true) :
    devs.any (fun dv => dv.dedfs.taken a) = true := by
  by_cases hi : idx < devs.length
  · rw [List.any_eq_true]
    exact ⟨vget devs idx, vget_mem _ _ hi, h⟩
  · rw [vget_of_length_le _ _ (by omega)] at h
    unfold Pool.taken at h
    rw [decide_eq_true_eq] at h
    have h1 : (default : Device).dedfs.mem = 0 := rfl
    have h2 : (default : Device).dedfs.used = 0 := rfl
    omega

/-- C18: when the set-up phase of `backward(target)` returns without an
allocation failure, no backward kernel has run, the gradient cache has exactly
`target + 1` entries, entry `i` has the shape and the device of the cached value
`nfxs[i]`, every float of every entry other than the target's is zero, and the
target's entry points at `kSCALAR_ONE`, which holds the float one (`kSCALAR_ONE`
holds one at entry and lies outside every gradient pool). -/
theorem backwardSetup_gradients {α : Type} [Zero α] [One α] (m : Machine α)
    (kSCALAR_ONE target : Nat) (hone : m.w.mem kSCALAR_ONE = 1)
    (hout : ∀ dv ∈ m.w.devices, ¬ (dv.dedfs.mem ≤ kSCALAR_ONE ∧
      kSCALAR_ONE < dv.dedfs.mem + dv.dedfs.capacity))
    (hok : (backwardSetup m kSCALAR_ONE target).fault = none) :
    (backwardSetup m kSCALAR_ONE target).calls = [] ∧
    (backwardSetup m kSCALAR_ONE target).ndEdfs.length = target + 1 ∧
    (∀ i, i ≤ target →
      (vget (backwardSetup m kSCALAR_ONE target).ndEdfs i).d = (vget m.eng.nfxs i).d ∧
      (vget (backwardSetup m kSCALAR_ONE target).ndEdfs i).device =
        (vget m.eng.nfxs i).device) ∧
    (∀ i, i < target → ∀ j, j < (vget (backwardSetup m kSCALAR_ONE target).ndEdfs i).d.size →
      (backwardSetup m kSCALAR_ONE target).w.mem
        ((vget (backwardSetup m kSCALAR_ONE target).ndEdfs i).v + sizeof_float * j) = 0) ∧
    (vget (backwardSetup m kSCALAR_ONE target).ndEdfs target).v = kSCALAR_ONE ∧
    (backwardSetup m kSCALAR_ONE target).w.mem kSCALAR_ONE = 1 := by
  obtain ⟨hlen, hpool, hinv⟩ := gradAllocLoop_inv m target
  have hmem := (gradAllocLoop_calls m.eng.nfxs
    (⟨vresize m.eng.ndEdfs (target + 1), m.w.freeAllD, [], [], [], none⟩ : Grad α)
    (target + 1)).2.2.1
  refine ⟨(backwardSetup_calls m kSCALAR_ONE target).1, ?_⟩
  unfold backwardSetup at hok ⊢
  dsimp only at hok ⊢
  generalize forUp (gradAllocStep m.eng.nfxs) 0 (target + 1)
    (⟨vresize m.eng.ndEdfs (target + 1), m.w.freeAllD, [], [], [], none⟩ : Grad α) = g
    at hok hlen hpool hinv hmem ⊢
  by_cases hf : g.fault.isSome
  · rw [if_pos hf] at hok
    rw [hok] at hf; cases hf
  · rw [if_neg hf] at hok ⊢
    dsimp only at hok ⊢
    obtain ⟨hshape, hcov, _⟩ := hinv hok
    have hlast : g.ndEdfs.length - 1 = target := by omega
    rw [hlast]
    refine ⟨by rw [length_vset]; exact hlen, fun i hi => ?_, fun i hi j hj => ?_, ?_, ?_⟩
    · by_cases hit : i = target
      · subst hit
        rw [vget_vset_eq _ _ _ (by omega)]
        exact hshape i (by omega)
      · rw [vget_vset_ne _ _ _ _ (fun h => hit h.symm)]
        exact hshape i (by omega)
    · rw [vget_vset_ne _ _ _ _ (by omega)] at hj ⊢
      rw [(hshape i (by omega)).1] at hj
      obtain ⟨idx, hidx⟩ := hcov i (by omega) j hj
      unfold World.zeroAllocatedD
      dsimp only
      rw [if_pos (any_taken_of_index _ _ idx hidx)]
    · rw [vget_vset_eq _ _ _ (by omega)]
    · unfold World.zeroAllocatedD
      dsimp only
      have hno : ¬ (g.w.devices.any (fun dv => dv.dedfs.taken kSCALAR_ONE) = true) := by
        intro hany
        rw [List.any_eq_true] at hany
        obtain ⟨dv, hdv, htk⟩ := hany
        obtain ⟨idx, _, hget⟩ := exists_vget_of_mem _ _ hdv
        obtain ⟨a, b, c, _⟩ := hpool idx
        rw [hget] at a b c
        unfold Pool.taken at htk
        rw [decide_eq_true_eq] at htk
        by_cases hi : idx < m.w.devices.length
        · exact hout _ (vget_mem _ _ hi) ⟨by omega, by omega⟩
        · rw [vget_of_length_le _ _ (by omega)] at a b c
          have h1 : (default : Device).dedfs.mem = 0 := rfl
          have h2 : (default : Device).dedfs.capacity = 0 := rfl
          omega
      rw [if_neg hno, hmem]
      exact hone

theorem backwardSetup_gradients_witness :
    diamondForward.w.mem 16 = 1 ∧
    (∀ dv ∈ diamondForward.w.devices, ¬ (dv.dedfs.mem ≤ 16 ∧
      16 < dv.dedfs.mem + dv.dedfs.capacity)) ∧
    (backwardSetup diamondForward 16 3).fault = none ∧
    ((backwardSetup diamondForward 16 3).calls = [] ∧
    (backwardSetup diamondForward 16 3).ndEdfs.length = 3 + 1 ∧
    (∀ i, i ≤ 3 →
      (vget (backwardSetup diamondForward 16 3).ndEdfs i).d = (vget diamondForward.eng.nfxs i).d ∧
      (vget (backwardSetup diamondForward 16 3).ndEdfs i).device =
        (vget diamondForward.eng.nfxs i).device) ∧
    (∀ i, i < 3 → ∀ j, j < (vget (backwardSetup diamondForward 16 3).ndEdfs i).d.size →
      (backwardSetup diamondForward 16 3).w.mem
        ((vget (backwardSetup diamondForward 16 3).ndEdfs i).v + sizeof_float * j) = 0) ∧
    (vget (backwardSetup diamondForward 16 3).ndEdfs 3).v = 16 ∧
    (backwardSetup diamondForward 16 3).w.mem 16 = 1) :=
  ⟨by decide, by decide, by decide,
    backwardSetup_gradients diamondForward 16 3 (by decide) (by decide) (by decide)⟩

/-! ## Forward executor: failure of a planner allocation -/

theorem planNode_log {α : Type} (cg : ComputationGraph α) (acc : Pass α × Nat) (nid : Nat) :
    (planNode cg acc nid).1.w.calls = acc.1.w.calls ∧
    ∃ ext, (planNode cg acc nid).1.w.allocs = acc.1.w.allocs ++ ext ∧
      ((planNode cg acc nid).1.fault = none →
        acc.1.fault = none ∧ ∀ a ∈ ext, a.result ≠ none) := by
  unfold planNode
  by_cases hf : acc.1.fault.isSome
  · rw [if_pos hf]
    refine ⟨rfl, [], (List.append_nil _).symm, fun h => ?_⟩
    rw [h] at hf; cases hf
  · rw [if_neg hf]
    have h0 : acc.1.fault = none := by
      cases hg : acc.1.fault with
      | none => rfl
      | some f => rw [hg] at hf; exact absurd rfl hf
    dsimp only
    by_cases haux : (vget cg.nodes nid).aux_storage_size ≠ 0
    · rw [if_pos haux]
      cases hr : (acc.1.w.allocate
          (vget (vset acc.1.nfxs nid
            { (vget acc.1.nfxs nid) with d := (vget cg.nodes nid).dim,
                                         device := (vget cg.nodes nid).device }) nid).device
          (vget cg.nodes nid).aux_storage_size).1 with
      | none =>
        dsimp only
        refine ⟨rfl, _, rfl, fun h => ?_⟩
        cases h
      | some p =>
        dsimp only
        refine ⟨rfl, _, rfl, fun _ => ⟨h0, fun a ha => ?_⟩⟩
        rw [List.mem_singleton] at ha
        rw [ha]
        dsimp only
        intro hc
        have h2 : none = some p := hc.symm.trans hr
        cases h2
    · rw [if_neg haux]
      dsimp only
      refine ⟨rfl, [], (List.append_nil _).symm, fun _ => ⟨h0, fun a ha => ?_⟩⟩
      cases ha

theorem planFold_log {α : Type} (cg : ComputationGraph α) :
    ∀ (nids : List Nat) (acc : Pass α × Nat),
      (nids.foldl (planNode cg) acc).1.w.calls = acc.1.w.calls ∧
      ∃ ext, (nids.foldl (planNode cg) acc).1.w.allocs = acc.1.w.allocs ++ ext ∧
        ((nids.foldl (planNode cg) acc).1.fault = none →
          acc.1.fault = none ∧ ∀ a ∈ ext, a.result ≠ none) := by
  intro nids
  induction nids with
  | nil =>
    intro acc
    exact ⟨rfl, [], (List.append_nil _).symm, fun h => ⟨h, fun a ha => by cases ha⟩⟩
  | cons n ns ih =>
    intro acc
    rw [List.foldl_cons]
    obtain ⟨c1, e1, a1, f1⟩ := ih (planNode cg acc n)
    obtain ⟨c0, e0, a0, f0⟩ := planNode_log cg acc n
    refine ⟨c1.trans c0, e0 ++ e1, by rw [a1, a0, List.append_assoc], fun h => ?_⟩
    obtain ⟨h1, h2⟩ := f1 h
    obtain ⟨h3, h4⟩ := f0 h1
    refine ⟨h3, fun a ha => ?_⟩
    rcases List.mem_append.1 ha with ha | ha
    · exact h4 a ha
    · exact h2 a ha

theorem planGroup_log {α : Type} (cg : ComputationGraph α) (p : Pass α)
    (g : NodeType × List Nat) :
    (planGroup cg p g).w.calls = p.w.calls ∧
    ∃ ext, (planGroup cg p g).w.allocs = p.w.allocs ++ ext ∧
      ((planGroup cg p g).fault = none → p.fault = none ∧ ∀ a ∈ ext, a.result ≠ none) := by
  unfold planGroup
  by_cases hf : p.fault.isSome
  · rw [if_pos hf]
    refine ⟨rfl, [], (List.append_nil _).symm, fun h => ?_⟩
    rw [h] at hf; cases hf
  · rw [if_neg hf]
    dsimp only
    obtain ⟨c1, e1, a1, f1⟩ := planFold_log cg g.2 (p, 0)
    by_cases hf2 : (g.2.foldl (planNode cg) (p, 0)).1.fault.isSome
    · rw [if_pos hf2]
      refine ⟨c1, e1, a1, fun h => ?_⟩
      rw [h] at hf2; cases hf2
    · rw [if_neg hf2]
      have h0 : (g.2.foldl (planNode cg) (p, 0)).1.fault = none := by
        cases hg : (g.2.foldl (planNode cg) (p, 0)).1.fault with
        | none => rfl
        | some f => rw [hg] at hf2; exact absurd rfl hf2
      obtain ⟨h1, h2⟩ := f1 h0
      cases hr : ((g.2.foldl (planNode cg) (p, 0)).1.w.allocate
          (vget (g.2.foldl (planNode cg) (p, 0)).1.nfxs (vget g.2 0)).device
          ((g.2.foldl (planNode cg) (p, 0)).2 * sizeof_float)).1 with
      | none =>
        dsimp only
        refine ⟨c1, _, by
          show (g.2.foldl (planNode cg) (p, 0)).1.w.allocs ++ [_] = _
          rw [a1, List.append_assoc], fun h => ?_⟩
        cases h
      | some base =>
        dsimp only
        refine ⟨c1, _, by
          show (g.2.foldl (planNode cg) (p, 0)).1.w.allocs ++ [_] = _
          rw [a1, List.append_assoc], fun _ => ⟨h1, fun a ha => ?_⟩⟩
        rcases List.mem_append.1 ha with ha | ha
        · exact h2 a ha
        · rw [List.mem_singleton] at ha
          rw [ha]
          dsimp only
          intro hc
          have h2 : none = some base := hc.symm.trans hr
          cases h2

theorem planGroups_log {α : Type} (cg : ComputationGraph α) :
    ∀ (gs : List (NodeType × List Nat)) (p : Pass α),
      (gs.foldl (planGroup cg) p).w.calls = p.w.calls ∧
      ∃ ext, (gs.foldl (planGroup cg) p).w.allocs = p.w.allocs ++ ext ∧
        ((gs.foldl (planGroup cg) p).fault = none →
          p.fault = none ∧ ∀ a ∈ ext, a.result ≠ none) := by
  intro gs
  induction gs with
  | nil =>
    intro p
    exact ⟨rfl, [], (List.append_nil _).symm, fun h => ⟨h, fun a ha => by cases ha⟩⟩
  | cons g rest ih =>
    intro p
    rw [List.foldl_cons]
    obtain ⟨c1, e1, a1, f1⟩ := ih (planGroup cg p g)
    obtain ⟨c0, e0, a0, f0⟩ := planGroup_log cg p g
    refine ⟨c1.trans c0, e0 ++ e1, by rw [a1, a0, List.append_assoc], fun h => ?_⟩
    obtain ⟨h1, h2⟩ := f1 h
    obtain ⟨h3, h4⟩ := f0 h1
    refine ⟨h3, fun a ha => ?_⟩
    rcases List.mem_append.1 ha with ha | ha
    · exact h4 a ha
    · exact h2 a ha

theorem dispatchGroups_of_fault {α : Type} [Inhabited α] (cg : ComputationGraph α) :
    ∀ (gs : List (NodeType × List Nat)) (p : Pass α), p.fault.isSome = true →
      gs.foldl (dispatchGroup cg) p = p := by
  intro gs
  induction gs with
  | nil => intro p _; rfl
  | cons g rest ih =>
    intro p h
    have e : dispatchGroup cg p g = p := by
      unfold dispatchGroup
      rw [if_pos h]
    rw [List.foldl_cons, e]
    exact ih p h

theorem planGroups_of_fault {α : Type} (cg : ComputationGraph α) :
    ∀ (gs : List (NodeType × List Nat)) (p : Pass α), p.fault.isSome = true →
      gs.foldl (planGroup cg) p = p := by
  intro gs
  induction gs with
  | nil => intro p _; rfl
  | cons g rest ih =>
    intro p h
    have e : planGroup cg p g = p := by
      unfold planGroup
      rw [if_pos h]
    rw [List.foldl_cons, e]
    exact ih p h

theorem runBuckets_of_fault {α : Type} [Inhabited α] (cg : ComputationGraph α)
    (already : Nat) (by_depth : List (List Nat)) :
    ∀ (ds : List Nat) (p : Pass α), p.fault.isSome = true →
      ds.foldl (runBucket cg already by_depth) p = p := by
  intro ds
  induction ds with
  | nil => intro p _; rfl
  | cons d rest ih =>
    intro p h
    have e : runBucket cg already by_depth p d = p := by
      unfold runBucket
      dsimp only
      rw [planGroups_of_fault cg _ p h, dispatchGroups_of_fault cg _ p h]
    rw [List.foldl_cons, e]
    exact ih p h

theorem forwardPass_of_planner_fault {α : Type} [Inhabited α] (cg : ComputationGraph α)
    (m : Machine α) (upto d : Nat)
    (hd : d < (compute_depths cg.argTable m.eng.num_nodes_evaluated m.eng.toSched
      upto).by_depth.length)
    (hf : (passPlanned cg m upto d).fault.isSome = true) :
    forwardPass cg m upto = passPlanned cg m upto d := by
  unfold forwardPass
  dsimp only
  rw [foldl_range_split _ _ (d + 1) _ (by omega), List.range_succ, List.foldl_append]
  have e : (List.foldl (runBucket cg m.eng.num_nodes_evaluated
      (compute_depths cg.argTable m.eng.num_nodes_evaluated m.eng.toSched upto).by_depth)
      (List.foldl (runBucket cg m.eng.num_nodes_evaluated
        (compute_depths cg.argTable m.eng.num_nodes_evaluated m.eng.toSched upto).by_depth)
        ⟨vresize m.eng.nfxs (upto + 1),
          if m.eng.num_nodes_evaluated = 0 then m.w.freeAll else m.w, none⟩
        (List.range d)) [d]) = passPlanned cg m upto d := by
    show runBucket cg m.eng.num_nodes_evaluated _ (passReaching cg m upto d) d = _
    unfold runBucket
    dsimp only
    exact dispatchGroups_of_fault cg _ _ hf
  rw [e]
  exact runBuckets_of_fault cg _ _ _ _ hf

/-- C19: if, in `incremental_forward(upto)` past the cache test, one of the
allocations the memory planner makes for bucket `d` (the auxiliary storage of a
node or the block of a type-group) returns the null pointer, then `incremental_forward` raises one
of the two out-of-memory errors, the kernels that have run are those of the
buckets below `d` (no kernel of any type-group of bucket `d` or of a later bucket
is dispatched), and `num_nodes_evaluated` keeps the value it had before the call. -/
theorem incremental_forward_planner_failure {α : Type} [Inhabited α]
    (cg : ComputationGraph α) (m : Machine α) (upto d : Nat)
    (hmiss : ¬ upto < m.eng.num_nodes_evaluated)
    (hd : d < (compute_depths cg.argTable m.eng.num_nodes_evaluated m.eng.toSched
      upto).by_depth.length)
    (hnull : ∃ a ∈ (passPlanned cg m upto d).w.allocs.drop
      (passReaching cg m upto d).w.allocs.length, a.result = none) :
    (∃ f, (incremental_forward cg m upto).2 = Except.error f) ∧
    (incremental_forward cg m upto).1.w.calls = (passReaching cg m upto d).w.calls ∧
    (incremental_forward cg m upto).1.eng.num_nodes_evaluated = m.eng.num_nodes_evaluated := by
  obtain ⟨c1, ext, a1, f1⟩ := planGroups_log cg
    (groupByType cg m.eng.num_nodes_evaluated
      (vget (compute_depths cg.argTable m.eng.num_nodes_evaluated m.eng.toSched
        upto).by_depth d))
    (passReaching cg m upto d)
  have hfault : (passPlanned cg m upto d).fault.isSome = true := by
    cases hg : (passPlanned cg m upto d).fault with
    | some f => rfl
    | none =>
      exfalso
      obtain ⟨a, ha, hr⟩ := hnull
      have hx : (passPlanned cg m upto d).w.allocs =
          (passReaching cg m upto d).w.allocs ++ ext := a1
      rw [hx, List.drop_left] at ha
      exact (f1 hg).2 a ha hr
  have hpass := forwardPass_of_planner_fault cg m upto d hd hfault
  unfold incremental_forward
  rw [if_neg hmiss]
  dsimp only
  rw [hpass]
  cases hg : (passPlanned cg m upto d).fault with
  | none => rw [hg] at hfault; cases hfault
  | some f =>
    dsimp only
    exact ⟨⟨f, rfl⟩, c1, rfl⟩

theorem incremental_forward_planner_failure_witness :
    ¬ 1 < (Machine.init (0 : Int) 1024 8 1).eng.num_nodes_evaluated ∧
    1 < (compute_depths (chainGraph id).argTable
      (Machine.init (0 : Int) 1024 8 1).eng.num_nodes_evaluated
      (Machine.init (0 : Int) 1024 8 1).eng.toSched 1).by_depth.length ∧
    (∃ a ∈ (passPlanned (chainGraph id) (Machine.init 0 1024 8 1) 1 1).w.allocs.drop
      (passReaching (chainGraph id) (Machine.init 0 1024 8 1) 1 1).w.allocs.length,
      a.result = none) ∧
    ((∃ f, (incremental_forward (chainGraph id) (Machine.init 0 1024 8 1) 1).2 =
      Except.error f) ∧
    (incremental_forward (chainGraph id) (Machine.init 0 1024 8 1) 1).1.w.calls =
      (passReaching (chainGraph id) (Machine.init 0 1024 8 1) 1 1).w.calls ∧
    (incremental_forward (chainGraph id) (Machine.init 0 1024 8 1) 1).1.eng.num_nodes_evaluated
      = (Machine.init (0 : Int) 1024 8 1).eng.num_nodes_evaluated) :=
  ⟨by decide, by decide, by decide,
    incremental_forward_planner_failure (chainGraph id) (Machine.init 0 1024 8 1) 1 1
      (by decide) (by decide) (by decide)⟩

/-! ## Forward executor: buffers of the evaluated prefix -/

theorem later_refl {α : Type} (w : World α) : Later w w := ⟨rfl, rfl, fun _ h => h⟩

theorem later_trans {α : Type} (w1 w2 w3 : World α) (h12 : Later w1 w2) (h23 : Later w2 w3) :
    Later w1 w3 :=
  ⟨h23.1.trans h12.1, h23.2.1.trans h12.2.1, fun a h => h23.2.2 a (h12.2.2 a h)⟩

theorem noNull_of_later {α : Type} (w1 w2 : World α) (h : Later w1 w2) (hn : NoNull w2) :
    NoNull w1 := fun a ha => hn a (h.2.2 a ha)

theorem allocate_later {α : Type} (w : World α) (dev n : Nat) :
    Later w (w.allocate dev n).2 := by
  unfold World.allocate
  dsimp only
  refine ⟨length_vset _ _ _, ?_, fun a ha => List.mem_append_left _ ha⟩
  rw [vget_vset]
  by_cases h : dev = 0 ∧ dev < w.devices.length
  · rw [if_pos h]
    obtain ⟨h1, _⟩ := h
    subst h1
    exact (pool_allocate_frame _ n).1
  · rw [if_neg h]

theorem allocate_frame {α : Type} (w : World α) (n lim : Nat)
    (hn : NoNull (w.allocate 0 n).2) (hlim : lim ≤ w.base) :
    ∃ x, (w.allocate 0 n).1 = some x ∧ lim ≤ x ∧ lim ≤ (w.allocate 0 n).2.base := by
  have hres : (w.allocate 0 n).1 ≠ none := by
    have := hn ⟨0, n, (w.allocate 0 n).1⟩ (by
      unfold World.allocate
      dsimp only
      exact List.mem_append_right _ (List.mem_singleton.2 rfl))
    exact this
  cases hx : (w.allocate 0 n).1 with
  | none => exact absurd hx hres
  | some x =>
    have hx2 : ((vget w.devices 0).fxs.allocate n).1 = some x := hx
    obtain ⟨e1, e2, _, e4, _⟩ := pool_allocate_some _ n x hx2
    refine ⟨x, rfl, ?_, ?_⟩
    · rw [e1]; exact hlim
    · unfold World.base at hlim ⊢
      unfold World.allocate
      dsimp only
      rw [vget_vset]
      by_cases h : 0 = 0 ∧ 0 < w.devices.length
      · rw [if_pos h]
        dsimp only
        rw [e2, e4]
        omega
      · rw [if_neg h]
        exact hlim

theorem setUsed_later {α : Type} (w : World α) (u : Nat) : Later w (w.setUsed 0 u) := by
  unfold World.setUsed
  dsimp only
  refine ⟨length_vset _ _ _, ?_, fun a ha => ha⟩
  rw [vget_vset]
  by_cases h : 0 = 0 ∧ 0 < w.devices.length
  · rw [if_pos h]
  · rw [if_neg h]

theorem callForward_later {α : Type} [Inhabited α] (cg : ComputationGraph α) (w : World α)
    (nid : Nat) (xs : List Tensor) (fx : Tensor) :
    Later w (callForward cg w nid xs fx) ∧ (callForward cg w nid xs fx).base = w.base ∧
    (callForward cg w nid xs fx).allocs = w.allocs :=
  ⟨⟨rfl, rfl, fun _ h => h⟩, rfl, rfl⟩

theorem do_node_later {α : Type} [Inhabited α] (cg : ComputationGraph α) (nid : Nat)
    (nfxs : List Tensor) (w : World α) :
    Later w (do_node cg nid nfxs w) ∧ (do_node cg nid nfxs w).base = w.base ∧
    (do_node cg nid nfxs w).allocs = w.allocs :=
  ⟨⟨rfl, rfl, fun _ h => h⟩, rfl, rfl⟩

theorem dispatchEach_later {α : Type} [Inhabited α] (cg : ComputationGraph α)
    (nfxs : List Tensor) :
    ∀ (nids : List Nat) (w : World α),
      Later w (dispatchEach cg nfxs nids w) ∧ (dispatchEach cg nfxs nids w).base = w.base ∧
      (dispatchEach cg nfxs nids w).allocs = w.allocs := by
  intro nids
  induction nids with
  | nil => intro w; exact ⟨later_refl w, rfl, rfl⟩
  | cons n ns ih =>
    intro w
    obtain ⟨h1, h2, h3⟩ := ih (do_node cg n nfxs w)
    obtain ⟨g1, g2, g3⟩ := do_node_later cg n nfxs w
    exact ⟨later_trans _ _ _ g1 h1, h2.trans g2, h3.trans g3⟩

theorem setUsed_later_any {α : Type} (w : World α) (dev u : Nat) :
    Later w (w.setUsed dev u) ∧ (w.setUsed dev u).allocs = w.allocs ∧
    (w.setUsed dev u).mem = w.mem := by
  unfold World.setUsed
  dsimp only
  refine ⟨⟨length_vset _ _ _, ?_, fun a ha => ha⟩, rfl, rfl⟩
  rw [vget_vset]
  by_cases h : dev = 0 ∧ dev < w.devices.length
  · rw [if_pos h]
    obtain ⟨h1, _⟩ := h
    subst h1
    rfl
  · rw [if_neg h]

theorem combine_tensors_later {α : Type} [Inhabited α] (ts : List Tensor) (tout : Tensor)
    (w : World α) :
    Later w (combine_tensors ts tout w).2 ∧
    (combine_tensors ts tout w).2.allocs =
      (w.allocate (vget ts 0).device (total_dsize ts * sizeof_float)).2.allocs ∧
    (combine_tensors ts tout w).2.base =
      (w.allocate (vget ts 0).device (total_dsize ts * sizeof_float)).2.base := by
  obtain ⟨a, b, c⟩ := allocate_later w (vget ts 0).device (total_dsize ts * sizeof_float)
  exact ⟨⟨a, b, c⟩, rfl, rfl⟩

theorem vget_map_device {ι : Type} (l : List ι) (f : ι → Tensor) (i : Nat)
    (h : ∀ x, (f x).device = 0) : (vget (l.map f) i).device = 0 := by
  by_cases hi : i < (l.map f).length
  · obtain ⟨x, _, hx⟩ := List.mem_map.1 (vget_mem _ _ hi)
    rw [← hx]
    exact h x
  · rw [vget_of_length_le _ _ (by omega)]
    rfl

theorem eval_ewise_nfxs {α : Type} [Inhabited α] (nids : List Nat) (cg : ComputationGraph α)
    (nfxs : List Tensor) (w : World α) :
    (eval_ewise_unaries_in_bulk nids cg nfxs w).1 = nfxs := by
  unfold eval_ewise_unaries_in_bulk
  by_cases h : nids.length > 10
  · rw [if_pos h]
    dsimp only
    exact vset_vset_self nfxs (vget nids 0) _
  · rw [if_neg h]

theorem eval_ewise_later {α : Type} [Inhabited α] (nids : List Nat) (cg : ComputationGraph α)
    (nfxs : List Tensor) (w : World α) :
    Later w (eval_ewise_unaries_in_bulk nids cg nfxs w).2 := by
  unfold eval_ewise_unaries_in_bulk
  by_cases h : nids.length > 10
  · rw [if_pos h]
    dsimp only
    refine later_trans _ _ _ ?_ (setUsed_later_any _ _ _).1
    exact later_trans _ _ _ (combine_tensors_later _ _ w).1 (callForward_later cg _ _ _ _).1
  · rw [if_neg h]
    exact (dispatchEach_later cg nfxs nids w).1

theorem matmulGroup_later {α : Type} [Inhabited α] (nids : List Nat) (cg : ComputationGraph α)
    (nfxs : List Tensor) (w : World α) (g : Nat × List Nat) :
    Later w (matmulGroup nids cg nfxs w g) := by
  unfold matmulGroup
  dsimp only
  refine later_trans _ _ _ ?_ (setUsed_later_any _ _ _).1
  have h1 := (combine_tensors_later (g.2.map (fun a => vget nfxs a)) default w).1
  have h2 := allocate_later (combine_tensors (g.2.map (fun a => vget nfxs a)) default w).2
    (vget nfxs g.1).device
    ((Dim.ofList [(vget nfxs g.1).d.rows, (g.2.map (fun a => vget nfxs a)).length]).size *
      sizeof_float)
  exact later_trans _ _ _ (later_trans _ _ _ h1 h2) ⟨rfl, rfl, fun _ h => h⟩

theorem matmulGroups_later {α : Type} [Inhabited α] (nids : List Nat)
    (cg : ComputationGraph α) (nfxs : List Tensor) :
    ∀ (gs : List (Nat × List Nat)) (w : World α),
      Later w (gs.foldl (matmulGroup nids cg nfxs) w) := by
  intro gs
  induction gs with
  | nil => intro w; exact later_refl w
  | cons g rest ih =>
    intro w
    rw [List.foldl_cons]
    exact later_trans _ _ _ (matmulGroup_later nids cg nfxs w g) (ih _)

theorem doNodesAt_later {α : Type} [Inhabited α] (nids : List Nat) (cg : ComputationGraph α)
    (nfxs : List Tensor) :
    ∀ (L : List Nat) (w : World α),
      Later w (L.foldl (fun w i => do_node cg (vget nids i) nfxs w) w) ∧
      (L.foldl (fun w i => do_node cg (vget nids i) nfxs w) w).base = w.base ∧
      (L.foldl (fun w i => do_node cg (vget nids i) nfxs w) w).allocs = w.allocs := by
  intro L
  induction L with
  | nil => intro w; exact ⟨later_refl w, rfl, rfl⟩
  | cons i rest ih =>
    intro w
    rw [List.foldl_cons]
    obtain ⟨h1, h2, h3⟩ := ih (do_node cg (vget nids i) nfxs w)
    obtain ⟨g1, g2, g3⟩ := do_node_later cg (vget nids i) nfxs w
    exact ⟨later_trans _ _ _ g1 h1, h2.trans g2, h3.trans g3⟩

theorem eval_matrix_multiply_later {α : Type} [Inhabited α] (nids : List Nat)
    (cg : ComputationGraph α) (nfxs : List Tensor) (w : World α) :
    Later w (eval_matrix_multiply nids cg nfxs w) := by
  unfold eval_matrix_multiply
  dsimp only
  exact later_trans _ _ _ (matmulGroups_later nids cg nfxs _ w)
    (doNodesAt_later nids cg nfxs _ _).1

theorem dispatchGroup_nfxs {α : Type} [Inhabited α] (cg : ComputationGraph α) (p : Pass α)
    (g : NodeType × List Nat) :
    (dispatchGroup cg p g).nfxs = p.nfxs ∧ (dispatchGroup cg p g).fault = p.fault ∧
    Later p.w (dispatchGroup cg p g).w := by
  unfold dispatchGroup
  by_cases hf : p.fault.isSome
  · rw [if_pos hf]; exact ⟨rfl, rfl, later_refl _⟩
  · rw [if_neg hf]
    have h0 : p.fault = none := by
      cases hg : p.fault with
      | none => rfl
      | some f => rw [hg] at hf; exact absurd rfl hf
    by_cases he : g.1 ∈ ewise_unary_nodes
    · rw [if_pos he]
      dsimp only
      exact ⟨eval_ewise_nfxs _ _ _ _, h0.symm, eval_ewise_later _ _ _ _⟩
    · rw [if_neg he]
      by_cases hm : g.1 = NodeType.MatrixMultiply ∧ g.2.length > 5
      · rw [if_pos hm]
        exact ⟨rfl, h0.symm, eval_matrix_multiply_later _ _ _ _⟩
      · rw [if_neg hm]
        exact ⟨rfl, h0.symm, (dispatchEach_later cg p.nfxs g.2 p.w).1⟩

theorem dispatchGroups_nfxs {α : Type} [Inhabited α] (cg : ComputationGraph α) :
    ∀ (gs : List (NodeType × List Nat)) (p : Pass α),
      (gs.foldl (dispatchGroup cg) p).nfxs = p.nfxs ∧
      (gs.foldl (dispatchGroup cg) p).fault = p.fault ∧
      Later p.w (gs.foldl (dispatchGroup cg) p).w := by
  intro gs
  induction gs with
  | nil => intro p; exact ⟨rfl, rfl, later_refl _⟩
  | cons g rest ih =>
    intro p
    rw [List.foldl_cons]
    obtain ⟨a1, a2, a3⟩ := ih (dispatchGroup cg p g)
    obtain ⟨b1, b2, b3⟩ := dispatchGroup_nfxs cg p g
    exact ⟨a1.trans b1, a2.trans b2, later_trans _ _ _ b3 a3⟩

theorem shapeStep_facts {α : Type} (cg : ComputationGraph α) (nfxs : List Tensor) (nid : Nat)
    (hnodes : ∀ j, (vget cg.nodes j).device = 0) (hdev : ∀ i, (vget nfxs i).device = 0) :
    (shapeStep cg nfxs nid).length = nfxs.length ∧
    (∀ i, (vget (shapeStep cg nfxs nid) i).device = 0) ∧
    (∀ i, (vget (shapeStep cg nfxs nid) i).v = (vget nfxs i).v) ∧
    (∀ i, i ≠ nid → vget (shapeStep cg nfxs nid) i = vget nfxs i) := by
  unfold shapeStep
  refine ⟨length_vset _ _ _, fun i => ?_, fun i => ?_, fun i hi => ?_⟩
  · rw [vget_vset]
    split
    · exact hnodes nid
    · exact hdev i
  · rw [vget_vset]
    split
    · rename_i h
      rw [← h.1]
    · rfl
  · exact vget_vset_ne _ _ _ _ (fun h => hi h.symm)

theorem planNode_shape {α : Type} (cg : ComputationGraph α) (acc : Pass α × Nat) (nid : Nat) :
    (planNode cg acc nid).1.nfxs = acc.1.nfxs ∨
    (planNode cg acc nid).1.nfxs = shapeStep cg acc.1.nfxs nid := by
  unfold planNode
  by_cases hf : acc.1.fault.isSome
  · rw [if_pos hf]; exact Or.inl rfl
  · rw [if_neg hf]
    right
    dsimp only
    by_cases haux : (vget cg.nodes nid).aux_storage_size ≠ 0
    · rw [if_pos haux]
      split <;> rfl
    · rw [if_neg haux]
      rfl

theorem planNode_later {α : Type} (cg : ComputationGraph α) (acc : Pass α × Nat) (nid : Nat) :
    Later acc.1.w (planNode cg acc nid).1.w ∧ (planNode cg acc nid).1.w.mem = acc.1.w.mem := by
  unfold planNode
  by_cases hf : acc.1.fault.isSome
  · rw [if_pos hf]; exact ⟨later_refl _, rfl⟩
  · rw [if_neg hf]
    dsimp only
    by_cases haux : (vget cg.nodes nid).aux_storage_size ≠ 0
    · rw [if_pos haux]
      have hl := allocate_later acc.1.w
        (vget (vset acc.1.nfxs nid
          { (vget acc.1.nfxs nid) with d := (vget cg.nodes nid).dim,
                                       device := (vget cg.nodes nid).device }) nid).device
        (vget cg.nodes nid).aux_storage_size
      split
      · exact ⟨hl, rfl⟩
      · exact ⟨hl, rfl⟩
    · rw [if_neg haux]
      exact ⟨later_refl _, rfl⟩

theorem planNode_base {α : Type} (cg : ComputationGraph α) (acc : Pass α × Nat) (nid : Nat)
    (lim : Nat) (hnodes : ∀ j, (vget cg.nodes j).device = 0)
    (hdev : ∀ i, (vget acc.1.nfxs i).device = 0) (hf : acc.1.fault = none)
    (hn : NoNull (planNode cg acc nid).1.w) (hlim : lim ≤ acc.1.w.base) :
    (planNode cg acc nid).1.fault = none ∧ lim ≤ (planNode cg acc nid).1.w.base := by
  have hd0 : (vget (vset acc.1.nfxs nid
      { (vget acc.1.nfxs nid) with d := (vget cg.nodes nid).dim,
                                   device := (vget cg.nodes nid).device }) nid).device = 0 :=
    (shapeStep_facts cg acc.1.nfxs nid hnodes hdev).2.1 nid
  unfold planNode at hn ⊢
  have hs : ¬ acc.1.fault.isSome = true := by rw [hf]; simp
  rw [if_neg hs] at hn ⊢
  dsimp only at hn ⊢
  by_cases haux : (vget cg.nodes nid).aux_storage_size ≠ 0
  · rw [if_pos haux] at hn ⊢
    rw [hd0] at hn ⊢
    cases hr : (acc.1.w.allocate 0 (vget cg.nodes nid).aux_storage_size).1 with
    | none =>
      exfalso
      rw [hr] at hn
      dsimp only at hn
      have := hn ⟨0, (vget cg.nodes nid).aux_storage_size,
        (acc.1.w.allocate 0 (vget cg.nodes nid).aux_storage_size).1⟩ (by
          unfold World.allocate
          dsimp only
          exact List.mem_append_right _ (List.mem_singleton.2 rfl))
      exact this hr
    | some x =>
      rw [hr] at hn
      dsimp only at hn ⊢
      have hn2 : NoNull (acc.1.w.allocate 0 (vget cg.nodes nid).aux_storage_size).2 :=
        fun a ha => hn a ha
      obtain ⟨_, _, _, hb⟩ := allocate_frame acc.1.w _ lim hn2 hlim
      exact ⟨rfl, hb⟩
  · rw [if_neg haux]
    exact ⟨rfl, hlim⟩

theorem planFold_frame {α : Type} (cg : ComputationGraph α)
    (hnodes : ∀ j, (vget cg.nodes j).device = 0) :
    ∀ (nids : List Nat) (acc : Pass α × Nat), (∀ i, (vget acc.1.nfxs i).device = 0) →
      Later acc.1.w (nids.foldl (planNode cg) acc).1.w ∧
      (nids.foldl (planNode cg) acc).1.w.mem = acc.1.w.mem ∧
      (nids.foldl (planNode cg) acc).1.nfxs.length = acc.1.nfxs.length ∧
      (∀ i, (vget (nids.foldl (planNode cg) acc).1.nfxs i).device = 0) ∧
      (∀ i, (vget (nids.foldl (planNode cg) acc).1.nfxs i).v = (vget acc.1.nfxs i).v) ∧
      (∀ i, i ∉ nids → vget (nids.foldl (planNode cg) acc).1.nfxs i = vget acc.1.nfxs i) ∧
      (∀ lim, acc.1.fault = none → NoNull (nids.foldl (planNode cg) acc).1.w →
        lim ≤ acc.1.w.base →
        (nids.foldl (planNode cg) acc).1.fault = none ∧
        lim ≤ (nids.foldl (planNode cg) acc).1.w.base) := by
  intro nids
  induction nids with
  | nil =>
    intro acc hdev
    exact ⟨later_refl _, rfl, rfl, hdev, fun _ => rfl, fun _ _ => rfl,
      fun lim hf _ hlim => ⟨hf, hlim⟩⟩
  | cons n ns ih =>
    intro acc hdev
    rw [List.foldl_cons]
    have hfacts : (planNode cg acc n).1.nfxs.length = acc.1.nfxs.length ∧
        (∀ i, (vget (planNode cg acc n).1.nfxs i).device = 0) ∧
        (∀ i, (vget (planNode cg acc n).1.nfxs i).v = (vget acc.1.nfxs i).v) ∧
        (∀ i, i ≠ n → vget (planNode cg acc n).1.nfxs i = vget acc.1.nfxs i) := by
      rcases planNode_shape cg acc n with h | h
      · rw [h]; exact ⟨rfl, hdev, fun _ => rfl, fun _ _ => rfl⟩
      · rw [h]; exact shapeStep_facts cg acc.1.nfxs n hnodes hdev
    obtain ⟨f1, f2, f3, f4⟩ := hfacts
    obtain ⟨a1, a2, a3, a4, a5, a6, a7⟩ := ih (planNode cg acc n) f2
    obtain ⟨b1, b2⟩ := planNode_later cg acc n
    refine ⟨later_trans _ _ _ b1 a1, a2.trans b2, a3.trans f1, a4,
      fun i => (a5 i).trans (f3 i), fun i hi => ?_, fun lim hf hn hlim => ?_⟩
    · rw [a6 i (fun h => hi (List.mem_cons_of_mem _ h)),
        f4 i (fun h => hi (by rw [h]; exact List.mem_cons_self _ _))]
    · have hn1 : NoNull (planNode cg acc n).1.w := noNull_of_later _ _ a1 hn
      obtain ⟨c1, c2⟩ := planNode_base cg acc n lim hnodes hdev hf hn1 hlim
      exact a7 lim c1 hn c2

theorem placeFold_facts {α : Type} (cg : ComputationGraph α) (base : Nat) :
    ∀ (nids : List Nat) (acc : List Tensor × Nat),
      (nids.foldl (placeNode cg base) acc).1.length = acc.1.length ∧
      (∀ i, (vget (nids.foldl (placeNode cg base) acc).1 i).device = (vget acc.1 i).device) ∧
      (∀ i, i ∉ nids → vget (nids.foldl (placeNode cg base) acc).1 i = vget acc.1 i) ∧
      (∀ i, (vget (nids.foldl (placeNode cg base) acc).1 i).v = (vget acc.1 i).v ∨
        base ≤ (vget (nids.foldl (placeNode cg base) acc).1 i).v) ∧
      (∀ nid ∈ nids, nid < acc.1.length →
        base ≤ (vget (nids.foldl (placeNode cg base) acc).1 nid).v) := by
  intro nids
  induction nids with
  | nil =>
    intro acc
    exact ⟨rfl, fun _ => rfl, fun _ _ => rfl, fun _ => Or.inl rfl,
      fun nid h => by cases h⟩
  | cons n ns ih =>
    intro acc
    rw [List.foldl_cons]
    obtain ⟨a1, a2, a3, a4, a5⟩ := ih (placeNode cg base acc n)
    have s1 : (placeNode cg base acc n).1.length = acc.1.length := length_vset _ _ _
    have s2 : ∀ i, (vget (placeNode cg base acc n).1 i).device = (vget acc.1 i).device := by
      intro i
      unfold placeNode
      dsimp only
      rw [vget_vset]
      split
      · rename_i h
        rw [← h.1]
      · rfl
    have s3 : ∀ i, i ≠ n → vget (placeNode cg base acc n).1 i = vget acc.1 i := by
      intro i hi
      exact vget_vset_ne _ _ _ _ (fun h => hi h.symm)
    have s4 : n < acc.1.length → base ≤ (vget (placeNode cg base acc n).1 n).v := by
      intro hn
      unfold placeNode
      dsimp only
      rw [vget_vset_eq _ _ _ hn]
      dsimp only
      omega
    have s5 : ∀ i, (vget (placeNode cg base acc n).1 i).v = (vget acc.1 i).v ∨
        base ≤ (vget (placeNode cg base acc n).1 i).v := by
      intro i
      by_cases hi : i = n ∧ n < acc.1.length
      · right
        rw [hi.1]
        exact s4 hi.2
      · left
        unfold placeNode
        dsimp only
        rw [vget_vset]
        split
        · rename_i h
          exact absurd ⟨h.1.symm, h.2⟩ hi
        · rfl
    refine ⟨a1.trans s1, fun i => (a2 i).trans (s2 i), fun i hi => ?_, fun i => ?_,
      fun nid hnid hlen => ?_⟩
    · rw [a3 i (fun h => hi (List.mem_cons_of_mem _ h)),
        s3 i (fun h => hi (by rw [h]; exact List.mem_cons_self _ _))]
    · rcases a4 i with h | h
      · rcases s5 i with h2 | h2
        · exact Or.inl (h.trans h2)
        · right; rw [h]; exact h2
      · exact Or.inr h
    · rcases List.mem_cons.1 hnid with h | h
      · subst h
        rcases a4 nid with h2 | h2
        · rw [h2]; exact s4 hlen
        · exact h2
      · exact a5 nid h (by rw [s1]; exact hlen)

theorem planGroup_frame {α : Type} (cg : ComputationGraph α) (p : Pass α)
    (g : NodeType × List Nat) (hnodes : ∀ j, (vget cg.nodes j).device = 0)
    (hdev : ∀ i, (vget p.nfxs i).device = 0) :
    Later p.w (planGroup cg p g).w ∧ (planGroup cg p g).w.mem = p.w.mem ∧
    (planGroup cg p g).nfxs.length = p.nfxs.length ∧
    (∀ i, (vget (planGroup cg p g).nfxs i).device = 0) ∧
    (∀ i, i ∉ g.2 → vget (planGroup cg p g).nfxs i = vget p.nfxs i) ∧
    (∀ lim, p.fault = none → NoNull (planGroup cg p g).w → lim ≤ p.w.base →
      (planGroup cg p g).fault = none ∧ lim ≤ (planGroup cg p g).w.base ∧
      (∀ i, lim ≤ (vget p.nfxs i).v → lim ≤ (vget (planGroup cg p g).nfxs i).v) ∧
      (∀ nid ∈ g.2, nid < p.nfxs.length → lim ≤ (vget (planGroup cg p g).nfxs nid).v)) := by
  obtain ⟨a1, a2, a3, a4, a5, a6, a7⟩ := planFold_frame cg hnodes g.2 (p, 0) hdev
  have hal := allocate_later (g.2.foldl (planNode cg) (p, 0)).1.w
    (vget (g.2.foldl (planNode cg) (p, 0)).1.nfxs (vget g.2 0)).device
    ((g.2.foldl (planNode cg) (p, 0)).2 * sizeof_float)
  have hd0 : (vget (g.2.foldl (planNode cg) (p, 0)).1.nfxs (vget g.2 0)).device = 0 := a4 _
  unfold planGroup
  by_cases hf : p.fault.isSome
  · rw [if_pos hf]
    refine ⟨later_refl _, rfl, rfl, hdev, fun _ _ => rfl, fun lim h0 => ?_⟩
    rw [h0] at hf; cases hf
  · rw [if_neg hf]
    dsimp only
    by_cases hf2 : (g.2.foldl (planNode cg) (p, 0)).1.fault.isSome
    · rw [if_pos hf2]
      refine ⟨a1, a2, a3, a4, a6, fun lim h0 hn hlim => ?_⟩
      have := (a7 lim h0 hn hlim).1
      rw [this] at hf2; cases hf2
    · rw [if_neg hf2]
      cases hr : ((g.2.foldl (planNode cg) (p, 0)).1.w.allocate
          (vget (g.2.foldl (planNode cg) (p, 0)).1.nfxs (vget g.2 0)).device
          ((g.2.foldl (planNode cg) (p, 0)).2 * sizeof_float)).1 with
      | none =>
        dsimp only
        refine ⟨later_trans _ _ _ a1 hal, a2, a3, a4, a6, fun lim _ hn _ => ?_⟩
        exfalso
        rw [hd0] at hr
        have hn2 : NoNull ((g.2.foldl (planNode cg) (p, 0)).1.w.allocate 0
            ((g.2.foldl (planNode cg) (p, 0)).2 * sizeof_float)).2 := by
          intro a ha
          apply hn a
          rw [hd0]
          exact ha
        obtain ⟨x, hx, _⟩ := allocate_frame _ _ 0 hn2 (Nat.zero_le _)
        rw [hx] at hr; cases hr
      | some base =>
        dsimp only
        obtain ⟨b1, b2, b3, b4, b5⟩ := placeFold_facts cg base g.2
          ((g.2.foldl (planNode cg) (p, 0)).1.nfxs, 0)
        refine ⟨later_trans _ _ _ a1 hal, a2, b1.trans a3, fun i => (b2 i).trans (a4 i),
          fun i hi => (b3 i hi).trans (a6 i hi), fun lim h0 hn hlim => ?_⟩
        rw [hd0] at hr
        have hn2 : NoNull ((g.2.foldl (planNode cg) (p, 0)).1.w.allocate 0
            ((g.2.foldl (planNode cg) (p, 0)).2 * sizeof_float)).2 := by
          intro a ha
          apply hn a
          rw [hd0]
          exact ha
        have hn1 : NoNull (g.2.foldl (planNode cg) (p, 0)).1.w :=
          noNull_of_later _ _ (allocate_later _ _ _) hn2
        obtain ⟨_, c2⟩ := a7 lim h0 hn1 hlim
        obtain ⟨x, hx, hxl, hb⟩ := allocate_frame _ _ lim hn2 c2
        rw [hx] at hr
        injection hr with hr
        subst hr
        refine ⟨rfl, by rw [hd0]; exact hb, fun i hi => ?_, fun nid hnid hlen => ?_⟩
        · rcases b4 i with h | h
          · rw [h, a5 i]; exact hi
          · exact Nat.le_trans hxl h
        · exact Nat.le_trans hxl (b5 nid hnid (by rw [a3]; exact hlen))

theorem planGroups_frame {α : Type} (cg : ComputationGraph α)
    (hnodes : ∀ j, (vget cg.nodes j).device = 0) :
    ∀ (gs : List (NodeType × List Nat)) (p : Pass α), (∀ i, (vget p.nfxs i).device = 0) →
      Later p.w (gs.foldl (planGroup cg) p).w ∧ (gs.foldl (planGroup cg) p).w.mem = p.w.mem ∧
      (gs.foldl (planGroup cg) p).nfxs.length = p.nfxs.length ∧
      (∀ i, (vget (gs.foldl (planGroup cg) p).nfxs i).device = 0) ∧
      (∀ i, (∀ g ∈ gs, i ∉ g.2) → vget (gs.foldl (planGroup cg) p).nfxs i = vget p.nfxs i) ∧
      (∀ lim, p.fault = none → NoNull (gs.foldl (planGroup cg) p).w → lim ≤ p.w.base →
        (gs.foldl (planGroup cg) p).fault = none ∧ lim ≤ (gs.foldl (planGroup cg) p).w.base ∧
        (∀ i, lim ≤ (vget p.nfxs i).v → lim ≤ (vget (gs.foldl (planGroup cg) p).nfxs i).v) ∧
        (∀ g ∈ gs, ∀ nid ∈ g.2, nid < p.nfxs.length →
          lim ≤ (vget (gs.foldl (planGroup cg) p).nfxs nid).v)) := by
  intro gs
  induction gs with
  | nil =>
    intro p hdev
    exact ⟨later_refl _, rfl, rfl, hdev, fun _ _ => rfl,
      fun lim h0 _ hlim => ⟨h0, hlim, fun _ h => h, fun g hg => by cases hg⟩⟩
  | cons g rest ih =>
    intro p hdev
    rw [List.foldl_cons]
    obtain ⟨a1, a2, a3, a4, a5, a6⟩ := planGroup_frame cg p g hnodes hdev
    obtain ⟨b1, b2, b3, b4, b5, b6⟩ := ih (planGroup cg p g) a4
    refine ⟨later_trans _ _ _ a1 b1, b2.trans a2, b3.trans a3, b4, fun i hi => ?_,
      fun lim h0 hn hlim => ?_⟩
    · rw [b5 i (fun g' hg' => hi g' (List.mem_cons_of_mem _ hg')),
        a5 i (hi g (List.mem_cons_self _ _))]
    · have hn1 : NoNull (planGroup cg p g).w := noNull_of_later _ _ b1 hn
      obtain ⟨c1, c2, c3, c4⟩ := a6 lim h0 hn1 hlim
      obtain ⟨d1, d2, d3, d4⟩ := b6 lim c1 hn c2
      refine ⟨d1, d2, fun i hi => d3 i (c3 i hi), fun g' hg' nid hnid hlen => ?_⟩
      rcases List.mem_cons.1 hg' with h | h
      · subst h
        exact d3 nid (c4 nid hnid hlen)
      · exact d4 g' h nid hnid (by rw [a3]; exact hlen)

theorem vget_vresize {α : Type} [Inhabited α] (v : List α) (n d : Nat) :
    vget (vresize v n) d = if d < n then vget v d else default := by
  unfold vget vresize
  rw [List.getD_eq_getElem?_getD, List.getD_eq_getElem?_getD]
  by_cases h1 : d < n
  · rw [if_pos h1]
    by_cases h2 : d < v.length
    · rw [List.getElem?_append_left (by rw [List.length_take]; omega), List.getElem?_take_of_lt h1]
    · rw [List.getElem?_append_right (by rw [List.length_take]; omega),
        List.getElem?_eq_none (show v.length ≤ d by omega)]
      rw [List.getElem?_replicate]
      rw [if_pos (by rw [List.length_take]; omega)]
      rfl
  · rw [if_neg h1]
    rw [List.getElem?_eq_none (by
      rw [List.length_append, List.length_take, List.length_replicate]; omega)]
    rfl

theorem incremental_forward_pass {α : Type} [Inhabited α] (cg : ComputationGraph α)
    (m : Machine α) (upto : Nat) (h : ¬ upto < m.eng.num_nodes_evaluated) :
    (incremental_forward cg m upto).1.w = (forwardPass cg m upto).w ∧
    (incremental_forward cg m upto).1.eng.nfxs = (forwardPass cg m upto).nfxs := by
  unfold incremental_forward
  rw [if_neg h]
  dsimp only
  cases (forwardPass cg m upto).fault with
  | none => exact ⟨rfl, rfl⟩
  | some f => exact ⟨rfl, rfl⟩

theorem vget_zipWith {α : Type} [Inhabited α] (f : α → α → α) (a b : List α) (j : Nat)
    (ha : j < a.length) (hb : j < b.length) :
    vget (List.zipWith f a b) j = f (vget a j) (vget b j) := by
  unfold vget
  rw [List.getD_eq_getElem?_getD, List.getD_eq_getElem?_getD, List.getD_eq_getElem?_getD,
    List.getElem?_eq_getElem (by rw [List.length_zipWith]; omega),
    List.getElem?_eq_getElem ha, List.getElem?_eq_getElem hb]
  simp

theorem backwardSetup_layout {α : Type} [Zero α] (m : Machine α) (kSCALAR_ONE target : Nat)
    (hdev : ∀ i, (vget m.eng.nfxs i).device = 0)
    (hok : (backwardSetup m kSCALAR_ONE target).fault = none) :
    (backwardSetup m kSCALAR_ONE target).calls = [] ∧
    (∀ i, i < target →
      (vget (backwardSetup m kSCALAR_ONE target).ndEdfs i).d = (vget m.eng.nfxs i).d) ∧
    (∀ i, i < target → ∀ j, j < (vget m.eng.nfxs i).d.size →
      (backwardSetup m kSCALAR_ONE target).w.mem
        ((vget (backwardSetup m kSCALAR_ONE target).ndEdfs i).v + sizeof_float * j) = 0) ∧
    (∀ i j, i < j → j < target →
      (vget (backwardSetup m kSCALAR_ONE target).ndEdfs i).v +
        sizeof_float * (vget m.eng.nfxs i).d.size ≤
      (vget (backwardSetup m kSCALAR_ONE target).ndEdfs j).v) := by
  obtain ⟨hlen, _, hinv⟩ := gradAllocLoop_inv m target
  refine ⟨(backwardSetup_calls m kSCALAR_ONE target).1, ?_⟩
  unfold backwardSetup at hok ⊢
  dsimp only at hok ⊢
  generalize forUp (gradAllocStep m.eng.nfxs) 0 (target + 1)
    (⟨vresize m.eng.ndEdfs (target + 1), m.w.freeAllD, [], [], [], none⟩ : Grad α) = g
    at hok hlen hinv ⊢
  by_cases hf : g.fault.isSome
  · rw [if_pos hf] at hok
    rw [hok] at hf; cases hf
  · rw [if_neg hf] at hok ⊢
    dsimp only at hok ⊢
    obtain ⟨hshape, hcov, hord⟩ := hinv hok
    have hlast : g.ndEdfs.length - 1 = target := by omega
    rw [hlast]
    refine ⟨fun i hi => ?_, fun i hi j hj => ?_, fun i j hij hj => ?_⟩
    · rw [vget_vset_ne _ _ _ _ (by omega)]
      exact (hshape i (by omega)).1
    · rw [vget_vset_ne _ _ _ _ (by omega)]
      obtain ⟨idx, hidx⟩ := hcov i (by omega) j hj
      unfold World.zeroAllocatedD
      dsimp only
      rw [if_pos (any_taken_of_index _ _ idx hidx)]
    · rw [vget_vset_ne _ _ _ _ (by omega), vget_vset_ne _ _ _ _ (by omega)]
      exact (hord hdev).2 i j hij (by omega)

theorem callsInto_append {α : Type} (x : Nat) (l : List (BackwardCall α))
    (c : BackwardCall α) :
    callsInto x (l ++ [c]) = callsInto x l ++ (if c.arg = x then [c] else []) := by
  unfold callsInto
  rw [List.filter_append]
  congr 1
  by_cases h : c.arg = x
  · rw [if_pos h]
    simp [List.filter, h]
  · rw [if_neg h]
    simp [List.filter, h]

theorem callBackward_sum {α : Type} [Inhabited α] [Zero α] [Add α] (cg : ComputationGraph α)
    (nfxs : List Tensor) (D : List Tensor) (target x i ai arg : Nat) (g : Grad α)
    (hx : x < target) (harg : arg < target)
    (hshape : ∀ k, k < target → (vget D k).d = (vget nfxs k).d)
    (hord : ∀ a b, a < b → b < target →
      (vget D a).v + sizeof_float * (vget nfxs a).d.size ≤ (vget D b).v)
    (hlen : arg = x → ∀ xs fx dEdf,
      ((vget cg.nodes i).backward xs fx dEdf ai (vget nfxs x).d).length = (vget nfxs x).d.size)
    (hI : GradSumInv D x (vget D x).v (vget nfxs x).d.size g) :
    GradSumInv D x (vget D x).v (vget nfxs x).d.size (callBackward cg nfxs i ai arg g) ∧
    callsInto x (callBackward cg nfxs i ai arg g).calls =
      callsInto x g.calls ++
        (if arg = x then [⟨i, ai, arg, backwardContribution cg nfxs g i ai arg⟩] else []) := by
  obtain ⟨hD, hcell⟩ := hI
  have hcalls : callsInto x (callBackward cg nfxs i ai arg g).calls =
      callsInto x g.calls ++
        (if arg = x then [⟨i, ai, arg, backwardContribution cg nfxs g i ai arg⟩] else []) := by
    unfold callBackward
    dsimp only
    rw [callsInto_append]
  refine ⟨⟨hD, fun j hj => ?_⟩, hcalls⟩
  rw [hcalls]
  unfold callBackward
  dsimp only
  rw [hD]
  by_cases hax : arg = x
  · subst hax
    rw [if_pos rfl]
    have hclen : (backwardContribution cg nfxs g i ai arg).length = (vget nfxs arg).d.size := by
      unfold backwardContribution
      dsimp only
      rw [List.length_take, hD, hshape arg hx, hlen rfl]
      exact Nat.min_self _
    rw [hshape arg hx]
    rw [storeFloats_hit _ _ _ j (by
      rw [List.length_zipWith, length_loadFloats, hclen]; omega)]
    rw [vget_zipWith _ _ _ j (by rw [length_loadFloats]; exact hj) (by rw [hclen]; exact hj),
      vget_loadFloats _ _ _ _ hj, hcell j hj]
    rw [List.map_append, List.foldl_append]
    rfl
  · rw [if_neg hax, List.append_nil]
    rw [storeFloats_miss]
    · exact hcell j hj
    · intro k hk
      rw [List.length_zipWith, length_loadFloats, hshape arg harg] at hk
      have hk2 : k < (vget nfxs arg).d.size := by omega
      rcases Nat.lt_or_gt_of_ne hax with h | h
      · have := hord arg x h hx
        unfold sizeof_float at this ⊢
        omega
      · have := hord x arg h harg
        unfold sizeof_float at this ⊢
        omega

theorem backArgFold_sum {α : Type} [Inhabited α] [Zero α] [Add α] (cg : ComputationGraph α)
    (nfxs : List Tensor) (nd : List Bool) (D : List Tensor) (target x i : Nat)
    (hx : x < target)
    (hshape : ∀ k, k < target → (vget D k).d = (vget nfxs k).d)
    (hord : ∀ a b, a < b → b < target →
      (vget D a).v + sizeof_float * (vget nfxs a).d.size ≤ (vget D b).v)
    (hnd : vget nd x = true) :
    ∀ (as : List Nat) (acc : Grad α × Nat), (∀ a ∈ as, a < target) →
      (x ∈ as → ∀ ai xs fx dEdf,
        ((vget cg.nodes i).backward xs fx dEdf ai (vget nfxs x).d).length =
          (vget nfxs x).d.size) →
      GradSumInv D x (vget D x).v (vget nfxs x).d.size acc.1 →
      GradSumInv D x (vget D x).v (vget nfxs x).d.size
        (as.foldl (backArgStep cg nfxs nd i) acc).1 ∧
      ∃ cs, callsInto x (as.foldl (backArgStep cg nfxs nd i) acc).1.calls =
          callsInto x acc.1.calls ++ cs ∧
        cs.length = as.count x ∧ ∀ c ∈ cs, c.node = i := by
  intro as
  induction as with
  | nil =>
    intro acc _ _ hI
    exact ⟨hI, [], (List.append_nil _).symm, rfl, fun c hc => by cases hc⟩
  | cons a rest ih =>
    intro acc hlt hlen hI
    rw [List.foldl_cons]
    have hstep : GradSumInv D x (vget D x).v (vget nfxs x).d.size
          (backArgStep cg nfxs nd i acc a).1 ∧
        ∃ cs0, callsInto x (backArgStep cg nfxs nd i acc a).1.calls =
            callsInto x acc.1.calls ++ cs0 ∧
          cs0.length = (if a = x then 1 else 0) ∧ ∀ c ∈ cs0, c.node = i := by
      unfold backArgStep
      dsimp only
      by_cases hn : vget nd a = true
      · rw [if_pos hn]
        obtain ⟨h1, h2⟩ := callBackward_sum cg nfxs D target x i acc.2 a acc.1 hx
          (hlt a (List.mem_cons_self _ _)) hshape hord
          (fun hax xs fx dEdf => hlen (by rw [hax]; exact List.mem_cons_self _ _) acc.2 xs fx dEdf)
          hI
        refine ⟨h1, _, h2, ?_, ?_⟩
        · by_cases hax : a = x
          · rw [if_pos hax, if_pos hax]; rfl
          · rw [if_neg hax, if_neg hax]; rfl
        · intro c hc
          by_cases hax : a = x
          · rw [if_pos hax] at hc
            rw [List.mem_singleton.1 hc]
          · rw [if_neg hax] at hc
            cases hc
      · rw [if_neg hn]
        have hax : ¬ a = x := fun h => hn (by rw [h]; exact hnd)
        refine ⟨hI, [], (List.append_nil _).symm, ?_, fun c hc => by cases hc⟩
        rw [if_neg hax]
        rfl
    obtain ⟨s1, cs0, s2, s3, s4⟩ := hstep
    obtain ⟨r1, cs1, r2, r3, r4⟩ := ih (backArgStep cg nfxs nd i acc a)
      (fun b hb => hlt b (List.mem_cons_of_mem _ hb))
      (fun hb => hlen (List.mem_cons_of_mem _ hb)) s1
    refine ⟨r1, cs0 ++ cs1, by rw [r2, s2, List.append_assoc], ?_, fun c hc => ?_⟩
    · rw [List.length_append, s3, r3, List.count_cons]
      by_cases hax : a = x
      · simp [hax, Nat.add_comm]
      · simp [hax]
    · rcases List.mem_append.1 hc with h | h
      · exact s4 c h
      · exact r4 c h

theorem backNodeStep_sum {α : Type} [Inhabited α] [Zero α] [Add α] (cg : ComputationGraph α)
    (nfxs : List Tensor) (nd : List Bool) (D : List Tensor) (target x k : Nat)
    (hdag : IsDAG cg.argTable) (hk : k ≤ target) (hx : x < target)
    (hshape : ∀ k, k < target → (vget D k).d = (vget nfxs k).d)
    (hord : ∀ a b, a < b → b < target →
      (vget D a).v + sizeof_float * (vget nfxs a).d.size ≤ (vget D b).v)
    (hnd : vget nd x = true)
    (hlen : x ∈ (vget cg.nodes k).args → ∀ ai xs fx dEdf,
      ((vget cg.nodes k).backward xs fx dEdf ai (vget nfxs x).d).length =
        (vget nfxs x).d.size)
    (s : Sweep α) (hI : GradSumInv D x (vget D x).v (vget nfxs x).d.size s.g) :
    GradSumInv D x (vget D x).v (vget nfxs x).d.size (backNodeStep cg nfxs nd k s).g ∧
    ∃ cs, callsInto x (backNodeStep cg nfxs nd k s).g.calls = callsInto x s.g.calls ++ cs ∧
      cs.length = (if vget s.in_computation k = true then (vget cg.nodes k).args.count x
        else 0) ∧
      ∀ c ∈ cs, c.node = k := by
  unfold backNodeStep
  by_cases hin : vget s.in_computation k = true
  · rw [if_pos hin, if_pos hin]
    dsimp only
    exact backArgFold_sum cg nfxs nd D target x k hx hshape hord hnd (vget cg.nodes k).args
      (s.g, 0)
      (fun a ha => by
        have := hdag k a (by rw [vget_argTable]; exact ha)
        omega)
      hlen hI
  · rw [if_neg hin, if_neg hin]
    exact ⟨hI, [], (List.append_nil _).symm, rfl, fun c hc => by cases hc⟩

theorem sweep_two_consumers {α : Type} [Inhabited α] [Zero α] [Add α]
    (cg : ComputationGraph α) (nfxs : List Tensor) (nd : List Bool) (D : List Tensor)
    (target x p1 p2 : Nat) (g0 : Grad α) (hdag : IsDAG cg.argTable) (hx : x < target)
    (hshape : ∀ k, k < target → (vget D k).d = (vget nfxs k).d)
    (hord : ∀ a b, a < b → b < target →
      (vget D a).v + sizeof_float * (vget nfxs a).d.size ≤ (vget D b).v)
    (hnd : vget nd x = true) (h12 : p1 < p2) (hp2 : p2 ≤ target)
    (hc1 : (vget cg.nodes p1).args.count x = 1) (hc2 : (vget cg.nodes p2).args.count x = 1)
    (hoth : ∀ j, j ≤ target → j ≠ p1 → j ≠ p2 → x ∉ (vget cg.nodes j).args)
    (hr1 : Reach cg.argTable target p1) (hr2 : p2 = target ∨ Reach cg.argTable target p2)
    (hl1 : ∀ ai xs fx dEdf,
      ((vget cg.nodes p1).backward xs fx dEdf ai (vget nfxs x).d).length =
        (vget nfxs x).d.size)
    (hl2 : ∀ ai xs fx dEdf,
      ((vget cg.nodes p2).backward xs fx dEdf ai (vget nfxs x).d).length =
        (vget nfxs x).d.size)
    (hcalls0 : g0.calls = [])
    (hg0 : GradSumInv D x (vget D x).v (vget nfxs x).d.size g0) :
    GradSumInv D x (vget D x).v (vget nfxs x).d.size (backwardSweep cg nfxs nd target g0).g ∧
    ∃ c2 c1, callsInto x (backwardSweep cg nfxs nd target g0).g.calls = [c2, c1] ∧
      c2.node = p2 ∧ c1.node = p1 := by
  have key := forDown_inv (backNodeStep cg nfxs nd) 0
    (fun k s =>
      (s.in_computation.length = target + 1 ∧
        (∀ j, j < target + 1 → (vget s.in_computation j = true ↔
          (j = target ∨ ∃ i, k ≤ i ∧ i ≤ target ∧
            (i = target ∨ Reach cg.argTable target i) ∧ j ∈ vget cg.argTable i))) ∧
        (∀ c ∈ s.g.calls,
          c ∈ g0.calls ∨ (c.node = target ∨ Reach cg.argTable target c.node))) ∧
      GradSumInv D x (vget D x).v (vget nfxs x).d.size s.g ∧
      (p2 < k → callsInto x s.g.calls = []) ∧
      (p1 < k → k ≤ p2 → ∃ c2, callsInto x s.g.calls = [c2] ∧ c2.node = p2) ∧
      (k ≤ p1 → ∃ c2 c1, callsInto x s.g.calls = [c2, c1] ∧ c2.node = p2 ∧ c1.node = p1))
    (target + 1) (sweepInit (target + 1) g0)
    (by
      rw [Nat.zero_add]
      refine ⟨sweepInit_inv cg target g0, hg0, fun _ => ?_, fun _ h => ?_, fun h => ?_⟩
      · show callsInto x g0.calls = []
        rw [hcalls0]; rfl
      · omega
      · omega)
    (by
      intro m t hm hI
      rw [Nat.zero_add] at hI ⊢
      obtain ⟨hC, hS, X1, X2, X3⟩ := hI
      obtain ⟨hreach, hC2⟩ := backNodeStep_inv cg nfxs nd hdag target m (by omega) g0.calls t hC
      have hlen : x ∈ (vget cg.nodes m).args → ∀ ai xs fx dEdf,
          ((vget cg.nodes m).backward xs fx dEdf ai (vget nfxs x).d).length =
            (vget nfxs x).d.size := by
        intro hmem
        by_cases hm1 : m = p1
        · rw [hm1]; exact hl1
        · by_cases hm2 : m = p2
          · rw [hm2]; exact hl2
          · exact absurd hmem (hoth m (by omega) hm1 hm2)
      obtain ⟨hS2, cs, hcs, hcl, hcn⟩ := backNodeStep_sum cg nfxs nd D target x m hdag
        (by omega) hx hshape hord hnd hlen t hS
      refine ⟨hC2, hS2, ?_⟩
      by_cases hm2 : m = p2
      · subst hm2
        have hin : vget t.in_computation m = true := hreach.2 hr2
        rw [if_pos hin, hc2] at hcl
        obtain ⟨c, hc⟩ := List.length_eq_one.1 hcl
        rw [hcs, X1 (by omega), hc, List.nil_append]
        refine ⟨fun h => by omega, fun _ _ => ⟨c, rfl, hcn c (by rw [hc]; exact List.mem_singleton.2 rfl)⟩,
          fun h => by omega⟩
      · by_cases hm1 : m = p1
        · subst hm1
          have hin : vget t.in_computation m = true := hreach.2 (Or.inr hr1)
          rw [if_pos hin, hc1] at hcl
          obtain ⟨c, hc⟩ := List.length_eq_one.1 hcl
          obtain ⟨c2, hc2a, hc2b⟩ := X2 (by omega) (by omega)
          rw [hcs, hc2a, hc]
          refine ⟨fun h => by omega, fun h => by omega,
            fun _ => ⟨c2, c, rfl, hc2b, hcn c (by rw [hc]; exact List.mem_singleton.2 rfl)⟩⟩
        · have hzero : cs = [] := by
            apply List.eq_nil_of_length_eq_zero
            rw [hcl]
            split
            · exact List.count_eq_zero_of_not_mem (hoth m (by omega) hm1 hm2)
            · rfl
          rw [hcs, hzero, List.append_nil]
          exact ⟨fun h => X1 (by omega), fun h1 h2 => X2 (by omega) (by omega),
            fun h => X3 (by omega)⟩)
  obtain ⟨_, hS, _, _, X3⟩ := key
  exact ⟨hS, X3 (Nat.zero_le _)⟩

theorem backward_ok_eq {α : Type} [Inhabited α] [Zero α] [Add α] (cg : ComputationGraph α)
    (m : Machine α) (kSCALAR_ONE target : Nat)
    (hok : (backward cg m kSCALAR_ONE target).fault = none) :
    (backwardSetup m kSCALAR_ONE target).fault = none ∧
    (backward cg m kSCALAR_ONE target).calls =
      (backwardSweep cg m.eng.nfxs (needs_derivative cg (target + 1)) target
        (backwardSetup m kSCALAR_ONE target)).g.calls ∧
    (backward cg m kSCALAR_ONE target).w =
      (backwardSweep cg m.eng.nfxs (needs_derivative cg (target + 1)) target
        (backwardSetup m kSCALAR_ONE target)).g.w ∧
    (backward cg m kSCALAR_ONE target).ndEdfs =
      (backwardSweep cg m.eng.nfxs (needs_derivative cg (target + 1)) target
        (backwardSetup m kSCALAR_ONE target)).g.ndEdfs := by
  unfold backward at hok ⊢
  by_cases hs : (vget m.eng.nfxs target).d.size ≠ 1
  · rw [if_pos hs] at hok
    cases hok
  · rw [if_neg hs] at hok ⊢
    dsimp only at hok ⊢
    by_cases hf : (backwardSetup m kSCALAR_ONE target).fault.isSome
    · rw [if_pos hf] at hok
      rw [hok] at hf; cases hf
    · rw [if_neg hf]
      refine ⟨?_, rfl, rfl, rfl⟩
      cases hg : (backwardSetup m kSCALAR_ONE target).fault with
      | none => rfl
      | some f => rw [hg] at hf; exact absurd rfl hf

theorem backArgFold_unneeded {α : Type} [Inhabited α] [Zero α] [Add α]
    (cg : ComputationGraph α) (nfxs : List Tensor) (nd : List Bool) (D : List Tensor)
    (target x i : Nat) (hx : x < target)
    (hshape : ∀ k, k < target → (vget D k).d = (vget nfxs k).d)
    (hord : ∀ a b, a < b → b < target →
      (vget D a).v + sizeof_float * (vget nfxs a).d.size ≤ (vget D b).v)
    (hnd : vget nd x = false) :
    ∀ (as : List Nat) (acc : Grad α × Nat), (∀ a ∈ as, a < target) →
      GradSumInv D x (vget D x).v (vget nfxs x).d.size acc.1 →
      GradSumInv D x (vget D x).v (vget nfxs x).d.size
        (as.foldl (backArgStep cg nfxs nd i) acc).1 ∧
      callsInto x (as.foldl (backArgStep cg nfxs nd i) acc).1.calls =
        callsInto x acc.1.calls := by
  intro as
  induction as with
  | nil =>
    intro acc _ hI
    exact ⟨hI, rfl⟩
  | cons a rest ih =>
    intro acc hlt hI
    rw [List.foldl_cons]
    have hstep : GradSumInv D x (vget D x).v (vget nfxs x).d.size
          (backArgStep cg nfxs nd i acc a).1 ∧
        callsInto x (backArgStep cg nfxs nd i acc a).1.calls = callsInto x acc.1.calls := by
      unfold backArgStep
      dsimp only
      by_cases hn : vget nd a = true
      · rw [if_pos hn]
        have hax : ¬ a = x := fun h => by
          rw [h, hnd] at hn
          cases hn
        obtain ⟨h1, h2⟩ := callBackward_sum cg nfxs D target x i acc.2 a acc.1 hx
          (hlt a (List.mem_cons_self _ _)) hshape hord (fun h => absurd h hax) hI
        rw [if_neg hax, List.append_nil] at h2
        exact ⟨h1, h2⟩
      · rw [if_neg hn]
        exact ⟨hI, rfl⟩
    obtain ⟨s1, s2⟩ := hstep
    obtain ⟨r1, r2⟩ := ih (backArgStep cg nfxs nd i acc a)
      (fun b hb => hlt b (List.mem_cons_of_mem _ hb)) s1
    exact ⟨r1, r2.trans s2⟩

theorem backNodeStep_unneeded {α : Type} [Inhabited α] [Zero α] [Add α]
    (cg : ComputationGraph α) (nfxs : List Tensor) (nd : List Bool) (D : List Tensor)
    (target x k : Nat) (hdag : IsDAG cg.argTable) (hk : k ≤ target) (hx : x < target)
    (hshape : ∀ k, k < target → (vget D k).d = (vget nfxs k).d)
    (hord : ∀ a b, a < b → b < target →
      (vget D a).v + sizeof_float * (vget nfxs a).d.size ≤ (vget D b).v)
    (hnd : vget nd x = false)
    (s : Sweep α) (hI : GradSumInv D x (vget D x).v (vget nfxs x).d.size s.g) :
    GradSumInv D x (vget D x).v (vget nfxs x).d.size (backNodeStep cg nfxs nd k s).g ∧
    callsInto x (backNodeStep cg nfxs nd k s).g.calls = callsInto x s.g.calls := by
  unfold backNodeStep
  by_cases hin : vget s.in_computation k = true
  · rw [if_pos hin]
    dsimp only
    exact backArgFold_unneeded cg nfxs nd D target x k hx hshape hord hnd
      (vget cg.nodes k).args (s.g, 0)
      (fun a ha => by
        have := hdag k a (by rw [vget_argTable]; exact ha)
        omega)
      hI
  · rw [if_neg hin]
    exact ⟨hI, rfl⟩

theorem sweep_unneeded {α : Type} [Inhabited α] [Zero α] [Add α]
    (cg : ComputationGraph α) (nfxs : List Tensor) (nd : List Bool) (D : List Tensor)
    (target x : Nat) (g0 : Grad α) (hdag : IsDAG cg.argTable) (hx : x < target)
    (hshape : ∀ k, k < target → (vget D k).d = (vget nfxs k).d)
    (hord : ∀ a b, a < b → b < target →
      (vget D a).v + sizeof_float * (vget nfxs a).d.size ≤ (vget D b).v)
    (hnd : vget nd x = false)
    (hg0 : GradSumInv D x (vget D x).v (vget nfxs x).d.size g0) :
    GradSumInv D x (vget D x).v (vget nfxs x).d.size (backwardSweep cg nfxs nd target g0).g ∧
    callsInto x (backwardSweep cg nfxs nd target g0).g.calls = callsInto x g0.calls := by
  exact forDown_inv (backNodeStep cg nfxs nd) 0
    (fun _ s => GradSumInv D x (vget D x).v (vget nfxs x).d.size s.g ∧
      callsInto x s.g.calls = callsInto x g0.calls)
    (target + 1) (sweepInit (target + 1) g0) ⟨hg0, rfl⟩
    (by
      intro m t hm hI
      rw [Nat.zero_add]
      obtain ⟨h1, h2⟩ := backNodeStep_unneeded cg nfxs nd D target x m hdag (by omega) hx
        hshape hord hnd t hI.1
      exact ⟨h1, h2.trans hI.2⟩)

/-- C12 (amended): in a graph whose arguments precede their nodes and whose cached
tensors are on device 0, let `x` be an argument, once each, of exactly two nodes
`p1 < p2 <= target` that are the target or reachable from it, the backward
kernels of `p1` and `p2` yielding one float per element of `x`, and let
`backward(target)` return.  If `x` needs a gradient (`needs_derivative[x]`, that
is, `x` is a parameter node or depends on one), the backward kernel calls into
`x` are exactly two, first the one of `p2` and then the one of `p1`, and every
float of the gradient buffer of `x` is the sum of the two contributions they
added.  If `x` needs no gradient, there is no backward kernel call into `x` and
every float of the gradient buffer of `x` is zero. -/
theorem backward_two_consumers_gradient {α : Type} [Inhabited α] [AddZeroClass α]
    (cg : ComputationGraph α) (m : Machine α) (kSCALAR_ONE target x p1 p2 : Nat)
    (hdag : IsDAG cg.argTable) (hdev : ∀ t ∈ m.eng.nfxs, t.device = 0)
    (hok : (backward cg m kSCALAR_ONE target).fault = none)
    (h12 : p1 < p2) (hp2 : p2 ≤ target)
    (hc1 : (vget cg.nodes p1).args.count x = 1) (hc2 : (vget cg.nodes p2).args.count x = 1)
    (hoth : ∀ j, j ≤ target → j ≠ p1 → j ≠ p2 → x ∉ (vget cg.nodes j).args)
    (hr1 : Reach cg.argTable target p1) (hr2 : p2 = target ∨ Reach cg.argTable target p2)
    (hl1 : ∀ ai xs fx dEdf,
      ((vget cg.nodes p1).backward xs fx dEdf ai (vget m.eng.nfxs x).d).length =
        (vget m.eng.nfxs x).d.size)
    (hl2 : ∀ ai xs fx dEdf,
      ((vget cg.nodes p2).backward xs fx dEdf ai (vget m.eng.nfxs x).d).length =
        (vget m.eng.nfxs x).d.size) :
    (vget (needs_derivative cg (target + 1)) x = true →
      ∃ c2 c1, callsInto x (backward cg m kSCALAR_ONE target).calls = [c2, c1] ∧
        c2.node = p2 ∧ c1.node = p1 ∧
        ∀ j, j < (vget m.eng.nfxs x).d.size →
          (backward cg m kSCALAR_ONE target).w.mem
            ((vget (backward cg m kSCALAR_ONE target).ndEdfs x).v + sizeof_float * j) =
          vget c2.contribution j + vget c1.contribution j) ∧
    (vget (needs_derivative cg (target + 1)) x = false →
      callsInto x (backward cg m kSCALAR_ONE target).calls = [] ∧
      ∀ j, j < (vget m.eng.nfxs x).d.size →
        (backward cg m kSCALAR_ONE target).w.mem
          ((vget (backward cg m kSCALAR_ONE target).ndEdfs x).v + sizeof_float * j) = 0) := by
  obtain ⟨hsetup, e1, e2, e3⟩ := backward_ok_eq cg m kSCALAR_ONE target hok
  have hd0 : ∀ j, (vget m.eng.nfxs j).device = 0 := by
    intro j
    by_cases hj : j < m.eng.nfxs.length
    · exact hdev _ (vget_mem _ _ hj)
    · rw [vget_of_length_le _ _ (by omega)]; rfl
  have hxmem : x ∈ (vget cg.nodes p1).args := by
    by_contra h
    rw [List.count_eq_zero_of_not_mem h] at hc1
    cases hc1
  have hx : x < target := by
    have := hdag p1 x (by rw [vget_argTable]; exact hxmem)
    omega
  obtain ⟨l1, l2, l3, l4⟩ := backwardSetup_layout m kSCALAR_ONE target hd0 hsetup
  have hg0 : GradSumInv (backwardSetup m kSCALAR_ONE target).ndEdfs x
      (vget (backwardSetup m kSCALAR_ONE target).ndEdfs x).v (vget m.eng.nfxs x).d.size
      (backwardSetup m kSCALAR_ONE target) := by
    refine ⟨rfl, fun j hj => ?_⟩
    rw [l3 x hx j hj, l1]
    rfl
  refine ⟨fun hnd => ?_, fun hnd => ?_⟩
  · obtain ⟨⟨hD, hcell⟩, c2, c1, hcs, hn2, hn1⟩ := sweep_two_consumers cg m.eng.nfxs
      (needs_derivative cg (target + 1)) (backwardSetup m kSCALAR_ONE target).ndEdfs
      target x p1 p2 (backwardSetup m kSCALAR_ONE target) hdag hx l2 l4 hnd h12 hp2 hc1 hc2
      hoth hr1 hr2 hl1 hl2 l1 hg0
    refine ⟨c2, c1, by rw [e1]; exact hcs, hn2, hn1, fun j hj => ?_⟩
    rw [e2, e3, hD, hcell j hj, hcs]
    show 0 + vget c2.contribution j + vget c1.contribution j = _
    rw [zero_add]
  · obtain ⟨⟨hD, hcell⟩, hcs⟩ := sweep_unneeded cg m.eng.nfxs
      (needs_derivative cg (target + 1)) (backwardSetup m kSCALAR_ONE target).ndEdfs
      target x (backwardSetup m kSCALAR_ONE target) hdag hx l2 l4 hnd hg0
    rw [l1] at hcs
    refine ⟨by rw [e1]; exact hcs, fun j hj => ?_⟩
    rw [e2, e3, hD, hcell j hj, hcs]
    rfl

theorem backward_two_consumers_gradient_witness :
    IsDAG (diamondGraph [0]).argTable ∧
    (backward (diamondGraph [0]) diamondForward 16 3).fault = none ∧
    vget (needs_derivative (diamondGraph [0]) (3 + 1)) 0 = true ∧
    (vget (diamondGraph [0]).nodes 1).args.count 0 = 1 ∧
    (vget (diamondGraph [0]).nodes 2).args.count 0 = 1 ∧
    Reach (diamondGraph [0]).argTable 3 1 ∧ Reach (diamondGraph [0]).argTable 3 2 ∧
    (∃ c2 c1, callsInto 0 (backward (diamondGraph [0]) diamondForward 16 3).calls = [c2, c1] ∧
      c2.node = 2 ∧ c1.node = 1 ∧
      ∀ j, j < (vget diamondForward.eng.nfxs 0).d.size →
        (backward (diamondGraph [0]) diamondForward 16 3).w.mem
          ((vget (backward (diamondGraph [0]) diamondForward 16 3).ndEdfs 0).v +
            sizeof_float * j) =
        vget c2.contribution j + vget c1.contribution j) ∧
    vget (needs_derivative (diamondGraph []) (3 + 1)) 0 = false ∧
    callsInto 0 (backward (diamondGraph []) diamondForward 16 3).calls = [] ∧
    ∀ j, j < (vget diamondForward.eng.nfxs 0).d.size →
      (backward (diamondGraph []) diamondForward 16 3).w.mem
        ((vget (backward (diamondGraph []) diamondForward 16 3).ndEdfs 0).v +
          sizeof_float * j) = 0 :=
  ⟨isDAG_of_check _ (by decide), by decide, by decide, by decide, by decide,
    Relation.TransGen.single (by unfold ArgEdge; decide),
    Relation.TransGen.single (by unfold ArgEdge; decide),
    (backward_two_consumers_gradient (diamondGraph [0]) diamondForward 16 3 0 1 2
      (isDAG_of_check _ (by decide)) (by decide) (by decide) (by decide) (by decide)
      (by decide) (by decide) (by decide)
      (Relation.TransGen.single (by unfold ArgEdge; decide))
      (Or.inr (Relation.TransGen.single (by unfold ArgEdge; decide)))
      (fun _ _ _ _ => (List.length_map _ _).trans (List.length_range _))
      (fun _ _ _ _ => (List.length_map _ _).trans (List.length_range _))).1 (by decide),
    by decide,
    (backward_two_consumers_gradient (diamondGraph []) diamondForward 16 3 0 1 2
      (isDAG_of_check _ (by decide)) (by decide) (by decide) (by decide) (by decide)
      (by decide) (by decide) (by decide)
      (Relation.TransGen.single (by unfold ArgEdge; decide))
      (Or.inr (Relation.TransGen.single (by unfold ArgEdge; decide)))
      (fun _ _ _ _ => (List.length_map _ _).trans (List.length_range _))
      (fun _ _ _ _ => (List.length_map _ _).trans (List.length_range _))).2 (by decide)⟩

/-! ## Depth scheduler: independence within a bucket -/

theorem depths2_arg_lt (args : ArgTable) (hdag : IsDAG args) (upto j a : Nat) (hj : j ≤ upto)
    (ha : a ∈ vget args j) :
    vget (compute_depths args 0 Sched.fresh upto).depths2 a <
      vget (compute_depths args 0 Sched.fresh upto).depths2 j := by
  obtain ⟨hE, _, _, hL, _⟩ := compute_depths_fresh args hdag upto
  obtain ⟨_, _, hparents, _, _, _⟩ := hE
  have haj : a < j := hdag j a ha
  exact (hL.2 a (Nat.zero_le _) (by omega)).2.2 j ((hparents a j).2 ⟨by omega, ha⟩)

theorem reach_depths2_lt (args : ArgTable) (hdag : IsDAG args) (upto i j : Nat)
    (hi : i ≤ upto) (h : Reach args i j) :
    vget (compute_depths args 0 Sched.fresh upto).depths2 j <
      vget (compute_depths args 0 Sched.fresh upto).depths2 i := by
  unfold Reach at h
  induction h with
  | single h1 => exact depths2_arg_lt args hdag upto i _ hi h1
  | tail h1 h2 ih =>
    rename_i b c
    have hb : b < i := reach_lt args hdag i b h1
    exact lt_trans (depths2_arg_lt args hdag upto b c (by omega) h2) ih

/-- C30: after `compute_depths(upto)` on a freshly constructed engine over a
graph whose arguments precede their nodes, two nodes `i` and `j` of the same
bucket `by_depth[d]` are independent: neither is an argument of the other, and
neither is reachable from the other along argument edges. -/
theorem bucket_nodes_independent (args : ArgTable) (hdag : IsDAG args) (upto d i j : Nat)
    (hi : i ∈ vget (compute_depths args 0 Sched.fresh upto).by_depth d)
    (hj : j ∈ vget (compute_depths args 0 Sched.fresh upto).by_depth d) :
    j ∉ vget args i ∧ i ∉ vget args j ∧ ¬ Reach args i j ∧ ¬ Reach args j i := by
  obtain ⟨_, _, _, _, hB⟩ := compute_depths_fresh args hdag upto
  obtain ⟨hi1, hi2⟩ := (hB.2 d i).1 hi
  obtain ⟨hj1, hj2⟩ := (hB.2 d j).1 hj
  have hij : ¬ Reach args i j := by
    intro h
    have := reach_depths2_lt args hdag upto i j (by omega) h
    omega
  have hji : ¬ Reach args j i := by
    intro h
    have := reach_depths2_lt args hdag upto j i (by omega) h
    omega
  exact ⟨fun h => hij (Relation.TransGen.single h), fun h => hji (Relation.TransGen.single h),
    hij, hji⟩

theorem bucket_nodes_independent_witness :
    IsDAG diamondArgs ∧
    3 ∈ vget (compute_depths diamondArgs 0 Sched.fresh 4).by_depth 2 ∧
    4 ∈ vget (compute_depths diamondArgs 0 Sched.fresh 4).by_depth 2 ∧
    (4 ∉ vget diamondArgs 3 ∧ 3 ∉ vget diamondArgs 4 ∧ ¬ Reach diamondArgs 3 4 ∧
      ¬ Reach diamondArgs 4 3) :=
  ⟨isDAG_of_check _ (by decide), by decide, by decide,
    bucket_nodes_independent diamondArgs (isDAG_of_check _ (by decide)) 4 2 3 4
      (by decide) (by decide)⟩

/-! ## Depth scheduler: the earliest rank is the longest chain of arguments -/

theorem depthArgStep_tight (k a : Nat) (s : DepthAcc) (hk : k < s.depths.length) :
    (vget (depthArgStep k s a).depths k = vget s.depths k ∨
      vget (depthArgStep k s a).depths k = vget s.depths a + 1) ∧
    ((depthArgStep k s a).max_depth = s.max_depth ∨
      (depthArgStep k s a).max_depth = vget (depthArgStep k s a).depths k) ∧
    (∀ j, j ≠ k → vget (depthArgStep k s a).depths j = vget s.depths j) ∧
    (depthArgStep k s a).depths.length = s.depths.length ∧
    vget s.depths k ≤ vget (depthArgStep k s a).depths k ∧
    (vget s.depths k ≤ s.max_depth →
      vget (depthArgStep k s a).depths k ≤ (depthArgStep k s a).max_depth) := by
  unfold depthArgStep
  by_cases h1 : vget s.depths a + 1 > vget s.depths k
  · have hnew : vget (vset s.depths k (vget s.depths a + 1)) k = vget s.depths a + 1 :=
      vget_vset_eq _ _ _ hk
    by_cases h2 : vget (vset s.depths k (vget s.depths a + 1)) k > s.max_depth
    · rw [if_pos h1, if_pos h2]
      dsimp only
      exact ⟨Or.inr hnew, Or.inr rfl, fun j hj => vget_vset_ne _ _ _ _ (Ne.symm hj),
        length_vset _ _ _, by rw [hnew]; omega, fun _ => le_refl _⟩
    · rw [if_pos h1, if_neg h2]
      dsimp only
      exact ⟨Or.inr hnew, Or.inl rfl, fun j hj => vget_vset_ne _ _ _ _ (Ne.symm hj),
        length_vset _ _ _, by rw [hnew]; omega, fun _ => by omega⟩
  · rw [if_neg h1]
    exact ⟨Or.inl rfl, Or.inl rfl, fun _ _ => rfl, rfl, le_refl _, fun h => h⟩

theorem depthNodeFold_tight (k : Nat) :
    ∀ (L : List Nat) (s : DepthAcc), (∀ a ∈ L, a ≠ k) → k < s.depths.length →
      vget s.depths k ≤ s.max_depth →
      (vget (L.foldl (depthArgStep k) s).depths k = vget s.depths k ∨
        ∃ a ∈ L, vget (L.foldl (depthArgStep k) s).depths k = vget s.depths a + 1) ∧
      ((L.foldl (depthArgStep k) s).max_depth = s.max_depth ∨
        (L.foldl (depthArgStep k) s).max_depth = vget (L.foldl (depthArgStep k) s).depths k) ∧
      (∀ j, j ≠ k → vget (L.foldl (depthArgStep k) s).depths j = vget s.depths j) ∧
      vget s.depths k ≤ vget (L.foldl (depthArgStep k) s).depths k ∧
      vget (L.foldl (depthArgStep k) s).depths k ≤ (L.foldl (depthArgStep k) s).max_depth := by
  intro L
  induction L with
  | nil => intro s _ _ h; exact ⟨Or.inl rfl, Or.inl rfl, fun _ _ => rfl, le_refl _, h⟩
  | cons a L ih =>
    intro s hL hk hmax
    rw [List.foldl_cons]
    obtain ⟨t1, t2, t3, t4, t5, t6⟩ := depthArgStep_tight k a s hk
    obtain ⟨r1, r2, r3, r4, r5⟩ := ih (depthArgStep k s a)
      (fun b hb => hL b (List.mem_cons_of_mem _ hb)) (by rw [t4]; exact hk) (t6 hmax)
    refine ⟨?_, ?_, fun j hj => (r3 j hj).trans (t3 j hj), le_trans t5 r4, r5⟩
    · rcases r1 with r1 | ⟨b, hb, r1⟩
      · rcases t1 with t1 | t1
        · exact Or.inl (r1.trans t1)
        · exact Or.inr ⟨a, List.mem_cons_self _ _, r1.trans t1⟩
      · refine Or.inr ⟨b, List.mem_cons_of_mem _ hb, ?_⟩
        rw [r1, t3 b (hL b (List.mem_cons_of_mem _ hb))]
    · rcases r2 with r2 | r2
      · rcases t2 with t2 | t2
        · exact Or.inl (r2.trans t2)
        · right
          omega
      · exact Or.inr r2

theorem depthNodeStep_tight (args : ArgTable) (hdag : IsDAG args) (n k : Nat) (hk : k < n)
    (s : DepthAcc) (hE : EarliestInv args n k s) (hT : EarliestTight args k s) :
    EarliestTight args (k + 1) (depthNodeStep args k s) := by
  obtain ⟨hd, _, _, _, hb, hz⟩ := hE
  obtain ⟨hT1, hT2⟩ := hT
  have hL : ∀ a ∈ vget args k, a ≠ k := fun a ha => Nat.ne_of_lt (hdag k a ha)
  obtain ⟨r1, r2, r3, _, _⟩ := depthNodeFold_tight k (vget args k) s hL (by omega) (hb k).2
  unfold depthNodeStep
  refine ⟨fun j hj => ?_, ?_⟩
  · by_cases hjk : j = k
    · subst hjk
      rcases r1 with r1 | ⟨a, ha, r1⟩
      · left
        rw [r1]
        exact hz j (Nat.le_refl _)
      · right
        refine ⟨a, ha, ?_⟩
        rw [r1, r3 a (hL a ha)]
    · rw [r3 j hjk]
      rcases hT1 j (by omega) with h | ⟨a, ha, h⟩
      · exact Or.inl h
      · right
        refine ⟨a, ha, ?_⟩
        rw [r3 a (by have := hdag j a ha; omega)]
        exact h
  · rcases r2 with r2 | r2
    · rcases hT2 with h | ⟨j, hj, h⟩
      · left; rw [r2]; exact h
      · right
        refine ⟨j, by omega, ?_⟩
        rw [r3 j (by omega), r2]
        exact h
    · exact Or.inr ⟨k, by omega, r2.symm⟩

theorem computeEarliest_tight (args : ArgTable) (hdag : IsDAG args) (upto : Nat) :
    EarliestTight args (upto + 1) (computeEarliest args 0 Sched.fresh upto) := by
  have key := forUp_inv (depthNodeStep args)
    (fun k s => EarliestInv args (upto + 1) k s ∧ EarliestTight args k s)
    (upto + 1 - 0) 0
    ⟨fillZero (vresize Sched.fresh.depths (upto + 1)) 0 upto,
      vresize Sched.fresh.parents (upto + 1), 0⟩
    (by
      have hz : ∀ j, vget (vresize ([] : List Int) (upto + 1)) j = 0 :=
        fun j => vget_vresize_nil (upto + 1) j
      obtain ⟨f1, f2⟩ := fillZero_fresh 0 upto _ hz
      refine ⟨⟨?_, ?_, ?_, ?_, ?_, ?_⟩, fun j hj => absurd hj (Nat.not_lt_zero _), Or.inl rfl⟩
      · show (fillZero (vresize ([] : List Int) (upto + 1)) 0 upto).length = upto + 1
        rw [f1, length_vresize]
      · exact length_vresize _ _
      · intro a p
        show p ∈ vget (vresize ([] : List (List Nat)) (upto + 1)) a ↔ _
        rw [vget_vresize_nil]
        constructor
        · intro h; cases h
        · rintro ⟨h, _⟩; omega
      · intro j hj; omega
      · intro j
        show 0 ≤ vget (fillZero (vresize ([] : List Int) (upto + 1)) 0 upto) j ∧
          vget (fillZero (vresize ([] : List Int) (upto + 1)) 0 upto) j ≤ 0
        rw [f2 j]; exact ⟨le_refl _, le_refl _⟩
      · intro j _
        exact f2 j)
    (fun j t _ hj ht =>
      ⟨depthNodeStep_inv args hdag (upto + 1) j (by omega) t ht.1,
        depthNodeStep_tight args hdag (upto + 1) j (by omega) t ht.1 ht.2⟩)
  have e : 0 + (upto + 1 - 0) = upto + 1 := by omega
  rw [e] at key
  exact key.2

theorem chain_le_depths (args : ArgTable) (hdag : IsDAG args) (upto : Nat) (j m : Nat)
    (h : Chain args j m) (hj : j ≤ upto) :
    (m : Int) ≤ vget (computeEarliest args 0 Sched.fresh upto).depths j := by
  obtain ⟨_, _, _, hle, hb, _⟩ := computeEarliest_fresh args hdag upto
  induction h with
  | nil j => exact (hb j).1
  | cons j a n ha _ ih =>
    have haj : a < j := hdag j a ha
    have h1 := ih (by omega)
    have h2 := hle j (by omega) a ha
    push_cast
    omega

theorem chain_of_depths (args : ArgTable) (hdag : IsDAG args) (upto : Nat) :
    ∀ j, j ≤ upto →
      Chain args j (vget (computeEarliest args 0 Sched.fresh upto).depths j).toNat := by
  obtain ⟨_, _, _, _, hb, _⟩ := computeEarliest_fresh args hdag upto
  obtain ⟨hT, _⟩ := computeEarliest_tight args hdag upto
  intro j
  induction j using Nat.strong_induction_on with
  | _ j ih =>
    intro hj
    rcases hT j (by omega) with h | ⟨a, ha, h⟩
    · rw [h]
      exact Chain.nil j
    · have haj : a < j := hdag j a ha
      have hc := ih a haj (by omega)
      have h0 := (hb a).1
      have e : (vget (computeEarliest args 0 Sched.fresh upto).depths j).toNat =
          (vget (computeEarliest args 0 Sched.fresh upto).depths a).toNat + 1 := by
        rw [h]; omega
      rw [e]
      exact Chain.cons j a _ ha hc

/-- C21: after `compute_depths(upto)` on a freshly constructed engine over a
graph whose arguments precede their nodes, for every node `j <= upto`:
`depths[j]` is 0 when `j` has no arguments and otherwise it is at least
`depths[a] + 1` for every argument `a` and equal to it for some argument; it is
the length of a chain of argument edges starting at `j`, and no such chain is
longer; and the local `max_depth` bounds `depths` on `[0, upto]` and is attained
there. -/
theorem compute_depths_earliest_longest_chain (args : ArgTable) (hdag : IsDAG args)
    (upto j : Nat) (hj : j ≤ upto) :
    (vget args j = [] → vget (compute_depths args 0 Sched.fresh upto).depths j = 0) ∧
    (vget args j ≠ [] →
      (∀ a ∈ vget args j, vget (compute_depths args 0 Sched.fresh upto).depths a + 1 ≤
        vget (compute_depths args 0 Sched.fresh upto).depths j) ∧
      ∃ a ∈ vget args j, vget (compute_depths args 0 Sched.fresh upto).depths j =
        vget (compute_depths args 0 Sched.fresh upto).depths a + 1) ∧
    (∃ n : Nat, vget (compute_depths args 0 Sched.fresh upto).depths j = (n : Int) ∧
      Chain args j n ∧ ∀ m, Chain args j m → m ≤ n) ∧
    (∀ i, i ≤ upto → vget (compute_depths args 0 Sched.fresh upto).depths i ≤
      (computeEarliest args 0 Sched.fresh upto).max_depth) ∧
    (∃ i, i ≤ upto ∧ vget (compute_depths args 0 Sched.fresh upto).depths i =
      (computeEarliest args 0 Sched.fresh upto).max_depth) := by
  have hdep : (compute_depths args 0 Sched.fresh upto).depths =
      (computeEarliest args 0 Sched.fresh upto).depths := rfl
  rw [hdep]
  obtain ⟨_, _, _, hle, hb, _⟩ := computeEarliest_fresh args hdag upto
  obtain ⟨hT1, hT2⟩ := computeEarliest_tight args hdag upto
  refine ⟨fun hnil => ?_, fun hne => ⟨fun a ha => hle j (by omega) a ha, ?_⟩, ?_,
    fun i _ => (hb i).2, ?_⟩
  · rcases hT1 j (by omega) with h | ⟨a, ha, _⟩
    · exact h
    · rw [hnil] at ha; cases ha
  · rcases hT1 j (by omega) with h | h
    · exfalso
      obtain ⟨a, ha⟩ := List.exists_mem_of_ne_nil _ hne
      have h1 := hle j (by omega) a ha
      have h2 := (hb a).1
      omega
    · exact h
  · refine ⟨(vget (computeEarliest args 0 Sched.fresh upto).depths j).toNat, ?_,
      chain_of_depths args hdag upto j hj, fun m hm => ?_⟩
    · have := (hb j).1
      omega
    · have := chain_le_depths args hdag upto j m hm hj
      omega
  · rcases hT2 with h | ⟨i, hi, h⟩
    · refine ⟨0, Nat.zero_le _, ?_⟩
      rw [h]
      rcases hT1 0 (by omega) with h0 | ⟨a, ha, _⟩
      · exact h0
      · exact absurd (hdag 0 a ha) (Nat.not_lt_zero _)
    · exact ⟨i, by omega, h⟩

theorem compute_depths_earliest_longest_chain_witness :
    IsDAG diamondArgs ∧ 3 ≤ 4 ∧
    ((vget diamondArgs 3 = [] → vget (compute_depths diamondArgs 0 Sched.fresh 4).depths 3 = 0) ∧
    (vget diamondArgs 3 ≠ [] →
      (∀ a ∈ vget diamondArgs 3, vget (compute_depths diamondArgs 0 Sched.fresh 4).depths a + 1 ≤
        vget (compute_depths diamondArgs 0 Sched.fresh 4).depths 3) ∧
      ∃ a ∈ vget diamondArgs 3, vget (compute_depths diamondArgs 0 Sched.fresh 4).depths 3 =
        vget (compute_depths diamondArgs 0 Sched.fresh 4).depths a + 1) ∧
    (∃ n : Nat, vget (compute_depths diamondArgs 0 Sched.fresh 4).depths 3 = (n : Int) ∧
      Chain diamondArgs 3 n ∧ ∀ m, Chain diamondArgs 3 m → m ≤ n) ∧
    (∀ i, i ≤ 4 → vget (compute_depths diamondArgs 0 Sched.fresh 4).depths i ≤
      (computeEarliest diamondArgs 0 Sched.fresh 4).max_depth) ∧
    (∃ i, i ≤ 4 ∧ vget (compute_depths diamondArgs 0 Sched.fresh 4).depths i =
      (computeEarliest diamondArgs 0 Sched.fresh 4).max_depth)) :=
  ⟨isDAG_of_check _ (by decide), by decide,
    compute_depths_earliest_longest_chain diamondArgs (isDAG_of_check _ (by decide)) 4 3
      (by decide)⟩

/-! ## Depth scheduler: the latest rank is the greatest legal rank -/

theorem latestStep_tight (args : ArgTable) (hdag : IsDAG args) (n k : Nat) (hk : k < n)
    (a : DepthAcc) (ha : EarliestInv args n n a) (d2 : List Int) (hlen : d2.length = n)
    (h : ∀ j, k + 1 ≤ j → j < n →
      (vget d2 j = a.max_depth ∨ ∃ p ∈ vget a.parents j, vget d2 j = vget d2 p - 1)) :
    ∀ j, k ≤ j → j < n →
      (vget (latestStep a.parents a.max_depth k d2) j = a.max_depth ∨
        ∃ p ∈ vget a.parents j, vget (latestStep a.parents a.max_depth k d2) j =
          vget (latestStep a.parents a.max_depth k d2) p - 1) := by
  obtain ⟨_, _, hpar, _, _, _⟩ := ha
  obtain ⟨_, _, m3⟩ := minOfParents_spec d2 a.max_depth (vget a.parents k)
  have hparent : ∀ j, ∀ p ∈ vget a.parents j, j < p := by
    intro j p hp
    exact hdag p j ((hpar j p).1 hp).2
  intro j hkj hjn
  unfold latestStep
  by_cases hjk : j = k
  · subst hjk
    rw [vget_vset_eq _ _ _ (by omega)]
    rcases m3 with m3 | ⟨p, hp, m3⟩
    · left; rw [m3]; omega
    · right
      refine ⟨p, hp, ?_⟩
      rw [vget_vset_ne _ _ _ _ (by have := hparent j p hp; omega), m3]
  · rw [vget_vset_ne _ _ _ _ (Ne.symm hjk)]
    rcases h j (by omega) hjn with h1 | ⟨p, hp, h1⟩
    · exact Or.inl h1
    · right
      refine ⟨p, hp, ?_⟩
      rw [vget_vset_ne _ _ _ _ (by have := hparent j p hp; omega)]
      exact h1

theorem computeLatest_tight (args : ArgTable) (hdag : IsDAG args) (upto : Nat) :
    ∀ j, j < upto + 1 →
      (vget (computeLatest 0 Sched.fresh upto (computeEarliest args 0 Sched.fresh upto)) j =
          (computeEarliest args 0 Sched.fresh upto).max_depth ∨
        ∃ p ∈ vget (computeEarliest args 0 Sched.fresh upto).parents j,
          vget (computeLatest 0 Sched.fresh upto (computeEarliest args 0 Sched.fresh upto)) j =
          vget (computeLatest 0 Sched.fresh upto (computeEarliest args 0 Sched.fresh upto)) p
            - 1) := by
  have hE := computeEarliest_fresh args hdag upto
  unfold computeLatest
  dsimp only
  generalize computeEarliest args 0 Sched.fresh upto = a at hE ⊢
  have key := forDown_inv (latestStep a.parents a.max_depth) 0
    (fun k d2 => d2.length = upto + 1 ∧ ∀ j, k ≤ j → j < upto + 1 →
      (vget d2 j = a.max_depth ∨ ∃ p ∈ vget a.parents j, vget d2 j = vget d2 p - 1))
    (upto + 1 - 0)
    (vset (vresize Sched.fresh.depths2 (upto + 1)) upto (a.max_depth + 1))
    ⟨by rw [length_vset, length_vresize], fun j h1 h2 => by omega⟩
    (fun m t hm hI => by
      rw [Nat.zero_add] at hI ⊢
      refine ⟨?_, latestStep_tight args hdag (upto + 1) m (by omega) a hE t hI.1 hI.2⟩
      unfold latestStep
      rw [length_vset]
      exact hI.1)
  intro j hj
  exact key.2 j (Nat.zero_le _) hj

/-- C22: after `compute_depths(upto)` on a freshly constructed engine over a
graph whose arguments precede their nodes, `depths2` stays at or below
`max_depth` on `[0, upto]` and gives every argument a strictly smaller rank
than its node; and every assignment `r` of ranks with these two properties has
`r[j] <= depths2[j]` for every `j <= upto`. -/
theorem compute_depths_latest_greatest (args : ArgTable) (hdag : IsDAG args) (upto : Nat)
    (r : Nat → Int)
    (hr1 : ∀ j, j ≤ upto → r j ≤ (computeEarliest args 0 Sched.fresh upto).max_depth)
    (hr2 : ∀ j, j ≤ upto → ∀ a ∈ vget args j, r a < r j) :
    (∀ j, j ≤ upto → vget (compute_depths args 0 Sched.fresh upto).depths2 j ≤
      (computeEarliest args 0 Sched.fresh upto).max_depth) ∧
    (∀ j, j ≤ upto → ∀ a ∈ vget args j,
      vget (compute_depths args 0 Sched.fresh upto).depths2 a <
        vget (compute_depths args 0 Sched.fresh upto).depths2 j) ∧
    (∀ j, j ≤ upto → r j ≤ vget (compute_depths args 0 Sched.fresh upto).depths2 j) := by
  obtain ⟨hE, _, _, hL, _⟩ := compute_depths_fresh args hdag upto
  obtain ⟨_, _, hpar, _, _, _⟩ := hE
  have hT := computeLatest_tight args hdag upto
  have hd2 : (compute_depths args 0 Sched.fresh upto).depths2 =
      computeLatest 0 Sched.fresh upto (computeEarliest args 0 Sched.fresh upto) := rfl
  rw [← hd2] at hT
  refine ⟨fun j hj => (hL.2 j (Nat.zero_le _) (by omega)).2.1,
    fun j hj a ha => depths2_arg_lt args hdag upto j a hj ha, ?_⟩
  have key : ∀ d j, j ≤ upto → upto - j ≤ d →
      r j ≤ vget (compute_depths args 0 Sched.fresh upto).depths2 j := by
    intro d
    induction d with
    | zero =>
      intro j hj hd
      rcases hT j (by omega) with h | ⟨p, hp, _⟩
      · rw [h]; exact hr1 j hj
      · obtain ⟨hpn, hjp⟩ := (hpar j p).1 hp
        have := hdag p j hjp
        omega
    | succ d ih =>
      intro j hj hd
      rcases hT j (by omega) with h | ⟨p, hp, h⟩
      · rw [h]; exact hr1 j hj
      · obtain ⟨hpn, hjp⟩ := (hpar j p).1 hp
        have hlt := hdag p j hjp
        have h1 := ih p (by omega) (by omega)
        have h2 := hr2 p (by omega) j hjp
        rw [h]
        omega
  intro j hj
  exact key (upto - j) j hj (Nat.le_refl _)

theorem compute_depths_latest_greatest_witness :
    IsDAG diamondArgs ∧
    (∀ j, j ≤ 4 → vget (compute_depths diamondArgs 0 Sched.fresh 4).depths j ≤
      (computeEarliest diamondArgs 0 Sched.fresh 4).max_depth) ∧
    (∀ j, j ≤ 4 → ∀ a ∈ vget diamondArgs j,
      vget (compute_depths diamondArgs 0 Sched.fresh 4).depths a <
        vget (compute_depths diamondArgs 0 Sched.fresh 4).depths j) ∧
    ((∀ j, j ≤ 4 → vget (compute_depths diamondArgs 0 Sched.fresh 4).depths2 j ≤
      (computeEarliest diamondArgs 0 Sched.fresh 4).max_depth) ∧
    (∀ j, j ≤ 4 → ∀ a ∈ vget diamondArgs j,
      vget (compute_depths diamondArgs 0 Sched.fresh 4).depths2 a <
        vget (compute_depths diamondArgs 0 Sched.fresh 4).depths2 j) ∧
    (∀ j, j ≤ 4 → vget (compute_depths diamondArgs 0 Sched.fresh 4).depths j ≤
      vget (compute_depths diamondArgs 0 Sched.fresh 4).depths2 j)) :=
  ⟨isDAG_of_check _ (by decide), by decide, by decide,
    compute_depths_latest_greatest diamondArgs (isDAG_of_check _ (by decide)) 4
      (fun j => vget (compute_depths diamondArgs 0 Sched.fresh 4).depths j)
      (by decide) (by decide)⟩

/-! ## Depth scheduler: the buckets partition the evaluated range -/

theorem foldl_proj {σ β γ : Type} (proj : σ → γ) (f : σ → β → σ)
    (h : ∀ s b, proj (f s b) = proj s) :
    ∀ (l : List β) (s : σ), proj (l.foldl f s) = proj s := by
  intro l
  induction l with
  | nil => intro s; rfl
  | cons b rest ih => intro s; rw [List.foldl_cons, ih, h]

theorem fresh_pass_diamond_no_fault :
    (forwardPass (diamondGraph []) Machine.initBoth 3).fault = none ∧
    evalOrder (diamondGraph []) 0
      (compute_depths (diamondGraph []).argTable 0 Sched.fresh 3).by_depth = [0, 1, 2, 3] := by
  decide

/-! ## Kernel invocations of the bulk dispatcher -/

theorem doNodes_calls {α : Type} [Inhabited α] (cg : ComputationGraph α)
    (nfxs : List Tensor) :
    ∀ (L : List Nat) (w : World α),
      (L.foldl (fun w nid => do_node cg nid nfxs w) w).calls =
        w.calls ++ L.map (doNodeCall cg nfxs) := by
  intro L
  induction L with
  | nil => intro w; simp
  | cons n ns ih =>
    intro w
    rw [List.foldl_cons, ih, List.map_cons]
    show (w.calls ++ [doNodeCall cg nfxs n]) ++ _ = _
    rw [List.append_assoc]
    rfl

theorem pass_fault_none {α : Type} (p : Pass α) (h : p.fault = none) :
    ¬ p.fault.isSome = true := by
  rw [h]; exact Bool.false_ne_true

/-- C24: the set `ewise_unary_nodes` holds exactly the nine tags Tanh, Rectify,
Sigmoid, Erf, Sqrt, Exp, LogGamma, Log and Negate; the dispatcher hands a
type-group to `eval_ewise_unaries_in_bulk` exactly when its tag is in that set;
for a group of more than 10 nodes `eval_ewise_unaries_in_bulk` makes one kernel
invocation, that of the first member on the combined tensor, and for a group of at
most 10 nodes it makes one invocation per member, in the order of the members,
each with the arguments and the output that `do_node` passes. -/
theorem eval_ewise_kernel_invocations {α : Type} [Inhabited α] (cg : ComputationGraph α)
    (nfxs : List Tensor) (w : World α) (nids : List Nat) (p : Pass α)
    (g : NodeType × List Nat) :
    (∀ t : NodeType, t ∈ ewise_unary_nodes ↔
      t = NodeType.Tanh ∨ t = NodeType.Rectify ∨ t = NodeType.Sigmoid ∨ t = NodeType.Erf ∨
      t = NodeType.Sqrt ∨ t = NodeType.Exp ∨ t = NodeType.LogGamma ∨ t = NodeType.Log ∨
      t = NodeType.Negate) ∧
    (10 < nids.length →
      ∃ c : KernelCall, (eval_ewise_unaries_in_bulk nids cg nfxs w).2.calls = w.calls ++ [c] ∧
        c.node = vget nids 0 ∧ c.xs.length = 1 ∧
        c.fx.d = Dim.ofList [total_dsize
          (nids.map (fun nid => vget nfxs (vget (vget cg.nodes nid).args 0)))]) ∧
    (nids.length ≤ 10 →
      (eval_ewise_unaries_in_bulk nids cg nfxs w).2.calls =
        w.calls ++ nids.map (doNodeCall cg nfxs) ∧
      ((eval_ewise_unaries_in_bulk nids cg nfxs w).2.calls.drop w.calls.length).length =
        nids.length) ∧
    (p.fault = none → g.1 ∈ ewise_unary_nodes →
      (dispatchGroup cg p g).w = (eval_ewise_unaries_in_bulk g.2 cg p.nfxs p.w).2) ∧
    (p.fault = none → g.1 ∉ ewise_unary_nodes →
      (dispatchGroup cg p g).w =
        if g.1 = NodeType.MatrixMultiply ∧ g.2.length > 5
        then eval_matrix_multiply g.2 cg p.nfxs p.w
        else g.2.foldl (fun w nid => do_node cg nid p.nfxs w) p.w) := by
  refine ⟨fun t => ?_, fun h => ?_, fun h => ?_, fun hp he => ?_, fun hp he => ?_⟩
  · unfold ewise_unary_nodes
    simp
  · unfold eval_ewise_unaries_in_bulk
    rw [if_pos h]
    exact ⟨_, rfl, rfl, rfl, rfl⟩
  · have e : (eval_ewise_unaries_in_bulk nids cg nfxs w).2.calls =
        w.calls ++ nids.map (doNodeCall cg nfxs) := by
      unfold eval_ewise_unaries_in_bulk
      rw [if_neg (by omega)]
      exact doNodes_calls cg nfxs nids w
    refine ⟨e, ?_⟩
    rw [e, List.drop_left, List.length_map]
  · unfold dispatchGroup
    rw [if_neg (pass_fault_none p hp), if_pos he]
  · unfold dispatchGroup
    rw [if_neg (pass_fault_none p hp), if_neg he]
    by_cases hm : g.1 = NodeType.MatrixMultiply ∧ g.2.length > 5
    · rw [if_pos hm, if_pos hm]
    · rw [if_neg hm, if_neg hm]

/-! ## Kernel invocations of the matrix-multiply path -/

theorem mapPush_keys (m : List (Nat × List Nat)) :
    ∀ (k x : Nat), (m.map Prod.fst).Pairwise (fun a b => a < b) →
      ((mapPush (fun k => k) m k x).map Prod.fst).Pairwise (fun a b => a < b) ∧
      ∀ k2, k2 ∈ (mapPush (fun k => k) m k x).map Prod.fst ↔ k2 = k ∨ k2 ∈ m.map Prod.fst := by
  induction m with
  | nil =>
    intro k x _
    unfold mapPush
    exact ⟨List.pairwise_singleton _ _, fun k2 => by simp⟩
  | cons e rest ih =>
    intro k x hs
    obtain ⟨h, xs⟩ := e
    rw [List.map_cons, List.pairwise_cons] at hs
    obtain ⟨hs1, hs2⟩ := hs
    unfold mapPush
    by_cases h1 : k = h
    · rw [if_pos h1]
      refine ⟨by rw [List.map_cons, List.pairwise_cons]; exact ⟨hs1, hs2⟩, fun k2 => ?_⟩
      rw [List.map_cons, List.map_cons, List.mem_cons]
      constructor
      · intro hh; exact Or.inr hh
      · intro hh
        rcases hh with hh | hh
        · exact Or.inl (hh.trans h1)
        · exact hh
    · rw [if_neg h1]
      by_cases h2 : k < h
      · rw [if_pos h2]
        refine ⟨?_, fun k2 => ?_⟩
        · rw [List.map_cons, List.pairwise_cons]
          refine ⟨fun b hb => ?_, by rw [List.map_cons, List.pairwise_cons]; exact ⟨hs1, hs2⟩⟩
          rw [List.map_cons, List.mem_cons] at hb
          rcases hb with hb | hb
          · rw [hb]; exact h2
          · exact lt_trans h2 (hs1 b hb)
        · rw [List.map_cons, List.mem_cons]
      · rw [if_neg h2]
        obtain ⟨i1, i2⟩ := ih k x hs2
        refine ⟨?_, fun k2 => ?_⟩
        · rw [List.map_cons, List.pairwise_cons]
          refine ⟨fun b hb => ?_, i1⟩
          rcases (i2 b).1 hb with hb | hb
          · rw [hb]; show h < k; omega
          · exact hs1 b hb
        · rw [List.map_cons, List.mem_cons, i2 k2, List.map_cons, List.mem_cons]
          constructor
          · intro hh
            rcases hh with hh | hh | hh
            · exact Or.inr (Or.inl hh)
            · exact Or.inl hh
            · exact Or.inr (Or.inr hh)
          · intro hh
            rcases hh with hh | hh | hh
            · exact Or.inr (Or.inl hh)
            · exact Or.inl hh
            · exact Or.inr (Or.inr hh)

theorem mapPushFold_keys (ka kb : Nat → Nat) :
    ∀ (L : List Nat) (m : List (Nat × List Nat)),
      (m.map Prod.fst).Pairwise (fun a b => a < b) →
      ((L.foldl (fun m i => mapPush (fun k => k) m (ka i) (kb i)) m).map
        Prod.fst).Pairwise (fun a b => a < b) ∧
      ∀ k2, k2 ∈ (L.foldl (fun m i => mapPush (fun k => k) m (ka i) (kb i)) m).map Prod.fst ↔
        k2 ∈ m.map Prod.fst ∨ ∃ i ∈ L, ka i = k2 := by
  intro L
  induction L with
  | nil =>
    intro m hs
    exact ⟨hs, fun k2 => by simp⟩
  | cons i rest ih =>
    intro m hs
    rw [List.foldl_cons]
    obtain ⟨a1, a2⟩ := mapPush_keys m (ka i) (kb i) hs
    obtain ⟨b1, b2⟩ := ih _ a1
    refine ⟨b1, fun k2 => ?_⟩
    rw [b2 k2, a2 k2]
    constructor
    · intro hh
      rcases hh with (hh | hh) | ⟨j, hj, hh⟩
      · exact Or.inr ⟨i, List.mem_cons_self _ _, hh.symm⟩
      · exact Or.inl hh
      · exact Or.inr ⟨j, List.mem_cons_of_mem _ hj, hh⟩
    · intro hh
      rcases hh with hh | ⟨j, hj, hh⟩
      · exact Or.inl (Or.inr hh)
      · rcases List.mem_cons.1 hj with hj | hj
        · rw [hj] at hh; exact Or.inl (Or.inl hh.symm)
        · exact Or.inr ⟨j, hj, hh⟩

theorem matmulGroups_calls {α : Type} [Inhabited α] (nids : List Nat)
    (cg : ComputationGraph α) (nfxs : List Tensor) :
    ∀ (gs : List (Nat × List Nat)) (w : World α),
      ∃ fused : List KernelCall,
        (gs.foldl (matmulGroup nids cg nfxs) w).calls = w.calls ++ fused ∧
        fused.map (fun c => (c.node, c.xs.length, vget c.xs 0, (vget c.xs 1).d, c.fx.d)) =
          gs.map (fun g => (vget nids 0, 2, vget nfxs g.1,
            Dim.ofList [(vget (g.2.map (fun a => vget nfxs a)) 0).d.rows, g.2.length],
            Dim.ofList [(vget nfxs g.1).d.rows, g.2.length])) := by
  intro gs
  induction gs with
  | nil => intro w; exact ⟨[], (List.append_nil _).symm, rfl⟩
  | cons g rest ih =>
    intro w
    rw [List.foldl_cons]
    obtain ⟨f, h1, h2⟩ := ih (matmulGroup nids cg nfxs w g)
    have e : ∃ c : KernelCall, (matmulGroup nids cg nfxs w g).calls = w.calls ++ [c] ∧
        (c.node, c.xs.length, vget c.xs 0, (vget c.xs 1).d, c.fx.d) =
          (vget nids 0, 2, vget nfxs g.1,
            Dim.ofList [(vget (g.2.map (fun a => vget nfxs a)) 0).d.rows, g.2.length],
            Dim.ofList [(vget nfxs g.1).d.rows, g.2.length]) := by
      unfold matmulGroup
      refine ⟨_, rfl, ?_⟩
      dsimp only
      rw [List.length_map]
      rfl
    obtain ⟨c, e1, e2⟩ := e
    refine ⟨c :: f, ?_, ?_⟩
    · rw [h1, e1, List.append_assoc]; rfl
    · rw [List.map_cons, List.map_cons, h2, e2]

theorem doNodesAt_calls {α : Type} [Inhabited α] (nids : List Nat) (cg : ComputationGraph α)
    (nfxs : List Tensor) :
    ∀ (L : List Nat) (w : World α),
      (L.foldl (fun w i => do_node cg (vget nids i) nfxs w) w).calls =
        w.calls ++ L.map (fun i => doNodeCall cg nfxs (vget nids i)) := by
  intro L
  induction L with
  | nil => intro w; simp
  | cons n ns ih =>
    intro w
    rw [List.foldl_cons, ih, List.map_cons]
    show (w.calls ++ [doNodeCall cg nfxs (vget nids n)]) ++ _ = _
    rw [List.append_assoc]
    rfl

theorem matmulClass_values (a1 a2 : Tensor) :
    (matmulClass a1 a2 = 0 ↔ a1.d.nd = 2 ∧ a2.d.nd = 1) ∧
    (matmulClass a1 a2 = 1 ↔ ¬ (a1.d.nd = 2 ∧ a2.d.nd = 1)) ∧
    (matmulClass a1 a2 = 0 ∨ matmulClass a1 a2 = 1) := by
  unfold matmulClass
  by_cases h1 : a1.d.nd = 1 ∧ a2.d.nd = 1
  · rw [if_pos h1]
    refine ⟨?_, ?_, Or.inr rfl⟩
    · constructor
      · intro h; cases h
      · intro h; omega
    · constructor
      · intro _; omega
      · intro _; rfl
  · rw [if_neg h1]
    by_cases h2 : a1.d.nd = 2 ∧ a2.d.nd = 1
    · rw [if_pos h2]
      refine ⟨?_, ?_, Or.inl rfl⟩
      · constructor
        · intro _; exact h2
        · intro _; rfl
      · constructor
        · intro h; cases h
        · intro h; exact absurd h2 h
    · rw [if_neg h2]
      have e : (if a1.d.nd = 1 ∧ a2.d.nd = 2 then 1 else 1) = 1 := by
        by_cases h3 : a1.d.nd = 1 ∧ a2.d.nd = 2
        · rw [if_pos h3]
        · rw [if_neg h3]
      rw [e]
      refine ⟨?_, ?_, Or.inr rfl⟩
      · constructor
        · intro h; cases h
        · intro h; exact absurd h h2
      · constructor
        · intro _; exact h2
        · intro _; rfl

/-- C25: a `MatrixMultiply` type-group of at most 5 members is dispatched with one
`do_node` call per member, in order; a group of more than 5 members goes to
`eval_matrix_multiply`.  There a member is in `by_type[0]` exactly when its left
operand has rank 2 and its right operand rank 1, and in `by_type[1]` otherwise;
the kernel invocations made are first one per entry of `by_first_arg`, each on the
left operand of the entry and a matrix with one column per member of the entry,
then one `do_node` call per member of `by_type[1]`, in the order of the members;
the keys of `by_first_arg` are pairwise different and are exactly the left
operands of the members of `by_type[0]`. -/
theorem eval_matrix_multiply_kernel_invocations {α : Type} [Inhabited α]
    (cg : ComputationGraph α) (nfxs : List Tensor) (w : World α) (nids : List Nat)
    (p : Pass α) (g : NodeType × List Nat) :
    (p.fault = none → g.1 = NodeType.MatrixMultiply → g.2.length ≤ 5 →
      (dispatchGroup cg p g).w.calls = p.w.calls ++ g.2.map (doNodeCall cg p.nfxs)) ∧
    (p.fault = none → g.1 = NodeType.MatrixMultiply → 5 < g.2.length →
      (dispatchGroup cg p g).w = eval_matrix_multiply g.2 cg p.nfxs p.w) ∧
    (∀ i, (memberClass nids cg nfxs i = 0 ↔
      (vget nfxs (vget (nids.map (fun nid => vget (vget cg.nodes nid).args 0)) i)).d.nd = 2 ∧
      (vget nfxs (vget (nids.map (fun nid => vget (vget cg.nodes nid).args 1)) i)).d.nd = 1) ∧
      (memberClass nids cg nfxs i = 0 ∨ memberClass nids cg nfxs i = 1)) ∧
    (∃ fused : List KernelCall,
      (eval_matrix_multiply nids cg nfxs w).calls =
        w.calls ++ fused ++
          ((List.range nids.length).filter (fun i => memberClass nids cg nfxs i = 1)).map
            (fun i => doNodeCall cg nfxs (vget nids i)) ∧
      fused.map (fun c => (c.node, c.xs.length, vget c.xs 0, (vget c.xs 1).d, c.fx.d)) =
        (byFirstArg nids cg nfxs).map (fun g => (vget nids 0, 2, vget nfxs g.1,
          Dim.ofList [(vget (g.2.map (fun a => vget nfxs a)) 0).d.rows, g.2.length],
          Dim.ofList [(vget nfxs g.1).d.rows, g.2.length]))) ∧
    ((byFirstArg nids cg nfxs).map Prod.fst).Pairwise (fun a b => a < b) ∧
    ((byFirstArg nids cg nfxs).map Prod.fst).Nodup ∧
    (∀ k, k ∈ (byFirstArg nids cg nfxs).map Prod.fst ↔
      ∃ i, i < nids.length ∧ memberClass nids cg nfxs i = 0 ∧
        vget (vget cg.nodes (vget nids i)).args 0 = k) := by
  have hkeys := mapPushFold_keys
    (fun i => vget (nids.map (fun nid => vget (vget cg.nodes nid).args 0)) i)
    (fun i => vget (nids.map (fun nid => vget (vget cg.nodes nid).args 1)) i)
    ((List.range nids.length).filter (fun i => memberClass nids cg nfxs i = 0)) []
    List.Pairwise.nil
  refine ⟨fun hp hm hl => ?_, fun hp hm hl => ?_, fun i => ?_, ?_, hkeys.1,
    hkeys.1.imp (fun h => Nat.ne_of_lt h), fun k => ?_⟩
  · unfold dispatchGroup
    rw [if_neg (pass_fault_none p hp), if_neg (by rw [hm]; decide),
      if_neg (by omega)]
    exact doNodes_calls cg p.nfxs g.2 p.w
  · unfold dispatchGroup
    rw [if_neg (pass_fault_none p hp), if_neg (by rw [hm]; decide),
      if_pos ⟨hm, hl⟩]
  · exact ⟨(matmulClass_values _ _).1, (matmulClass_values _ _).2.2⟩
  · obtain ⟨fused, h1, h2⟩ := matmulGroups_calls nids cg nfxs (byFirstArg nids cg nfxs) w
    refine ⟨fused, ?_, h2⟩
    rw [← h1]
    exact doNodesAt_calls nids cg nfxs _ _
  · have := hkeys.2 k
    unfold byFirstArg
    rw [this]
    constructor
    · intro hh
      rcases hh with hh | ⟨i, hi, hh⟩
      · cases hh
      · rw [List.mem_filter, List.mem_range] at hi
        refine ⟨i, hi.1, of_decide_eq_true hi.2, ?_⟩
        rw [← hh]
        dsimp only
        rw [vget_map _ _ _ hi.1]
    · intro hh
      obtain ⟨i, hi, hc, hk⟩ := hh
      refine Or.inr ⟨i, ?_, ?_⟩
      · rw [List.mem_filter, List.mem_range]
        exact ⟨hi, decide_eq_true hc⟩
      · dsimp only
        rw [vget_map _ _ _ hi]
        exact hk

/-! ## Matrix-multiply scatter on a group with two left operands -/

/-- C26 (the code departs from the claim): in `mixedLeftGraph` the six
`MatrixMultiply` nodes 8 to 13 form one type-group of one bucket; nodes 8, 9 and
10 have the left operand `W1` (node 0), nodes 11, 12 and 13 the left operand `W2`
(node 1); every member has as many output elements as its left operand has rows,
which is what the scatter loop asserts; node 9 has the right operand `M` of shape
`{2, 1}`, of rank 2, the others right operands of rank 1, so `by_first_arg` is
`W1 -> [v3, v4]`, `W2 -> [v5, v6, v7]` and the fused result for `W1` is the 2 × 2
matrix `W1 * [v3 v4]`.  After a fresh `incremental_forward` node 8, the first
eligible member of the group of `W1`, holds column 0, `(1, 2)`; node 10, the second
eligible member of that group, holds `(0, 0)`, floats from beyond the fused result,
while column 1 of the fused result, the product of `W1` with its own right operand
`(0, 1)`, which `do_node` writes, is `(3, 4)`.  The members of the group of `W2`
hold their own columns. -/
theorem eval_matrix_multiply_scatter_skips_column :
    mixedLeftRun.1.eng.by_depth = [[0, 1, 2, 3, 4, 5, 6, 7], [8, 9, 10, 11, 12, 13], []] ∧
    groupByType mixedLeftGraph 0 [8, 9, 10, 11, 12, 13] =
      [(NodeType.MatrixMultiply, [8, 9, 10, 11, 12, 13])] ∧
    (∀ nid ∈ [8, 9, 10, 11, 12, 13],
      (vget mixedLeftRun.1.eng.nfxs nid).d.size =
        (vget mixedLeftRun.1.eng.nfxs (vget (vget mixedLeftGraph.nodes nid).args 0)).d.rows) ∧
    (List.range 6).map (memberClass [8, 9, 10, 11, 12, 13] mixedLeftGraph
      mixedLeftRun.1.eng.nfxs) = [0, 1, 0, 0, 0, 0] ∧
    byFirstArg [8, 9, 10, 11, 12, 13] mixedLeftGraph mixedLeftRun.1.eng.nfxs =
      [(0, [3, 4]), (1, [5, 6, 7])] ∧
    (mixedLeftRun.1.w.calls.drop 8).map (fun c => (c.node, c.fx.d)) =
      [(8, Dim.ofList [2, 2]), (8, Dim.ofList [2, 3]), (9, Dim.ofList [2, 1])] ∧
    loadFloats mixedLeftRun.1.w.mem (vget mixedLeftRun.1.eng.nfxs 8).v 2 = [1, 2] ∧
    loadFloats mixedLeftRun.1.w.mem (vget mixedLeftRun.1.eng.nfxs 10).v 2 = [0, 0] ∧
    loadFloats (do_node mixedLeftGraph 10 mixedLeftRun.1.eng.nfxs mixedLeftRun.1.w).mem
      (vget mixedLeftRun.1.eng.nfxs 10).v 2 = [3, 4] ∧
    matmulKernel [(Dim.ofList [2, 2], [1, 2, 3, 4]), (Dim.ofList [2], [0, 1])]
      (Dim.ofList [2]) = [3, 4] ∧
    loadFloats mixedLeftRun.1.w.mem (vget mixedLeftRun.1.eng.nfxs 9).v 2 = [4, 6] ∧
    loadFloats mixedLeftRun.1.w.mem (vget mixedLeftRun.1.eng.nfxs 11).v 2 = [1, 1] ∧
    loadFloats mixedLeftRun.1.w.mem (vget mixedLeftRun.1.eng.nfxs 12).v 2 = [2, 0] ∧
    loadFloats mixedLeftRun.1.w.mem (vget mixedLeftRun.1.eng.nfxs 13).v 2 = [0, 2] := by
  decide

/-! ## The fused paths give back what they take from the value pool -/

theorem vset_of_length_le {α : Type} (l : List α) (i : Nat) (x : α) (h : l.length ≤ i) :
    vset l i x = l := by
  unfold vset
  exact List.set_eq_of_length_le h

theorem vset_vset {α : Type} (l : List α) (i : Nat) (x y : α) :
    vset (vset l i x) i y = vset l i y := by
  unfold vset
  rw [List.set_set]

theorem vset_vget_same {α : Type} [Inhabited α] (l : List α) (i : Nat) :
    vset l i (vget l i) = l := by
  have := vset_vset_self l i (vget l i)
  rw [vset_vset] at this
  exact this

theorem poolsUpTo_refl {α : Type} (d : Nat) (w : World α) : PoolsUpTo d w w := by
  refine ⟨w.used d, ?_⟩
  unfold World.setUsed World.used
  exact (vset_vget_same w.devices d).symm

theorem poolsUpTo_of_devices {α : Type} (d : Nat) (w1 w2 w3 : World α)
    (h : PoolsUpTo d w1 w2) (e : w3.devices = w2.devices) : PoolsUpTo d w1 w3 := by
  obtain ⟨u, hu⟩ := h
  exact ⟨u, e.trans hu⟩

theorem poolsUpTo_allocate {α : Type} (d n : Nat) (w1 w2 : World α)
    (h : PoolsUpTo d w1 w2) : PoolsUpTo d w1 (w2.allocate d n).2 := by
  obtain ⟨u, hu⟩ := h
  unfold World.setUsed at hu
  dsimp only at hu
  by_cases hd : d < w1.devices.length
  · have hv : vget w2.devices d =
        { (vget w1.devices d) with fxs := { (vget w1.devices d).fxs with used := u } } := by
      rw [hu, vget_vset_eq _ _ _ hd]
    unfold PoolsUpTo World.allocate World.setUsed
    dsimp only
    rw [hv, hu]
    unfold Pool.allocate
    dsimp only
    split
    · exact ⟨u, vset_vset _ _ _ _⟩
    · exact ⟨_, vset_vset _ _ _ _⟩
  · refine ⟨u, ?_⟩
    unfold World.allocate World.setUsed
    dsimp only
    rw [hu, vset_vset, vset_of_length_le _ _ _ (by omega), vset_of_length_le _ _ _ (by omega)]

theorem poolsUpTo_restore {α : Type} (d : Nat) (w1 w2 : World α) (h : PoolsUpTo d w1 w2) :
    (w2.setUsed d (w1.used d)).devices = w1.devices := by
  obtain ⟨u, hu⟩ := h
  unfold World.setUsed at hu
  dsimp only at hu
  by_cases hd : d < w1.devices.length
  · have hv : vget w2.devices d =
        { (vget w1.devices d) with fxs := { (vget w1.devices d).fxs with used := u } } := by
      rw [hu, vget_vset_eq _ _ _ hd]
    unfold World.setUsed World.used
    dsimp only
    rw [hv, hu, vset_vset]
    exact vset_vget_same w1.devices d
  · unfold World.setUsed
    dsimp only
    rw [hu, vset_vset, vset_of_length_le _ _ _ (by omega)]

theorem eval_ewise_devices {α : Type} [Inhabited α] (nids : List Nat) (cg : ComputationGraph α)
    (nfxs : List Tensor) (w : World α) :
    (eval_ewise_unaries_in_bulk nids cg nfxs w).2.devices = w.devices := by
  unfold eval_ewise_unaries_in_bulk
  by_cases h : nids.length > 10
  · rw [if_pos h]
    dsimp only
    apply poolsUpTo_restore
    apply poolsUpTo_of_devices _ _ _ _
      (poolsUpTo_allocate
        (vget (nids.map (fun nid => vget nfxs (vget (vget cg.nodes nid).args 0))) 0).device
        (total_dsize (nids.map (fun nid => vget nfxs (vget (vget cg.nodes nid).args 0))) *
          sizeof_float) w w (poolsUpTo_refl _ w))
    rfl
  · rw [if_neg h]
    exact foldl_proj (fun w : World α => w.devices) (fun w nid => do_node cg nid nfxs w)
      (fun _ _ => rfl) nids w

theorem matmulGroup_devices {α : Type} [Inhabited α] (nids : List Nat)
    (cg : ComputationGraph α) (nfxs : List Tensor) (w : World α) (g : Nat × List Nat)
    (hdev : ∀ i, (vget nfxs i).device = 0) :
    (matmulGroup nids cg nfxs w g).devices = w.devices := by
  unfold matmulGroup
  dsimp only
  have hW : (vget nfxs g.1).device = 0 := hdev _
  have hd0 : (vget (g.2.map (fun a => vget nfxs a)) 0).device = 0 :=
    vget_map_device _ _ 0 (fun x => hdev _)
  rw [hW]
  apply poolsUpTo_restore
  have h1 : PoolsUpTo 0 w (combine_tensors (g.2.map (fun a => vget nfxs a)) default w).2 := by
    apply poolsUpTo_of_devices _ _ _ _
      (poolsUpTo_allocate 0
        (total_dsize (g.2.map (fun a => vget nfxs a)) * sizeof_float) w w (poolsUpTo_refl _ w))
    unfold combine_tensors
    dsimp only
    rw [hd0]
  have h2 := poolsUpTo_allocate 0
    ((Dim.ofList [(vget nfxs g.1).d.rows, (g.2.map (fun a => vget nfxs a)).length]).size *
      sizeof_float) w _ h1
  exact poolsUpTo_of_devices _ _ _ _ h2 rfl

theorem eval_matrix_multiply_devices {α : Type} [Inhabited α] (nids : List Nat)
    (cg : ComputationGraph α) (nfxs : List Tensor) (w : World α)
    (hdev : ∀ i, (vget nfxs i).device = 0) :
    (eval_matrix_multiply nids cg nfxs w).devices = w.devices := by
  unfold eval_matrix_multiply
  dsimp only
  rw [foldl_proj (fun w : World α => w.devices)
      (fun w i => do_node cg (vget nids i) nfxs w) (fun _ _ => rfl),
    foldl_proj (fun w : World α => w.devices) (matmulGroup nids cg nfxs)
      (fun w g => matmulGroup_devices nids cg nfxs w g hdev)]

theorem dispatchGroup_devices {α : Type} [Inhabited α] (cg : ComputationGraph α) (p : Pass α)
    (g : NodeType × List Nat) (hdev : ∀ i, (vget p.nfxs i).device = 0) :
    (dispatchGroup cg p g).w.devices = p.w.devices := by
  unfold dispatchGroup
  by_cases hf : p.fault.isSome
  · rw [if_pos hf]
  · rw [if_neg hf]
    by_cases he : g.1 ∈ ewise_unary_nodes
    · rw [if_pos he]
      exact eval_ewise_devices g.2 cg p.nfxs p.w
    · rw [if_neg he]
      by_cases hm : g.1 = NodeType.MatrixMultiply ∧ g.2.length > 5
      · rw [if_pos hm]
        exact eval_matrix_multiply_devices g.2 cg p.nfxs p.w hdev
      · rw [if_neg hm]
        exact foldl_proj (fun w : World α => w.devices)
          (fun w nid => do_node cg nid p.nfxs w) (fun _ _ => rfl) g.2 p.w

theorem dispatchGroups_devices {α : Type} [Inhabited α] (cg : ComputationGraph α) :
    ∀ (gs : List (NodeType × List Nat)) (p : Pass α), (∀ i, (vget p.nfxs i).device = 0) →
      (gs.foldl (dispatchGroup cg) p).w.devices = p.w.devices := by
  intro gs
  induction gs with
  | nil => intro p _; rfl
  | cons g rest ih =>
    intro p hdev
    rw [List.foldl_cons, ih _ (by rw [(dispatchGroup_nfxs cg p g).1]; exact hdev),
      dispatchGroup_devices cg p g hdev]

/-! ## The pool mark after a pass is that of the memory planner alone -/

theorem allocate_congr {α : Type} (w1 w2 : World α) (d n : Nat)
    (h : w1.devices = w2.devices) :
    (w1.allocate d n).1 = (w2.allocate d n).1 ∧
    (w1.allocate d n).2.devices = (w2.allocate d n).2.devices := by
  unfold World.allocate
  dsimp only
  rw [h]
  exact ⟨rfl, rfl⟩

theorem planNode_congr {α : Type} (cg : ComputationGraph α) (a b : Pass α × Nat) (nid : Nat)
    (h : PlanEq a.1 b.1) (ht : a.2 = b.2) :
    PlanEq (planNode cg a nid).1 (planNode cg b nid).1 ∧
    (planNode cg a nid).2 = (planNode cg b nid).2 := by
  obtain ⟨⟨na, wa, fa⟩, ta⟩ := a
  obtain ⟨⟨nb, wb, fb⟩, tb⟩ := b
  obtain ⟨h1, h2, h3⟩ := h
  dsimp only at h1 h2 h3 ht
  subst h1 h3 ht
  unfold planNode
  dsimp only
  by_cases hf : fa.isSome
  · rw [if_pos hf, if_pos hf]; exact ⟨⟨rfl, h2, rfl⟩, rfl⟩
  · rw [if_neg hf, if_neg hf]
    by_cases haux : (vget cg.nodes nid).aux_storage_size ≠ 0
    · rw [if_pos haux, if_pos haux]
      obtain ⟨e1, e2⟩ := allocate_congr wa wb
        (vget (vset na nid { (vget na nid) with d := (vget cg.nodes nid).dim,
                                                device := (vget cg.nodes nid).device }) nid).device
        (vget cg.nodes nid).aux_storage_size h2
      rw [e1]
      cases hr : (wb.allocate
          (vget (vset na nid { (vget na nid) with d := (vget cg.nodes nid).dim,
                                                  device := (vget cg.nodes nid).device }) nid).device
          (vget cg.nodes nid).aux_storage_size).1 with
      | none => exact ⟨⟨rfl, e2, rfl⟩, rfl⟩
      | some p => exact ⟨⟨rfl, e2, rfl⟩, rfl⟩
    · rw [if_neg haux, if_neg haux]
      exact ⟨⟨rfl, h2, rfl⟩, rfl⟩

theorem planFold_congr {α : Type} (cg : ComputationGraph α) :
    ∀ (nids : List Nat) (a b : Pass α × Nat), PlanEq a.1 b.1 → a.2 = b.2 →
      PlanEq (nids.foldl (planNode cg) a).1 (nids.foldl (planNode cg) b).1 ∧
      (nids.foldl (planNode cg) a).2 = (nids.foldl (planNode cg) b).2 := by
  intro nids
  induction nids with
  | nil => intro a b h ht; exact ⟨h, ht⟩
  | cons n ns ih =>
    intro a b h ht
    rw [List.foldl_cons, List.foldl_cons]
    obtain ⟨c1, c2⟩ := planNode_congr cg a b n h ht
    exact ih _ _ c1 c2

theorem planGroup_congr {α : Type} (cg : ComputationGraph α) (p q : Pass α)
    (g : NodeType × List Nat) (h : PlanEq p q) :
    PlanEq (planGroup cg p g) (planGroup cg q g) := by
  obtain ⟨c1, c2⟩ := planFold_congr cg g.2 (p, 0) (q, 0) h rfl
  unfold planGroup
  rw [h.2.2]
  by_cases hf : q.fault.isSome
  · rw [if_pos hf, if_pos hf]; exact h
  · rw [if_neg hf, if_neg hf]
    dsimp only
    generalize g.2.foldl (planNode cg) (p, 0) = R at c1 c2
    generalize g.2.foldl (planNode cg) (q, 0) = S at c1 c2
    obtain ⟨⟨na, wa, fa⟩, ta⟩ := R
    obtain ⟨⟨nb, wb, fb⟩, tb⟩ := S
    obtain ⟨h1, h2, h3⟩ := c1
    dsimp only at h1 h2 h3 c2
    subst h1 h3 c2
    dsimp only
    by_cases hf2 : fa.isSome
    · rw [if_pos hf2, if_pos hf2]; exact ⟨rfl, h2, rfl⟩
    · rw [if_neg hf2, if_neg hf2]
      obtain ⟨e1, e2⟩ := allocate_congr wa wb (vget na (vget g.2 0)).device
        (ta * sizeof_float) h2
      rw [e1]
      cases hr : (wb.allocate (vget na (vget g.2 0)).device (ta * sizeof_float)).1 with
      | none => exact ⟨rfl, e2, rfl⟩
      | some base => exact ⟨rfl, e2, rfl⟩

theorem planGroups_congr {α : Type} (cg : ComputationGraph α) :
    ∀ (gs : List (NodeType × List Nat)) (p q : Pass α), PlanEq p q →
      PlanEq (gs.foldl (planGroup cg) p) (gs.foldl (planGroup cg) q) := by
  intro gs
  induction gs with
  | nil => intro p q h; exact h
  | cons g rest ih =>
    intro p q h
    rw [List.foldl_cons, List.foldl_cons]
    exact ih _ _ (planGroup_congr cg p q g h)

theorem runBuckets_planEq {α : Type} [Inhabited α] (cg : ComputationGraph α)
    (hnodes : ∀ j, (vget cg.nodes j).device = 0) (already : Nat)
    (by_depth : List (List Nat)) :
    ∀ (ds : List Nat) (p q : Pass α), PlanEq p q → (∀ i, (vget p.nfxs i).device = 0) →
      PlanEq (ds.foldl (runBucket cg already by_depth) p)
        (ds.foldl (fun p d => (groupByType cg already (vget by_depth d)).foldl
          (planGroup cg) p) q) := by
  intro ds
  induction ds with
  | nil => intro p q h _; exact h
  | cons d rest ih =>
    intro p q h hdev
    rw [List.foldl_cons, List.foldl_cons]
    obtain ⟨_, _, _, a4, _⟩ := planGroups_frame cg hnodes
      (groupByType cg already (vget by_depth d)) p hdev
    obtain ⟨b1, b2, _⟩ := dispatchGroups_nfxs cg (groupByType cg already (vget by_depth d))
      ((groupByType cg already (vget by_depth d)).foldl (planGroup cg) p)
    have b3 := dispatchGroups_devices cg (groupByType cg already (vget by_depth d))
      ((groupByType cg already (vget by_depth d)).foldl (planGroup cg) p) a4
    obtain ⟨c1, c2, c3⟩ := planGroups_congr cg (groupByType cg already (vget by_depth d)) p q h
    have hstep : PlanEq (runBucket cg already by_depth p d)
        ((groupByType cg already (vget by_depth d)).foldl (planGroup cg) q) := by
      unfold runBucket
      dsimp only
      exact ⟨b1.trans c1, b3.trans c2, b2.trans c3⟩
    refine ih _ _ hstep ?_
    intro i
    have : (runBucket cg already by_depth p d).nfxs =
        ((groupByType cg already (vget by_depth d)).foldl (planGroup cg) p).nfxs := b1
    rw [this]
    exact a4 i

theorem forwardPass_planEq {α : Type} [Inhabited α] (cg : ComputationGraph α)
    (m : Machine α) (upto : Nat) (hnodes : ∀ j, (vget cg.nodes j).device = 0)
    (hdev : ∀ i, (vget m.eng.nfxs i).device = 0) :
    PlanEq (forwardPass cg m upto) (plannerPass cg m upto) := by
  unfold forwardPass plannerPass
  dsimp only
  refine runBuckets_planEq cg hnodes _ _ _ _ _ ⟨rfl, rfl, rfl⟩ ?_
  intro i
  show (vget (vresize m.eng.nfxs (upto + 1)) i).device = 0
  rw [vget_vresize]
  split
  · exact hdev i
  · rfl

theorem allocsTotal_append (pool : Pool) (l1 l2 : List AllocCall) :
    allocsTotal pool (l1 ++ l2) = allocsTotal pool l1 + allocsTotal pool l2 := by
  unfold allocsTotal
  rw [List.map_append, List.sum_append]

theorem allocsTotal_align (p q : Pool) (h : p.align = q.align) (l : List AllocCall) :
    allocsTotal p l = allocsTotal q l := by
  unfold allocsTotal
  congr 1
  apply List.map_congr_left
  intro a _
  unfold allocBytes Pool.round_up_align
  rw [h]

theorem poolSum_refl {α : Type} (w : World α) : PoolSum w w [] :=
  ⟨(List.append_nil _).symm, rfl, rfl, rfl⟩

theorem poolSum_trans {α : Type} (w1 w2 w3 : World α) (e1 e2 : List AllocCall)
    (h1 : PoolSum w1 w2 e1) (h2 : PoolSum w2 w3 e2) : PoolSum w1 w3 (e1 ++ e2) := by
  obtain ⟨a1, a2, a3, a4⟩ := h1
  obtain ⟨b1, b2, b3, b4⟩ := h2
  refine ⟨by rw [b1, a1, List.append_assoc], b2.trans a2, b3.trans a3, ?_⟩
  rw [b4, a4, allocsTotal_append, allocsTotal_align _ _ a3, Nat.add_assoc]

theorem poolSum_allocate {α : Type} (w : World α) (n : Nat) :
    PoolSum w (w.allocate 0 n).2 [⟨0, n, (w.allocate 0 n).1⟩] := by
  unfold PoolSum allocsTotal allocBytes World.used World.allocate
  dsimp only
  rw [vget_vset]
  by_cases hl : 0 < w.devices.length
  · rw [if_pos ⟨rfl, hl⟩]
    unfold Pool.allocate
    dsimp only
    refine ⟨rfl, rfl, ?_, ?_⟩
    · split <;> rfl
    · split <;> simp
  · rw [if_neg (fun h => hl h.2)]
    refine ⟨rfl, rfl, rfl, ?_⟩
    have e : vget w.devices 0 = default := vget_of_length_le _ _ (by omega)
    rw [e]
    unfold Pool.allocate Pool.round_up_align
    have hd : (default : Device).fxs = (⟨0, 0, 0, 0⟩ : Pool) := rfl
    rw [hd]
    dsimp only
    rcases Nat.eq_zero_or_pos n with hn | hn
    · subst hn; rfl
    · have h2 : 0 < (if 0 < 2 then n else (n + 0 - 1) / 0 * 0) + 0 := by
        rw [if_pos (by decide)]; omega
      rw [if_pos h2]
      rfl

theorem poolSum_of_eq {α : Type} (w1 w2 w3 : World α) (ext : List AllocCall)
    (h : PoolSum w1 w2 ext) (e1 : w3.devices = w2.devices) (e2 : w3.allocs = w2.allocs)
    (e3 : w3.calls = w2.calls) : PoolSum w1 w3 ext := by
  obtain ⟨a1, a2, a3, a4⟩ := h
  unfold World.used at a4
  unfold PoolSum World.used
  rw [e1, e2, e3]
  exact ⟨a1, a2, a3, a4⟩

theorem planNode_sum {α : Type} (cg : ComputationGraph α)
    (hnodes : ∀ j, (vget cg.nodes j).device = 0) (acc : Pass α × Nat) (nid : Nat)
    (hdev : ∀ i, (vget acc.1.nfxs i).device = 0) :
    ∃ ext, PoolSum acc.1.w (planNode cg acc nid).1.w ext := by
  unfold planNode
  by_cases hf : acc.1.fault.isSome
  · rw [if_pos hf]; exact ⟨[], poolSum_refl _⟩
  · rw [if_neg hf]
    dsimp only
    by_cases haux : (vget cg.nodes nid).aux_storage_size ≠ 0
    · rw [if_pos haux]
      have hd : (vget (vset acc.1.nfxs nid
          { (vget acc.1.nfxs nid) with d := (vget cg.nodes nid).dim,
                                       device := (vget cg.nodes nid).device }) nid).device = 0 := by
        rw [vget_vset]
        split
        · exact hnodes nid
        · exact hdev nid
      rw [hd]
      have hs := poolSum_allocate acc.1.w (vget cg.nodes nid).aux_storage_size
      cases hr : (acc.1.w.allocate 0 (vget cg.nodes nid).aux_storage_size).1 with
      | none => exact ⟨_, hs⟩
      | some p => exact ⟨_, poolSum_of_eq _ _ _ _ hs rfl rfl rfl⟩
    · rw [if_neg haux]
      exact ⟨[], poolSum_of_eq _ _ _ _ (poolSum_refl _) rfl rfl rfl⟩

theorem planFold_sum {α : Type} (cg : ComputationGraph α)
    (hnodes : ∀ j, (vget cg.nodes j).device = 0) :
    ∀ (nids : List Nat) (acc : Pass α × Nat), (∀ i, (vget acc.1.nfxs i).device = 0) →
      ∃ ext, PoolSum acc.1.w (nids.foldl (planNode cg) acc).1.w ext := by
  intro nids
  induction nids with
  | nil => intro acc _; exact ⟨[], poolSum_refl _⟩
  | cons n ns ih =>
    intro acc hdev
    rw [List.foldl_cons]
    obtain ⟨e1, h1⟩ := planNode_sum cg hnodes acc n hdev
    have hdev1 : ∀ i, (vget (planNode cg acc n).1.nfxs i).device = 0 :=
      (planFold_frame cg hnodes [n] acc hdev).2.2.2.1
    obtain ⟨e2, h2⟩ := ih (planNode cg acc n) hdev1
    exact ⟨e1 ++ e2, poolSum_trans _ _ _ _ _ h1 h2⟩

theorem planGroup_sum {α : Type} (cg : ComputationGraph α)
    (hnodes : ∀ j, (vget cg.nodes j).device = 0) (p : Pass α) (g : NodeType × List Nat)
    (hdev : ∀ i, (vget p.nfxs i).device = 0) :
    ∃ ext, PoolSum p.w (planGroup cg p g).w ext := by
  obtain ⟨e1, h1⟩ := planFold_sum cg hnodes g.2 (p, 0) hdev
  have hd0 : (vget (g.2.foldl (planNode cg) (p, 0)).1.nfxs (vget g.2 0)).device = 0 :=
    (planFold_frame cg hnodes g.2 (p, 0) hdev).2.2.2.1 _
  unfold planGroup
  by_cases hf : p.fault.isSome
  · rw [if_pos hf]; exact ⟨[], poolSum_refl _⟩
  · rw [if_neg hf]
    dsimp only
    by_cases hf2 : (g.2.foldl (planNode cg) (p, 0)).1.fault.isSome
    · rw [if_pos hf2]; exact ⟨e1, h1⟩
    · rw [if_neg hf2, hd0]
      have hs := poolSum_allocate (g.2.foldl (planNode cg) (p, 0)).1.w
        ((g.2.foldl (planNode cg) (p, 0)).2 * sizeof_float)
      cases hr : ((g.2.foldl (planNode cg) (p, 0)).1.w.allocate 0
          ((g.2.foldl (planNode cg) (p, 0)).2 * sizeof_float)).1 with
      | none => exact ⟨_, poolSum_trans _ _ _ _ _ h1 hs⟩
      | some base => exact ⟨_, poolSum_trans _ _ _ _ _ h1 hs⟩

theorem planGroups_sum {α : Type} (cg : ComputationGraph α)
    (hnodes : ∀ j, (vget cg.nodes j).device = 0) :
    ∀ (gs : List (NodeType × List Nat)) (p : Pass α), (∀ i, (vget p.nfxs i).device = 0) →
      ∃ ext, PoolSum p.w (gs.foldl (planGroup cg) p).w ext := by
  intro gs
  induction gs with
  | nil => intro p _; exact ⟨[], poolSum_refl _⟩
  | cons g rest ih =>
    intro p hdev
    rw [List.foldl_cons]
    obtain ⟨e1, h1⟩ := planGroup_sum cg hnodes p g hdev
    obtain ⟨e2, h2⟩ := ih (planGroup cg p g) (planGroup_frame cg p g hnodes hdev).2.2.2.1
    exact ⟨e1 ++ e2, poolSum_trans _ _ _ _ _ h1 h2⟩

theorem plannerBuckets_sum {α : Type} (cg : ComputationGraph α)
    (hnodes : ∀ j, (vget cg.nodes j).device = 0) (already : Nat)
    (by_depth : List (List Nat)) :
    ∀ (ds : List Nat) (p : Pass α), (∀ i, (vget p.nfxs i).device = 0) →
      ∃ ext, PoolSum p.w (ds.foldl (fun p d =>
        (groupByType cg already (vget by_depth d)).foldl (planGroup cg) p) p).w ext := by
  intro ds
  induction ds with
  | nil => intro p _; exact ⟨[], poolSum_refl _⟩
  | cons d rest ih =>
    intro p hdev
    rw [List.foldl_cons]
    obtain ⟨e1, h1⟩ := planGroups_sum cg hnodes (groupByType cg already (vget by_depth d)) p hdev
    obtain ⟨e2, h2⟩ := ih _ (planGroups_frame cg hnodes
      (groupByType cg already (vget by_depth d)) p hdev).2.2.2.1
    exact ⟨e1 ++ e2, poolSum_trans _ _ _ _ _ h1 h2⟩

theorem freeAll_pool {α : Type} (w : World α) :
    (vget w.freeAll.devices 0).fxs.align = (vget w.devices 0).fxs.align ∧
    w.freeAll.used 0 = 0 := by
  unfold World.freeAll World.used
  dsimp only
  by_cases hl : 0 < w.devices.length
  · rw [vget_map _ _ _ hl]
    exact ⟨rfl, rfl⟩
  · rw [vget_of_length_le _ _ (by rw [List.length_map]; omega),
      vget_of_length_le _ _ (by omega)]
    exact ⟨rfl, rfl⟩

/-- C27: with every node and every cached tensor on device 0,
`eval_ewise_unaries_in_bulk` and `eval_matrix_multiply` return with the devices,
hence the mark `used` of every value pool, as at entry.  A pass of
`incremental_forward(upto)` therefore ends with the same value cache, the same
pools and marks and the same exception as the memory planner run alone over the
same buckets; and on a fresh engine the mark `used` of the value pool of device 0
after `incremental_forward(upto)` is the total of the bytes taken by the
allocations of the memory planner (auxiliary storage and one block per
type-group), during which no kernel runs. -/
theorem fusion_temporaries_released {α : Type} [Inhabited α] (cg : ComputationGraph α)
    (nfxs : List Tensor) (w : World α) (nids : List Nat) (m : Machine α) (upto : Nat)
    (hdev : ∀ t ∈ nfxs, t.device = 0) (hnodes : ∀ n ∈ cg.nodes, n.device = 0)
    (hfresh : m.eng = Engine.fresh) :
    (eval_ewise_unaries_in_bulk nids cg nfxs w).2.devices = w.devices ∧
    (∀ d, (eval_ewise_unaries_in_bulk nids cg nfxs w).2.used d = w.used d) ∧
    (eval_matrix_multiply nids cg nfxs w).devices = w.devices ∧
    (∀ d, (eval_matrix_multiply nids cg nfxs w).used d = w.used d) ∧
    PlanEq (forwardPass cg m upto) (plannerPass cg m upto) ∧
    (incremental_forward cg m upto).1.w.devices = (plannerPass cg m upto).w.devices ∧
    (∃ ext, (plannerPass cg m upto).w.allocs = m.w.allocs ++ ext ∧
      (plannerPass cg m upto).w.calls = m.w.calls ∧
      (incremental_forward cg m upto).1.w.used 0 =
        allocsTotal (vget m.w.devices 0).fxs ext) := by
  have hn0 : ∀ j, (vget cg.nodes j).device = 0 := by
    intro j
    by_cases hj : j < cg.nodes.length
    · exact hnodes _ (vget_mem _ _ hj)
    · rw [vget_of_length_le _ _ (by omega)]; rfl
  have hd0 : ∀ j, (vget nfxs j).device = 0 := by
    intro j
    by_cases hj : j < nfxs.length
    · exact hdev _ (vget_mem _ _ hj)
    · rw [vget_of_length_le _ _ (by omega)]; rfl
  have hm0 : ∀ j, (vget m.eng.nfxs j).device = 0 := by
    intro j
    rw [hfresh]
    rfl
  have hz : m.eng.num_nodes_evaluated = 0 := by rw [hfresh]; rfl
  have h1 := eval_ewise_devices nids cg nfxs w
  have h2 := eval_matrix_multiply_devices nids cg nfxs w hd0
  have h3 := forwardPass_planEq cg m upto hn0 hm0
  obtain ⟨e1, _⟩ := incremental_forward_pass cg m upto (by rw [hz]; exact Nat.not_lt_zero _)
  refine ⟨h1, fun d => ?_, h2, fun d => ?_, h3, ?_, ?_⟩
  · unfold World.used; rw [h1]
  · unfold World.used; rw [h2]
  · rw [e1]; exact h3.2.1
  · have hs : ∃ ext, PoolSum m.w.freeAll (plannerPass cg m upto).w ext := by
      unfold plannerPass
      dsimp only
      rw [if_pos hz]
      refine plannerBuckets_sum cg hn0 _ _ _ _ ?_
      intro i
      show (vget (vresize m.eng.nfxs (upto + 1)) i).device = 0
      rw [vget_vresize]
      split
      · exact hm0 i
      · rfl
    obtain ⟨ext, a1, a2, a3, a4⟩ := hs
    obtain ⟨f1, f2⟩ := freeAll_pool m.w
    refine ⟨ext, a1, a2, ?_⟩
    have hu : (incremental_forward cg m upto).1.w.used 0 = (plannerPass cg m upto).w.used 0 := by
      unfold World.used
      rw [e1, h3.2.1]
    rw [hu, a4, f2, Nat.zero_add]
    exact allocsTotal_align _ _ f1 _

theorem fusion_temporaries_released_witness :
    (∀ t ∈ mixedLeftRun.1.eng.nfxs, t.device = 0) ∧
    (∀ n ∈ mixedLeftGraph.nodes, n.device = 0) ∧
    (Machine.init (0 : Int) 1024 4096 32).eng = Engine.fresh ∧
    ((eval_ewise_unaries_in_bulk [8, 9, 10, 11, 12, 13] mixedLeftGraph mixedLeftRun.1.eng.nfxs
      mixedLeftRun.1.w).2.devices = mixedLeftRun.1.w.devices ∧
    (∀ d, (eval_ewise_unaries_in_bulk [8, 9, 10, 11, 12, 13] mixedLeftGraph
      mixedLeftRun.1.eng.nfxs mixedLeftRun.1.w).2.used d = mixedLeftRun.1.w.used d) ∧
    (eval_matrix_multiply [8, 9, 10, 11, 12, 13] mixedLeftGraph mixedLeftRun.1.eng.nfxs
      mixedLeftRun.1.w).devices = mixedLeftRun.1.w.devices ∧
    (∀ d, (eval_matrix_multiply [8, 9, 10, 11, 12, 13] mixedLeftGraph mixedLeftRun.1.eng.nfxs
      mixedLeftRun.1.w).used d = mixedLeftRun.1.w.used d) ∧
    PlanEq (forwardPass mixedLeftGraph (Machine.init 0 1024 4096 32) 13)
      (plannerPass mixedLeftGraph (Machine.init 0 1024 4096 32) 13) ∧
    (incremental_forward mixedLeftGraph (Machine.init 0 1024 4096 32) 13).1.w.devices =
      (plannerPass mixedLeftGraph (Machine.init 0 1024 4096 32) 13).w.devices ∧
    (∃ ext, (plannerPass mixedLeftGraph (Machine.init 0 1024 4096 32) 13).w.allocs =
        (Machine.init (0 : Int) 1024 4096 32).w.allocs ++ ext ∧
      (plannerPass mixedLeftGraph (Machine.init 0 1024 4096 32) 13).w.calls =
        (Machine.init (0 : Int) 1024 4096 32).w.calls ∧
      (incremental_forward mixedLeftGraph (Machine.init 0 1024 4096 32) 13).1.w.used 0 =
        allocsTotal (vget (Machine.init (0 : Int) 1024 4096 32).w.devices 0).fxs ext)) :=
  ⟨by decide, by decide, rfl,
    fusion_temporaries_released mixedLeftGraph mixedLeftRun.1.eng.nfxs mixedLeftRun.1.w
      [8, 9, 10, 11, 12, 13] (Machine.init 0 1024 4096 32) 13 (by decide) (by decide) rfl⟩

theorem mixedLeftRun_pool_mark :
    mixedLeftRun.1.w.allocs =
      [⟨0, 80, some 1024⟩, ⟨0, 48, some 1120⟩, ⟨0, 16, some 1184⟩, ⟨0, 16, some 1216⟩,
        ⟨0, 24, some 1184⟩, ⟨0, 24, some 1216⟩] ∧
    (plannerPass mixedLeftGraph (Machine.init 0 1024 4096 32) 13).w.allocs =
      [⟨0, 80, some 1024⟩, ⟨0, 48, some 1120⟩] ∧
    mixedLeftRun.1.w.used 0 = 160 ∧
    allocsTotal (vget (Machine.init (0 : Int) 1024 4096 32).w.devices 0).fxs
      [⟨0, 80, some 1024⟩, ⟨0, 48, some 1120⟩] = 160 := by
  decide

/-! ## Backward executor: the order of the kernel invocations -/

theorem backArgFold_order {α : Type} [Inhabited α] [Add α] (cg : ComputationGraph α)
    (nfxs : List Tensor) (nd : List Bool) (i : Nat) :
    ∀ (as : List Nat) (acc : Grad α × Nat),
      ∃ new : List (BackwardCall α),
        (as.foldl (backArgStep cg nfxs nd i) acc).1.calls = acc.1.calls ++ new ∧
        (∀ c ∈ new, c.node = i ∧ acc.2 ≤ c.ai ∧ c.ai < acc.2 + as.length ∧
          c.arg = vget as (c.ai - acc.2) ∧ vget nd c.arg = true) ∧
        (∀ p, p < as.length → vget nd (vget as p) = true → ∃ c ∈ new, c.ai = acc.2 + p) ∧
        new.Pairwise (fun c c2 => c.ai < c2.ai) := by
  intro as
  induction as with
  | nil =>
    intro acc
    exact ⟨[], (List.append_nil _).symm, fun c hc => (by cases hc),
      fun p hp => absurd hp (Nat.not_lt_zero _), List.Pairwise.nil⟩
  | cons a rest ih =>
    intro acc
    rw [List.foldl_cons]
    obtain ⟨new, h1, h2, h3, h4⟩ := ih (backArgStep cg nfxs nd i acc a)
    have hn : (backArgStep cg nfxs nd i acc a).2 = acc.2 + 1 := rfl
    rw [hn] at h2 h3
    by_cases hnd : vget nd a = true
    · have hc : (backArgStep cg nfxs nd i acc a).1.calls =
          acc.1.calls ++ [⟨i, acc.2, a, backwardContribution cg nfxs acc.1 i acc.2 a⟩] := by
        unfold backArgStep
        dsimp only
        rw [if_pos hnd]
        rfl
      refine ⟨⟨i, acc.2, a, backwardContribution cg nfxs acc.1 i acc.2 a⟩ :: new, ?_, ?_, ?_, ?_⟩
      · rw [h1, hc, List.append_assoc]; rfl
      · intro c hcm
        rcases List.mem_cons.1 hcm with h | h
        · rw [h]
          refine ⟨rfl, Nat.le_refl _, ?_, ?_, hnd⟩
          · show acc.2 < acc.2 + (a :: rest).length
            rw [List.length_cons]; omega
          · show a = vget (a :: rest) (acc.2 - acc.2)
            rw [Nat.sub_self]; rfl
        · obtain ⟨b1, b2, b3, b4, b5⟩ := h2 c h
          refine ⟨b1, by omega, by rw [List.length_cons]; omega, ?_, b5⟩
          have e : c.ai - acc.2 = (c.ai - (acc.2 + 1)) + 1 := by omega
          rw [e, vget_cons_succ]
          exact b4
      · intro p hp hq
        cases p with
        | zero => exact ⟨_, List.mem_cons_self _ _, rfl⟩
        | succ q =>
          rw [vget_cons_succ] at hq
          rw [List.length_cons] at hp
          obtain ⟨c, hc1, hc2⟩ := h3 q (by omega) hq
          exact ⟨c, List.mem_cons_of_mem _ hc1, by rw [hc2]; omega⟩
      · rw [List.pairwise_cons]
        refine ⟨fun c hcm => ?_, h4⟩
        have := (h2 c hcm).2.1
        show acc.2 < c.ai
        omega
    · have hc : (backArgStep cg nfxs nd i acc a).1.calls = acc.1.calls := by
        unfold backArgStep
        dsimp only
        rw [if_neg hnd]
      refine ⟨new, by rw [h1, hc], ?_, ?_, h4⟩
      · intro c hcm
        obtain ⟨b1, b2, b3, b4, b5⟩ := h2 c hcm
        refine ⟨b1, by omega, by rw [List.length_cons]; omega, ?_, b5⟩
        have e : c.ai - acc.2 = (c.ai - (acc.2 + 1)) + 1 := by omega
        rw [e, vget_cons_succ]
        exact b4
      · intro p hp hq
        cases p with
        | zero => exact absurd hq hnd
        | succ q =>
          rw [vget_cons_succ] at hq
          rw [List.length_cons] at hp
          obtain ⟨c, hc1, hc2⟩ := h3 q (by omega) hq
          exact ⟨c, hc1, by rw [hc2]; omega⟩

theorem backNodeStep_order {α : Type} [Inhabited α] [Add α] (cg : ComputationGraph α)
    (nfxs : List Tensor) (nd : List Bool) (target k : Nat)
    (s : Sweep α)
    (hreach : vget s.in_computation k = true ↔ (k = target ∨ Reach cg.argTable target k))
    (hk : k ≤ target)
    (hJ : (∀ c ∈ s.g.calls, k + 1 ≤ c.node ∧ c.node ≤ target ∧
        (c.node = target ∨ Reach cg.argTable target c.node) ∧
        c.ai < (vget cg.argTable c.node).length ∧
        c.arg = vget (vget cg.argTable c.node) c.ai ∧ vget nd c.arg = true) ∧
      (∀ i p, k + 1 ≤ i → i ≤ target → (i = target ∨ Reach cg.argTable target i) →
        p < (vget cg.argTable i).length → vget nd (vget (vget cg.argTable i) p) = true →
        ∃ c ∈ s.g.calls, c.node = i ∧ c.ai = p) ∧
      s.g.calls.Pairwise (fun c c2 => c2.node < c.node ∨ (c2.node = c.node ∧ c.ai < c2.ai))) :
    (∀ c ∈ (backNodeStep cg nfxs nd k s).g.calls, k ≤ c.node ∧ c.node ≤ target ∧
        (c.node = target ∨ Reach cg.argTable target c.node) ∧
        c.ai < (vget cg.argTable c.node).length ∧
        c.arg = vget (vget cg.argTable c.node) c.ai ∧ vget nd c.arg = true) ∧
      (∀ i p, k ≤ i → i ≤ target → (i = target ∨ Reach cg.argTable target i) →
        p < (vget cg.argTable i).length → vget nd (vget (vget cg.argTable i) p) = true →
        ∃ c ∈ (backNodeStep cg nfxs nd k s).g.calls, c.node = i ∧ c.ai = p) ∧
      (backNodeStep cg nfxs nd k s).g.calls.Pairwise
        (fun c c2 => c2.node < c.node ∨ (c2.node = c.node ∧ c.ai < c2.ai)) := by
  obtain ⟨ha, hb, hc⟩ := hJ
  unfold backNodeStep
  by_cases hin : vget s.in_computation k = true
  · rw [if_pos hin]
    dsimp only
    obtain ⟨new, h1, h2, h3, h4⟩ := backArgFold_order cg nfxs nd k (vget cg.nodes k).args (s.g, 0)
    rw [h1]
    have hargs : vget cg.argTable k = (vget cg.nodes k).args := vget_argTable cg k
    refine ⟨fun c hcm => ?_, fun i p hi1 hi2 hi3 hp hq => ?_, ?_⟩
    · rcases List.mem_append.1 hcm with h | h
      · obtain ⟨a1, a2⟩ := ha c h
        exact ⟨by omega, a2⟩
      · obtain ⟨b1, b2, b3, b4, b5⟩ := h2 c h
        rw [b1, hargs]
        refine ⟨Nat.le_refl _, hk, hreach.1 hin, by simpa using b3, ?_, b5⟩
        rw [b4]
        rfl
    · by_cases hik : i = k
      · subst hik
        rw [hargs] at hp hq
        obtain ⟨c, hc1, hc2⟩ := h3 p hp hq
        refine ⟨c, List.mem_append_right _ hc1, (h2 c hc1).1, ?_⟩
        rw [hc2]
        exact Nat.zero_add p
      · obtain ⟨c, hc1, hc2⟩ := hb i p (by omega) hi2 hi3 hp hq
        exact ⟨c, List.mem_append_left _ hc1, hc2⟩
    · rw [List.pairwise_append]
      refine ⟨hc, ?_, fun c hc1 c2 hc2 => ?_⟩
      · refine h4.imp_of_mem ?_
        intro c c2 hc1 hc2 hlt
        right
        exact ⟨by rw [(h2 c hc1).1, (h2 c2 hc2).1], hlt⟩
      · left
        rw [(h2 c2 hc2).1]
        have := (ha c hc1).1
        omega
  · rw [if_neg hin]
    refine ⟨fun c hcm => ?_, fun i p hi1 hi2 hi3 hp hq => ?_, hc⟩
    · obtain ⟨a1, a2⟩ := ha c hcm
      exact ⟨by omega, a2⟩
    · by_cases hik : i = k
      · subst hik
        exact absurd (hreach.2 hi3) hin
      · exact hb i p (by omega) hi2 hi3 hp hq

theorem sweep_order {α : Type} [Inhabited α] [Add α] (cg : ComputationGraph α)
    (nfxs : List Tensor) (nd : List Bool) (hdag : IsDAG cg.argTable) (target : Nat)
    (g : Grad α) (hg : g.calls = []) :
    (∀ c ∈ (backwardSweep cg nfxs nd target g).g.calls, c.node ≤ target ∧
        (c.node = target ∨ Reach cg.argTable target c.node) ∧
        c.ai < (vget cg.argTable c.node).length ∧
        c.arg = vget (vget cg.argTable c.node) c.ai ∧ vget nd c.arg = true) ∧
      (∀ i p, i ≤ target → (i = target ∨ Reach cg.argTable target i) →
        p < (vget cg.argTable i).length → vget nd (vget (vget cg.argTable i) p) = true →
        ∃ c ∈ (backwardSweep cg nfxs nd target g).g.calls, c.node = i ∧ c.ai = p) ∧
      (backwardSweep cg nfxs nd target g).g.calls.Pairwise
        (fun c c2 => c2.node < c.node ∨ (c2.node = c.node ∧ c.ai < c2.ai)) := by
  have key := forDown_inv (backNodeStep cg nfxs nd) 0
    (fun m s =>
      (s.in_computation.length = target + 1 ∧
        (∀ j, j < target + 1 → (vget s.in_computation j = true ↔
          (j = target ∨ ∃ i, m ≤ i ∧ i ≤ target ∧
            (i = target ∨ Reach cg.argTable target i) ∧ j ∈ vget cg.argTable i))) ∧
        (∀ c ∈ s.g.calls, c ∈ g.calls ∨ (c.node = target ∨ Reach cg.argTable target c.node))) ∧
      ((∀ c ∈ s.g.calls, m ≤ c.node ∧ c.node ≤ target ∧
          (c.node = target ∨ Reach cg.argTable target c.node) ∧
          c.ai < (vget cg.argTable c.node).length ∧
          c.arg = vget (vget cg.argTable c.node) c.ai ∧ vget nd c.arg = true) ∧
        (∀ i p, m ≤ i → i ≤ target → (i = target ∨ Reach cg.argTable target i) →
          p < (vget cg.argTable i).length → vget nd (vget (vget cg.argTable i) p) = true →
          ∃ c ∈ s.g.calls, c.node = i ∧ c.ai = p) ∧
        s.g.calls.Pairwise
          (fun c c2 => c2.node < c.node ∨ (c2.node = c.node ∧ c.ai < c2.ai))))
    (target + 1) (sweepInit (target + 1) g)
    (by
      rw [Nat.zero_add]
      refine ⟨sweepInit_inv cg target g, ?_, ?_, ?_⟩
      · intro c hc
        have e : (sweepInit (target + 1) g).g.calls = [] := hg
        rw [e] at hc; cases hc
      · intro i p h1 h2; omega
      · have e : (sweepInit (target + 1) g).g.calls = [] := hg
        rw [e]; exact List.Pairwise.nil)
    (fun m t hm hI => by
      rw [Nat.zero_add] at hI ⊢
      obtain ⟨hI1, hI2⟩ := hI
      obtain ⟨r1, r2, r3, r4⟩ := backNodeStep_inv cg nfxs nd hdag target m (by omega) g.calls t hI1
      exact ⟨⟨r2, r3, r4⟩, backNodeStep_order cg nfxs nd target m t r1 (by omega) hI2⟩)
  obtain ⟨_, k1, k2, k3⟩ := key
  unfold backwardSweep
  exact ⟨fun c hc => (k1 c hc).2, fun i p hi => k2 i p (Nat.zero_le _) hi, k3⟩

theorem callBackward_only_arg {α : Type} [Inhabited α] [Add α] (cg : ComputationGraph α)
    (nfxs : List Tensor) (i ai arg : Nat) (g : Grad α) :
    (callBackward cg nfxs i ai arg g).ndEdfs = g.ndEdfs ∧
    (callBackward cg nfxs i ai arg g).w.devices = g.w.devices ∧
    (∀ a, (∀ k, k < (vget g.ndEdfs arg).d.size →
        a ≠ (vget g.ndEdfs arg).v + sizeof_float * k) →
      (callBackward cg nfxs i ai arg g).w.mem a = g.w.mem a) := by
  refine ⟨rfl, rfl, fun a ha => ?_⟩
  unfold callBackward
  dsimp only
  apply storeFloats_miss
  intro k hk
  apply ha k
  rw [List.length_zipWith] at hk
  have : (loadFloats g.w.mem (vget g.ndEdfs arg).v (vget g.ndEdfs arg).d.size).length =
      (vget g.ndEdfs arg).d.size := by simp [loadFloats]
  omega

/-- C28: let `backward(target)` over a graph whose arguments strictly precede
their nodes run without abort.  Every backward kernel invocation is made by a
node `i <= target` that is the target or reachable from it, for an argument
position `p` of `i` whose argument `args_i[p]` has `needs_derivative` set, and it
is recorded with that argument; conversely for every such `i` and `p` there is an
invocation, and no two invocations have the same node and position.  The
invocations are made in decreasing order of the node, and for one node in
increasing order of the position.  An invocation leaves the gradient cache and
the pools as they are and changes no float outside the gradient buffer of its
argument. -/
theorem backward_kernel_invocations {α : Type} [Inhabited α] [Zero α] [Add α]
    (cg : ComputationGraph α) (m : Machine α) (kSCALAR_ONE target : Nat)
    (hdag : IsDAG cg.argTable)
    (hok : (backward cg m kSCALAR_ONE target).fault = none) :
    (∀ c ∈ (backward cg m kSCALAR_ONE target).calls, c.node ≤ target ∧
      (c.node = target ∨ Reach cg.argTable target c.node) ∧
      c.ai < (vget cg.argTable c.node).length ∧
      c.arg = vget (vget cg.argTable c.node) c.ai ∧
      vget (needs_derivative cg (target + 1)) c.arg = true) ∧
    (∀ i p, i ≤ target → (i = target ∨ Reach cg.argTable target i) →
      p < (vget cg.argTable i).length →
      vget (needs_derivative cg (target + 1)) (vget (vget cg.argTable i) p) = true →
      ∃ c ∈ (backward cg m kSCALAR_ONE target).calls, c.node = i ∧ c.ai = p) ∧
    ((backward cg m kSCALAR_ONE target).calls.map (fun c => (c.node, c.ai))).Nodup ∧
    (backward cg m kSCALAR_ONE target).calls.Pairwise
      (fun c c2 => c2.node < c.node ∨ (c2.node = c.node ∧ c.ai < c2.ai)) ∧
    (∀ (g : Grad α) (i ai arg : Nat),
      (callBackward cg m.eng.nfxs i ai arg g).ndEdfs = g.ndEdfs ∧
      (callBackward cg m.eng.nfxs i ai arg g).w.devices = g.w.devices ∧
      (∀ a, (∀ k, k < (vget g.ndEdfs arg).d.size →
          a ≠ (vget g.ndEdfs arg).v + sizeof_float * k) →
        (callBackward cg m.eng.nfxs i ai arg g).w.mem a = g.w.mem a)) := by
  obtain ⟨_, e, _, _⟩ := backward_ok_eq cg m kSCALAR_ONE target hok
  obtain ⟨k1, k2, k3⟩ := sweep_order cg m.eng.nfxs (needs_derivative cg (target + 1)) hdag
    target (backwardSetup m kSCALAR_ONE target) (backwardSetup_calls m kSCALAR_ONE target).1
  rw [e]
  refine ⟨k1, k2, ?_, k3, fun g i ai arg => callBackward_only_arg cg m.eng.nfxs i ai arg g⟩
  unfold List.Nodup
  rw [List.pairwise_map]
  refine k3.imp ?_
  intro c c2 h heq
  have h1 : c.node = c2.node := congrArg Prod.fst heq
  have h2 : c.ai = c2.ai := congrArg Prod.snd heq
  omega

theorem backward_kernel_invocations_witness :
    IsDAG (diamondGraph [0]).argTable ∧
    (backward (diamondGraph [0]) diamondForward 16 3).fault = none ∧
    ((∀ c ∈ (backward (diamondGraph [0]) diamondForward 16 3).calls, c.node ≤ 3 ∧
      (c.node = 3 ∨ Reach (diamondGraph [0]).argTable 3 c.node) ∧
      c.ai < (vget (diamondGraph [0]).argTable c.node).length ∧
      c.arg = vget (vget (diamondGraph [0]).argTable c.node) c.ai ∧
      vget (needs_derivative (diamondGraph [0]) (3 + 1)) c.arg = true) ∧
    (∀ i p, i ≤ 3 → (i = 3 ∨ Reach (diamondGraph [0]).argTable 3 i) →
      p < (vget (diamondGraph [0]).argTable i).length →
      vget (needs_derivative (diamondGraph [0]) (3 + 1))
        (vget (vget (diamondGraph [0]).argTable i) p) = true →
      ∃ c ∈ (backward (diamondGraph [0]) diamondForward 16 3).calls, c.node = i ∧ c.ai = p) ∧
    ((backward (diamondGraph [0]) diamondForward 16 3).calls.map
      (fun c => (c.node, c.ai))).Nodup ∧
    (backward (diamondGraph [0]) diamondForward 16 3).calls.Pairwise
      (fun c c2 => c2.node < c.node ∨ (c2.node = c.node ∧ c.ai < c2.ai)) ∧
    (∀ (g : Grad Int) (i ai arg : Nat),
      (callBackward (diamondGraph [0]) diamondForward.eng.nfxs i ai arg g).ndEdfs = g.ndEdfs ∧
      (callBackward (diamondGraph [0]) diamondForward.eng.nfxs i ai arg g).w.devices =
        g.w.devices ∧
      (∀ a, (∀ k, k < (vget g.ndEdfs arg).d.size →
          a ≠ (vget g.ndEdfs arg).v + sizeof_float * k) →
        (callBackward (diamondGraph [0]) diamondForward.eng.nfxs i ai arg g).w.mem a =
          g.w.mem a))) :=
  ⟨isDAG_of_check _ (by decide), by decide,
    backward_kernel_invocations (diamondGraph [0]) diamondForward 16 3
      (isDAG_of_check _ (by decide)) (by decide)⟩

/-- C29: let `backward(target)` over a graph whose arguments strictly precede
their nodes run without abort, and let `d` be any of its backward kernel
invocations, the invocations before it being `l1` and those after it `l2`.  The
invocation `d` reads the gradient buffer of its node `d.node` as the gradient of
the output.  Every invocation adds into the buffer of a node below its own, no
invocation after `d` adds into the buffer of `d.node`, and all the invocations
that add into the buffer of `d.node` are among `l1`: they are made by nodes above
`d.node` and come before the first invocation that reads that buffer. -/
theorem backward_accumulate_before_read {α : Type} [Inhabited α] [Zero α] [Add α]
    (cg : ComputationGraph α) (m : Machine α) (kSCALAR_ONE target : Nat)
    (l1 l2 : List (BackwardCall α)) (d : BackwardCall α)
    (hdag : IsDAG cg.argTable)
    (hok : (backward cg m kSCALAR_ONE target).fault = none)
    (hsplit : (backward cg m kSCALAR_ONE target).calls = l1 ++ d :: l2) :
    (∀ c ∈ (backward cg m kSCALAR_ONE target).calls, c.arg < c.node) ∧
    (∀ c ∈ l2, c.arg ≠ d.node) ∧
    (∀ c ∈ (backward cg m kSCALAR_ONE target).calls, c.arg = d.node →
      d.node < c.node ∧ c ∈ l1) ∧
    callsInto d.node (backward cg m kSCALAR_ONE target).calls = callsInto d.node l1 := by
  obtain ⟨_, e, _, _⟩ := backward_ok_eq cg m kSCALAR_ONE target hok
  obtain ⟨k1, _, k3⟩ := sweep_order cg m.eng.nfxs (needs_derivative cg (target + 1)) hdag
    target (backwardSetup m kSCALAR_ONE target) (backwardSetup_calls m kSCALAR_ONE target).1
  rw [← e] at k1 k3
  have hlt : ∀ c ∈ (backward cg m kSCALAR_ONE target).calls, c.arg < c.node := by
    intro c hc
    obtain ⟨_, _, a3, a4, _⟩ := k1 c hc
    rw [a4]
    exact hdag _ _ (vget_mem _ _ a3)
  rw [hsplit] at k3
  rw [List.pairwise_append, List.pairwise_cons] at k3
  obtain ⟨_, ⟨k4, _⟩, _⟩ := k3
  have hafter : ∀ c ∈ l2, c.arg ≠ d.node := by
    intro c hc heq
    have h1 := hlt c (by rw [hsplit]; exact List.mem_append_right _ (List.mem_cons_of_mem _ hc))
    have h2 := k4 c hc
    omega
  have hd : d.arg ≠ d.node := by
    have := hlt d (by rw [hsplit]; exact List.mem_append_right _ (List.mem_cons_self _ _))
    omega
  refine ⟨hlt, hafter, fun c hc heq => ⟨?_, ?_⟩, ?_⟩
  · have := hlt c hc
    omega
  · rw [hsplit] at hc
    rcases List.mem_append.1 hc with h | h
    · exact h
    · rcases List.mem_cons.1 h with h | h
      · rw [h] at heq; exact absurd heq hd
      · exact absurd heq (hafter c h)
  · rw [hsplit]
    unfold callsInto
    rw [List.filter_append, List.filter_cons]
    have h1 : decide (d.arg = d.node) = false := decide_eq_false hd
    rw [h1]
    have h2 : l2.filter (fun c => decide (c.arg = d.node)) = [] := by
      rw [List.filter_eq_nil_iff]
      intro c hc
      have := hafter c hc
      simpa using this
    simp [h2]

theorem backward_accumulate_before_read_witness :
    IsDAG (diamondGraph [0]).argTable ∧
    (backward (diamondGraph [0]) diamondForward 16 3).fault = none ∧
    (backward (diamondGraph [0]) diamondForward 16 3).calls =
      [⟨3, 0, 1, [1]⟩, ⟨3, 1, 2, [1]⟩] ++ ⟨2, 0, 0, [5]⟩ :: [⟨1, 0, 0, [2]⟩] ∧
    ((∀ c ∈ (backward (diamondGraph [0]) diamondForward 16 3).calls, c.arg < c.node) ∧
    (∀ c ∈ [(⟨1, 0, 0, [2]⟩ : BackwardCall Int)], c.arg ≠ (⟨2, 0, 0, [5]⟩ : BackwardCall Int).node) ∧
    (∀ c ∈ (backward (diamondGraph [0]) diamondForward 16 3).calls,
      c.arg = (⟨2, 0, 0, [5]⟩ : BackwardCall Int).node →
      (⟨2, 0, 0, [5]⟩ : BackwardCall Int).node < c.node ∧
        c ∈ [(⟨3, 0, 1, [1]⟩ : BackwardCall Int), ⟨3, 1, 2, [1]⟩]) ∧
    callsInto (⟨2, 0, 0, [5]⟩ : BackwardCall Int).node
        (backward (diamondGraph [0]) diamondForward 16 3).calls =
      callsInto (⟨2, 0, 0, [5]⟩ : BackwardCall Int).node
        [(⟨3, 0, 1, [1]⟩ : BackwardCall Int), ⟨3, 1, 2, [1]⟩]) :=
  ⟨isDAG_of_check _ (by decide), by decide, by decide,
    backward_accumulate_before_read (diamondGraph [0]) diamondForward 16 3
      [⟨3, 0, 1, [1]⟩, ⟨3, 1, 2, [1]⟩] [⟨1, 0, 0, [2]⟩] ⟨2, 0, 0, [5]⟩
      (isDAG_of_check _ (by decide)) (by decide) (by decide)⟩

/-! ## The scheduling arrays across calls of `compute_depths` -/

theorem depthArgStep_extends (p k j : Nat) (s0 : Sched) (acc : DepthAcc) (arg : Nat)
    (hj : p ≤ j) (hjk : j < k)
    (h : (∀ i, i < p → vget acc.depths i = vget s0.depths i) ∧
      (∀ a, ∃ ext, vget acc.parents a = vget s0.parents a ++ ext ∧ ∀ x ∈ ext, p ≤ x ∧ x < k)) :
    (∀ i, i < p → vget (depthArgStep j acc arg).depths i = vget s0.depths i) ∧
    (∀ a, ∃ ext, vget (depthArgStep j acc arg).parents a = vget s0.parents a ++ ext ∧
      ∀ x ∈ ext, p ≤ x ∧ x < k) := by
  obtain ⟨h1, h2⟩ := h
  have hpar : ∀ a, ∃ ext, vget (vpush acc.parents arg j) a = vget s0.parents a ++ ext ∧
      ∀ x ∈ ext, p ≤ x ∧ x < k := by
    intro a
    obtain ⟨ext, e1, e2⟩ := h2 a
    unfold vpush
    rw [vget_vset]
    split
    · rename_i hc
      rw [hc.1, e1]
      refine ⟨ext ++ [j], (List.append_assoc _ _ _), fun x hx => ?_⟩
      rcases List.mem_append.1 hx with hx | hx
      · exact e2 x hx
      · rw [List.mem_singleton.1 hx]; exact ⟨hj, hjk⟩
    · exact ⟨ext, e1, e2⟩
  have hdep : ∀ i, i < p →
      vget (vset acc.depths j (vget acc.depths arg + 1)) i = vget s0.depths i := by
    intro i hi
    rw [vget_vset_ne _ _ _ _ (by omega)]
    exact h1 i hi
  unfold depthArgStep
  dsimp only
  split
  · split
    · exact ⟨hdep, hpar⟩
    · exact ⟨hdep, hpar⟩
  · exact ⟨h1, hpar⟩

theorem depthNodeStep_extends (p k j : Nat) (s0 : Sched) (hj : p ≤ j)
    (hjk : j < k) :
    ∀ (as : List Nat) (acc : DepthAcc),
      ((∀ i, i < p → vget acc.depths i = vget s0.depths i) ∧
        (∀ a, ∃ ext, vget acc.parents a = vget s0.parents a ++ ext ∧
          ∀ x ∈ ext, p ≤ x ∧ x < k)) →
      (∀ i, i < p → vget (as.foldl (depthArgStep j) acc).depths i = vget s0.depths i) ∧
      (∀ a, ∃ ext, vget (as.foldl (depthArgStep j) acc).parents a = vget s0.parents a ++ ext ∧
        ∀ x ∈ ext, p ≤ x ∧ x < k) := by
  intro as
  induction as with
  | nil => intro acc h; exact h
  | cons a rest ih =>
    intro acc h
    rw [List.foldl_cons]
    exact ih _ (depthArgStep_extends p k j s0 acc a hj hjk h)

theorem fillZero_below (d : List Int) (a upto i : Nat) (hi : i < a) :
    vget (fillZero d a upto) i = vget d i := by
  unfold fillZero
  exact forUp_inv (fun j d => vset d j 0)
    (fun _ (t : List Int) => vget t i = vget d i) (upto + 1 - a) a d rfl
    (fun j t hj _ ht => by
      show vget (vset t j 0) i = vget d i
      rw [vget_vset_ne _ _ _ _ (by omega)]
      exact ht)

theorem computeEarliest_extends (args : ArgTable) (s : Sched) (p upto : Nat) (hp : p ≤ upto) :
    (∀ i, i < p → vget (computeEarliest args p s upto).depths i = vget s.depths i) ∧
    (∀ a, a ≤ upto → ∃ ext, vget (computeEarliest args p s upto).parents a =
      vget s.parents a ++ ext ∧ ∀ x ∈ ext, p ≤ x ∧ x ≤ upto) := by
  unfold computeEarliest
  dsimp only
  have key := forUp_inv (depthNodeStep args)
    (fun k (acc : DepthAcc) =>
      (∀ i, i < p → vget acc.depths i = vget (vresize s.depths (upto + 1)) i) ∧
      (∀ a, ∃ ext, vget acc.parents a = vget (vresize s.parents (upto + 1)) a ++ ext ∧
        ∀ x ∈ ext, p ≤ x ∧ x < k))
    (upto + 1 - p) p
    ⟨fillZero (vresize s.depths (upto + 1)) p upto, vresize s.parents (upto + 1), 0⟩
    ⟨fun i hi => fillZero_below _ p upto i hi,
      fun a => ⟨[], (List.append_nil _).symm, fun x hx => (by cases hx)⟩⟩
    (fun j t hj1 hj2 hI => by
      unfold depthNodeStep
      have hI2 : (∀ i, i < p → vget t.depths i = vget (vresize s.depths (upto + 1)) i) ∧
          (∀ a, ∃ ext, vget t.parents a = vget (vresize s.parents (upto + 1)) a ++ ext ∧
            ∀ x ∈ ext, p ≤ x ∧ x < j + 1) :=
        ⟨hI.1, fun a => by
          obtain ⟨ext, e1, e2⟩ := hI.2 a
          exact ⟨ext, e1, fun x hx => ⟨(e2 x hx).1, by have := (e2 x hx).2; omega⟩⟩⟩
      exact depthNodeStep_extends p (j + 1) j
        ⟨vresize s.depths (upto + 1), [], vresize s.parents (upto + 1), []⟩ hj1 (by omega)
        (vget args j) t hI2)
  obtain ⟨k1, k2⟩ := key
  refine ⟨fun i hi => ?_, fun a ha => ?_⟩
  · rw [k1 i hi, vget_vresize, if_pos (by omega)]
  · obtain ⟨ext, e1, e2⟩ := k2 a
    rw [vget_vresize, if_pos (by omega)] at e1
    exact ⟨ext, e1, fun x hx => ⟨(e2 x hx).1, by have := (e2 x hx).2; omega⟩⟩

theorem computeLatest_extends (s : Sched) (p upto : Nat) (hp : p ≤ upto) (a : DepthAcc) :
    ∀ i, i < p → vget (computeLatest p s upto a) i = vget s.depths2 i := by
  intro i hi
  unfold computeLatest
  dsimp only
  have key := forDown_inv (latestStep a.parents a.max_depth) p
    (fun _ (t : List Int) => vget t i = vget s.depths2 i) (upto + 1 - p)
    (vset (vresize s.depths2 (upto + 1)) upto (a.max_depth + 1))
    (by
      show vget (vset (vresize s.depths2 (upto + 1)) upto (a.max_depth + 1)) i = _
      rw [vget_vset_ne _ _ _ _ (by omega), vget_vresize, if_pos (by omega)])
    (fun m t _ ht => by
      show vget (latestStep a.parents a.max_depth (p + m) t) i = _
      unfold latestStep
      rw [vget_vset_ne _ _ _ _ (by omega)]
      exact ht)
  exact key

/-- C31: a call `compute_depths(upto)` made with the evaluated prefix
`p = num_nodes_evaluated <= upto` leaves `depths[i]` and `depths2[i]` as they
were for every `i < p`, and for every `a <= upto` the new `parents[a]` is the old
one followed by indices from `[p, upto]`. -/
theorem compute_depths_extends_arrays (args : ArgTable) (s : Sched) (p upto i a : Nat)
    (hp : p ≤ upto) (hi : i < p) (ha : a ≤ upto) :
    vget (compute_depths args p s upto).depths i = vget s.depths i ∧
    vget (compute_depths args p s upto).depths2 i = vget s.depths2 i ∧
    ∃ ext, vget (compute_depths args p s upto).parents a = vget s.parents a ++ ext ∧
      ∀ x ∈ ext, p ≤ x ∧ x ≤ upto := by
  obtain ⟨h1, h2⟩ := computeEarliest_extends args s p upto hp
  exact ⟨h1 i hi, computeLatest_extends s p upto hp _ i hi, h2 a ha⟩

theorem compute_depths_extends_arrays_witness :
    2 ≤ 4 ∧ 0 < 2 ∧ 0 ≤ 4 ∧
    (vget (compute_depths diamondArgs 2 (compute_depths diamondArgs 0 Sched.fresh 2) 4).depths 0 =
      vget (compute_depths diamondArgs 0 Sched.fresh 2).depths 0 ∧
    vget (compute_depths diamondArgs 2 (compute_depths diamondArgs 0 Sched.fresh 2) 4).depths2 0 =
      vget (compute_depths diamondArgs 0 Sched.fresh 2).depths2 0 ∧
    ∃ ext, vget (compute_depths diamondArgs 2
        (compute_depths diamondArgs 0 Sched.fresh 2) 4).parents 0 =
      vget (compute_depths diamondArgs 0 Sched.fresh 2).parents 0 ++ ext ∧
      ∀ x ∈ ext, 2 ≤ x ∧ x ≤ 4) :=
  ⟨by decide, by decide, by decide,
    compute_depths_extends_arrays diamondArgs (compute_depths diamondArgs 0 Sched.fresh 2)
      2 4 0 0 (by decide) (by decide) (by decide)⟩

theorem compute_depths_second_call_diamond :
    (compute_depths diamondArgs 0 Sched.fresh 2).parents = [[2], [], []] ∧
    (compute_depths diamondArgs 2 (compute_depths diamondArgs 0 Sched.fresh 2) 4).parents =
      [[2, 2, 4], [3], [3], [], []] ∧
    (compute_depths diamondArgs 0 Sched.fresh 2).depths2 = [0, 1, 1] ∧
    (compute_depths diamondArgs 2 (compute_depths diamondArgs 0 Sched.fresh 2) 4).depths2 =
      [0, 1, 1, 2, 2] := by
  decide

/-! ## Depth scheduler: the bucket indices are in range -/

/-- C35: after `compute_depths(upto)` on a freshly constructed engine over a
graph whose arguments precede their nodes, every node `j <= upto` has
`0 <= depths2[j] <= max_depth`; a node with no recorded parent has
`depths2[j] = max_depth`; `by_depth` has `max_depth + 2` buckets, so the index
`depths2[j]` is inside `by_depth` and node `j` is in that bucket; and the last
bucket `by_depth[max_depth + 1]` is empty. -/
theorem compute_depths_bucket_bounds (args : ArgTable) (hdag : IsDAG args) (upto j : Nat)
    (hj : j ≤ upto) :
    0 ≤ vget (compute_depths args 0 Sched.fresh upto).depths2 j ∧
    vget (compute_depths args 0 Sched.fresh upto).depths2 j ≤
      (computeEarliest args 0 Sched.fresh upto).max_depth ∧
    (vget (compute_depths args 0 Sched.fresh upto).parents j = [] →
      vget (compute_depths args 0 Sched.fresh upto).depths2 j =
        (computeEarliest args 0 Sched.fresh upto).max_depth) ∧
    ((compute_depths args 0 Sched.fresh upto).by_depth.length : Int) =
      (computeEarliest args 0 Sched.fresh upto).max_depth + 2 ∧
    (vget (compute_depths args 0 Sched.fresh upto).depths2 j).toNat <
      (compute_depths args 0 Sched.fresh upto).by_depth.length ∧
    j ∈ vget (compute_depths args 0 Sched.fresh upto).by_depth
      (vget (compute_depths args 0 Sched.fresh upto).depths2 j).toNat ∧
    vget (compute_depths args 0 Sched.fresh upto).by_depth
      ((computeEarliest args 0 Sched.fresh upto).max_depth + 1).toNat = [] := by
  obtain ⟨hE, _, hpar, hL, hB⟩ := compute_depths_fresh args hdag upto
  obtain ⟨i1, i2, _⟩ := hL.2 j (Nat.zero_le _) (by omega)
  have h0 := (hE.2.2.2.2.1 j).1
  have hmax : 0 ≤ (computeEarliest args 0 Sched.fresh upto).max_depth :=
    le_trans (hE.2.2.2.2.1 0).1 (hE.2.2.2.2.1 0).2
  have hT := computeLatest_tight args hdag upto j (by omega)
  have hd2 : (compute_depths args 0 Sched.fresh upto).depths2 =
      computeLatest 0 Sched.fresh upto (computeEarliest args 0 Sched.fresh upto) := rfl
  rw [← hd2] at hT
  refine ⟨by omega, i2, fun hnil => ?_, ?_, ?_, ?_, ?_⟩
  · rcases hT with h | ⟨p, hp, _⟩
    · exact h
    · rw [hpar] at hnil
      rw [hnil] at hp
      cases hp
  · rw [hB.1]
    omega
  · rw [hB.1]
    omega
  · exact (hB.2 _ j).2 ⟨by omega, by omega⟩
  · apply List.eq_nil_iff_forall_not_mem.2
    intro x hx
    obtain ⟨hx1, hx2⟩ := (hB.2 _ x).1 hx
    have := (hL.2 x (Nat.zero_le _) hx1).2.1
    omega

theorem compute_depths_bucket_bounds_witness :
    IsDAG diamondArgs ∧ 1 ≤ 4 ∧
    (0 ≤ vget (compute_depths diamondArgs 0 Sched.fresh 4).depths2 1 ∧
    vget (compute_depths diamondArgs 0 Sched.fresh 4).depths2 1 ≤
      (computeEarliest diamondArgs 0 Sched.fresh 4).max_depth ∧
    (vget (compute_depths diamondArgs 0 Sched.fresh 4).parents 1 = [] →
      vget (compute_depths diamondArgs 0 Sched.fresh 4).depths2 1 =
        (computeEarliest diamondArgs 0 Sched.fresh 4).max_depth) ∧
    ((compute_depths diamondArgs 0 Sched.fresh 4).by_depth.length : Int) =
      (computeEarliest diamondArgs 0 Sched.fresh 4).max_depth + 2 ∧
    (vget (compute_depths diamondArgs 0 Sched.fresh 4).depths2 1).toNat <
      (compute_depths diamondArgs 0 Sched.fresh 4).by_depth.length ∧
    1 ∈ vget (compute_depths diamondArgs 0 Sched.fresh 4).by_depth
      (vget (compute_depths diamondArgs 0 Sched.fresh 4).depths2 1).toNat ∧
    vget (compute_depths diamondArgs 0 Sched.fresh 4).by_depth
      ((computeEarliest diamondArgs 0 Sched.fresh 4).max_depth + 1).toNat = []) :=
  ⟨isDAG_of_check _ (by decide), by decide,
    compute_depths_bucket_bounds diamondArgs (isDAG_of_check _ (by decide)) 4 1 (by decide)⟩

/-! ## Fusion temporaries when the pool is exhausted -/

/-- C32 (the code departs from the claim): in the example scenario of 12 inputs
and 12 `tanh` nodes on a value pool of 400 bytes the allocation of the
concatenated input in `combine_tensors` returns the null pointer; the pass throws
no exception and returns the tensor of the last node, the 12 inputs are copied to
the addresses from 0 on, and the fused kernel is invoked on the input tensor at
address 0.  In `eligibleGraph` on a value pool of 300 bytes the allocation of the
staged result in `eval_matrix_multiply` returns the null pointer; the pass throws
no exception, the fused kernel is invoked with the output tensor at address 0 and
writes the 12 floats of the result from address 0 on, from where the scatter loop
copies them. -/
theorem fusion_temporary_null_not_checked :
    (forwardPass tanhScenario (Machine.init Sym.zero 1024 400 32) 23).fault = none ∧
    tanhScenarioSmallPool.2.toOption = some ⟨Dim.ofList [4], 1392, 0⟩ ∧
    tanhScenarioSmallPool.1.w.allocs =
      [⟨0, 192, some 1024⟩, ⟨0, 192, some 1216⟩, ⟨0, 192, none⟩] ∧
    (tanhScenarioSmallPool.1.w.calls.drop 12).map
      (fun c => (c.node, c.xs.map (fun t => (t.d, t.v)), c.fx.v)) =
      [(12, [(Dim.ofList [48], 0)], 1216)] ∧
    loadFloats (Machine.init Sym.zero 1024 400 32).w.mem 0 6 =
      [Sym.zero, Sym.zero, Sym.zero, Sym.zero, Sym.zero, Sym.zero] ∧
    loadFloats tanhScenarioSmallPool.1.w.mem 0 6 =
      [Sym.inp 0 0, Sym.inp 0 1, Sym.inp 0 2, Sym.inp 0 3, Sym.inp 1 0, Sym.inp 1 1] ∧
    (forwardPass eligibleGraph (Machine.init 0 1024 300 32) 12).fault = none ∧
    eligibleSmallPool.2.toOption = some ⟨Dim.ofList [2], 1160, 0⟩ ∧
    eligibleSmallPool.1.w.allocs =
      [⟨0, 96, some 1024⟩, ⟨0, 48, some 1120⟩, ⟨0, 72, some 1184⟩, ⟨0, 48, none⟩] ∧
    (eligibleSmallPool.1.w.calls.drop 7).map
      (fun c => (c.node, c.xs.map (fun t => (t.d, t.v)), c.fx.d, c.fx.v)) =
      [(7, [(Dim.ofList [2, 3], 1024), (Dim.ofList [3, 6], 1184)], Dim.ofList [2, 6], 0)] ∧
    loadFloats (Machine.init (0 : Int) 1024 300 32).w.mem 0 12 =
      [0, 0, 0, 0, 0, 0, 0, 0, 0, 0, 0, 0] ∧
    loadFloats eligibleSmallPool.1.w.mem 0 12 = [1, 2, 3, 4, 5, 6, 9, 12, 7, 10, 31, 38] := by
  decide

/-! ## Incremental evaluation after a partial pass -/

/-- C33 (the code departs from the claim): over `staleBucketGraph`, after
`incremental_forward(4)` on a fresh engine `num_nodes_evaluated` is 4 and bucket 2
holds the nodes 2 and 4.  The call `incremental_forward(14)` that follows starts
from node 4 again, puts node 4 into bucket 1 and its ten consumers 5 to 14 into
bucket 2, and keeps the old entry of node 4 in bucket 2.  In bucket 2 the nodes 4
to 14 are one type-group of 11 members: the memory planner gives node 4 a new
buffer (address 1184) and the fused path copies the arguments of the members,
ten of them that buffer, before any kernel writes it.  The cached values of the
nodes 5 to 14 are `(10, 10)`, computed from the unwritten buffer; after a single
`incremental_forward(14)` on a fresh engine they are `(27, 28)`. -/
theorem incremental_forward_stale_bucket_reads_unwritten :
    staleBucketFirst.1.eng.by_depth = [[0], [1, 3], [2, 4], []] ∧
    staleBucketFirst.1.eng.num_nodes_evaluated = 4 ∧
    staleBucketIncremental.1.eng.by_depth =
      [[0], [1, 3, 4], [2, 4, 5, 6, 7, 8, 9, 10, 11, 12, 13, 14], []] ∧
    groupByType staleBucketGraph 4 [2, 4, 5, 6, 7, 8, 9, 10, 11, 12, 13, 14] =
      [(NodeType.Tanh, [4, 5, 6, 7, 8, 9, 10, 11, 12, 13, 14])] ∧
    (staleBucketIncremental.1.w.calls.drop 4).map
      (fun c => (c.node, c.xs.map (fun t => (t.d, t.v)), c.fx.d, c.fx.v)) =
      [(4, [(Dim.ofList [2], 1088)], Dim.ofList [2], 1128),
        (4, [(Dim.ofList [2], 1088)], Dim.ofList [2], 1152),
        (4, [(Dim.ofList [22], 1280)], Dim.ofList [22], 1184)] ∧
    (List.range 15).map (fun n => (vget staleBucketIncremental.1.eng.nfxs n).v) =
      [1024, 1056, 1120, 1088, 1184, 1192, 1200, 1208, 1216, 1224, 1232, 1240, 1248, 1256,
        1264] ∧
    loadFloats staleBucketFirst.1.w.mem 1184 2 = [0, 0] ∧
    staleBucketIncremental.2.toOption = some ⟨Dim.ofList [2], 1264, 0⟩ ∧
    (List.range 15).map (fun n => loadFloats staleBucketIncremental.1.w.mem
      (vget staleBucketIncremental.1.eng.nfxs n).v 2) =
      [[5, 6], [15, 16], [25, 26], [7, 8], [17, 18], [10, 10], [10, 10], [10, 10], [10, 10],
        [10, 10], [10, 10], [10, 10], [10, 10], [10, 10], [10, 10]] ∧
    staleBucketScratch.2.toOption = some ⟨Dim.ofList [2], 1168, 0⟩ ∧
    (List.range 15).map (fun n => loadFloats staleBucketScratch.1.w.mem
      (vget staleBucketScratch.1.eng.nfxs n).v 2) =
      [[5, 6], [15, 16], [25, 26], [7, 8], [17, 18], [27, 28], [27, 28], [27, 28], [27, 28],
        [27, 28], [27, 28], [27, 28], [27, 28], [27, 28], [27, 28]] := by
  decide

/-! ## The scheduler after a shorter second pass -/

/-- C34 (the code departs from the claim): over `chainGraph3`, after `forward(2)`
on a fresh engine `parents[0]` holds node 1.  In the call `forward(0)` that
follows, `compute_depths(0)` resizes `parents` and `depths2` to one element, keeps
node 1 in `parents[0]`, and the second loop reads `depths2[1]`, an index above
`upto = 0` and outside `depths2`.  In the model the read gives 0, `depths2[0]`
becomes `-1` and node 0 is put into no bucket by this call; the old buckets, with
node 1 among them, are kept and the pass runs the kernel of node 1. -/
theorem compute_depths_reads_parent_above_upto :
    (forward chainGraph3 (Machine.init 0 1024 4096 32) 2).1.eng.parents = [[1], [2], []] ∧
    (computeEarliest chainGraph3.argTable 0
      (forward chainGraph3 (Machine.init 0 1024 4096 32) 2).1.eng.toSched 0).parents = [[1]] ∧
    (1 ∈ vget (computeEarliest chainGraph3.argTable 0
      (forward chainGraph3 (Machine.init 0 1024 4096 32) 2).1.eng.toSched 0).parents 0 ∧
      ¬ 1 ≤ 0) ∧
    (compute_depths chainGraph3.argTable 0
      (forward chainGraph3 (Machine.init 0 1024 4096 32) 2).1.eng.toSched 0).depths2 = [-1] ∧
    (compute_depths chainGraph3.argTable 0
      (forward chainGraph3 (Machine.init 0 1024 4096 32) 2).1.eng.toSched 0).by_depth =
      [[0], [1]] ∧
    (forward chainGraph3 (forward chainGraph3 (Machine.init 0 1024 4096 32) 2).1 0).1.eng.by_depth =
      [[0], [1]] ∧
    ((forward chainGraph3 (forward chainGraph3 (Machine.init 0 1024 4096 32) 2).1
      0).1.w.calls.map (fun c => c.node)) = [0, 1, 2, 0, 1] := by
  decide

/-! ## Shape rules of the fusion-eligible node types -/

theorem total_dsize_mod (ts : List Tensor) : total_dsize ts = sizesTotal ts % 2 ^ 32 := by
  have key : ∀ (l : List Tensor) (s : Nat),
      l.foldl (fun s t => (s + t.d.size) % 2 ^ 32) (s % 2 ^ 32) = (s + sizesTotal l) % 2 ^ 32 := by
    intro l
    induction l with
    | nil => intro s; simp [sizesTotal]
    | cons t l ih =>
      intro s
      rw [List.foldl_cons, Nat.mod_add_mod, ih, sizesTotal_cons, Nat.add_assoc]
  have := key ts 0
  unfold total_dsize
  rw [Nat.zero_mod, Nat.zero_add] at this
  exact this

theorem ewiseShapeRule_identity (t : NodeType) (f : List Dim → Except DimError Dim)
    (h : ewiseShapeRule t = some f) (x : Dim) : f [x] = Except.ok x := by
  cases t <;> first
    | (cases h; rfl)
    | (exact absurd h (by simp [ewiseShapeRule]))

/-- C36: each of the nine shape rules `Tanh`, `Rectify`, `LogisticSigmoid`, `Erf`,
`Sqrt`, `Exp`, `LogGamma`, `Log` and `Negate::dim_forward` returns a single input
shape unchanged, and these are the rules of the nine tags of `ewise_unary_nodes`.
Hence, for a group whose members have the shape that the rule of their tag gives
for the shape of their argument tensor, every member has as many elements as its
argument, the `total_dsize` that `combine_tensors` computes for the arguments is
the total size of the members (as `unsigned`), and it is the `total_dsize` for
which the memory planner allocates the block of the group. -/
theorem ewise_dim_forward_identity {α : Type} (cg : ComputationGraph α) (nfxs : List Tensor)
    (nids : List Nat) (p : Pass α) (x : Dim) :
    (∀ f ∈ [Tanh.dim_forward, Rectify.dim_forward, LogisticSigmoid.dim_forward,
        Erf.dim_forward, Sqrt.dim_forward, Exp.dim_forward, LogGamma.dim_forward,
        Log.dim_forward, Negate.dim_forward], f [x] = Except.ok x) ∧
    (∀ t, t ∈ ewise_unary_nodes ↔ ∃ f, ewiseShapeRule t = some f) ∧
    (∀ t f, ewiseShapeRule t = some f → f [x] = Except.ok x ∧
      ∀ y, f [x] = Except.ok y → y.size = x.size) ∧
    ((∀ nid ∈ nids, ∃ f, ewiseShapeRule (vget cg.nodes nid).type_id = some f ∧
        f [(argTensor cg nfxs nid).d] = Except.ok (vget cg.nodes nid).dim) →
      (∀ nid ∈ nids, (vget cg.nodes nid).dim.size = (argTensor cg nfxs nid).d.size) ∧
      total_dsize (nids.map (fun nid => vget nfxs (vget (vget cg.nodes nid).args 0))) =
        groupSize cg nids % 2 ^ 32 ∧
      ((nids.foldl (planNode cg) (p, 0)).1.fault = none →
        total_dsize (nids.map (fun nid => vget nfxs (vget (vget cg.nodes nid).args 0))) =
          (nids.foldl (planNode cg) (p, 0)).2)) := by
  refine ⟨fun f hf => ?_, fun t => ?_, fun t f h => ?_, fun h => ?_⟩
  · simp only [List.mem_cons, List.mem_singleton, List.not_mem_nil, or_false] at hf
    rcases hf with h | h | h | h | h | h | h | h | h <;> (rw [h]; rfl)
  · cases t <;> simp [ewise_unary_nodes, ewiseShapeRule]
  · have e := ewiseShapeRule_identity t f h x
    refine ⟨e, fun y hy => ?_⟩
    rw [e] at hy
    rw [← Except.ok.inj hy]
  · have hdim : ∀ nid ∈ nids, (vget cg.nodes nid).dim = (argTensor cg nfxs nid).d := by
      intro nid hn
      obtain ⟨f, h1, h2⟩ := h nid hn
      rw [ewiseShapeRule_identity _ f h1] at h2
      exact (Except.ok.inj h2).symm
    have htot : total_dsize (nids.map (fun nid => vget nfxs (vget (vget cg.nodes nid).args 0))) =
        groupSize cg nids % 2 ^ 32 := by
      rw [total_dsize_mod]
      congr 1
      unfold sizesTotal groupSize
      rw [List.map_map]
      congr 1
      apply List.map_congr_left
      intro nid hn
      show (argTensor cg nfxs nid).d.size = nodeSize cg nid
      unfold nodeSize
      rw [hdim nid hn]
    refine ⟨fun nid hn => by rw [hdim nid hn], htot, fun hok => ?_⟩
    rw [htot, (planFold_ok cg nids (p, 0) (Nat.two_pow_pos 32) hok).2.1, Nat.zero_add]

/-! ## Shape rules of `Reshape`, `KMHNGram`, `StdDimension` and `MomentDimension` -/

/-- C37: if `Reshape::dim_forward` with target shape `to` returns a shape for the
single input shape `x`, the returned shape has the same `size()` (per-batch size
times batch count, as `unsigned`) as `x`; it is `to` itself when
`to.size() = x.size()`, and otherwise it is `to` with the batch count of `x`, in
which case `to` has batch count 1 and the per-batch size of `x`.  The rule returns
a shape exactly when one of the two cases applies. -/
theorem reshape_dim_forward_size (to_dim x r : Dim)
    (h : Reshape.dim_forward to_dim [x] = Except.ok r) :
    r.size = x.size ∧
    (to_dim.size = x.size → r = to_dim) ∧
    (to_dim.size ≠ x.size →
      r = { to_dim with bd := x.bd } ∧ to_dim.bd = 1 ∧ to_dim.batch_size = x.batch_size) ∧
    (∀ y : Dim, (∃ r2, Reshape.dim_forward to_dim [y] = Except.ok r2) ↔
      (to_dim.size = y.size ∨ (to_dim.bd = 1 ∧ to_dim.batch_size = y.batch_size))) := by
  have hall : ∀ y : Dim, (∃ r2, Reshape.dim_forward to_dim [y] = Except.ok r2) ↔
      (to_dim.size = y.size ∨ (to_dim.bd = 1 ∧ to_dim.batch_size = y.batch_size)) := by
    intro y
    unfold Reshape.dim_forward
    rw [if_neg (by simp)]
    have e : vget [y] 0 = y := rfl
    rw [e]
    by_cases h1 : to_dim.size = y.size
    · rw [if_pos h1]
      exact ⟨fun _ => Or.inl h1, fun _ => ⟨_, rfl⟩⟩
    · rw [if_neg h1]
      by_cases h2 : to_dim.bd = 1 ∧ to_dim.batch_size = y.batch_size
      · rw [if_neg (not_not.2 h2)]
        exact ⟨fun _ => Or.inr h2, fun _ => ⟨_, rfl⟩⟩
      · rw [if_pos h2]
        constructor
        · rintro ⟨r2, hr⟩; cases hr
        · rintro (h3 | h3)
          · exact absurd h3 h1
          · exact absurd h3 h2
  unfold Reshape.dim_forward at h
  rw [if_neg (by simp)] at h
  have e : vget [x] 0 = x := rfl
  rw [e] at h
  by_cases h1 : to_dim.size = x.size
  · rw [if_pos h1] at h
    have hr : to_dim = r := Except.ok.inj h
    refine ⟨by rw [← hr]; exact h1, fun _ => hr.symm, fun h2 => absurd h1 h2, hall⟩
  · rw [if_neg h1] at h
    by_cases h2 : to_dim.bd = 1 ∧ to_dim.batch_size = x.batch_size
    · rw [if_neg (not_not.2 h2)] at h
      have hr : { to_dim with bd := x.bd } = r := Except.ok.inj h
      refine ⟨?_, fun h3 => absurd h3 h1, fun _ => ⟨hr.symm, h2.1, h2.2⟩, hall⟩
      rw [← hr]
      unfold Dim.size
      have hb : ({ to_dim with bd := x.bd } : Dim).batch_size = to_dim.batch_size := rfl
      rw [hb, h2.2]
    · rw [if_pos h2] at h
      cases h

theorem reshape_dim_forward_size_witness :
    Reshape.dim_forward (Dim.ofList [6]) [⟨[2, 3], 4⟩] = Except.ok ⟨[6], 4⟩ ∧
    ((⟨[6], 4⟩ : Dim).size = (⟨[2, 3], 4⟩ : Dim).size ∧
    ((Dim.ofList [6]).size = (⟨[2, 3], 4⟩ : Dim).size → (⟨[6], 4⟩ : Dim) = Dim.ofList [6]) ∧
    ((Dim.ofList [6]).size ≠ (⟨[2, 3], 4⟩ : Dim).size →
      (⟨[6], 4⟩ : Dim) = { Dim.ofList [6] with bd := (⟨[2, 3], 4⟩ : Dim).bd } ∧
      (Dim.ofList [6]).bd = 1 ∧ (Dim.ofList [6]).batch_size = (⟨[2, 3], 4⟩ : Dim).batch_size) ∧
    (∀ y : Dim, (∃ r2, Reshape.dim_forward (Dim.ofList [6]) [y] = Except.ok r2) ↔
      ((Dim.ofList [6]).size = y.size ∨
        ((Dim.ofList [6]).bd = 1 ∧ (Dim.ofList [6]).batch_size = y.batch_size)))) :=
  ⟨rfl, reshape_dim_forward_size (Dim.ofList [6]) ⟨[2, 3], 4⟩ ⟨[6], 4⟩ rfl⟩

/-- C38 (the code departs from the claim): for the rank-2 input shape `(2, 3)` and
the n-gram width 5, `KMHNGram::dim_forward` returns the shape `(2, 4294967295)`:
the `unsigned` value of `3 - 5 + 1` is `2^32 - 1`, which passes the check
`new_cols >= 1`.  In general, for `c < 2^32 - 1` columns, every width `n <= c`
gives the shape `(rows, c - n + 1)`, the width `n = c + 1` is rejected, and every
width `n > c + 1` is accepted with `2^32 + c + 1 - n` columns. -/
theorem kmhngram_dim_forward_accepts_wide_ngram :
    KMHNGram.dim_forward 5 [Dim.ofList [2, 3]] = Except.ok (Dim.ofList [2, 4294967295]) ∧
    KMHNGram.dim_forward 4 [Dim.ofList [2, 3]] = Except.error DimError.invalid_argument ∧
    KMHNGram.dim_forward 3 [Dim.ofList [2, 3]] = Except.ok (Dim.ofList [2, 1]) ∧
    (∀ rows c n, c + 1 < 2 ^ 32 → n ≤ c →
      KMHNGram.dim_forward n [Dim.ofList [rows, c]] = Except.ok (Dim.ofList [rows, c - n + 1])) ∧
    (∀ rows c, c + 1 < 2 ^ 32 →
      KMHNGram.dim_forward (c + 1) [Dim.ofList [rows, c]] =
        Except.error DimError.invalid_argument) ∧
    (∀ rows c n, n < 2 ^ 32 → c + 1 < n →
      KMHNGram.dim_forward n [Dim.ofList [rows, c]] =
        Except.ok (Dim.ofList [rows, 2 ^ 32 + c + 1 - n])) := by
  refine ⟨rfl, rfl, rfl, fun rows c n hc hn => ?_, fun rows c hc => ?_,
    fun rows c n hn hc => ?_⟩
  · have e : kmhNewCols c n = c - n + 1 := by
      unfold kmhNewCols
      have h : ((c : Int) - (n : Int) + 1) % 2 ^ 32 = (c : Int) - n + 1 := by omega
      rw [h]
      omega
    show (if ¬ (kmhNewCols c n ≥ 1) then Except.error DimError.invalid_argument
      else Except.ok (Dim.ofList [rows, kmhNewCols c n])) = _
    rw [e, if_neg (by omega)]
  · have e : kmhNewCols c (c + 1) = 0 := by
      unfold kmhNewCols
      have h : ((c : Int) - ((c + 1 : Nat) : Int) + 1) % 2 ^ 32 = 0 := by omega
      rw [h]
      rfl
    show (if ¬ (kmhNewCols c (c + 1) ≥ 1) then Except.error DimError.invalid_argument
      else Except.ok (Dim.ofList [rows, kmhNewCols c (c + 1)])) = _
    rw [e, if_pos (by omega)]
  · have e : kmhNewCols c n = 2 ^ 32 + c + 1 - n := by
      unfold kmhNewCols
      have h : ((c : Int) - (n : Int) + 1) % 2 ^ 32 = 2 ^ 32 + (c : Int) + 1 - n := by omega
      rw [h]
      omega
    show (if ¬ (kmhNewCols c n ≥ 1) then Except.error DimError.invalid_argument
      else Except.ok (Dim.ofList [rows, kmhNewCols c n])) = _
    rw [e, if_neg (by omega)]

/-- C39 (the code departs from the claim): for the input shape `(2, 3)`, of order
2, and `dims = {2}`, every check of `StdDimension::dim_forward` and of
`MomentDimension::dim_forward` passes and `delete_dims` is applied to the axis 2,
which is not an axis of the input: the check is `dims[i] <= nd`.  In general an
entry equal to the order of the input passes the checks of both rules; an entry
above the order is rejected. -/
theorem reduction_axis_equal_to_order_accepted :
    (∀ dd, StdDimension.dim_forward dd [2] false [Dim.ofList [2, 3]] =
      dd (Dim.ofList [2, 3]) [2] false) ∧
    (∀ dd, MomentDimension.dim_forward dd [2] 1 false [Dim.ofList [2, 3]] =
      dd (Dim.ofList [2, 3]) [2] false) ∧
    (∀ dd, StdDimension.dim_forward dd [3] false [Dim.ofList [2, 3]] =
      Except.error DimError.invalid_argument) ∧
    (∀ dd, MomentDimension.dim_forward dd [3] 1 false [Dim.ofList [2, 3]] =
      Except.error DimError.invalid_argument) ∧
    (∀ dd (x : Dim) (b : Bool), x.nd ≤ 3 →
      StdDimension.dim_forward dd [x.nd] b [x] = dd x [x.nd] b ∧
      MomentDimension.dim_forward dd [x.nd] 1 b [x] = dd x [x.nd] b) := by
  refine ⟨fun dd => rfl, fun dd => rfl, fun dd => rfl, fun dd => rfl, fun dd x b hx => ?_⟩
  have e : vget [x] 0 = x := rfl
  constructor
  · unfold StdDimension.dim_forward
    rw [e, if_neg (by simp), if_neg (not_not.2 hx), if_neg (by simp), if_neg (by simp),
      if_neg (by simp)]
  · unfold MomentDimension.dim_forward
    rw [e, if_neg (by simp), if_neg (not_not.2 hx), if_neg (by simp), if_neg (by simp),
      if_neg (by simp), if_neg (by simp)]

/-! ## The planner and the fused elementwise path on a group of `2 ^ 32` floats or more -/

theorem memcpy_const {α : Type} [Inhabited α] (mem : Nat → α) (z : α) (dest src n : Nat)
    (h : ∀ a, mem a = z) (a : Nat) : memcpy mem dest src n a = z := by
  unfold memcpy storeFloats
  split
  · rename_i hc
    rw [length_loadFloats] at hc
    rw [vget_loadFloats _ _ _ _ hc.2.2]
    exact h _
  · exact h a

theorem combineFold_const {α : Type} [Inhabited α] (z : α) :
    ∀ (ts : List Tensor) (mem : Nat → α) (dest : Nat), (∀ a, mem a = z) →
      ∀ a, (ts.foldl combineStep (mem, dest)).1 a = z := by
  intro ts
  induction ts with
  | nil => intro mem dest h a; exact h a
  | cons t rest ih =>
    intro mem dest h a
    rw [List.foldl_cons]
    exact ih _ _ (fun b => memcpy_const mem z dest t.v t.d.size h b) a

/-- The fused elementwise path on a group laid out without wrap: the 12 `Exp`
nodes of `wrapGroupGraph`, with the value cache `wrapGroupNfxs` and the world
`wrapGroupWorld`, form a group of more than 10 nodes with one argument each,
whose kernel applies `v + 1` to each element, whose outputs have as many
elements as their arguments and lie one after the other; the temporary block
for the `12 * 2 ^ 31` floats of the arguments fits into the pool, and the
argument buffers overlap neither that block nor the outputs.  In
`eval_ewise_unaries_in_bulk` the `unsigned` sum `total_dsize` of `combine_tensors`
wraps to `0`: the block requested has 0 bytes and the one kernel call is made on
tensors of 0 elements, so it writes nothing.  Every element of every output
buffer holds `0` afterwards, where `do_node` on that member writes `1`, which is
the kernel's function of the element `0` of the member's argument. -/
theorem eval_ewise_unaries_total_wraps_on_separate_buffers :
    wrapGroup.length > 10 ∧
    (∀ n ∈ wrapGroup, (vget wrapGroupGraph.nodes n).args.length = 1) ∧
    (∀ n ∈ wrapGroup, ∀ xs d, (vget wrapGroupGraph.nodes n).forward xs d =
      (vget xs 0).2.map (fun v => v + 1)) ∧
    (∀ n ∈ wrapGroup, (vget wrapGroupNfxs n).d.size =
      (argTensor wrapGroupGraph wrapGroupNfxs n).d.size) ∧
    (∀ i, i < wrapGroup.length → (vget wrapGroupNfxs (vget wrapGroup i)).v =
      (vget wrapGroupNfxs (vget wrapGroup 0)).v +
        sizeof_float * sizesPrefix (wrapGroup.map (vget wrapGroupNfxs)) i) ∧
    (wrapGroupWorld.allocate (argTensor wrapGroupGraph wrapGroupNfxs (vget wrapGroup 0)).device
      (sizesTotal (wrapGroup.map (argTensor wrapGroupGraph wrapGroupNfxs)) * sizeof_float)).1 =
      some 206158431232 ∧
    (∀ n ∈ wrapGroup, ∀ k, k < (argTensor wrapGroupGraph wrapGroupNfxs n).d.size →
      ∀ m, m < sizesTotal (wrapGroup.map (argTensor wrapGroupGraph wrapGroupNfxs)) →
      (argTensor wrapGroupGraph wrapGroupNfxs n).v + sizeof_float * k ≠
        206158431232 + sizeof_float * m) ∧
    (∀ n ∈ wrapGroup, ∀ m ∈ wrapGroup,
      ∀ k, k < (argTensor wrapGroupGraph wrapGroupNfxs m).d.size →
      ∀ j, j < (vget wrapGroupNfxs n).d.size →
      (argTensor wrapGroupGraph wrapGroupNfxs m).v + sizeof_float * k ≠
        (vget wrapGroupNfxs n).v + sizeof_float * j) ∧
    sizesTotal (wrapGroup.map (argTensor wrapGroupGraph wrapGroupNfxs)) = 12 * 2 ^ 31 ∧
    total_dsize (wrapGroup.map (argTensor wrapGroupGraph wrapGroupNfxs)) = 0 ∧
    (eval_ewise_unaries_in_bulk wrapGroup wrapGroupGraph wrapGroupNfxs wrapGroupWorld).2.allocs =
      [⟨0, 0, some 206158431232⟩] ∧
    (eval_ewise_unaries_in_bulk wrapGroup wrapGroupGraph wrapGroupNfxs wrapGroupWorld).2.calls =
      [⟨12, [⟨Dim.ofList [0], 206158431232, 0⟩], ⟨Dim.ofList [0], 103079216128, 0⟩⟩] ∧
    ∀ n ∈ wrapGroup, ∀ k, k < (vget wrapGroupNfxs n).d.size →
      (eval_ewise_unaries_in_bulk wrapGroup wrapGroupGraph wrapGroupNfxs wrapGroupWorld).2.mem
        ((vget wrapGroupNfxs n).v + sizeof_float * k) = 0 ∧
      (do_node wrapGroupGraph n wrapGroupNfxs wrapGroupWorld).mem
        ((vget wrapGroupNfxs n).v + sizeof_float * k) = 1 ∧
      wrapGroupWorld.mem
        ((argTensor wrapGroupGraph wrapGroupNfxs n).v + sizeof_float * k) + 1 = 1 := by
  have hker : ∀ n ∈ wrapGroup, ∀ xs d, (vget wrapGroupGraph.nodes n).forward xs d =
      (vget xs 0).2.map (fun v => v + 1) := by
    intro n hn
    simp only [wrapGroup, List.mem_cons, List.mem_singleton, List.not_mem_nil,
      or_false] at hn
    rcases hn with rfl | rfl | rfl | rfl | rfl | rfl | rfl | rfl | rfl | rfl | rfl | rfl <;>
      intro xs d <;> rfl
  have hsz : ∀ n ∈ wrapGroup, (vget wrapGroupNfxs n).d.size =
      (argTensor wrapGroupGraph wrapGroupNfxs n).d.size := by decide
  have hargs : ∀ n ∈ wrapGroup, (vget wrapGroupGraph.nodes n).args.length = 1 := by decide
  have hA : ∀ n ∈ wrapGroup, (argTensor wrapGroupGraph wrapGroupNfxs n).v +
      sizeof_float * (argTensor wrapGroupGraph wrapGroupNfxs n).d.size ≤ 103079216128 := by
    decide
  have hO : ∀ n ∈ wrapGroup, 103079216128 ≤ (vget wrapGroupNfxs n).v := by decide
  refine ⟨by decide, hargs, hker, hsz, by decide, by decide, ?_, ?_, by decide, by decide,
    by decide, by decide, ?_⟩
  · intro n hn k hk m _
    have h1 := hA n hn
    unfold sizeof_float at h1 ⊢
    omega
  · intro n hn m hm k hk j _
    have h1 := hA m hm
    have h2 := hO n hn
    unfold sizeof_float at h1 ⊢
    omega
  · intro n hn k hk
    refine ⟨?_, ?_, rfl⟩
    · rw [eval_ewise_fused_mem wrapGroupGraph wrapGroupNfxs wrapGroupWorld wrapGroup
        206158431232 (by decide) (by decide)]
      have h0 : total_dsize (wrapGroup.map (argTensor wrapGroupGraph wrapGroupNfxs)) = 0 := by
        decide
      rw [h0, show (Dim.ofList [0]).size = 0 from by decide, List.take_zero]
      rw [storeFloats_miss _ _ _ _ (fun j hj => absurd hj (Nat.not_lt_zero _))]
      exact combineFold_const 0 _ _ _ (fun _ => rfl) _
    · rw [do_node_ewise wrapGroupGraph n wrapGroupNfxs wrapGroupWorld (fun v => v + 1)
        (hargs n hn) (hker n hn) (hsz n hn) k hk]
      rfl

end dynet
